import Mathlib

/-!
# asm6f: expression evaluator and symbol table

A shallow embedding of parts of `asm6f.c`.

Conventions of the embedding.

* A C string is the list of its characters before the terminating NUL, so the
  lists handed to the functions below contain no NUL character.  The word
  buffer `gvline` filled by `getword` is a list that may hold NUL characters
  (the cuts made by `strtok`); positions past the end of the list read as NUL,
  which is what `strncpy` pads the buffer with.
* `int` is a 32-bit two's-complement integer: values are `Int`s and every
  arithmetic result is reduced by `wrap32`.  `char` is signed.
* A `label*` chain (`link`) is the list of its entries, head first; a slot of
  `labellist` is such a chain.
-/

namespace Asm6f

/-! ## Machine integers -/

/-- Reduce an integer to the 32-bit two's-complement range. -/
def wrap32 (x : Int) : Int := (x + 2147483648) % 4294967296 - 2147483648

/-- The unsigned 32-bit pattern of an `int`. -/
def toU32 (x : Int) : Nat := (x % 4294967296).toNat

/-- C `a & b` on `int`. -/
def and32 (a b : Int) : Int := wrap32 (Int.ofNat (Nat.land (toU32 a) (toU32 b)))

/-- C `a | b` on `int`. -/
def or32 (a b : Int) : Int := wrap32 (Int.ofNat (Nat.lor (toU32 a) (toU32 b)))

/-- C `a ^ b` on `int`. -/
def xor32 (a b : Int) : Int := wrap32 (Int.ofNat (Nat.xor (toU32 a) (toU32 b)))

/-- C `~a` on `int`. -/
def not32 (a : Int) : Int := wrap32 (Int.ofNat (Nat.xor (toU32 a) 4294967295))

/-- C `a << n` on `int`; the count is taken modulo 32 as the x86 shifter does. -/
def shl32 (a n : Int) : Int := wrap32 (a * 2 ^ (toU32 n % 32))

/-- C `a >> n` on `int` (arithmetic shift); the count is taken modulo 32. -/
def shr32 (a n : Int) : Int := wrap32 (a >>> (toU32 n % 32))

/-- C truth value of a condition. -/
def b2i (b : Bool) : Int := if b then 1 else 0

/-! ## Characters and C string helpers -/

/-- The string terminator. -/
def NUL : Char := Char.ofNat 0

/-- Value of a (signed) `char` converted to `int`. -/
def charInt (c : Char) : Int := if c.toNat < 128 then (c.toNat : Int) else (c.toNat : Int) - 256

/-- The character under the pointer: `*s`. -/
def cur (s : List Char) : Char := s.headD NUL

/-- The characters of a buffer up to the first NUL. -/
def cstr (s : List Char) : List Char := s.takeWhile (fun c => c != NUL)

/-- C `strlen` on a buffer. -/
def strlen (s : List Char) : Nat := (cstr s).length

/-- C `strspn`. -/
def strspn (s accept : List Char) : Nat := (s.takeWhile (fun c => accept.elem c)).length

/-- C `strcmp` (only the sign of the result is used); bytes compare unsigned. -/
def strcmp : List Char → List Char → Int
  | [], [] => 0
  | [], _ :: _ => -1
  | _ :: _, [] => 1
  | a :: as, b :: bs =>
    if a.toNat < b.toNat then -1 else if b.toNat < a.toNat then 1 else strcmp as bs

def WORDMAX : Nat := 128
def LOCALCHAR : Char := '@'

/-- `whitesp[]`: ":" is treated like white space. -/
def whitesp : List Char := [' ', '\t', '\r', '\n', ':']

/-- `mathy[]`. -/
def mathy : List Char :=
  ['!', '^', '&', '|', '+', '-', '*', '/', '%', '(', ')', '<', '>', '=', ',']

/-- Cut a buffer at the first delimiter of a token (the part of `strtok` after
the leading delimiters have been skipped). -/
def cutAtDelim (delim : List Char) : List Char → List Char
  | [] => []
  | c :: cs =>
    if c = NUL then c :: cs
    else if delim.elem c then NUL :: cs
    else c :: cutAtDelim delim cs

/-- Effect of the first call `strtok(dst, delim)` on the buffer `dst`: leading
delimiters are skipped and the delimiter that ends the token becomes NUL. -/
def strtok (dst delim : List Char) : List Char :=
  dst.takeWhile (fun c => delim.elem c) ++ cutAtDelim delim (dst.dropWhile (fun c => delim.elem c))

/-- `getword`: the word buffer and the advanced source pointer. -/
def getword (src : List Char) (mcheck : Bool) : List Char × List Char :=
  let src1 := src.drop (strspn src whitesp)
  let dst0 := src1.take (WORDMAX - 1)
  let dst1 := strtok dst0 whitesp
  let dst2 := if mcheck then strtok dst1 mathy else dst1
  let src2 := src1.drop (strlen dst2)
  (dst2, if cur src2 = ':' then src2.tail else src2)

/-! ## Error messages -/

inductive ErrMsg
  | OutOfRange
  | NotANumber
  | UnknownLabel
  | IncompleteExp
  | MissingOperand
  | DivZero
  | MacroInExp
  | Illegal
  | LabelDefined
  | BadAddr
  | IfNestLimit
  | ElseifWithoutIf
  | ElseWithoutIf
  | EndifWithoutIf
  | BranchOutOfRange
  | PCOutOfRange
  | CantCreateFile
  | CantWrite
  | CompFailed (loc b : Int)
  | CantSeek
  | CantSeekEnum
  | ExtraENDM
  | ExtraENDR
  | RecurseMACRO
  | RecurseEQU
  | NoENDM
  | NoENDR
  | undefinedPC
  deriving DecidableEq, Repr

/-- `%x` of `sprintf`, padded with zeros to `width` digits. -/
def hexstr (width : Nat) (x : Int) : String :=
  let d := Nat.toDigits 16 (toU32 x)
  String.mk (List.replicate (width - d.length) '0' ++ d)

/-- Text of each message. -/
def ErrMsg.text : ErrMsg → String
  | .OutOfRange => "Value out of range."
  | .NotANumber => "Not a number."
  | .UnknownLabel => "Unknown label."
  | .IncompleteExp => "Incomplete expression."
  | .MissingOperand => "Missing operand."
  | .DivZero => "Divide by zero."
  | .MacroInExp => "Can't use macro in expression."
  | .Illegal => "Illegal instruction."
  | .LabelDefined => "Label already defined."
  | .BadAddr => "Can't determine address."
  | .IfNestLimit => "Too many nested IFs."
  | .ElseifWithoutIf => "ELSEIF without IF."
  | .ElseWithoutIf => "ELSE without IF."
  | .EndifWithoutIf => "ENDIF without IF."
  | .BranchOutOfRange => "Branch out of range."
  | .PCOutOfRange => "PC out of range."
  | .CantCreateFile => "Can't create output file."
  | .CantWrite => "Write error."
  | .CompFailed loc b =>
    "Compare failed. Byte at 0x" ++ hexstr 6 loc ++ " was 0x" ++ hexstr 0 b ++ "."
  | .CantSeek => "Can't seek in file."
  | .CantSeekEnum => "Can't seek in enum mode."
  | .ExtraENDM => "ENDM without MACRO."
  | .ExtraENDR => "ENDR without REPT."
  | .RecurseMACRO => "Recursive MACRO not allowed."
  | .RecurseEQU => "Recursive EQU not allowed."
  | .NoENDM => "Missing ENDM."
  | .NoENDR => "Missing ENDR."
  | .undefinedPC => "PC is undefined (use ORG first)"

/-! ## Symbol table -/

inductive labeltypes
  | LABEL
  | VALUE
  | EQUATE
  | MACRO
  | RESERVED
  deriving DecidableEq, Repr

/-- A `label` without its `link` field (the chain is the enclosing list).
`line` records whether the `line` pointer is non-null. -/
structure label where
  name : List Char
  value : Int
  pos : Int
  line : Bool
  type : labeltypes
  used : Int
  pass : Int
  scope : Int
  ignorenl : Int
  deriving DecidableEq, Repr

/-- The label list: `labellist` is the backing array of `maxlabels` slots, each
slot the chain of same-name labels hanging off it (`[]` for a slot not in use). -/
structure Table where
  labellist : List (List label)
  labels : Int
  maxlabels : Int
  labelstart : Int
  labelend : Int
  findcmp : Int
  findindex : Int
  deriving DecidableEq, Repr

/-- The chain stored at `labellist[i]`. -/
def slotAt (ll : List (List label)) (i : Int) : List label := ll.getD i.toNat []

/-- The name read by `(*(labellist[i])).name`. -/
def nameAt (ll : List (List label)) (i : Int) : List Char :=
  match slotAt ll i with
  | [] => []
  | p :: _ => p.name

/-- The binary search loop of `findlabel`; the result is `(findcmp, findindex)`
when the loop is left. -/
def findloop (name : List Char) (ll : List (List label)) :
    Nat → Int → Int → Int → Option (Int × Int)
  | 0, _, _, _ => none
  | fuel + 1, head, tail, findindex =>
    let findcmp := strcmp name (nameAt ll findindex)
    if findcmp < 0 then
      let tail1 := findindex - 1
      let findindex1 := findindex - (Int.tdiv (tail1 - head) 2 + 1)
      if tail1 - head ≥ 0 then findloop name ll fuel head tail1 findindex1
      else some (findcmp, findindex1)
    else if findcmp > 0 then
      let head1 := findindex + 1
      let findindex1 := findindex + (Int.tdiv (tail - head1) 2 + 1)
      if tail - head1 ≥ 0 then findloop name ll fuel head1 tail findindex1
      else some (findcmp, findindex1)
    else some (findcmp, findindex)

/-- The scope walk of `findlabel` for an ordinary name. -/
def scopewalk (scope : Int) : List label → Option label → Option label
  | [], global => global
  | p :: rest, global =>
    let global1 := if p.scope = 0 then some p else global
    if p.scope = scope then some p else scopewalk scope rest global1

/-- The scope walk of `findlabel` for a forward label (name starting with `+`). -/
def fwdwalk (scope pass : Int) : List label → Option label → Option label
  | [], global => global
  | p :: rest, global =>
    if p.pass ≠ pass then
      let global1 := if p.scope = 0 then some p else global
      if p.scope = scope then some p else fwdwalk scope pass rest global1
    else fwdwalk scope pass rest global

/-- `findlabel`: the label found (if any) and the table with `findcmp` and
`findindex` as the search left them.  `none` in the outer option means the
search loop ran out of fuel. -/
def findlabel (t : Table) (scope pass : Int) (name : List Char) :
    Option (Option label × Table) :=
  match findloop name t.labellist (t.labels.toNat + 1) t.labelstart t.labelend
      (t.labelstart + Int.tdiv t.labels 2) with
  | none => none
  | some (findcmp, findindex) =>
    if findcmp ≠ 0 then
      some (none, { t with findcmp := findcmp,
                           findindex := if findcmp < 0 then findindex + 1 else findindex })
    else
      let t1 := { t with findcmp := findcmp, findindex := findindex }
      let p := slotAt t.labellist findindex
      if cur name = '+' then some (fwdwalk scope pass p none, t1)
      else some (scopewalk scope p none, t1)

/-- `growlist`: double the capacity and recentre the list.  The slots of the
new array that `memcpy` does not fill are not in use. -/
def growlist (t : Table) : Table :=
  let maxlabels := t.maxlabels * 2
  let newhead := Int.tdiv maxlabels 2 - Int.tdiv t.labels 2
  let tmp := List.replicate newhead.toNat []
    ++ (t.labellist.drop t.labelstart.toNat).take t.labels.toNat
    ++ List.replicate (maxlabels - newhead - t.labels).toNat []
  { labellist := tmp
    labels := t.labels
    maxlabels := maxlabels
    labelstart := newhead
    labelend := newhead + t.labels - 1
    findcmp := t.findcmp
    findindex := t.findindex - t.labelstart + newhead }

/-- The loop `for(;start>=end;start--) *(start+1)=*start;` of `newlabel`. -/
def shiftup (endi : Int) : Nat → Int → List (List label) → List (List label)
  | 0, _, ll => ll
  | fuel + 1, start, ll =>
    if start ≥ endi then
      shiftup endi fuel (start - 1) (ll.set (start + 1).toNat (slotAt ll start))
    else ll

/-- The loop `for(;start<=end;start++) *(start-1)=*start;` of `newlabel`. -/
def shiftdown (endi : Int) : Nat → Int → List (List label) → List (List label)
  | 0, _, ll => ll
  | fuel + 1, start, ll =>
    if start ≤ endi then
      shiftdown endi fuel (start + 1) (ll.set (start - 1).toNat (slotAt ll start))
    else ll

/-- The end of `newlabel`, once there is room: shift the labels above (or
below) `findindex` by one slot and store the new label in the gap. -/
def placelabel (t1 : Table) (fresh : label) : Table :=
  if t1.findindex > t1.labelstart + Int.tdiv t1.labels 2 then
    let ll := shiftup t1.findindex (t1.labelend - t1.findindex + 1).toNat t1.labelend
      t1.labellist
    { t1 with labellist := ll.set t1.findindex.toNat [fresh]
              labelend := t1.labelend + 1
              labels := t1.labels + 1 }
  else
    let ll := shiftdown (t1.findindex - 1) (t1.findindex - t1.labelstart).toNat t1.labelstart
      t1.labellist
    { t1 with labellist := ll.set (t1.findindex - 1).toNat [fresh]
              labelstart := t1.labelstart - 1
              labels := t1.labels + 1 }

/-- `newlabel`: add a label to the list at the place the last `findlabel` left
in `findcmp` and `findindex`.  The C function returns a pointer to a label whose
`name` is the shared name when the name is already in the list and null
otherwise, and whose other fields the caller fills in; `fresh` holds what the
caller stores there (its `name` is the word looked up, as `addlabel` and
`initlabels` store it). -/
def newlabel (t : Table) (fresh : label) : Table :=
  if t.findcmp = 0 then
    let p : label := { fresh with name := nameAt t.labellist t.findindex }
    { t with labellist := t.labellist.set t.findindex.toNat (p :: slotAt t.labellist t.findindex) }
  else
    placelabel (if t.labelstart = 0 ∨ t.labelend ≥ t.maxlabels - 1 then growlist t else t) fresh

/-- `findlabel(word)` followed by `newlabel()`, the new label taking the name
`word`: the way `initlabels` and `addlabel` add a label. -/
def insertlabel (t : Table) (scope pass : Int) (word : List Char) (fresh : label) :
    Option Table :=
  match findlabel t scope pass word with
  | none => none
  | some (_, t1) => some (newlabel t1 { fresh with name := word })

def INITLISTSIZE : Nat := 128

/-- The `$` label. -/
def firstlabel : label :=
  { name := ['$'], value := 0, pos := 0, line := true, type := .VALUE, used := 0, pass := 0,
    scope := 0, ignorenl := 0 }

/-- The names in `rsvdlist[]` (the opcodes), in order. -/
def rsvdnames : List String :=
  ["BRK", "PHP", "BPL", "CLC", "JSR", "PLP", "BMI", "SEC", "RTI", "PHA", "BVC", "CLI", "RTS",
   "PLA", "BVS", "SEI", "DEY", "BCC", "TYA", "LDY", "TAY", "BCS", "CLV", "CPY", "INY", "BNE",
   "CLD", "CPX", "INX", "BEQ", "SED", "ORA", "AND", "EOR", "ADC", "STA", "LDA", "CMP", "SBC",
   "ASL", "ROL", "LSR", "ROR", "TXA", "TXS", "LDX", "TAX", "TSX", "DEX", "NOP", "BIT", "JMP",
   "STY", "STX", "DEC", "INC", "SLO", "RLA", "SRE", "RRA", "SAX", "LAX", "DCP", "ISC", "ANC",
   "ALR", "ARR", "AXS", "LAS", "AHX", "SHY", "SHX", "TAS", "XAA"]

/-- The names in `directives[]`, in order. -/
def directivenames : List String :=
  ["", "IF", "ELSEIF", "ELSE", "ENDIF", "IFDEF", "IFNDEF", "=", "EQU", "ORG", "BASE", "PAD",
   "SEEKABS", "SEEKREL", "SKIPREL", "INCLUDE", "INCSRC", "INCBIN", "BIN", "INCNES",
   "CLEARPATCH", "HEX", "WORD", "DW", "DCW", "DC.W", "BYTE", "DB", "DCB", "DC.B", "DSW",
   "DS.W", "DSB", "DS.B", "ALIGN", "MACRO", "REPT", "ENDM", "ENDR", "ENUM", "ENDE",
   "IGNORENL", "ENDINL", "FILLVALUE", "COMPARE", "ENDCOMPARE", "DL", "DH", "ERROR", "INESPRG",
   "INESCHR", "INESMIR", "INESMAP", "INCINES", "NES2CHRRAM", "NES2PRGRAM", "NES2SUB",
   "NES2TV", "NES2VS", "NES2BRAM", "NES2CHRBRAM", "UNSTABLE", "HUNSTABLE"]

/-- A reserved word as `initlabels` fills it in: `line` is set for opcodes only;
`value` (a function pointer in C) is not modelled, and it and the fields that
`initlabels` leaves unset are 0. -/
def reserved (name : String) (line : Bool) : label :=
  { name := name.toList, value := 0, pos := 0, line := line, type := .RESERVED, used := 0,
    pass := 0, scope := 0, ignorenl := 0 }

/-- The label list after the first statements of `initlabels`: the `$` label
alone, in the middle of the array. -/
def initTable : Table :=
  { labellist := List.replicate (INITLISTSIZE / 2) [] ++ [firstlabel]
      :: List.replicate (INITLISTSIZE / 2 - 1) []
    labels := 1
    maxlabels := INITLISTSIZE
    labelstart := INITLISTSIZE / 2
    labelend := INITLISTSIZE / 2
    findcmp := 0
    findindex := 0 }

/-- Add the reserved words `names` one after the other (one of the two loops of
`initlabels`; `scope` and `pass` are still 0 there). -/
def addreserved (line : Bool) : List String → Table → Option Table
  | [], t => some t
  | name :: rest, t =>
    match insertlabel t 0 0 name.toList (reserved name line) with
    | none => none
    | some t1 => addreserved line rest t1

/-- `initlabels`: the `$` label, then the opcodes, then the other reserved words. -/
def initlabels : Option Table :=
  match addreserved true rsvdnames initTable with
  | none => none
  | some t => addreserved false directivenames t

/-- One `findlabel(word)`; `newlabel()` step: the current scope and pass, the
word, and what the caller stores in the new label. -/
structure AddStep where
  scope : Int
  pass : Int
  word : List Char
  fresh : label

/-- A sequence of `findlabel(word)`; `newlabel()` steps. -/
def insertall : List AddStep → Table → Option Table
  | [], t => some t
  | s :: rest, t =>
    match insertlabel t s.scope s.pass s.word s.fresh with
    | none => none
    | some t1 => insertall rest t1

/-! ## Well-formed label lists -/

/-- The label list is non-empty and strictly sorted by name, and `labels`
counts its slots. -/
structure SortedList (t : Table) : Prop where
  start_nonneg : 0 ≤ t.labelstart
  start_le_end : t.labelstart ≤ t.labelend
  count : t.labels = t.labelend - t.labelstart + 1
  sorted : ∀ i j, t.labelstart ≤ i → i < j → j ≤ t.labelend →
    strcmp (nameAt t.labellist i) (nameAt t.labellist j) < 0

/-- A well-formed table: a sorted list that lies inside the backing array, each
slot in use holding a non-empty chain of labels of one name. -/
structure TableOK (t : Table) extends SortedList t : Prop where
  end_lt_max : t.labelend < t.maxlabels
  length_eq : (t.labellist.length : Int) = t.maxlabels
  max_ge : 2 ≤ t.maxlabels
  chain_ne : ∀ i, t.labelstart ≤ i → i ≤ t.labelend → slotAt t.labellist i ≠ []
  chain_name : ∀ i, t.labelstart ≤ i → i ≤ t.labelend →
    ∀ p ∈ slotAt t.labellist i, p.name = nameAt t.labellist i

/-- The labels in the list: every entry of every chain in use. -/
def entries (t : Table) : List label :=
  ((t.labellist.drop t.labelstart.toNat).take (t.labelend - t.labelstart + 1).toNat).flatten

/-! ## Expression evaluator -/

/-- The globals written by `getvalue` and `eval`. -/
structure EvalSt where
  errmsg : Option ErrMsg
  dependant : Bool
  needanotherpass : Bool
  deriving DecidableEq, Repr

/-- The globals read, but not written, by `getvalue` and `eval`.  (`findlabel`
also stores `findcmp` and `findindex`; only `newlabel` reads them, so the
evaluator does not thread them.)  `addr` is the value of the `$` label. -/
structure Env where
  tbl : Table
  scope : Int
  pass : Int
  addr : Int
  lastchance : Bool

/-- `hexify`: value of a hex digit; sets `errmsg` on anything else. -/
def hexify (i : Int) (st : EvalSt) : Int × EvalSt :=
  if 48 ≤ i ∧ i ≤ 57 then (i - 48, st)
  else if 97 ≤ i ∧ i ≤ 102 then (i - (97 - 10), st)
  else if 65 ≤ i ∧ i ≤ 70 then (i - (65 - 10), st)
  else (0, { st with errmsg := some .NotANumber })

/-- The `do ... while(*s)` loop at label `hexi` of `getvalue`; the state is
`(ret, chars, st)`. -/
def hexi : List Char → Int → Nat → EvalSt → Int × Nat × EvalSt
  | [], ret, chars, st =>
    let (j, st1) := hexify (charInt NUL) st
    (or32 (shl32 ret 4) j, chars + 1, st1)
  | c :: cs, ret, chars, st =>
    let (j, st1) := hexify (charInt c) st
    let ret1 := or32 (shl32 ret 4) j
    if cur cs = NUL then (ret1, chars + 1, st1) else hexi cs ret1 (chars + 1) st1

/-- One pass through the body of the loop at label `bin` of `getvalue`. -/
def binstep (c : Char) (ret : Int) (st : EvalSt) : Int × EvalSt :=
  let j := charInt c - 48
  (or32 (shl32 ret 1) j, if j > 1 then { st with errmsg := some .NotANumber } else st)

/-- The `do ... while(*s)` loop at label `bin` of `getvalue`. -/
def bin : List Char → Int → Nat → EvalSt → Int × Nat × EvalSt
  | [], ret, chars, st =>
    let (ret1, st1) := binstep NUL ret st
    (ret1, chars + 1, st1)
  | c :: cs, ret, chars, st =>
    let (ret1, st1) := binstep c ret st
    if cur cs = NUL then (ret1, chars + 1, st1) else bin cs ret1 (chars + 1) st1

/-- The decimal digits. -/
def decdigits : List Char := ['0', '1', '2', '3', '4', '5', '6', '7', '8', '9']

/-- Decimal value of a string of digits. -/
def decval (s : List Char) : Int := s.foldl (fun acc c => acc * 10 + (charInt c - 48)) 0

/-- C `atoi` on a string of decimal digits, as glibc computes it on an LP64
machine: `(int) strtol(s, 0, 10)`, where `strtol` saturates at `LONG_MAX`. -/
def atoi (s : List Char) : Int := wrap32 (min (decval s) 9223372036854775807)

/-- The character-literal branches of `getvalue` (`q` is the quote). -/
def charlit (q : Char) (s1 : List Char) (st : EvalSt) : Int × EvalSt :=
  let s2 := if cur s1 = '\\' then s1.tail else s1
  let ret := charInt (cur s2)
  let s3 := s2.tail
  (ret, if cur s3 ≠ q then { st with errmsg := some .NotANumber } else st)

/-- `getvalue`: decode the next word of `str` into a number. -/
def getvalue (env : Env) (str : List Char) (st : EvalSt) :
    Option (Int × List Char × EvalSt) :=
  let (gvline, str1) := getword str true
  let s := gvline
  if cur s = NUL then some (0, str1, { st with errmsg := some .MissingOperand })
  else if cur s = '$' then
    let s1 := s.tail
    if cur s1 = NUL then some (wrap32 env.addr, str1, st)
    else
      let (ret, chars, st1) := hexi s1 0 0 st
      some (ret, str1, if chars > 8 then { st1 with errmsg := some .OutOfRange } else st1)
  else if cur s = '%' then
    let (ret, chars, st1) := bin s.tail 0 0 st
    some (ret, str1, if chars > 32 then { st1 with errmsg := some .OutOfRange } else st1)
  else if cur s = '\'' then
    let (ret, st1) := charlit '\'' s.tail st
    some (ret, str1, st1)
  else if cur s = '"' then
    let (ret, st1) := charlit '"' s.tail st
    some (ret, str1, st1)
  else if '0'.toNat ≤ (cur s).toNat ∧ (cur s).toNat ≤ '9'.toNat then
    let endi := strlen s - 1
    if strspn (cstr s) decdigits = strlen s then
      some (atoi (cstr s), str1, st)
    else if s.getD endi NUL = 'b' ∨ s.getD endi NUL = 'B' then
      let (ret, chars, st1) := bin (s.set endi NUL) 0 0 st
      some (ret, str1, if chars > 32 then { st1 with errmsg := some .OutOfRange } else st1)
    else if s.getD endi NUL = 'h' ∨ s.getD endi NUL = 'H' then
      let (ret, chars, st1) := hexi (s.set endi NUL) 0 0 st
      some (ret, str1, if chars > 8 then { st1 with errmsg := some .OutOfRange } else st1)
    else some (0, str1, { st with errmsg := some .NotANumber })
  else
    match findlabel env.tbl env.scope env.pass (cstr gvline) with
    | none => none
    | some (none, _) =>
      let st1 : EvalSt := { st with dependant := true, needanotherpass := true }
      some (0, str1, if env.lastchance then { st1 with errmsg := some .UnknownLabel } else st1)
    | some (some p, _) =>
      let st1 : EvalSt := { st with dependant := st.dependant || !p.line,
                                    needanotherpass := st.needanotherpass || !p.line }
      if p.type = .LABEL ∨ p.type = .VALUE then some (wrap32 p.value, str1, st1)
      else if p.type = .MACRO then some (0, str1, { st1 with errmsg := some .MacroInExp })
      else some (0, str1, { st1 with errmsg := some .UnknownLabel })

/-- Precedence levels (`enum prectypes`). -/
def WHOLEEXP : Nat := 0
def ORORP : Nat := 1
def ANDANDP : Nat := 2
def ORP : Nat := 3
def XORP : Nat := 4
def ANDP : Nat := 5
def EQCOMPARE : Nat := 6
def COMPARE : Nat := 7
def SHIFT : Nat := 8
def PLUSMINUS : Nat := 9
def MULDIV : Nat := 10
def UNARY : Nat := 11

/-- All operators (`enum operators`). -/
inductive operators
  | NOOP | EQUAL | NOTEQUAL | GREATER | GREATEREQ | LESS | LESSEQ | PLUS | MINUS | MUL | DIV
  | MOD | AND | XOR | OR | ANDAND | OROR | LEFTSHIFT | RIGHTSHIFT
  deriving DecidableEq, Repr

/-- Precedence of each operator (`prec[]`). -/
def prec : operators → Nat
  | .NOOP => WHOLEEXP
  | .EQUAL => EQCOMPARE
  | .NOTEQUAL => EQCOMPARE
  | .GREATER => COMPARE
  | .GREATEREQ => COMPARE
  | .LESS => COMPARE
  | .LESSEQ => COMPARE
  | .PLUS => PLUSMINUS
  | .MINUS => PLUSMINUS
  | .MUL => MULDIV
  | .DIV => MULDIV
  | .MOD => MULDIV
  | .AND => ANDP
  | .XOR => XORP
  | .OR => ORP
  | .ANDAND => ANDANDP
  | .OROR => ORORP
  | .LEFTSHIFT => SHIFT
  | .RIGHTSHIFT => SHIFT

/-- `getoperator`: the operator at the pointer and the advanced pointer. -/
def getoperator (str : List Char) : operators × List Char :=
  let s0 := str.drop (strspn str whitesp)
  let c := cur s0
  let s := s0.tail
  if c = '&' then (if cur s = '&' then (.ANDAND, s.tail) else (.AND, s))
  else if c = '|' then (if cur s = '|' then (.OROR, s.tail) else (.OR, s))
  else if c = '^' then (.XOR, s)
  else if c = '+' then (.PLUS, s)
  else if c = '-' then (.MINUS, s)
  else if c = '*' then (.MUL, s)
  else if c = '%' then (.MOD, s)
  else if c = '/' then (.DIV, s)
  else if c = '=' then (if cur s = '=' then (.EQUAL, s.tail) else (.EQUAL, s))
  else if c = '>' then
    (if cur s = '=' then (.GREATEREQ, s.tail)
     else if cur s = '>' then (.RIGHTSHIFT, s.tail)
     else (.GREATER, s))
  else if c = '<' then
    (if cur s = '=' then (.LESSEQ, s.tail)
     else if cur s = '>' then (.NOTEQUAL, s.tail)
     else if cur s = '<' then (.LEFTSHIFT, s.tail)
     else (.LESS, s))
  else if c = '!' then (if cur s = '=' then (.NOTEQUAL, s.tail) else (.NOOP, s0))
  else (.NOOP, s0)

/-- The `switch(op)` of `eval`, run when the expression is not dependant.  The
result `none` is the division `INT_MIN / -1` (and `INT_MIN % -1`): the quotient
is not an `int`, the C division is undefined there and the processor's divide
instruction stops the program. -/
def applyop (op : operators) (ret val2 : Int) (st : EvalSt) : Option (Int × EvalSt) :=
  match op with
  | .AND => some (and32 ret val2, st)
  | .ANDAND => some (b2i (ret ≠ 0 ∧ val2 ≠ 0), st)
  | .OR => some (or32 ret val2, st)
  | .OROR => some (b2i (ret ≠ 0 ∨ val2 ≠ 0), st)
  | .XOR => some (xor32 ret val2, st)
  | .PLUS => some (wrap32 (ret + val2), st)
  | .MINUS => some (wrap32 (ret - val2), st)
  | .MUL => some (wrap32 (ret * val2), st)
  | .DIV =>
    if val2 = 0 then some (ret, { st with errmsg := some .DivZero })
    else if ret = -2147483648 ∧ val2 = -1 then none
    else some (wrap32 (Int.tdiv ret val2), st)
  | .MOD =>
    if val2 = 0 then some (ret, { st with errmsg := some .DivZero })
    else if ret = -2147483648 ∧ val2 = -1 then none
    else some (wrap32 (Int.tmod ret val2), st)
  | .EQUAL => some (b2i (ret = val2), st)
  | .NOTEQUAL => some (b2i (ret ≠ val2), st)
  | .GREATER => some (b2i (ret > val2), st)
  | .GREATEREQ => some (b2i (ret ≥ val2), st)
  | .LESS => some (b2i (ret < val2), st)
  | .LESSEQ => some (b2i (ret ≤ val2), st)
  | .LEFTSHIFT => some (shl32 ret val2, st)
  | .RIGHTSHIFT => some (shr32 ret val2, st)
  | .NOOP => some (ret, st)

/-- The part of the `+`/`-` case of `eval` that follows the trial `getvalue`:
`errmsg` is cleared when it is "Unknown label.". -/
def clearUnknown (st : EvalSt) : EvalSt :=
  if st.errmsg = some .UnknownLabel then { st with errmsg := none } else st

mutual
/-- `eval` with a bound on the depth of calls: the `switch(unary)` part, which
hands its result to the operator loop.  The result is the value returned, the
pointer stored in `*str`, and the globals. -/
def evalF : Nat → Env → List Char → Nat → EvalSt → Option (Int × List Char × EvalSt)
  | 0, _, _, _, _ => none
  | fuel + 1, env, str, precedence, st =>
    let s := str.drop (strspn str whitesp)
    let unary := cur s
    if unary = '(' then
      match evalF fuel env s.tail WHOLEEXP st with
      | none => none
      | some (ret, s2, st2) =>
        let s3 := s2.drop (strspn s2 whitesp)
        if cur s3 = ')' then evalLoop fuel env precedence ret s3.tail st2
        else evalLoop fuel env precedence ret s3 { st2 with errmsg := some .IncompleteExp }
    else if unary = '#' then
      match evalF fuel env s.tail WHOLEEXP st with
      | none => none
      | some (ret, s2, st2) => evalLoop fuel env precedence ret s2 st2
    else if unary = '~' then
      match evalF fuel env s.tail UNARY st with
      | none => none
      | some (ret, s2, st2) => evalLoop fuel env precedence (not32 ret) s2 st2
    else if unary = '!' then
      match evalF fuel env s.tail UNARY st with
      | none => none
      | some (ret, s2, st2) => evalLoop fuel env precedence (b2i (ret = 0)) s2 st2
    else if unary = '<' then
      match evalF fuel env s.tail UNARY st with
      | none => none
      | some (ret, s2, st2) => evalLoop fuel env precedence (and32 ret 255) s2 st2
    else if unary = '>' then
      match evalF fuel env s.tail UNARY st with
      | none => none
      | some (ret, s2, st2) => evalLoop fuel env precedence (and32 (shr32 ret 8) 255) s2 st2
    else if unary = '+' ∨ unary = '-' then
      let op := st.dependant
      let val2 := st.needanotherpass
      match getvalue env s { st with dependant := false } with
      | none => none
      | some (ret, s2, st1) =>
        let st2 := clearUnknown st1
        if st2.dependant = false ∨ s2.length = s.tail.length then
          evalLoop fuel env precedence ret s2 { st2 with dependant := st2.dependant || op }
        else
          match evalF fuel env s.tail UNARY
              { st2 with dependant := op, needanotherpass := val2 } with
          | none => none
          | some (ret1, s3, st3) =>
            evalLoop fuel env precedence (if unary = '-' then wrap32 (-ret1) else ret1) s3 st3
    else
      match getvalue env s st with
      | none => none
      | some (ret, s2, st1) => evalLoop fuel env precedence ret s2 st1
/-- The `do ... while` operator loop of `eval`; `s` is the pointer at the start
of the iteration, which is what `*str` holds when the loop is left. -/
def evalLoop : Nat → Env → Nat → Int → List Char → EvalSt → Option (Int × List Char × EvalSt)
  | 0, _, _, _, _, _ => none
  | fuel + 1, env, precedence, ret, s, st =>
    if precedence < prec (getoperator s).1 then
      match evalF fuel env (getoperator s).2 (prec (getoperator s).1) st with
      | none => none
      | some (val2, s2, st2) =>
        match (if st2.dependant = false then applyop (getoperator s).1 ret val2 st2
               else some (0, st2)) with
        | none => none
        | some r =>
          if r.2.errmsg = none then evalLoop fuel env precedence r.1 s2 r.2
          else some (r.1, s, r.2)
    else some (ret, s, st)
end

/-- `eval(&str, precedence)`.  Every call of `eval` from `eval` is made on a
shorter text, so twice the length of the text bounds the depth of calls.  The
result `none` is a division that stops the program (see `applyop`). -/
def eval (env : Env) (str : List Char) (precedence : Nat) (st : EvalSt) :
    Option (Int × List Char × EvalSt) :=
  evalF (2 * str.length + 2) env str precedence st

/-! ## Reading numerals -/

/-- The hexadecimal digits. -/
def hexdigits : List Char :=
  decdigits ++ ['a', 'b', 'c', 'd', 'e', 'f', 'A', 'B', 'C', 'D', 'E', 'F']

/-- The binary digits. -/
def bindigits : List Char := ['0', '1']

/-- Value of a hexadecimal digit. -/
def hexdigit (c : Char) : Int :=
  if c ∈ decdigits then (c.toNat : Int) - 48
  else if c ∈ ['a', 'b', 'c', 'd', 'e', 'f'] then (c.toNat : Int) - 87
  else (c.toNat : Int) - 55

/-- A string of hexadecimal digits read in base 16. -/
def hexread (d : List Char) : Int := d.foldl (fun acc c => acc * 16 + hexdigit c) 0

/-- A string of binary digits read in base 2. -/
def binread (d : List Char) : Int := d.foldl (fun acc c => acc * 2 + ((c.toNat : Int) - 48)) 0

/-- A string of decimal digits read in base 10. -/
def decread (d : List Char) : Int := d.foldl (fun acc c => acc * 10 + ((c.toNat : Int) - 48)) 0

/-! ## Operand texts -/

/-- A character that `getword` keeps in a word: neither NUL, nor white space,
nor an operator character. -/
def plain (c : Char) : Prop := c ≠ NUL ∧ c ∉ whitesp ∧ c ∉ mathy

/-- Text that ends an operand: the end of the line or an operator character. -/
def OpEnd (rest : List Char) : Prop := rest = [] ∨ cur rest ∈ mathy

/-- An operand text `w` that resolves to `v` in the state `st`: a word that
`getvalue` decodes to `v`, consuming exactly the word and leaving `errmsg` and
both flags as they were, whenever the word is followed by the end of the line
or by an operator character. -/
def IsOperand (env : Env) (st : EvalSt) (w : List Char) (v : Int) : Prop :=
  w ≠ [] ∧ plain (cur w) ∧ cur w ≠ '#' ∧ cur w ≠ '~' ∧
    ∀ rest, OpEnd rest → getvalue env (w ++ rest) st = some (v, rest, st)

/-! ## Scope ids -/

/-- The globals `scope` and `nextscope`, and the `oldscope` locals of the
macro and repeat expansions in progress (innermost first). -/
structure ScopeSt where
  scope : Int
  nextscope : Int
  saved : List Int
  deriving DecidableEq, Repr

/-- The places that write `scope` or `nextscope`. -/
inductive ScopeOp
  | passbegin
  | addlabel (c : Char) (loc : Bool)
  | macrobegin
  | macroend
  | reptbegin
  | reptiter
  | reptend
  deriving DecidableEq, Repr

/-- `scope=nextscope++;`: the new state and the scope id allocated. -/
def allocscope (s : ScopeSt) : ScopeSt × Option Int :=
  ({ s with scope := s.nextscope, nextscope := wrap32 (s.nextscope + 1) }, some s.nextscope)

/-- One write to the scope globals: the start of a pass in `main`
(`scope=1; nextscope=2;`), `addlabel(word, local)` for a word starting with `c`,
entry to and exit from the body of a macro expansion, and entry to, each iteration of, and
exit from a repeat expansion.  The result is the new state and the scope id
allocated, if one is. -/
def scopestep (s : ScopeSt) : ScopeOp → ScopeSt × Option Int
  | .passbegin => ({ s with scope := 1, nextscope := 2 }, none)
  | .addlabel c loc => if c ≠ LOCALCHAR ∧ loc = false then allocscope s else (s, none)
  | .macrobegin => allocscope { s with saved := s.scope :: s.saved }
  | .macroend => ({ s with scope := s.saved.headD s.scope, saved := s.saved.tail }, none)
  | .reptbegin => ({ s with saved := s.scope :: s.saved }, none)
  | .reptiter => allocscope s
  | .reptend => ({ s with scope := s.saved.headD s.scope, saved := s.saved.tail }, none)

/-- The scope ids allocated, in order, by a sequence of writes. -/
def scoperun : List ScopeOp → ScopeSt → List Int
  | [], _ => []
  | op :: rest, s =>
    match scopestep s op with
    | (s1, some id) => id :: scoperun rest s1
    | (s1, none) => scoperun rest s1

/-! ## A small assembly state for examples -/

/-- A label as `addlabel` creates it at address `value` in pass 1. -/
def mklabel (name : String) (value scope : Int) : label :=
  { name := name.toList, value := value, pos := 16, line := true, type := .LABEL, used := 0,
    pass := 1, scope := scope, ignorenl := 0 }

/-- Labels added to the list of `sampleTable`: two reserved words, a global label
`start`, and a local label `@loop` in scopes 2 and 3. -/
def sampleSteps : List AddStep :=
  [{ scope := 0, pass := 0, word := "LDA".toList, fresh := reserved "LDA" true },
   { scope := 0, pass := 0, word := "ORG".toList, fresh := reserved "ORG" false },
   { scope := 2, pass := 1, word := "start".toList, fresh := mklabel "start" 32768 0 },
   { scope := 2, pass := 1, word := "@loop".toList, fresh := mklabel "@loop" 32770 2 },
   { scope := 3, pass := 1, word := "@loop".toList, fresh := mklabel "@loop" 32780 3 }]

/-- A small label list: `$` and the labels of `sampleSteps`. -/
def sampleTable : Table := (insertall sampleSteps initTable).getD initTable

/-- An assembly state around `sampleTable`: scope 3, pass 1, PC `$8010`. -/
def sampleEnv : Env :=
  { tbl := sampleTable, scope := 3, pass := 1, addr := 32784, lastchance := false }

/-- No error pending, both flags clear. -/
def clearSt : EvalSt := { errmsg := none, dependant := false, needanotherpass := false }


/-! ## Conditional assembly -/

/-- Maximum number of nested IF levels. -/
def IFNESTS : Nat := 32

/-- The globals of the conditional directives: `iflevel` (an index, never
negative), the arrays `ifdone[]` and `skipline[]`, and the globals of the
evaluator. -/
structure CondSt where
  iflevel : Nat
  ifdone : List Int
  skipline : List Int
  st : EvalSt
  deriving DecidableEq, Repr

/-- The first statement of `_if`, `ifdef` and `ifndef`: one level deeper, or an
error at the nesting limit. -/
def iflevelup (c : CondSt) : CondSt :=
  if c.iflevel ≥ IFNESTS - 1 then { c with st := { c.st with errmsg := some .IfNestLimit } }
  else { c with iflevel := c.iflevel + 1 }

/-- The two assignments `skipline[iflevel]=sk; ifdone[iflevel]=!skipline[iflevel];`. -/
def setbranch (c : CondSt) (sk : Int) : CondSt :=
  let skipline1 := c.skipline.set c.iflevel sk
  { c with skipline := skipline1
           ifdone := c.ifdone.set c.iflevel (b2i (skipline1.getD c.iflevel 0 = 0)) }

/-- The two assignments `ifdone[iflevel]=1; skipline[iflevel]=1;`. -/
def setskipdone (c : CondSt) : CondSt :=
  { c with ifdone := c.ifdone.set c.iflevel 1
           skipline := c.skipline.set c.iflevel 1 }

/-- The directive `IF`; the result is the advanced `*next` and the globals. -/
def _if (env : Env) (next : List Char) (c : CondSt) : Option (List Char × CondSt) :=
  let c1 := iflevelup c
  match eval env next WHOLEEXP { c1.st with dependant := false } with
  | none => none
  | some (val, next1, st1) =>
    let c2 := { c1 with st := st1 }
    if st1.dependant = true ∨ st1.errmsg ≠ none then some (next1, setskipdone c2)
    else some (next1, setbranch c2 (b2i (val = 0 ∨ c2.skipline.getD (c2.iflevel - 1) 0 ≠ 0)))

/-- `getlabel`: copy the next word and tell whether it looks like a label;
the result is the answer, the word, the advanced pointer and the globals. -/
def getlabel (src : List Char) (st : EvalSt) : Bool × List Char × List Char × EvalSt :=
  let (dst, src1) := getword src true
  if cur dst = '$' ∧ cur dst.tail = NUL then (true, dst, src1, st)
  else
    let c := cur dst
    let s := if c = '+' ∨ c = '-' then dst.tail.dropWhile (fun x => x = c) else dst
    if (c = '+' ∨ c = '-') ∧ cur s = NUL then (true, dst, src1, st)
    else
      let c1 := cur s
      if c1 = LOCALCHAR ∨ c1 = '_' ∨ ('A' ≤ c1 ∧ c1 ≤ 'Z') ∨ ('a' ≤ c1 ∧ c1 ≤ 'z') then
        (true, dst, src1, st)
      else (false, dst, src1, { st with errmsg := some .Illegal })

/-- The directives `IFDEF` (`neg = false`) and `IFNDEF` (`neg = true`), which
differ in the sense of the test only. -/
def ifdefcore (neg : Bool) (env : Env) (next : List Char) (c : CondSt) :
    Option (List Char × CondSt) :=
  let c1 := iflevelup c
  let (_, s, next1, st1) := getlabel next c1.st
  match findlabel env.tbl env.scope env.pass (cstr s) with
  | none => none
  | some (p, _) =>
    let c2 := { c1 with st := st1 }
    some (next1, setbranch c2
      (b2i ((if neg then p.isSome else p.isNone) ∨ c2.skipline.getD (c2.iflevel - 1) 0 ≠ 0)))

/-- The directive `IFDEF`. -/
def ifdef (env : Env) (next : List Char) (c : CondSt) : Option (List Char × CondSt) :=
  ifdefcore false env next c

/-- The directive `IFNDEF`. -/
def ifndef (env : Env) (next : List Char) (c : CondSt) : Option (List Char × CondSt) :=
  ifdefcore true env next c

/-- The directive `ELSEIF`. -/
def elseif (env : Env) (next : List Char) (c : CondSt) : Option (List Char × CondSt) :=
  if c.iflevel ≠ 0 then
    match eval env next WHOLEEXP { c.st with dependant := false } with
    | none => none
    | some (val, next1, st1) =>
      let c2 := { c with st := st1 }
      if c2.ifdone.getD c2.iflevel 0 = 0 then
        if st1.dependant = true ∨ st1.errmsg ≠ none then some (next1, setskipdone c2)
        else
          some (next1, setbranch c2 (b2i (val = 0 ∨ c2.skipline.getD (c2.iflevel - 1) 0 ≠ 0)))
      else some (next1, { c2 with skipline := c2.skipline.set c2.iflevel 1 })
  else some (next, { c with st := { c.st with errmsg := some .ElseifWithoutIf } })

/-- The directive `ELSE`. -/
def _else (c : CondSt) : CondSt :=
  if c.iflevel ≠ 0 then
    let sk := b2i (c.ifdone.getD c.iflevel 0 ≠ 0 ∨ c.skipline.getD (c.iflevel - 1) 0 ≠ 0)
    { c with skipline := c.skipline.set c.iflevel sk }
  else { c with st := { c.st with errmsg := some .ElseWithoutIf } }

/-- The directive `ENDIF`. -/
def endif (c : CondSt) : CondSt :=
  if c.iflevel ≠ 0 then { c with iflevel := c.iflevel - 1 }
  else { c with st := { c.st with errmsg := some .EndifWithoutIf } }

/-- A line holding a conditional directive: the directive, and for those with
an operand the globals the evaluator reads on that line and the text after the
directive. -/
inductive CondOp
  | IF (env : Env) (next : List Char)
  | IFDEF (env : Env) (next : List Char)
  | IFNDEF (env : Env) (next : List Char)
  | ELSEIF (env : Env) (next : List Char)
  | ELSE
  | ENDIF

/-- The part of `processline` that runs a conditional directive: `errmsg=0;`
and the call.  (These six directives run on skipped lines too.) -/
def condline (op : CondOp) (c : CondSt) : Option CondSt :=
  let c0 := { c with st := { c.st with errmsg := none } }
  match op with
  | .IF env next => (_if env next c0).map Prod.snd
  | .IFDEF env next => (ifdef env next c0).map Prod.snd
  | .IFNDEF env next => (ifndef env next c0).map Prod.snd
  | .ELSEIF env next => (elseif env next c0).map Prod.snd
  | .ELSE => some (_else c0)
  | .ENDIF => some (endif c0)

/-- A sequence of lines holding conditional directives. -/
def condrun : List CondOp → CondSt → Option CondSt
  | [], c => some c
  | op :: ops, c =>
    match condline op c with
    | none => none
    | some c1 => condrun ops c1

/-- The conditional globals when the program starts: no open conditional, the
static arrays zeroed. -/
def cond0 : CondSt :=
  { iflevel := 0, ifdone := List.replicate IFNESTS 0, skipline := List.replicate IFNESTS 0,
    st := { errmsg := none, dependant := false, needanotherpass := false } }

/-- The nesting invariant of the conditional globals: the level is inside the
arrays, and below the current level a skipped level has every deeper level
skipped. -/
def CondInv (c : CondSt) : Prop :=
  c.iflevel < IFNESTS ∧ c.skipline.length = IFNESTS ∧ c.ifdone.length = IFNESTS ∧
    ∀ k, 1 ≤ k → k ≤ c.iflevel → c.skipline.getD (k - 1) 0 = 1 → c.skipline.getD k 0 = 1

/-- The line `op`, met in state `c`, leaves the conditional at level `l` open:
an `ENDIF` closes a deeper level, and an `IF` is not met at the nesting limit. -/
def keepsOpen (l : Nat) (op : CondOp) (c : CondSt) : Prop :=
  match op with
  | .IF _ _ => c.iflevel < IFNESTS - 1
  | .IFDEF _ _ => c.iflevel < IFNESTS - 1
  | .IFNDEF _ _ => c.iflevel < IFNESTS - 1
  | .ELSEIF _ _ => True
  | .ELSE => True
  | .ENDIF => l < c.iflevel

/-- The lines `ops`, run from `c`, leave the conditional at level `l` open. -/
def staysOpen (l : Nat) : List CondOp → CondSt → Prop
  | [], _ => True
  | op :: ops, c =>
    l ≤ c.iflevel ∧ keepsOpen l op c ∧ ∀ c1, condline op c = some c1 → staysOpen l ops c1

/-- The value of `skipline[iflevel]` after each line of a sequence. -/
def condflags : List CondOp → CondSt → Option (List Int)
  | [], _ => some []
  | op :: ops, c =>
    match condline op c with
    | none => none
    | some c1 => (condflags ops c1).map (fun fs => c1.skipline.getD c1.iflevel 0 :: fs)

/-- The expression `text` is resolved and has the value `v`: on a line that
starts with no error pending, `eval` returns `v` with `dependant` and `errmsg`
clear. -/
def Resolved (env : Env) (text : List Char) (v : Int) : Prop :=
  ∀ nap, ∃ rest nap1, eval env text WHOLEEXP ⟨none, false, nap⟩ = some (v, rest, ⟨none, false, nap1⟩)

/-- The lines of a conditional whose conditions are `conds`, up to the `ELSE`. -/
def condlines (first : Env × List Char × Int) (conds : List (Env × List Char × Int)) :
    List CondOp :=
  CondOp.IF first.1 first.2.1 :: conds.map (fun x => CondOp.ELSEIF x.1 x.2.1)

/-- The skip flags that "the first condition that is non-zero wins" prescribes
for the branches of `IF v0 / ELSEIF v1 / ...`, written from the specification:
a branch is skipped when an earlier one was taken or its own condition is zero.
`taken` tells whether an earlier branch was taken. -/
def expectflags : List Int → Bool → List Int
  | [], _ => []
  | v :: vs, taken => b2i (taken || decide (v = 0)) :: expectflags vs (taken || decide (v ≠ 0))

/-- The state of the conditional at level `l` between two of its lines. -/
def BranchSt (l : Nat) (taken : Bool) (c : CondSt) : Prop :=
  c.iflevel = l ∧ 1 ≤ l ∧ l < IFNESTS ∧ c.skipline.length = IFNESTS ∧
    c.ifdone.length = IFNESTS ∧ c.skipline.getD (l - 1) 0 = 0 ∧ c.ifdone.getD l 0 = b2i taken

/-! ## Instruction encoder -/

/-- Addressing modes (`enum optypes`). -/
def ACC : Nat := 0
def IMM : Nat := 1
def IND : Nat := 2
def INDX : Nat := 3
def INDY : Nat := 4
def ZPX : Nat := 5
def ZPY : Nat := 6
def ABSX : Nat := 7
def ABSY : Nat := 8
def ZP : Nat := 9
def ABS : Nat := 10
def REL : Nat := 11
def IMP : Nat := 12

/-- Number of operand bytes of each mode. -/
def opsize : List Int := [0, 1, 2, 1, 1, 1, 1, 2, 2, 1, 2, 1, 0]

/-- The character that opens the operand of each mode (NUL for none). -/
def ophead : List Char := [NUL, '#', '(', '(', '(', NUL, NUL, NUL, NUL, NUL, NUL, NUL, NUL]

/-- The text that closes the operand of each mode. -/
def optail : List String := ["A", "", ")", ",X)", "),Y", ",X", ",Y", ",X", ",Y", "", "", "", ""]

/-- The table `rsvdlist[]`: each mnemonic with its byte array, a list of
(opcode, mode) pairs closed by the byte `-1`, that is 255. -/
def rsvdlist : List (String × List Nat) :=
  [("BRK", [0x00, IMM, 0x00, ZP, 0x00, IMP, 255]),
   ("PHP", [0x08, IMP, 255]),
   ("BPL", [0x10, REL, 255]),
   ("CLC", [0x18, IMP, 255]),
   ("JSR", [0x20, ABS, 255]),
   ("PLP", [0x28, IMP, 255]),
   ("BMI", [0x30, REL, 255]),
   ("SEC", [0x38, IMP, 255]),
   ("RTI", [0x40, IMP, 255]),
   ("PHA", [0x48, IMP, 255]),
   ("BVC", [0x50, REL, 255]),
   ("CLI", [0x58, IMP, 255]),
   ("RTS", [0x60, IMP, 255]),
   ("PLA", [0x68, IMP, 255]),
   ("BVS", [0x70, REL, 255]),
   ("SEI", [0x78, IMP, 255]),
   ("DEY", [0x88, IMP, 255]),
   ("BCC", [0x90, REL, 255]),
   ("TYA", [0x98, IMP, 255]),
   ("LDY", [0xa0, IMM, 0xb4, ZPX, 0xbc, ABSX, 0xa4, ZP, 0xac, ABS, 255]),
   ("TAY", [0xa8, IMP, 255]),
   ("BCS", [0xb0, REL, 255]),
   ("CLV", [0xb8, IMP, 255]),
   ("CPY", [0xc0, IMM, 0xc4, ZP, 0xcc, ABS, 255]),
   ("INY", [0xc8, IMP, 255]),
   ("BNE", [0xd0, REL, 255]),
   ("CLD", [0xd8, IMP, 255]),
   ("CPX", [0xe0, IMM, 0xe4, ZP, 0xec, ABS, 255]),
   ("INX", [0xe8, IMP, 255]),
   ("BEQ", [0xf0, REL, 255]),
   ("SED", [0xf8, IMP, 255]),
   ("ORA", [0x09, IMM, 0x01, INDX, 0x11, INDY, 0x15, ZPX, 0x1d, ABSX, 0x19, ABSY, 0x05, ZP,
            0x0d, ABS, 255]),
   ("AND", [0x29, IMM, 0x21, INDX, 0x31, INDY, 0x35, ZPX, 0x3d, ABSX, 0x39, ABSY, 0x25, ZP,
            0x2d, ABS, 255]),
   ("EOR", [0x49, IMM, 0x41, INDX, 0x51, INDY, 0x55, ZPX, 0x5d, ABSX, 0x59, ABSY, 0x45, ZP,
            0x4d, ABS, 255]),
   ("ADC", [0x69, IMM, 0x61, INDX, 0x71, INDY, 0x75, ZPX, 0x7d, ABSX, 0x79, ABSY, 0x65, ZP,
            0x6d, ABS, 255]),
   ("STA", [0x81, INDX, 0x91, INDY, 0x95, ZPX, 0x9d, ABSX, 0x99, ABSY, 0x85, ZP, 0x8d, ABS,
            255]),
   ("LDA", [0xa9, IMM, 0xa1, INDX, 0xb1, INDY, 0xb5, ZPX, 0xbd, ABSX, 0xb9, ABSY, 0xa5, ZP,
            0xad, ABS, 255]),
   ("CMP", [0xc9, IMM, 0xc1, INDX, 0xd1, INDY, 0xd5, ZPX, 0xdd, ABSX, 0xd9, ABSY, 0xc5, ZP,
            0xcd, ABS, 255]),
   ("SBC", [0xe9, IMM, 0xe1, INDX, 0xf1, INDY, 0xf5, ZPX, 0xfd, ABSX, 0xf9, ABSY, 0xe5, ZP,
            0xed, ABS, 255]),
   ("ASL", [0x0a, ACC, 0x16, ZPX, 0x1e, ABSX, 0x06, ZP, 0x0e, ABS, 0x0a, IMP, 255]),
   ("ROL", [0x2a, ACC, 0x36, ZPX, 0x3e, ABSX, 0x26, ZP, 0x2e, ABS, 0x2a, IMP, 255]),
   ("LSR", [0x4a, ACC, 0x56, ZPX, 0x5e, ABSX, 0x46, ZP, 0x4e, ABS, 0x4a, IMP, 255]),
   ("ROR", [0x6a, ACC, 0x76, ZPX, 0x7e, ABSX, 0x66, ZP, 0x6e, ABS, 0x6a, IMP, 255]),
   ("TXA", [0x8a, IMP, 255]),
   ("TXS", [0x9a, IMP, 255]),
   ("LDX", [0xa2, IMM, 0xb6, ZPY, 0xbe, ABSY, 0xa6, ZP, 0xae, ABS, 255]),
   ("TAX", [0xaa, IMP, 255]),
   ("TSX", [0xba, IMP, 255]),
   ("DEX", [0xca, IMP, 255]),
   ("NOP", [0xea, IMP, 255]),
   ("BIT", [0x24, ZP, 0x2c, ABS, 255]),
   ("JMP", [0x6c, IND, 0x4c, ABS, 255]),
   ("STY", [0x94, ZPX, 0x84, ZP, 0x8c, ABS, 255]),
   ("STX", [0x96, ZPY, 0x86, ZP, 0x8e, ABS, 255]),
   ("DEC", [0xd6, ZPX, 0xde, ABSX, 0xc6, ZP, 0xce, ABS, 255]),
   ("INC", [0xf6, ZPX, 0xfe, ABSX, 0xe6, ZP, 0xee, ABS, 255]),
   ("SLO", [0x07, ZP, 0x17, ZPX, 0x03, INDX, 0x13, INDY, 0x0f, ABS, 0x1f, ABSX, 0x1b, ABSY,
            255]),
   ("RLA", [0x27, ZP, 0x37, ZPX, 0x23, INDX, 0x33, INDY, 0x2f, ABS, 0x3f, ABSX, 0x3b, ABSY,
            255]),
   ("SRE", [0x47, ZP, 0x57, ZPX, 0x43, INDX, 0x53, INDY, 0x4f, ABS, 0x5f, ABSX, 0x5b, ABSY,
            255]),
   ("RRA", [0x67, ZP, 0x77, ZPX, 0x63, INDX, 0x73, INDY, 0x6f, ABS, 0x7f, ABSX, 0x7b, ABSY,
            255]),
   ("SAX", [0x87, ZP, 0x97, ZPY, 0x83, INDX, 0x8f, ABS, 255]),
   ("LAX", [0xa7, ZP, 0xb7, ZPY, 0xa3, INDX, 0xb3, INDY, 0xaf, ABS, 0xbf, ABSY, 255]),
   ("DCP", [0xc7, ZP, 0xd7, ZPX, 0xc3, INDX, 0xd3, INDY, 0xcf, ABS, 0xdf, ABSX, 0xdb, ABSY,
            255]),
   ("ISC", [0xe7, ZP, 0xf7, ZPX, 0xe3, INDX, 0xf3, INDY, 0xef, ABS, 0xff, ABSX, 0xfb, ABSY,
            255]),
   ("ANC", [0x0b, IMM, 255]),
   ("ALR", [0x4b, IMM, 255]),
   ("ARR", [0x6b, IMM, 255]),
   ("AXS", [0xcb, IMM, 255]),
   ("LAS", [0xbb, ABSY, 255]),
   ("AHX", [0x93, INDY, 0x9f, ABSY, 255]),
   ("SHY", [0x9c, ABSX, 255]),
   ("SHX", [0x9e, ABSY, 255]),
   ("TAS", [0x9b, ABSY, 255]),
   ("XAA", [0x8b, IMM, 255])]

/-- The mnemonics gated by `allowunstable`. -/
def unstablelist : List String := ["AHX", "SHY", "SHX", "TAS"]

/-- The (opcode, mode) pairs written in a table: the array without its last
byte, read two bytes at a time. -/
def pairsOf : List Nat → List (Nat × Nat)
  | b :: t :: x :: rest => (b, t) :: pairsOf (x :: rest)
  | _ => []

/-- C `toupper` in the C locale. -/
def toupper (c : Char) : Char :=
  if 'a'.toNat ≤ c.toNat ∧ c.toNat ≤ 'z'.toNat then Char.ofNat (c.toNat - 32) else c

/-- `my_strupr`: the text in upper case. -/
def my_strupr (s : List Char) : List Char := s.map toupper

/-- `eatchar`: skip blanks and take the character `c` if it is next; the result
is the answer and the advanced pointer.  A NUL `c` asks for nothing. -/
def eatchar (str : List Char) (c : Char) : Bool × List Char :=
  if c ≠ NUL then
    let s := str.drop (strspn str whitesp)
    if cur s = c then (true, s.tail) else (false, s)
  else (true, str)

/-- The loop `while(*s2) { if(!eatchar(&s,*s2)) break; s2++; }` of `opcode`;
the result is `(s, s2)` when the loop is left. -/
def eattail : List Char → List Char → List Char × List Char
  | s, [] => (s, [])
  | s, c :: s2 =>
    if (eatchar s c).1 = true then eattail (eatchar s c).2 s2 else ((eatchar s c).2, c :: s2)

/-- Lines `my_strupr(s)` to `if(*s || *s2) continue;` of `opcode`: the text
left once the tail of the mode and the blanks after it are taken, or `none`
when the candidate is given up (the `continue`). -/
def matchtail (type : Nat) (s : List Char) : Option (List Char) :=
  let r := eattail (my_strupr s) (optail.getD type "").toList
  let s1 := r.1.drop (strspn r.1 whitesp)
  if cur s1 ≠ NUL ∨ r.2 ≠ [] then none else some s1

/-- What `opcode` leaves behind: the bytes handed to `output`, in order (none
when no candidate matched), the text left in `*next`, `addr`, and the globals of
the evaluator. -/
structure Emit where
  bytes : List Nat
  next : List Char
  addr : Int
  st : EvalSt
  deriving DecidableEq, Repr

/-- `output(p, size, cdlflag)` while output is enabled, outside compare mode:
`addr` advances by `size`, and `output_buffer` stores the bytes one at a time
and returns after a byte when `errmsg` is set.  So the `size` bytes of `p` are
written when no error is pending, and only the first of them when one is.
`errmsg` is the global at the call; the state is `(addr, bytes written)`. -/
def output (errmsg : Option ErrMsg) (p : List Nat) (size : Int) (o : Int × List Nat) :
    Int × List Nat :=
  (wrap32 (o.1 + size),
    o.2 ++ (if errmsg = none then p.take size.toNat else (p.take size.toNat).take 1))

/-- `output_le(n, size, cdlflag)`: the bytes `n` and `n >> 8`. -/
def output_le (errmsg : Option ErrMsg) (n : Int) (size : Int) (o : Int × List Nat) :
    Int × List Nat :=
  output errmsg [(n % 256).toNat, (shr32 n 8 % 256).toNat] size o

/-- The operand checks of `opcode` (the `if(type==REL) ... else ...` statement):
the value, the globals and `forceRel` after it, and whether the candidate is
given up by the `continue` inside it. -/
structure Operand where
  val : Int
  st : EvalSt
  forceRel : Bool
  skip : Bool
  deriving DecidableEq, Repr

def checkoperand (env : Env) (type : Nat) (val : Int) (forceRel : Bool) (st : EvalSt) :
    Operand :=
  if type = REL then
    if st.dependant = false then
      let val1 := wrap32 (val - wrap32 (env.addr + 2))
      if val1 > 127 ∨ val1 < -128 then
        let st1 : EvalSt := { st with needanotherpass := true }
        if env.lastchance then
          ⟨val1, { st1 with errmsg := some .BranchOutOfRange }, true, false⟩
        else ⟨val1, st1, forceRel, false⟩
      else ⟨val1, st, forceRel, false⟩
    else ⟨val, st, forceRel, false⟩
  else if opsize.getD type 0 = 1 then
    if st.dependant = false then
      if val > 255 ∨ val < -128 then ⟨val, { st with errmsg := some .OutOfRange }, forceRel, false⟩
      else ⟨val, st, forceRel, false⟩
    else ⟨val, st, forceRel, decide (type ≠ IMM)⟩
  else
    if (val < 0 ∨ val > 65535) ∧ st.dependant = false then
      ⟨val, { st with errmsg := some .OutOfRange }, forceRel, false⟩
    else ⟨val, st, forceRel, false⟩

/-- The end of an iteration of `opcode` whose candidate matched: the PC check,
the two `output` calls and `*next+=s-tmpstr`. -/
def emitop (env : Env) (next : List Char) (op0 type : Nat) (val : Int) (s : List Char)
    (st : EvalSt) : Emit :=
  let st1 : EvalSt := if env.addr > 65535 then { st with errmsg := some .PCOutOfRange } else st
  let o := output_le st1.errmsg val (opsize.getD type 0)
    (output st1.errmsg [op0] 1 (env.addr, []))
  { bytes := o.2, next := next.drop (next.length - s.length), addr := o.1, st := st1 }

/-- The end of `opcode` when no candidate matched: `if(!errmsg) errmsg=Illegal;`. -/
def opfail (env : Env) (next : List Char) (st : EvalSt) : Emit :=
  { bytes := [], next := next, addr := env.addr,
    st := if st.errmsg = none then { st with errmsg := some .Illegal } else st }

/-- The `for` loop of `opcode` over the table `op`; `val`, `forceRel` and the
globals are carried from one candidate to the next.  (A table that ends without
the byte 255 is read as ended.) -/
def opcodeLoop (env : Env) (next : List Char) (oldstate : Bool) :
    List Nat → Int → Bool → EvalSt → Option Emit
  | op0 :: type :: rest, val, forceRel, st =>
    if op0 = 255 then some (opfail env next st)
    else
      let st0 : EvalSt := ⟨none, false, oldstate⟩
      if type ≠ IMP ∧ type ≠ ACC then
        if (eatchar next (ophead.getD type NUL)).1 = false then
          opcodeLoop env next oldstate rest val forceRel st0
        else
          match eval env (eatchar next (ophead.getD type NUL)).2 WHOLEEXP st0 with
          | none => none
          | some (val1, s, st1) =>
            let r := checkoperand env type val1 forceRel st1
            if r.skip = true ∨
                (r.st.errmsg ≠ none ∧ r.st.dependant = false ∧ r.forceRel = false) then
              opcodeLoop env next oldstate rest r.val r.forceRel r.st
            else
              match matchtail type s with
              | none => opcodeLoop env next oldstate rest r.val r.forceRel r.st
              | some s1 => some (emitop env next op0 type r.val s1 r.st)
      else
        match matchtail type next with
        | none => opcodeLoop env next oldstate rest val forceRel st0
        | some s1 => some (emitop env next op0 type val s1 st0)
  | _, _, _, st => some (opfail env next st)

/-- The gate counters `allowunstable` and `allowhunstable`. -/
structure Gates where
  allowunstable : Int
  allowhunstable : Int
  deriving DecidableEq, Repr

/-- The directive `UNSTABLE`. -/
def unstable (g : Gates) : Gates :=
  { g with allowunstable := wrap32 (g.allowunstable + 1) }

/-- The directive `HUNSTABLE`. -/
def hunstable (g : Gates) : Gates :=
  { allowunstable := wrap32 (g.allowunstable + 1)
    allowhunstable := wrap32 (g.allowhunstable + 1) }

/-- The two calls of `fatal_error` in `opcode`. -/
inductive Fatal
  | UnstableUsed (name : List Char)
  | HUnstableUsed (name : List Char)
  deriving DecidableEq, Repr

/-- The outcome of `opcode`: the program is ended by `fatal_error`, or the
function returns. -/
inductive OpResult
  | fatal (f : Fatal)
  | done (e : Emit)
  deriving DecidableEq, Repr

/-- `opcode(id, next)`, with `name` and `line` the fields `(*id).name` and
`(*id).line` of the reserved word. -/
def opcode (g : Gates) (name : List Char) (line : List Nat) (env : Env) (next : List Char)
    (st : EvalSt) : Option OpResult :=
  if g.allowunstable = 0 ∧ unstablelist.any (fun u => strcmp name u.toList = 0) = true then
    some (.fatal (.UnstableUsed name))
  else if g.allowhunstable = 0 ∧ strcmp name "XAA".toList = 0 then
    some (.fatal (.HUnstableUsed name))
  else (opcodeLoop env next st.needanotherpass line 0 false st).map .done

/-- The two gate directives. -/
inductive GateDir
  | UNSTABLE
  | HUNSTABLE
  deriving DecidableEq, Repr

/-- The gate counters when the program starts. -/
def gates0 : Gates := { allowunstable := 0, allowhunstable := 0 }

/-- The gate directives executed so far, in order. -/
def rungates : List GateDir → Gates → Gates
  | [], g => g
  | .UNSTABLE :: ds, g => rungates ds (unstable g)
  | .HUNSTABLE :: ds, g => rungates ds (hunstable g)

/-- A text of blanks only (the characters of `whitesp`). -/
def blank (s : List Char) : Prop := ∀ c ∈ s, c ∈ whitesp

/-- A second small label list: the labels `lbl` and `forward` at `$8000`, `x`
at `$1234` and `a` at `$10`, all global. -/
def sampleTable2 : Table :=
  (insertall
    [{ scope := 2, pass := 1, word := "lbl".toList, fresh := mklabel "lbl" 32768 0 },
     { scope := 3, pass := 1, word := "forward".toList, fresh := mklabel "forward" 32768 0 },
     { scope := 4, pass := 1, word := "x".toList, fresh := mklabel "x" 4660 0 },
     { scope := 5, pass := 1, word := "a".toList, fresh := mklabel "a" 16 0 }]
    initTable).getD initTable

/-- An assembly state around `sampleTable2` with the PC at `addr`. -/
def sampleEnv2 (addr : Int) (lastchance : Bool) : Env :=
  { tbl := sampleTable2, scope := 5, pass := 2, addr := addr, lastchance := lastchance }

/-- The candidates the loop of `opcode` can reach in a table: the pairs before
the first opcode byte that is 255. -/
def candidatesOf : List Nat → List (Nat × Nat)
  | b :: t :: rest => if b = 255 then [] else (b, t) :: candidatesOf rest
  | _ => []

/-- An operand text in the syntax of each mode, and the operand bytes it
encodes to when the PC is `$8010`: the byte `$10`, the word `$1234`, or the
branch target `$8000`. -/
def sampleOperand (type : Nat) : String × List Nat :=
  if type = ACC then (" A", [])
  else if type = IMM then (" #$10", [0x10])
  else if type = IND then (" ($1234)", [0x34, 0x12])
  else if type = INDX then (" ($10,X)", [0x10])
  else if type = INDY then (" ($10),Y", [0x10])
  else if type = ZPX then (" $10,X", [0x10])
  else if type = ZPY then (" $10,Y", [0x10])
  else if type = ABSX then (" $1234,X", [0x34, 0x12])
  else if type = ABSY then (" $1234,Y", [0x34, 0x12])
  else if type = ZP then (" $10", [0x10])
  else if type = ABS then (" $1234", [0x34, 0x12])
  else if type = REL then (" $8000", [0xee])
  else ("", [])

/-- The bytes an outcome of `opcode` emitted, if it returned. -/
def emitted (r : Option OpResult) : Option (List Nat) :=
  match r with
  | some (.done e) => some e.bytes
  | _ => none

/-- The text `next` after a mnemonic is a plain operand of value `v`: an
expression that `eval` resolves to `v` without error, followed by blanks only,
that does not open with `#` or `(` and is not the register name `A`.  `old` is
`needanotherpass` on entry and `st1` the globals `eval` leaves. -/
def PlainOperand (env : Env) (old : Bool) (next : List Char) (v : Int) (st1 : EvalSt) : Prop :=
  (∃ s, eval env next WHOLEEXP ⟨none, false, old⟩ = some (v, s, st1) ∧ blank s) ∧
    st1.errmsg = none ∧ st1.dependant = false ∧
    (eatchar next '#').1 = false ∧ (eatchar next '(').1 = false ∧ matchtail ACC next = none

/-- The opcode byte of the first candidate of mode `target` in a table, provided
every candidate before it is of a mode that a plain operand cannot match: a mode
with an opening character, an indexed mode, the accumulator, or (for
`target = ABS`) the zero page. -/
def selects (target : Nat) : List Nat → Option Nat
  | b :: t :: rest =>
    if b = 255 then none
    else if t = target then some b
    else if t ∈ [ACC, IMM, IND, INDX, INDY, ZPX, ZPY, ABSX, ABSY] ∨ (t = ZP ∧ target = ABS) then
      selects target rest
    else none
  | _ => none

/-! ## Defining labels -/

/-- The place in the chain of the label that the scope walk of `findlabel`
returns (`i` is the place of the head of the list in the chain). -/
def scopeidx (scope : Int) : List label → Nat → Option Nat → Option Nat
  | [], _, global => global
  | p :: rest, i, global =>
    let global1 := if p.scope = 0 then some i else global
    if p.scope = scope then some i else scopeidx scope rest (i + 1) global1

/-- The place in the chain of the label that the walk of `findlabel` for a
forward label returns. -/
def fwdidx (scope pass : Int) : List label → Nat → Option Nat → Option Nat
  | [], _, global => global
  | p :: rest, i, global =>
    if p.pass ≠ pass then
      let global1 := if p.scope = 0 then some i else global
      if p.scope = scope then some i else fwdidx scope pass rest (i + 1) global1
    else fwdidx scope pass rest (i + 1) global

/-- The pointer `findlabel` returned, as a place in the chain at `findindex`
(`t` is the table as `findlabel` left it). -/
def foundidx (t : Table) (scope pass : Int) (name : List Char) : Option Nat :=
  if t.findcmp ≠ 0 then none
  else if cur name = '+' then fwdidx scope pass (slotAt t.labellist t.findindex) 0 none
  else scopeidx scope (slotAt t.labellist t.findindex) 0 none

/-- The globals read and written by `addlabel` (`labelhere` and `lastlabel`,
which point to the label, are left out). -/
structure Asm where
  tbl : Table
  scope : Int
  nextscope : Int
  pass : Int
  addr : Int
  filepos : Int
  nonl : Int
  lastchance : Bool
  errmsg : Option ErrMsg
  needanotherpass : Bool
  deriving DecidableEq, Repr

/-- The branch of `addlabel` for a label found in the list, `q` (`c` is the
first character of the word): the label as it is stored back and the globals
`errmsg` and `needanotherpass`. -/
def oldlabel (g : Asm) (c : Char) (q : label) : label × Option ErrMsg × Bool :=
  if q.pass = g.pass ∧ c ≠ '-' then
    if q.type = .VALUE then (q, g.errmsg, g.needanotherpass)
    else (q, some .LabelDefined, g.needanotherpass)
  else
    let q1 := { q with pass := g.pass }
    if q.type = .LABEL then
      let moved := q.value ≠ g.addr ∧ c ≠ '-'
      let nap := if moved then true else g.needanotherpass
      let e1 := if moved ∧ g.lastchance = true then some ErrMsg.BadAddr else g.errmsg
      let e2 := if g.lastchance = true ∧ g.addr < 0 then some ErrMsg.BadAddr else e1
      ({ q1 with value := g.addr, pos := g.filepos, line := decide (g.addr ≥ 0) }, e2, nap)
    else (q1, g.errmsg, g.needanotherpass)

/-- `addlabel(word, local)`. -/
def addlabel (g : Asm) (word : List Char) (loc : Bool) : Option Asm :=
  let c := cur word
  match findlabel g.tbl g.scope g.pass word with
  | none => none
  | some (_, t1) =>
    let chain := slotAt t1.labellist t1.findindex
    let p0 : Option (Nat × label) :=
      match foundidx t1 g.scope g.pass word with
      | none => none
      | some i => (chain.get? i).map (fun q => (i, q))
    let p : Option (Nat × label) :=
      match p0 with
      | some (i, q) => if loc = true ∧ q.scope = 0 ∧ q.type ≠ .VALUE then none else some (i, q)
      | none => none
    let g1 : Asm :=
      if c ≠ LOCALCHAR ∧ loc = false then
        { g with scope := g.nextscope, nextscope := wrap32 (g.nextscope + 1) }
      else g
    match p with
    | none =>
      let fresh : label :=
        { name := word, value := g1.addr, pos := g1.filepos, line := decide (g1.addr ≥ 0),
          type := .LABEL, used := 0, pass := g1.pass,
          scope := if c = LOCALCHAR ∨ loc = true then g1.scope else 0, ignorenl := g1.nonl }
      some { g1 with tbl := newlabel t1 fresh }
    | some (i, q) =>
      let r := oldlabel g1 c q
      some { g1 with tbl := { t1 with labellist :=
                                t1.labellist.set t1.findindex.toNat (chain.set i r.1) }
                     errmsg := r.2.1
                     needanotherpass := r.2.2 }

/-- The globals at the start of the first pass, over the small label list. -/
def sampleAsm : Asm :=
  { tbl := sampleTable, scope := 1, nextscope := 2, pass := 0, addr := 0, filepos := 0,
    nonl := 0, lastchance := false, errmsg := none, needanotherpass := false }

/-! ## Data directives -/

/-- Value of `*start` for `byte *start`: the bytes of the line are unsigned. -/
def byteOf (c : Char) : Int := ((c.toNat % 256 : Nat) : Int)

/-- The loop of `db` that looks for the closing quote,
`do { c=*s; s++; if(!c) errmsg=IncompleteExp; if(c=='\\') s++; } while(!errmsg && c!=quote);`
the result is `s` and the globals when the loop is left. -/
def dbscan (quote : Char) : Nat → List Char → EvalSt → Option (List Char × EvalSt)
  | 0, _, _ => none
  | fuel + 1, s, st =>
    let c := cur s
    let s1 := s.tail
    let st1 : EvalSt := if c = NUL then { st with errmsg := some .IncompleteExp } else st
    let s2 := if c = '\\' then s1.tail else s1
    if st1.errmsg = none ∧ c ≠ quote then dbscan quote fuel s2 st1 else some (s2, st1)

/-- The loop `while(start!=s)` of `db` over the characters between the quotes:
one byte for each, the character after a backslash taken as it is.  `none`: a
backslash is the last character, and the loop runs past `s`.  (`db` reaches its
calls of `output_le` with `errmsg` clear.) -/
def dbchars (val2 : Int) : List Char → Int × List Nat → Option (Int × List Nat)
  | [], o => some o
  | c :: rest, o =>
    if c = '\\' then
      match rest with
      | [] => none
      | d :: rest1 => dbchars val2 rest1 (output_le none (wrap32 (byteOf d + val2)) 1 o)
    else dbchars val2 rest (output_le none (wrap32 (byteOf c + val2)) 1 o)

/-- One turn of the `do` loop of `db`, up to the test of its `while`.  The
closing quote of a string is overwritten by `0` and the text from there on is
evaluated as an expression that is added to every character. -/
def dbitem (env : Env) (e : Emit) : Option Emit :=
  let s := e.next.drop (strspn e.next whitesp)
  let quote := cur s
  if quote = '"' ∨ quote = '\'' then
    match dbscan quote (s.length + 1) s.tail e.st with
    | none => none
    | some (s2, st1) =>
      if st1.errmsg ≠ none then some { e with next := s, st := st1 }
      else
        let body := s.tail.take (s.tail.length - s2.length - 1)
        match eval { env with addr := e.addr } ('0' :: s2) WHOLEEXP st1 with
        | none => none
        | some (val2, next1, st2) =>
          if st2.errmsg ≠ none then some { e with next := next1, st := st2 }
          else
            match dbchars val2 body (e.addr, e.bytes) with
            | none => none
            | some o => some { bytes := o.2, next := next1, addr := o.1, st := st2 }
  else
    match eval { env with addr := e.addr } s WHOLEEXP e.st with
    | none => none
    | some (val, next1, st1) =>
      if st1.errmsg = none then
        if val > 255 ∨ val < -128 then
          some { e with next := next1, st := { st1 with errmsg := some .OutOfRange } }
        else
          let o := output_le st1.errmsg val 1 (e.addr, e.bytes)
          some { bytes := o.2, next := next1, addr := o.1, st := st1 }
      else some { e with next := next1, st := st1 }

/-- The test `while(!errmsg && eatchar(next,','))` that ends each turn of the
loops of `db` and `dw`: whether the loop goes on, and the text left. -/
def morevalues (e : Emit) : Bool × Emit :=
  if e.st.errmsg = none then
    ((eatchar e.next ',').1, { e with next := (eatchar e.next ',').2 })
  else (false, e)

/-- The `do ... while` loop of `db`. -/
def dbloop (env : Env) : Nat → Emit → Option Emit
  | 0, _ => none
  | fuel + 1, e =>
    match dbitem env e with
    | none => none
    | some e1 =>
      if (morevalues e1).1 = true then dbloop env fuel (morevalues e1).2
      else some (morevalues e1).2

/-- `db(id, next)`: `e` holds the text of the operands, the PC, the bytes
written so far and the globals of the evaluator. -/
def db (env : Env) (e : Emit) : Option Emit := dbloop env (e.next.length + 1) e

/-- One turn of the `do` loop of `dw`. -/
def dwitem (env : Env) (e : Emit) : Option Emit :=
  match eval { env with addr := e.addr } e.next WHOLEEXP e.st with
  | none => none
  | some (val, next1, st1) =>
    if st1.errmsg = none then
      if val > 65535 ∨ val < -65536 then
        some { e with next := next1, st := { st1 with errmsg := some .OutOfRange } }
      else
        let o := output_le st1.errmsg val 2 (e.addr, e.bytes)
        some { bytes := o.2, next := next1, addr := o.1, st := st1 }
    else some { e with next := next1, st := st1 }

/-- The `do ... while` loop of `dw`. -/
def dwloop (env : Env) : Nat → Emit → Option Emit
  | 0, _ => none
  | fuel + 1, e =>
    match dwitem env e with
    | none => none
    | some e1 =>
      if (morevalues e1).1 = true then dwloop env fuel (morevalues e1).2
      else some (morevalues e1).2

/-- `dw(id, next)`. -/
def dw (env : Env) (e : Emit) : Option Emit := dwloop env (e.next.length + 1) e

/-- The loops `while(count--) output_le(val,size,...)` for a count that is not
negative.  (`dsw` and `filler` return before the loop when `errmsg` is set.) -/
def fillloop (val size : Int) : Nat → Int × List Nat → Int × List Nat
  | 0, o => o
  | n + 1, o => fillloop val size n (output_le none val size o)

/-- The optional operand `, val` of `dsw` and `filler`. -/
def fillvalue (env : Env) (defaultfiller : Int) (next : List Char) (st : EvalSt) :
    Option (Int × List Char × EvalSt) :=
  if (eatchar next ',').1 = true then eval env (eatchar next ',').2 WHOLEEXP st
  else some (defaultfiller, (eatchar next ',').2, st)

/-- `dsw(id, next)`.  `none` also stands for a negative count that reaches the
loop (the value depends on an unknown label): `while(count--)` then does not
stop at zero. -/
def dsw (env : Env) (defaultfiller : Int) (e : Emit) : Option Emit :=
  match eval { env with addr := e.addr } e.next WHOLEEXP { e.st with dependant := false } with
  | none => none
  | some (count0, next1, st1) =>
    let count :=
      if st1.dependant = true ∨ (count0 < 0 ∧ st1.needanotherpass = true) then 0 else count0
    match fillvalue { env with addr := e.addr } defaultfiller next1 st1 with
    | none => none
    | some (val, next2, st2) =>
      let st3 : EvalSt :=
        if st2.errmsg = none ∧ st2.dependant = false ∧
            (val > 65535 ∨ val < -32768 ∨ count < 0) then
          { st2 with errmsg := some .OutOfRange }
        else st2
      if st3.errmsg ≠ none then some { e with next := next2, st := st3 }
      else if count < 0 then none
      else
        let o := fillloop val 2 count.toNat (e.addr, e.bytes)
        some { bytes := o.2, next := next2, addr := o.1, st := st3 }

/-- `filler(count, next)`; `e.st` holds the globals as the evaluation of the
count left them.  `none` as for `dsw`. -/
def filler (env : Env) (defaultfiller : Int) (count0 : Int) (e : Emit) : Option Emit :=
  let count :=
    if e.st.dependant = true ∨ (count0 < 0 ∧ e.st.needanotherpass = true) then 0 else count0
  match fillvalue { env with addr := e.addr } defaultfiller e.next e.st with
  | none => none
  | some (val, next2, st2) =>
    let st3 : EvalSt :=
      if st2.errmsg = none ∧ st2.dependant = false ∧
          (val > 255 ∨ val < -128 ∨ count < 0 ∨ count > 1048576) then
        { st2 with errmsg := some .OutOfRange }
      else st2
    if st3.errmsg ≠ none then some { e with next := next2, st := st3 }
    else if count < 0 then none
    else
      let o := fillloop val 1 count.toNat (e.addr, e.bytes)
      some { bytes := o.2, next := next2, addr := o.1, st := st3 }

/-- `dsb(id, next)`. -/
def dsb (env : Env) (defaultfiller : Int) (e : Emit) : Option Emit :=
  match eval { env with addr := e.addr } e.next WHOLEEXP { e.st with dependant := false } with
  | none => none
  | some (count, next1, st1) => filler env defaultfiller count { e with next := next1, st := st1 }

/-- `fillval(id, next)`: the new value of `defaultfiller`, the text left and the
globals. -/
def fillval (env : Env) (next : List Char) (st : EvalSt) : Option (Int × List Char × EvalSt) :=
  eval env next WHOLEEXP { st with dependant := false }

def DEFAULTFILLER : Int := 0

def NOORIGIN : Int := -1073741824

/-- `base(id, next)`: the new PC, the text left and the globals. -/
def base (env : Env) (next : List Char) (st : EvalSt) : Option (Int × List Char × EvalSt) :=
  match eval env next WHOLEEXP { st with dependant := false } with
  | none => none
  | some (val, next1, st1) =>
    some (if st1.dependant = false ∧ st1.errmsg = none then val else NOORIGIN, next1, st1)

/-- The part of `pad(id, next)` that `org` reaches (the PC is not negative). -/
def pad (env : Env) (defaultfiller : Int) (e : Emit) : Option Emit :=
  match eval { env with addr := e.addr } e.next WHOLEEXP { e.st with dependant := false } with
  | none => none
  | some (val, next1, st1) =>
    filler env defaultfiller (wrap32 (val - e.addr)) { e with next := next1, st := st1 }

/-- `org(id, next)`. -/
def org (env : Env) (defaultfiller : Int) (e : Emit) : Option Emit :=
  if e.addr < 0 then
    match base { env with addr := e.addr } e.next e.st with
    | none => none
    | some (a, next1, st1) => some { e with addr := a, next := next1, st := st1 }
  else pad env defaultfiller e

/-- The data directives. -/
inductive DataDir
  | ORG | DB | DW | DSB | DSW | FILLVALUE
  deriving DecidableEq, Repr

/-- The PC, the bytes written in this pass, the globals of the evaluator and
`defaultfiller`. -/
structure DataSt where
  bytes : List Nat
  addr : Int
  st : EvalSt
  defaultfiller : Int
  deriving DecidableEq, Repr

/-- A source line that holds a data directive and its operands: `processline`
clears `errmsg` and calls the directive. -/
def dataline (env : Env) (d : DataDir) (text : List Char) (s : DataSt) : Option DataSt :=
  let e : Emit := { bytes := s.bytes, next := text, addr := s.addr,
                    st := { s.st with errmsg := none } }
  let back : Option Emit → Option DataSt := fun r =>
    r.map (fun e1 => { s with bytes := e1.bytes, addr := e1.addr, st := e1.st })
  match d with
  | .ORG => back (org env s.defaultfiller e)
  | .DB => back (db env e)
  | .DW => back (dw env e)
  | .DSB => back (dsb env s.defaultfiller e)
  | .DSW => back (dsw env s.defaultfiller e)
  | .FILLVALUE =>
    (fillval { env with addr := s.addr } text e.st).map
      (fun r => { s with defaultfiller := r.1, st := r.2.2 })

/-- Source lines assembled in turn. -/
def datalines (env : Env) : List (DataDir × String) → DataSt → Option DataSt
  | [], s => some s
  | (d, text) :: rest, s =>
    match dataline env d text.toList s with
    | none => none
    | some s1 => datalines env rest s1

/-- The globals at the start of a pass (the main loop of `main`). -/
def passbegin : DataSt :=
  { bytes := [], addr := NOORIGIN, st := clearSt, defaultfiller := DEFAULTFILLER }

/-- An operand of a data directive that is a resolved expression of value `v`:
the text `w` does not open with a blank, and wherever the PC is, `eval` returns
`v` for it and leaves the globals alone and the pointer at the end of the line
or at the comma that follows. -/
def DataValue (env : Env) (st : EvalSt) (w : List Char) (v : Int) : Prop :=
  cur w ∉ whitesp ∧
    ∀ addr rest, (rest = [] ∨ cur rest = ',') →
      eval { env with addr := addr } (w ++ rest) WHOLEEXP st = some (v, rest, st)

/-- An operand of `db` as the specification describes it: an expression `w` of
value `v`, or the characters `cs` between two quotes `q`; `lead` is the blank
text before it. -/
inductive DbItem
  | value (lead w : List Char) (v : Int)
  | string (lead : List Char) (q : Char) (cs : List Char)

/-- The source text of an operand. -/
def DbItem.text : DbItem → List Char
  | .value lead w _ => lead ++ w
  | .string lead q cs => lead ++ q :: (cs ++ [q])

/-- The bytes the specification gives for an operand: `value & 0xff` for an
expression, and one byte for each character of a string, in order. -/
def DbItem.bytes : DbItem → List Nat
  | .value _ _ v => [(and32 v 255).toNat]
  | .string _ _ cs => cs.map (fun c => c.toNat % 256)

/-- The operands the specification speaks of: resolved expressions with a value
in [-128, 255] that do not open with a quote, and strings without a quote, a
backslash or a NUL between their quotes. -/
def DbItem.ok (env : Env) (st : EvalSt) : DbItem → Prop
  | .value lead w v =>
    blank lead ∧ DataValue env st w v ∧ cur w ≠ '"' ∧ cur w ≠ '\'' ∧ -128 ≤ v ∧ v ≤ 255
  | .string lead q cs =>
    blank lead ∧ (q = '"' ∨ q = '\'') ∧ ∀ c ∈ cs, c ≠ q ∧ c ≠ '\\' ∧ c ≠ NUL

/-- The text of operands that are each followed by a comma, before `tail`. -/
def dbtext : List DbItem → List Char → List Char
  | [], tail => tail
  | i :: rest, tail => i.text ++ ',' :: dbtext rest tail

/-- The bytes of a list of operands. -/
def dbbytes : List DbItem → List Nat
  | [] => []
  | i :: rest => i.bytes ++ dbbytes rest

/-- The text of operands of `dw`, each a text with its value, that are each
followed by a comma, before `tail`. -/
def dwtext : List (List Char × Int) → List Char → List Char
  | [], tail => tail
  | p :: rest, tail => p.1 ++ ',' :: dwtext rest tail

/-- The two bytes the specification gives for a 16-bit value: `v & 0xff`, then
`(v >> 8) & 0xff`. -/
def lebytes (v : Int) : List Nat := [(and32 v 255).toNat, (and32 (shr32 v 8) 255).toNat]

/-- The bytes of a list of operands of `dw`. -/
def dwbytes : List (List Char × Int) → List Nat
  | [] => []
  | p :: rest => lebytes p.2 ++ dwbytes rest

/-! ## Output file and patch hunks -/

namespace Out

/-- `ips_hunk` without its `next` field (the list of hunks is a `List`);
`contents = none` is the null pointer of a run-length hunk.  The byte
`rle_content`, which a literal hunk leaves unset, is 0 there. -/
structure ips_hunk where
  offset : Int
  length : Int
  contents : Option (List Nat)
  rle_content : Nat
  suppress : Int
  deriving DecidableEq, Repr

def BUFFSIZE : Nat := 8192

def IPS_RLE_EXTRACT : Nat := 32

def HEADERSIZE : Nat := 16

/-- The globals of the output functions.  `oldpass` is the static variable of
`output_file`; `outputfile` tells whether the stream is open, `file` and `ftell`
are the contents and the position of the file behind it, and `fopen_ok` tells
whether `fopen` will succeed; `outputbuff` holds the `outcount` bytes of the
buffer; `hunks` is the list at `ips_hunk_head`; `ineshdr` stands for the header
bytes that `output_file` computes from the iNES globals.  Writes to the file are
taken to succeed, and no code/data log is written (`gencdl` is 0). -/
structure Globals where
  pass : Int
  oldpass : Int
  addr : Int
  filepos : Int
  filesize : Int
  ips_outpos : Int
  nooutput : Bool
  genips : Bool
  outputfile : Bool
  fopen_ok : Bool
  file : List Nat
  ftell : Int
  outputbuff : List Nat
  hunks : List ips_hunk
  comparefiller : Bool
  defaultfiller : Int
  ines_include : Bool
  ineshdr : List Nat
  errmsg : Option ErrMsg
  deriving DecidableEq, Repr

/-- `fwrite` of `bytes` at position `pos` of a file (a gap is filled with 0). -/
def fwrite (file : List Nat) (pos : Nat) (bytes : List Nat) : List Nat :=
  file.take pos ++ List.replicate (pos - file.length) 0 ++ bytes ++
    file.drop (pos + bytes.length)

/-- `malloc_ips_hunk_regular(offset, p, count)`. -/
def malloc_ips_hunk_regular (offset : Int) (p : List Nat) (count : Nat) : ips_hunk :=
  { offset := offset, length := count, contents := some (p.take count), rle_content := 0,
    suppress := 0 }

/-- `malloc_ips_hunk_rle(offset, b, count)`. -/
def malloc_ips_hunk_rle (offset : Int) (b : Nat) (count : Nat) : ips_hunk :=
  { offset := offset, length := count, contents := none, rle_content := b, suppress := 0 }

/-- The `for` loop of `flush_output_ips` from index `i` on: the hunks appended.
`hs`, `rs` and `cmp` are `hunk_start`, `rle_start` and `rle_cmp`. -/
def ipsloop (buf : List Nat) (outpos : Int) :
    Nat → Nat → Nat → Nat → Nat → List ips_hunk
  | 0, _, _, _, _ => []
  | fuel + 1, i, hs, rs, cmp =>
    if i ≤ buf.length then
      let b : Int := if i = buf.length then -1 else (buf.getD i 0 : Nat)
      if b ≠ (cmp : Int) then
        if i - rs ≥ IPS_RLE_EXTRACT then
          (if rs > hs then [malloc_ips_hunk_regular (outpos + hs) (buf.drop hs) (rs - hs)]
           else []) ++
            malloc_ips_hunk_rle (outpos + rs) cmp (i - rs) ::
              ipsloop buf outpos fuel (i + 1) i i (b % 256).toNat
        else if b = -1 then
          [malloc_ips_hunk_regular (outpos + hs) (buf.drop hs) (i - hs)]
        else ipsloop buf outpos fuel (i + 1) hs i (b % 256).toNat
      else ipsloop buf outpos fuel (i + 1) hs rs cmp
    else []

/-- The hunks that `flush_output_ips` appends for the buffer `buf` at `outpos`. -/
def chunks (buf : List Nat) (outpos : Int) : List ips_hunk :=
  if buf.length = 0 then []
  else if buf.length ≤ 3 then [malloc_ips_hunk_regular outpos buf buf.length]
  else ipsloop buf outpos (buf.length + 2) 0 0 0 (buf.getD 0 0)

/-- `flush_output_ips()`. -/
def flush_output_ips (g : Globals) : Globals :=
  { g with hunks := g.hunks ++ chunks g.outputbuff g.ips_outpos
           ips_outpos := wrap32 (g.ips_outpos + g.outputbuff.length) }

/-- `flush_output(force)`. -/
def flush_output (g : Globals) (force : Bool) : Globals :=
  if g.outputbuff.length ≥ BUFFSIZE ∨ force = true ∨
      (g.genips = true ∧ g.outputbuff.length ≥ 65535) then
    let g1 := if g.genips = true then flush_output_ips g else g
    let g2 :=
      if g1.outputfile = true then
        { g1 with file := fwrite g1.file g1.ftell.toNat g1.outputbuff
                  ftell := g1.ftell + g1.outputbuff.length }
      else g1
    { g2 with outputbuff := [] }
  else g

/-- The loop of `ips_get_cmp_value(location)`; `value` is the local of that
name. -/
def cmploop (location : Int) : List ips_hunk → Int → Int
  | [], value => value
  | h :: rest, value =>
    if h.offset ≤ location ∧ location < h.offset + h.length then
      match h.contents with
      | some c => cmploop location rest (c.getD (location - h.offset).toNat 0 : Nat)
      | none => cmploop location rest (h.rle_content : Nat)
    else cmploop location rest value

/-- `ips_get_cmp_value(location)`. -/
def ips_get_cmp_value (hunks : List ips_hunk) (location : Int) : Int :=
  cmploop location hunks (-1)

/-- `get_cmp_value(location)`; the byte read from the file is taken as the
value of `b`. -/
def get_cmp_value (g : Globals) (location : Int) : Int :=
  if g.genips = true then ips_get_cmp_value g.hunks location
  else if 0 ≤ location ∧ location.toNat < g.file.length then (g.file.getD location.toNat 0 : Nat)
  else -1

/-- `output_buffer(p, count)` from index `i` on; the list holds the bytes
`p[i]`, ..., `p[count-1]`. -/
def output_buffer : List Nat → Nat → Globals → Globals
  | [], _, g => g
  | x :: rest, i, g =>
    if g.comparefiller = true ∧ get_cmp_value g (g.filepos + i) ≠ g.defaultfiller ∧
        get_cmp_value g (g.filepos + i) ≥ 0 then
      { g with errmsg := some (.CompFailed (g.filepos + g.outputbuff.length)
                                (get_cmp_value g (g.filepos + i))) }
    else
      let g1 := flush_output { g with outputbuff := g.outputbuff ++ [x] } false
      if g1.errmsg ≠ none then g1 else output_buffer rest (i + 1) g1

/-- `ips_clear()`. -/
def ips_clear (g : Globals) : Globals := { flush_output g true with hunks := [] }

/-- `output_file()`. -/
def output_file (g : Globals) : Globals :=
  if g.nooutput = true then g
  else if g.oldpass ≠ g.pass then
    let g1 := { g with oldpass := g.pass }
    let g2 := if g1.genips = true then { ips_clear g1 with ips_outpos := 0 } else g1
    let g3 := { g2 with outputfile := g2.fopen_ok
                        file := if g2.fopen_ok = true then [] else g2.file
                        ftell := 0
                        outputbuff := [] }
    if g3.outputfile = false then { g3 with errmsg := some .CantCreateFile }
    else if g3.ines_include = true then
      { output_buffer (g3.ineshdr.take HEADERSIZE) 0 g3 with
        filepos := HEADERSIZE, filesize := HEADERSIZE }
    else g3
  else g

/-- The loop `while(size--) { ...; filepos++; if (filepos > filesize) filesize =
filepos; }` of `output`. -/
def advance : Nat → Globals → Globals
  | 0, g => g
  | n + 1, g =>
    let fp := wrap32 (g.filepos + 1)
    advance n { g with filepos := fp, filesize := if fp > g.filesize then fp else g.filesize }

/-- `output(p, size, cdlflag)` for `size >= 0`. -/
def output (g : Globals) (p : List Nat) (size : Int) : Globals :=
  let g1 := output_file g
  let g2 := { g1 with addr := wrap32 (g1.addr + size) }
  if g2.nooutput = true then g2
  else if g2.outputfile = false ∧ g2.genips = false then g2
  else advance size.toNat (output_buffer (p.take size.toNat) 0 g2)

/-- `output_le(n, size, cdlflag)`. -/
def output_le (g : Globals) (n : Int) (size : Int) : Globals :=
  output g [(n % 256).toNat, (shr32 n 8 % 256).toNat] size

/-- The loop `while (filepos < pos) output(&padbyte, 1, NONE);` of
`output_seek`. -/
def padloop (padbyte : Nat) (pos : Int) : Nat → Globals → Globals
  | 0, g => g
  | fuel + 1, g => if g.filepos < pos then padloop padbyte pos fuel (output g [padbyte] 1) else g

/-- `fseek(outputfile, pos, SEEK_SET)`: a negative position is refused. -/
def fseek (g : Globals) (pos : Int) : Globals := if 0 ≤ pos then { g with ftell := pos } else g

/-- `output_seek(pos)`. -/
def output_seek (g : Globals) (pos : Int) : Globals :=
  let padbyte := (g.defaultfiller % 256).toNat
  let prevaddr := g.addr
  if g.nooutput = true then { g with errmsg := some .CantSeekEnum }
  else
    let g1 := flush_output (output_file g) true
    let g2 :=
      if g1.outputfile = true then
        let g3 :=
          if pos > g1.filesize then
            padloop padbyte pos (pos - g1.filesize).toNat
              (fseek { g1 with filepos := g1.filesize, ips_outpos := g1.filesize } g1.filesize)
          else if pos < g1.filesize then fseek { g1 with filepos := pos } pos
          else g1
        if g3.filepos ≠ g3.ftell then { g3 with errmsg := some .CantSeek } else g3
      else g1
    { g2 with filepos := pos, ips_outpos := pos, addr := prevaddr }

/-- `seekabs(id, next)` once the operand is evaluated: `val` is its value and
`ok` is `!dependant && !errmsg`. -/
def seekabs (g : Globals) (val : Int) (ok : Bool) : Globals :=
  if ok = true then output_seek g val else g

/-- `seekrel(id, next)` once the operand is evaluated. -/
def seekrel (g : Globals) (val : Int) (ok : Bool) : Globals :=
  if ok = true then output_seek g (wrap32 (g.filepos + val)) else g

/-- `skiprel(id, next)` once the operand is evaluated. -/
def skiprel (g : Globals) (val : Int) (ok : Bool) : Globals :=
  if ok = true then
    let g1 := output_seek g (wrap32 (g.filepos + val))
    { g1 with addr := wrap32 (g1.addr + val) }
  else { g with addr := NOORIGIN }

/-- `clearpatch(id, next)`. -/
def clearpatch (g : Globals) : Globals :=
  if g.genips = true then
    let g1 := flush_output g true
    { g1 with hunks := g1.hunks.map (fun h => { h with suppress := 1 }) }
  else g

end Out

namespace Out

/-- Globals in patch mode during pass 1, the output file open and empty, the PC
at $8000. -/
def sampleGlobals : Globals :=
  { pass := 1, oldpass := 1, addr := 32768, filepos := 0, filesize := 0, ips_outpos := 0,
    nooutput := false, genips := true, outputfile := true, fopen_ok := true, file := [],
    ftell := 0, outputbuff := [], hunks := [], comparefiller := false, defaultfiller := 0,
    ines_include := false, ineshdr := [], errmsg := none }

end Out

namespace Out

/-- Globals in compare mode with the byte 07 committed at file offset 0 (a
literal hunk), fill value 0, the output buffer empty. -/
def compareGlobals : Globals :=
  { sampleGlobals with comparefiller := true, hunks := [malloc_ips_hunk_regular 0 [7] 1] }

end Out

namespace Out

/-- The globals after `01 02 03 07` is written at file offset 0 and committed by
a seek back to offset 0, and `01 02 03` is written again and still in the
buffer: the file position is 3 and the byte 07 is committed there. -/
def pendingGlobals : Globals :=
  output (seekabs (output sampleGlobals [1, 2, 3, 7] 4) 0 true) [1, 2, 3] 3

end Out

namespace Out

/-- The bytes of a hunk once the next hunk, which starts before it and overlaps
it, has taken `removed` bytes from its left:
`memmove(hunk->contents, hunk->contents + removed, hunk->length)` with the new
length. -/
def shiftleft (c : List Nat) (removed newlen : Int) : List Nat :=
  (c.drop removed.toNat).take newlen.toNat ++ c.drop newlen.toNat

/-- One traversal `ips_simplify_hunk(hunk_ptr)` over the hunks from `*hunk_ptr`
on: the hunks that are left there, and `ips_changed`.  Each turn of the loop at
`tail_recurse` uses one unit of fuel.  In the branch "the next one is totally
contained in this one" the copy `newhunk` is never linked into the list, and the
contents of the hunk are replaced by fresh memory (taken as zeros here) before
the length is cut. -/
def ips_simplify_hunk : Nat → List ips_hunk → Bool → Option (List ips_hunk × Bool)
  | 0, _, _ => none
  | _ + 1, [], changed => some ([], changed)
  | fuel + 1, h :: rest, changed =>
    if h.suppress ≠ 0 ∨ h.length = 0 then ips_simplify_hunk fuel rest true
    else
      match rest with
      | [] => some ([h], changed)
      | n :: rest1 =>
        if n.suppress ≠ 0 then
          (ips_simplify_hunk fuel (n :: rest1) changed).map (fun r => (h :: r.1, r.2))
        else if h.offset ≥ n.offset ∧ h.offset + h.length ≤ n.offset + n.length then
          ips_simplify_hunk fuel (n :: rest1) true
        else if n.offset > h.offset then
          if h.offset + h.length > n.offset then
            ips_simplify_hunk fuel ({ h with length := n.offset - h.offset } :: n :: rest1) true
          else (ips_simplify_hunk fuel (n :: rest1) changed).map (fun r => (h :: r.1, r.2))
        else if n.offset ≥ h.offset ∧ n.offset + n.length ≤ h.offset + h.length then
          let newlen := h.offset + h.length - (n.offset + n.length)
          let h1 : ips_hunk :=
            if n.offset + n.length < h.offset + h.length ∧ h.contents ≠ none then
              { h with contents := some (List.replicate newlen.toNat 0) }
            else h
          ips_simplify_hunk fuel ({ h1 with length := n.offset - h.offset } :: n :: rest1) true
        else if n.offset < h.offset then
          let removed := n.offset + n.length - h.offset
          let h1 : ips_hunk :=
            if n.offset + n.length > h.offset then
              { h with length := h.length - removed
                       contents := h.contents.map
                         (fun c => shiftleft c removed (h.length - removed)) }
            else h
          (ips_simplify_hunk fuel (h1 :: rest1) true).map (fun r => (n :: r.1, r.2))
        else ips_simplify_hunk fuel (h :: n :: rest1) changed

/-- The loop `while (1) { ips_simplify_hunk(&ips_hunk_head); if (!ips_changed)
break; ips_changed = 0; }` of `ips_write`. -/
def simplify : Nat → List ips_hunk → Option (List ips_hunk)
  | 0, _ => none
  | fuel + 1, l =>
    match ips_simplify_hunk (2 * l.length + 2) l false with
    | none => none
    | some (l1, changed) => if changed = true then simplify fuel l1 else some l1

/-- The three bytes of an offset and the two bytes of a count, most significant
first, as the headers of `write_ips_hunk_regular` and `write_ips_hunk_rle` hold
them (`offset` and `count` are converted to `size_t`). -/
def be3 (offset : Int) : List Nat :=
  let o := (offset % 18446744073709551616).toNat
  [o / 65536 % 256, o / 256 % 256, o % 256]

def be2 (count : Int) : List Nat :=
  let c := (count % 18446744073709551616).toNat
  [c / 256 % 256, c % 256]

/-- `write_ips_hunk_regular(f, offset, p, count)`: the bytes written. -/
def write_ips_hunk_regular (offset : Int) (p : List Nat) (count : Int) : List Nat :=
  be3 offset ++ be2 count ++ p.take count.toNat

/-- `write_ips_hunk_rle(f, offset, b, count)`: the bytes written. -/
def write_ips_hunk_rle (offset : Int) (b : Nat) (count : Int) : List Nat :=
  be3 offset ++ [0, 0] ++ be2 count ++ [b]

/-- The loop "write hunks" of `ips_write`. -/
def write_hunks : List ips_hunk → List Nat
  | [] => []
  | h :: rest =>
    if h.suppress ≠ 0 then write_hunks rest
    else
      match h.contents with
      | some c => write_ips_hunk_regular h.offset c h.length ++ write_hunks rest
      | none => write_ips_hunk_rle h.offset h.rle_content h.length ++ write_hunks rest

/-- `ips_write(output)`: the bytes written to the patch file; `fuel` bounds the
number of traversals of the simplification. -/
def ips_write (fuel : Nat) (hunks : List ips_hunk) : Option (List Nat) :=
  (simplify fuel hunks).map
    (fun l => "PATCH".toList.map Char.toNat ++ write_hunks l ++ "EOF".toList.map Char.toNat)

/-- The lines of the patch example: a seek to a resolved position, or data
bytes written one at a time as `db` does (`processline` clears `errmsg` before
each line). -/
inductive PatchLine
  | seekabs (pos : Int)
  | db (bytes : List Nat)
  deriving DecidableEq, Repr

def dbbytes : List Nat → Globals → Globals
  | [], g => g
  | b :: rest, g => dbbytes rest (output_le g b 1)

def patchline (g : Globals) : PatchLine → Globals
  | .seekabs pos => seekabs { g with errmsg := none } pos true
  | .db bytes => dbbytes bytes { g with errmsg := none }

/-- The hunks at the end of a pass over `lines`, after the final
`flush_output(1)` of `main`. -/
def patchhunks (g : Globals) (lines : List PatchLine) : List ips_hunk :=
  (flush_output (lines.foldl patchline g) true).hunks

end Out

namespace Out

/-- Globals at the start of pass 1 in patch mode: nothing is open yet. -/
def passGlobals : Globals := { sampleGlobals with oldpass := 0, outputfile := false }

/-- The source `.seekabs $10 / .db 1,1,1 / .seekabs $20 / .db 2,2,2,2 /
.seekabs $11 / .db 9`. -/
def patchExample : List PatchLine :=
  [.seekabs 16, .db [1, 1, 1], .seekabs 32, .db [2, 2, 2, 2], .seekabs 17, .db [9]]

/-- The value that applying the hunks in list order leaves at `loc` (a later
hunk overrides an earlier one), or `none` where no hunk writes. -/
def image : List ips_hunk → Int → Option Nat
  | [], _ => none
  | h :: rest, loc =>
    match image rest loc with
    | some v => some v
    | none =>
      if h.offset ≤ loc ∧ loc < h.offset + h.length then
        match h.contents with
        | some c => some (c.getD (loc - h.offset).toNat 0)
        | none => some h.rle_content
      else none

end Out

namespace Out

/-- What the specification calls a minimal patch: no hunk is suppressed or of
length 0, and each hunk ends at or before the offset of the next one, which is
greater than its own. -/
def Simplified (l : List ips_hunk) : Prop :=
  (∀ h ∈ l, h.suppress = 0 ∧ h.length ≠ 0) ∧
    l.Chain' (fun h n => h.offset + h.length ≤ n.offset ∧ h.offset < n.offset)

end Out

namespace Out

/-- A record of a patch as the specification describes it: an offset, a length
and the bytes the record puts at the offset. -/
structure Record where
  offset : Int
  length : Int
  bytes : List Nat
  deriving DecidableEq, Repr

/-- The record that a hunk stands for. -/
def record (h : ips_hunk) : Record :=
  { offset := h.offset, length := h.length,
    bytes := match h.contents with
      | some c => c.take h.length.toNat
      | none => List.replicate h.length.toNat h.rle_content }

def PATCH : List Nat := "PATCH".toList.map Char.toNat

def EOF : List Nat := "EOF".toList.map Char.toNat

/-- Reading the records of a patch, written from the description of the
format: three bytes of offset, unless they are `EOF`, which ends the patch; two
bytes of size; then `size` bytes, or for size 0 two bytes of count and the byte
to repeat. -/
def decode_records : Nat → List Nat → Option (List Record)
  | 0, _ => none
  | fuel + 1, a :: b :: c :: s1 :: s2 :: rest =>
    if [a, b, c] = EOF then some []
    else
      let offset : Int := ((a * 65536 + b * 256 + c : Nat) : Int)
      let size := s1 * 256 + s2
      if size = 0 then
        match rest with
        | r1 :: r2 :: v :: rest1 =>
          (decode_records fuel rest1).map
            (fun l => { offset := offset, length := ((r1 * 256 + r2 : Nat) : Int),
                        bytes := List.replicate (r1 * 256 + r2) v } :: l)
        | _ => none
      else if rest.length < size then none
      else
        (decode_records fuel (rest.drop size)).map
          (fun l => { offset := offset, length := (size : Int), bytes := rest.take size } :: l)
  | _ + 1, bytes => if bytes = EOF then some [] else none

/-- Reading a patch: the header `PATCH`, then the records. -/
def decode (stream : List Nat) : Option (List Record) :=
  if stream.take 5 = PATCH then decode_records stream.length (stream.drop 5) else none

/-- A hunk as `malloc_ips_hunk_regular` and `malloc_ips_hunk_rle` make them,
within the limits of the patch format: offset below 2^24, length from 1 to
$FFFF, bytes below 256, as many bytes as the length says. -/
def Encodable (h : ips_hunk) : Prop :=
  h.suppress = 0 ∧ 0 ≤ h.offset ∧ h.offset < 16777216 ∧ 1 ≤ h.length ∧ h.length ≤ 65535 ∧
    h.rle_content < 256 ∧ ∀ c, h.contents = some c → c.length = h.length.toNat

end Out

namespace Out

/-- The hunks tile the range from `lo` up to `hi`: the first starts at `lo`,
each has a positive length and ends where the next starts, the last ends at
`hi`. -/
def Tiles : Int → Int → List ips_hunk → Prop
  | lo, hi, [] => lo = hi
  | lo, hi, h :: rest => h.offset = lo ∧ 0 < h.length ∧ Tiles (lo + h.length) hi rest

/-- The bytes from index `a` up to `b` form a maximal run of equal bytes. -/
def IsMaxRun (buf : List Nat) (a b : Nat) : Prop :=
  a < b ∧ b ≤ buf.length ∧ (∀ j, a ≤ j → j < b → buf.getD j 0 = buf.getD a 0) ∧
    (a = 0 ∨ buf.getD (a - 1) 0 ≠ buf.getD a 0) ∧
    (b = buf.length ∨ buf.getD b 0 ≠ buf.getD a 0)

/-- The bytes that a list of hunks writes, in list order. -/
def hunkbytes (l : List ips_hunk) : List Nat := (l.map (fun h => (record h).bytes)).flatten

end Out

namespace Out

/-- The invariant of the loop of `flush_output_ips` at index `i`: the bytes
from `rle_start` up to `i` equal `rle_cmp` and are the start of a maximal run,
and no maximal run of 32 bytes or more lies between `hunk_start` and
`rle_start`. -/
def LoopInv (buf : List Nat) (i hs rs cmp : Nat) : Prop :=
  hs ≤ rs ∧ rs ≤ i ∧ i ≤ buf.length ∧ cmp < 256 ∧
    (∀ j, rs ≤ j → j < i → buf.getD j 0 = cmp) ∧
    (rs < i ∨ (i < buf.length ∧ buf.getD i 0 = cmp)) ∧
    (rs = 0 ∨ buf.getD (rs - 1) 0 ≠ cmp) ∧
    ∀ a b, IsMaxRun buf a b → hs ≤ a → b ≤ rs → b - a < 32

/-- What the hunks `R` appended from `hunk_start` on have to satisfy: they tile
the rest of the buffer, hold its bytes, and the run-length hunks among them are
exactly the maximal runs of 32 bytes or more. -/
def LoopGood (buf : List Nat) (o : Int) (hs : Nat) (R : List ips_hunk) : Prop :=
  Tiles (o + hs) (o + buf.length) R ∧ hunkbytes R = buf.drop hs ∧
    (∀ h ∈ R, h.contents = none →
      ∃ a b, hs ≤ a ∧ IsMaxRun buf a b ∧ 32 ≤ b - a ∧
        h = malloc_ips_hunk_rle (o + a) (buf.getD a 0) (b - a)) ∧
    ∀ a b, IsMaxRun buf a b → 32 ≤ b - a → hs ≤ a →
      malloc_ips_hunk_rle (o + a) (buf.getD a 0) (b - a) ∈ R

end Out

/-! ## Alignment, the pass driver -/

/-- `align(id, next)`.  `none` also stands for the division by zero that
`(unsigned int)addr%count` is when the count is 0. -/
def align (env : Env) (defaultfiller : Int) (e : Emit) : Option Emit :=
  match eval { env with addr := e.addr } e.next WHOLEEXP { e.st with dependant := false } with
  | none => none
  | some (count0, next1, st1) =>
    if count0 ≥ 0 then
      if count0 = 0 then none
      else
        let r : Int := ((toU32 e.addr % count0.toNat : Nat) : Int)
        filler env defaultfiller (if r ≠ 0 then count0 - r else 0)
          { e with next := next1, st := st1 }
    else filler env defaultfiller 0 { e with next := next1, st := st1 }

def MAXPASSES : Int := 7

/-- The globals of the main assembly loop of `main`; `p` and `lastlabel` point
to labels, given here by a number. -/
structure Driver where
  pass : Int
  lastchance : Bool
  p : Option Nat
  lastlabel : Option Nat
  error : Bool
  needanotherpass : Bool
  deriving DecidableEq, Repr

/-- The body of the `do` loop of `main`; `body` stands for the assembly of the
source by `include`, which is given the globals as the loop has set them. -/
def onepass (body : Driver → Driver) (d : Driver) : Driver :=
  let d1 := { d with pass := wrap32 (d.pass + 1) }
  let d2 := if d1.pass = MAXPASSES ∨ d1.p = d1.lastlabel then { d1 with lastchance := true } else d1
  body { d2 with needanotherpass := false, p := d2.lastlabel }

/-- The main assembly loop, `do { ... } while(!error && !lastchance &&
needanotherpass);`: the globals when it is left and the number of passes run. -/
def mainloop (body : Driver → Driver) : Nat → Driver → Option (Driver × Nat)
  | 0, _ => none
  | fuel + 1, d =>
    let d1 := onepass body d
    if d1.error = false ∧ d1.lastchance = false ∧ d1.needanotherpass = true then
      (mainloop body fuel d1).map (fun r => (r.1, r.2 + 1))
    else some (d1, 1)

/-- The globals when `main` reaches the loop. -/
def driver0 (lastlabel : Option Nat) : Driver :=
  { pass := 0, lastchance := false, p := none, lastlabel := lastlabel, error := false,
    needanotherpass := false }

/-- A source whose every pass defines a new last label and asks for another
pass. -/
def restless (d : Driver) : Driver :=
  { d with needanotherpass := true, lastlabel := some (d.pass.toNat + 100) }

/-- The conditional globals after 31 nested `IF 1` lines. -/
def deepest : Option CondSt :=
  condrun (List.replicate 31 (CondOp.IF sampleEnv ['1'])) cond0

/-! ## Equates: `equ` and `expandline` -/

/-- A label of type `EQUATE` whose `pass` is the current pass: its name, the
text stored by `equ` in `line`, and the flag `used`. -/
structure Equate where
  name : List Char
  line : List Char
  used : Bool
  deriving DecidableEq, Repr

/-- The text `equ` stores in `(*labelhere).line`: the rest of the line with the
white space eaten off both ends (the two calls of `reverse`). -/
def equtext (s : List Char) : List Char :=
  let str := (s.drop (strspn s whitesp)).reverse
  (str.drop (strspn str whitesp)).reverse

/-- `equ` for a name that is new in this pass (`(*labelhere).type == LABEL`):
the equate is stored, or `IncompleteExp` is raised when no text follows. -/
def equ (name s : List Char) (equs : List Equate) : List Equate × Option ErrMsg :=
  if cur (equtext s) ≠ NUL then
    ({ name := name, line := equtext s, used := false } :: equs, none)
  else (equs, some .IncompleteExp)

/-- A decimal digit. -/
def isdigit (c : Char) : Bool := decide ('0'.toNat ≤ c.toNat ∧ c.toNat ≤ '9'.toNat)

/-- The characters `expandline` reads past after the start of a number. -/
def numchar (c : Char) : Bool :=
  isdigit c || decide ('A'.toNat ≤ c.toNat ∧ c.toNat ≤ 'H'.toNat)
    || decide ('a'.toNat ≤ c.toNat ∧ c.toNat ≤ 'h'.toNat)

/-- The characters that start a symbol in `expandline`. -/
def symstart (c : Char) : Bool :=
  decide (c = '_') || decide (c = '.') || decide (c = LOCALCHAR)
    || decide ('A'.toNat ≤ c.toNat ∧ c.toNat ≤ 'Z'.toNat)
    || decide ('a'.toNat ≤ c.toNat ∧ c.toNat ≤ 'z'.toNat)

/-- The characters that continue a symbol in `expandline`. -/
def symchar (c : Char) : Bool := symstart c || isdigit c

/-- `LINEMAX`: the size of the buffer `line` of `processline`, into which
`expandline` writes. -/
def LINEMAX : Nat := 2048

/-- How the inner loop of the quote branch of `expandline` is left: on the
closing quote, on the NUL that ends the text, or not at all, because a
backslash was the last character and `src` has stepped over the NUL. -/
inductive QuoteEnd
  | closed
  | ended
  | pastend
  deriving DecidableEq, Repr

/-- The inner loop of the quote branch of `expandline`, after the opening quote
`q`: the characters copied before the loop is left (the closing quote is one of
them, the NUL is not), the rest of the source, and how the loop is left. -/
def quoted (q : Char) : List Char → List Char × List Char × QuoteEnd
  | [] => ([], [], .ended)
  | [c2] =>
    if c2 = NUL then ([], [], .ended)
    else if c2 = '\\' then ([c2], [], .pastend)
    else if c2 = q then ([c2], [], .closed)
    else ([c2], [], .ended)
  | c2 :: d :: rest =>
    if c2 = NUL then ([], [], .ended)
    else if c2 = '\\' then
      if d = NUL then ([c2], [], .pastend)
      else
        let r := quoted q rest
        (c2 :: d :: r.1, r.2.1, r.2.2)
    else if c2 = q then ([c2], d :: rest, .closed)
    else
      let r := quoted q (d :: rest)
      (c2 :: r.1, r.2.1, r.2.2)

/-- The equates and the global `errmsg`. -/
structure Expand where
  equs : List Equate
  errmsg : Option ErrMsg
  deriving DecidableEq, Repr

/-- What a call of `expandline` comes to: `done text st` when it returns, with
the text it wrote to `dst` and the globals; `overrun` when it leaves its
buffers, which the C code does not check: a write beyond `line[LINEMAX]`, a
word of `WORDMAX` or more characters copied to `upp[WORDMAX]`, or the quote loop
reading on after the NUL that ends its source. -/
inductive Expanded
  | overrun
  | done (text : List Char) (st : Expand)
  deriving DecidableEq, Repr

/-- The text written before the rest of the line was expanded. -/
def Expanded.prepend (t : List Char) : Expanded → Expanded
  | .overrun => .overrun
  | .done text st => .done (t ++ text) st

/-- The label `findlabel` gives for a word, kept when it is an equate of the
current pass: its place in the list. -/
def findequ (equs : List Equate) (word : List Char) : Option Nat :=
  let i := equs.findIdx (fun e => decide (e.name = word))
  if i < equs.length then some i else none

/-- Store the flag `used` of the equate at place `i`. -/
def setused (equs : List Equate) (i : Nat) (b : Bool) : List Equate :=
  match equs.get? i with
  | some e => equs.set i { e with used := b }
  | none => equs

/-- `expandline(dst, src)` with `dst = line + pos`.  `skip` is the local
`def_skip` (0 on entry).  Every write `*dst = ...` at an index of `line` that
is not below `LINEMAX` is an overrun; `strcpy(dst, start)` also writes the NUL
after the word.  One unit of `fuel` is spent by a turn of the outer loop and by
a recursive call; `none` is out of fuel. -/
def expandloop : Nat → List Char → Bool → Nat → Expand → Option Expanded
  | 0, _, _, _, _ => none
  | fuel + 1, src, skip, pos, st =>
    let c := cur src
    if c = '$' ∨ isdigit c = true then
      let num := c :: src.tail.takeWhile numchar
      if pos + num.length > LINEMAX then some .overrun
      else
        (expandloop fuel (src.tail.dropWhile numchar) skip (pos + num.length) st).map
          (Expanded.prepend num)
    else if c = '"' ∨ c = '\'' then
      let r := quoted c src.tail
      match r.2.2 with
      | .pastend => some .overrun
      | .ended =>
        if pos + (r.1.length + 2) > LINEMAX then some .overrun else some (.done (c :: r.1) st)
      | .closed =>
        if pos + (r.1.length + 1) > LINEMAX then some .overrun
        else
          (expandloop fuel r.2.1 skip (pos + (r.1.length + 1)) st).map
            (Expanded.prepend (c :: r.1))
    else if symstart c = true then
      let word := c :: src.tail.takeWhile symchar
      let rest := src.tail.dropWhile symchar
      let name := if c = '.' then word.tail else word
      if skip = false ∧ name.length ≥ WORDMAX then some .overrun
      else
        let isdef : Bool :=
          decide (my_strupr name = "IFDEF".toList ∨ my_strupr name = "IFNDEF".toList)
        let p : Option Nat :=
          if skip = true ∨ isdef = true then none else findequ st.equs word
        let skip1 : Bool := skip || isdef
        match p with
        | none =>
          if pos + (word.length + 1) > LINEMAX then some .overrun
          else
            (expandloop fuel rest skip1 (pos + word.length) st).map (Expanded.prepend word)
        | some i =>
          if (st.equs.get? i).any (fun e => e.used) = true then
            if pos + (word.length + 1) > LINEMAX then some .overrun
            else
              (expandloop fuel rest skip1 (pos + word.length)
                { st with errmsg := some .RecurseEQU }).map (Expanded.prepend word)
          else
            match expandloop fuel ((st.equs.get? i).elim [] (fun e => e.line)) false pos
                { st with equs := setused st.equs i true } with
            | none => none
            | some .overrun => some .overrun
            | some (.done text st1) =>
              (expandloop fuel rest skip1 (pos + text.length)
                { st1 with equs := setused st1.equs i false }).map (Expanded.prepend text)
    else if c = ';' ∨ c = NUL then
      if pos + 1 > LINEMAX then some .overrun else some (.done [] st)
    else if pos + 1 > LINEMAX then some .overrun
    else (expandloop fuel src.tail skip (pos + 1) st).map (Expanded.prepend [c])

/-- Fuel that lets `expandline` finish on `src`: a turn per character of the
line and of each equate text that can be open at once. -/
def expandfuel (equs : List Equate) (src : List Char) : Nat :=
  (equs.length + 1) * ((equs.map (fun e => e.line.length)).foldr max src.length + 1) + 1

/-- `expandline(dst, src)`. -/
def expandline (src : List Char) (st : Expand) : Option Expanded :=
  expandloop (expandfuel st.equs src) src false 0 st

/-- The equates after `FOO equ 1+2`. -/
def fooEquates : List Equate := (equ "FOO".toList " 1+2".toList []).1

/-- Three equates, the last two defined through one another:
`ONE equ 1`, `PING equ PONG+ONE`, `PONG equ PING+1`. -/
def ringEquates : List Equate :=
  (equ "PONG".toList " PING+1".toList
    (equ "PING".toList " PONG+ONE".toList (equ "ONE".toList " 1".toList []).1).1).1

/-- The words `expandline` hands to `findlabel` while it scans `src`, in order
(the scanning of `expandloop`, without the expansion). -/
def symbolsloop : Nat → List Char → Bool → List (List Char)
  | 0, _, _ => []
  | fuel + 1, src, skip =>
    let c := cur src
    if c = '$' ∨ isdigit c = true then symbolsloop fuel (src.tail.dropWhile numchar) skip
    else if c = '"' ∨ c = '\'' then
      let r := quoted c src.tail
      if r.2.2 = .closed then symbolsloop fuel r.2.1 skip else []
    else if symstart c = true then
      let word := c :: src.tail.takeWhile symchar
      let rest := src.tail.dropWhile symchar
      let name := if c = '.' then word.tail else word
      let isdef : Bool :=
        decide (my_strupr name = "IFDEF".toList ∨ my_strupr name = "IFNDEF".toList)
      if skip = true ∨ isdef = true then symbolsloop fuel rest (skip || isdef)
      else word :: symbolsloop fuel rest (skip || isdef)
    else if c = ';' ∨ c = NUL then []
    else symbolsloop fuel src.tail skip

/-- The words of a line that `expandline` looks up. -/
def symbols (src : List Char) : List (List Char) := symbolsloop (src.length + 1) src false

/-- The text holds the name of the equate at place `i`, where `expandline`
looks it up. -/
def refers (equs : List Equate) (text : List Char) (i : Nat) : Bool :=
  (symbols text).any (fun w => decide (findequ equs w = some i))

/-- The text of the equate at place `i`. -/
def linetext (equs : List Equate) (i : Nat) : List Char :=
  (equs.get? i).elim [] (fun e => e.line)

/-- The expansion of `text` runs through the equates `path`, each named in the
text of the one before, and the last of them names an equate that is already
open (one of `seen`, or an earlier one of the path). -/
def reaches (equs : List Equate) : List Char → List Nat → List Nat → Bool
  | text, seen, [] => seen.any (fun j => refers equs text j)
  | text, seen, i :: path =>
    refers equs text i && reaches equs (linetext equs i) (i :: seen) path

/-- `getreserved(src)` for the opcodes: the word is looked up in upper case
among the reserved words of `rsvdlist[]` (directives and macros are not in this
list); the result is the entry found and the pointer past the word. -/
def getreserved (src : List Char) : Option (String × List Nat) × List Char :=
  let s := src.drop (strspn src whitesp)
  if cur s = '=' then (none, s.tail)
  else
    let s1 := if cur s = '.' then s.tail else s
    let r := getword s1 true
    (rsvdlist.find? (fun e => decide (e.1.toList = my_strupr (cstr r.1))), r.2)

/-- `processline(src)` on a line that holds an instruction and no label, outside
macro and REPT definitions and skipped conditionals: the line is expanded, the
mnemonic is looked up and `opcode` assembles the rest of the expanded line.  The
result is the bytes written; `none` stands for every other outcome. -/
def instruction (env : Env) (equs : List Equate) (src : List Char) : Option (List Nat) :=
  match expandline src ⟨equs, none⟩ with
  | none => none
  | some .overrun => none
  | some (.done line st) =>
    if st.errmsg ≠ none then none
    else
      match getreserved line with
      | (some e, s) => emitted (opcode gates0 e.1.toList e.2 env s clearSt)
      | (none, _) => none

/-! ## Macro and REPT expansion -/

/-- A line of a macro or REPT body, by what `processline` does with it: it
invokes the macro `id` (`expandmacro`), it is a whole `REPT loops` ... `ENDR`
block, expanded when its `ENDR` arrives (`expandrept`), or it is any other
line, number `k` of the source. -/
inductive Line
  | invoke (id : Nat)
  | rept (loops : Nat) (body : List Line)
  | other (k : Nat)

/-- A label of type `MACRO`: its body lines and its flag `used`. -/
structure Macro where
  body : List Line
  used : Bool

/-- The globals of the expansion: `scope`, `nextscope`, `insidemacro`, the
macros and `errmsg`. -/
structure MacroCtx where
  scope : Int
  nextscope : Int
  insidemacro : Int
  macros : List Macro
  errmsg : Option ErrMsg

/-- Store the flag `used` of the macro at place `id`. -/
def setflag (macros : List Macro) (id : Nat) (b : Bool) : List Macro :=
  match macros.get? id with
  | some m => macros.set id { m with used := b }
  | none => macros

/-- The statements of `expandmacro` before the body lines:
`oldscope=scope; scope=nextscope++; insidemacro++; (*id).used=1;`.  (The
arguments are then defined with `addlabel(name, 1)` and `equ`, which leave the
fields of `MacroCtx` alone.) -/
def entermacro (id : Nat) (c : MacroCtx) : MacroCtx :=
  { c with scope := c.nextscope, nextscope := wrap32 (c.nextscope + 1),
           insidemacro := wrap32 (c.insidemacro + 1), macros := setflag c.macros id true }

/-- The statements of `expandmacro` after the body lines:
`errmsg=0; scope=oldscope; insidemacro--; (*id).used=0;`. -/
def leavemacro (oldscope : Int) (id : Nat) (c : MacroCtx) : MacroCtx :=
  { c with errmsg := none, scope := oldscope, insidemacro := wrap32 (c.insidemacro - 1),
           macros := setflag c.macros id false }

/-- The statement `scope=nextscope++;` that opens each round of `expandrept`. -/
def newscope (c : MacroCtx) : MacroCtx :=
  { c with scope := c.nextscope, nextscope := wrap32 (c.nextscope + 1) }

mutual

/-- `processline` on a body line.  `effect k` is what line `k` of the source
does to the globals when it is neither a macro call nor a REPT block.  `none`
is out of fuel. -/
def processline (effect : Nat → MacroCtx → MacroCtx) : Nat → Line → MacroCtx → Option MacroCtx
  | 0, _, _ => none
  | fuel + 1, .invoke id, c => expandmacro effect fuel id { c with errmsg := none }
  | fuel + 1, .rept loops body, c => expandrept effect fuel loops body { c with errmsg := none }
  | _ + 1, .other k, c => some (effect k { c with errmsg := none })

/-- The loop `while(line) { processline(...); line=*line; }` over a body. -/
def processlines (effect : Nat → MacroCtx → MacroCtx) :
    Nat → List Line → MacroCtx → Option MacroCtx
  | 0, _, _ => none
  | _ + 1, [], c => some c
  | fuel + 1, l :: ls, c =>
    match processline effect fuel l c with
    | none => none
    | some c1 => processlines effect fuel ls c1

/-- `expandmacro(id, next, errline, errsrc)` for the macro at place `id`. -/
def expandmacro (effect : Nat → MacroCtx → MacroCtx) : Nat → Nat → MacroCtx → Option MacroCtx
  | 0, _, _ => none
  | fuel + 1, id, c =>
    match c.macros.get? id with
    | none => some { c with errmsg := some .Illegal }
    | some m =>
      if m.used = true then some { c with errmsg := some .RecurseMACRO }
      else
        (processlines effect fuel m.body ( entermacro id c)).map ( leavemacro c.scope id)

/-- The loop `for(i=rept_loops;i;--i)` of `expandrept`. -/
def reptloop (effect : Nat → MacroCtx → MacroCtx) :
    Nat → Nat → List Line → MacroCtx → Option MacroCtx
  | 0, _, _, _ => none
  | _ + 1, 0, _, c => some c
  | fuel + 1, i + 1, body, c =>
    match processlines effect fuel body (newscope c) with
    | none => none
    | some c1 => reptloop effect fuel i body c1

/-- `expandrept(errline, errsrc)` with `rept_loops = loops` and the lines of
`repttext` in `body`. -/
def expandrept (effect : Nat → MacroCtx → MacroCtx) :
    Nat → Nat → List Line → MacroCtx → Option MacroCtx
  | 0, _, _, _ => none
  | fuel + 1, loops, body, c =>
    (reptloop effect fuel loops body { c with insidemacro := wrap32 (c.insidemacro + 1) }).map
      (fun c1 => { c1 with errmsg := none, scope := c.scope,
                           insidemacro := wrap32 (c1.insidemacro - 1) })

end

/-- Three kinds of other lines: line 1 is `MACRO name` (its `addlabel(word, 0)`
advances the scope: `scope=nextscope++`), line 2 raises "Illegal instruction.",
every other line leaves the globals alone. -/
def sampleEffect (k : Nat) (c : MacroCtx) : MacroCtx :=
  if k = 1 then newscope c
  else if k = 2 then { c with errmsg := some .Illegal }
  else c

/-- Two macros.  Macro 0 holds a plain line, a call of macro 1 and a line in
error; macro 1 holds a `MACRO` line and a `REPT 2` block with a plain line, a
call of macro 0 and a call of macro 1, and a line in error. -/
def sampleMacros : List Macro :=
  [{ body := [.other 0, .invoke 1, .other 2], used := false },
   { body := [.other 1, .rept 2 [.other 0, .invoke 0, .invoke 1], .other 2], used := false }]

/-- The globals before a macro call at top level: scope 1, next scope 2. -/
def sampleCtx : MacroCtx :=
  { scope := 1, nextscope := 2, insidemacro := 0, macros := sampleMacros, errmsg := none }

/-- The fields of the globals that can be compared: `scope`, `nextscope`,
`insidemacro`, the flags `used` and `errmsg`. -/
def MacroCtx.view (c : MacroCtx) : Int × Int × Int × List Bool × Option ErrMsg :=
  (c.scope, c.nextscope, c.insidemacro, c.macros.map (fun m => m.used), c.errmsg)

/-! ## Forward labels inside macro and REPT bodies -/

namespace Out

/-- The test that compare mode makes in `output_buffer` before it stores the
byte with index `i` of a call: a byte is committed at file offset `filepos + i`
and differs from the fill value. -/
def rejects (g : Globals) (i : Nat) : Bool :=
  decide (g.comparefiller = true ∧ get_cmp_value g (g.filepos + i) ≠ g.defaultfiller ∧
    get_cmp_value g (g.filepos + i) ≥ 0)

end Out

/-! # Theorems -/

/-! ## Evaluator: fuel, words and operands -/

theorem evalF_evalLoop_mono (fuel : Nat) :
    (∀ env str precedence st r, evalF fuel env str precedence st = some r →
        evalF (fuel + 1) env str precedence st = some r) ∧
    (∀ env precedence ret s st r, evalLoop fuel env precedence ret s st = some r →
        evalLoop (fuel + 1) env precedence ret s st = some r) := by
  induction fuel with
  | zero =>
    constructor
    · intro env str precedence st r h
      simp [evalF] at h
    · intro env precedence ret s st r h
      simp [evalLoop] at h
  | succ n ih =>
    obtain ⟨ihF, ihL⟩ := ih
    constructor
    · intro env str precedence st r h
      rw [evalF] at h
      rw [evalF]
      simp only at h ⊢
      generalize List.drop (strspn str whitesp) str = s at h ⊢
      by_cases h1 : cur s = '('
      · simp only [h1, if_true] at h ⊢
        cases hs : evalF n env s.tail WHOLEEXP st with
        | none => simp [hs] at h
        | some v =>
          obtain ⟨ret, s2, st2⟩ := v
          simp only [hs] at h
          simp only [ihF _ _ _ _ _ hs]
          split_ifs at h ⊢ <;> exact ihL _ _ _ _ _ _ h
      simp only [h1, if_false] at h ⊢
      by_cases h2 : cur s = '#'
      · simp only [h2, if_true] at h ⊢
        cases hs : evalF n env s.tail WHOLEEXP st with
        | none => simp [hs] at h
        | some v =>
          obtain ⟨ret, s2, st2⟩ := v
          simp only [hs] at h
          simp only [ihF _ _ _ _ _ hs]
          exact ihL _ _ _ _ _ _ h
      simp only [h2, if_false] at h ⊢
      by_cases h3 : cur s = '~'
      · simp only [h3, if_true] at h ⊢
        cases hs : evalF n env s.tail UNARY st with
        | none => simp [hs] at h
        | some v =>
          obtain ⟨ret, s2, st2⟩ := v
          simp only [hs] at h
          simp only [ihF _ _ _ _ _ hs]
          exact ihL _ _ _ _ _ _ h
      simp only [h3, if_false] at h ⊢
      by_cases h4 : cur s = '!'
      · simp only [h4, if_true] at h ⊢
        cases hs : evalF n env s.tail UNARY st with
        | none => simp [hs] at h
        | some v =>
          obtain ⟨ret, s2, st2⟩ := v
          simp only [hs] at h
          simp only [ihF _ _ _ _ _ hs]
          exact ihL _ _ _ _ _ _ h
      simp only [h4, if_false] at h ⊢
      by_cases h5 : cur s = '<'
      · simp only [h5, if_true] at h ⊢
        cases hs : evalF n env s.tail UNARY st with
        | none => simp [hs] at h
        | some v =>
          obtain ⟨ret, s2, st2⟩ := v
          simp only [hs] at h
          simp only [ihF _ _ _ _ _ hs]
          exact ihL _ _ _ _ _ _ h
      simp only [h5, if_false] at h ⊢
      by_cases h6 : cur s = '>'
      · simp only [h6, if_true] at h ⊢
        cases hs : evalF n env s.tail UNARY st with
        | none => simp [hs] at h
        | some v =>
          obtain ⟨ret, s2, st2⟩ := v
          simp only [hs] at h
          simp only [ihF _ _ _ _ _ hs]
          exact ihL _ _ _ _ _ _ h
      simp only [h6, if_false] at h ⊢
      by_cases h7 : cur s = '+' ∨ cur s = '-'
      · simp only [h7, if_true] at h ⊢
        cases hg : getvalue env s { st with dependant := false } with
        | none => simp [hg] at h
        | some v =>
          obtain ⟨ret, s2, st1⟩ := v
          simp only [hg] at h ⊢
          by_cases h8 : (clearUnknown st1).dependant = false ∨ s2.length = s.tail.length
          · simp only [h8, if_true] at h ⊢
            exact ihL _ _ _ _ _ _ h
          · simp only [h8, if_false] at h ⊢
            cases hs : evalF n env s.tail UNARY
                { clearUnknown st1 with dependant := st.dependant,
                                        needanotherpass := st.needanotherpass } with
            | none => simp [hs] at h
            | some v =>
              obtain ⟨ret1, s3, st3⟩ := v
              simp only [hs] at h
              simp only [ihF _ _ _ _ _ hs]
              exact ihL _ _ _ _ _ _ h
      simp only [h7, if_false] at h ⊢
      cases hg : getvalue env s st with
      | none => simp [hg] at h
      | some v =>
        obtain ⟨ret, s2, st1⟩ := v
        simp only [hg] at h ⊢
        exact ihL _ _ _ _ _ _ h
    · intro env precedence ret s st r h
      rw [evalLoop] at h
      rw [evalLoop]
      split_ifs at h ⊢ with h1
      · cases hs : evalF n env (getoperator s).2 (prec (getoperator s).1) st with
        | none => simp [hs] at h
        | some v =>
          obtain ⟨val2, s2, st2⟩ := v
          simp only [hs] at h
          simp only [ihF _ _ _ _ _ hs]
          generalize (if st2.dependant = false then applyop (getoperator s).1 ret val2 st2
            else some (0, st2)) = rr at h ⊢
          cases rr with
          | none => simp at h
          | some rr =>
            dsimp only at h ⊢
            by_cases h2 : rr.2.errmsg = none
            · simp only [h2, if_true] at h ⊢
              exact ihL _ _ _ _ _ _ h
            · simp only [h2, if_false] at h ⊢
              exact h
      · exact h


theorem cutAtDelim_append (delim w rest : List Char)
    (hw : ∀ c ∈ w, c ≠ NUL ∧ c ∉ delim) :
    cutAtDelim delim (w ++ rest) = w ++ cutAtDelim delim rest := by
  induction w with
  | nil => rfl
  | cons c cs ih =>
    have hc := hw c (List.mem_cons_self _ _)
    have hcs : ∀ d ∈ cs, d ≠ NUL ∧ d ∉ delim := fun d hd => hw d (List.mem_cons_of_mem _ hd)
    simp [cutAtDelim, hc.1, hc.2, ih hcs]

theorem strtok_word (delim w rest : List Char) (hne : w ≠ [])
    (hw : ∀ c ∈ w, c ≠ NUL ∧ c ∉ delim) :
    strtok (w ++ rest) delim = w ++ cutAtDelim delim rest := by
  cases w with
  | nil => exact absurd rfl hne
  | cons c cs =>
    have hc := hw c (List.mem_cons_self _ _)
    have h1 : List.takeWhile (fun c => List.elem c delim) (c :: cs ++ rest) = [] := by
      simp [List.takeWhile, hc.2]
    have h2 : List.dropWhile (fun c => List.elem c delim) (c :: cs ++ rest) = c :: cs ++ rest := by
      simp [List.dropWhile, hc.2]
    rw [strtok, h1, h2, List.nil_append, cutAtDelim_append _ _ _ hw]

theorem cstr_append_nul (w r : List Char) (hw : ∀ c ∈ w, c ≠ NUL) (hr : cur r = NUL) :
    cstr (w ++ r) = w := by
  induction w with
  | nil =>
    cases r with
    | nil => rfl
    | cons c cs =>
      have : c = NUL := hr
      simp [cstr, List.takeWhile, this]
  | cons c cs ih =>
    have hc := hw c (List.mem_cons_self _ _)
    have hcs : ∀ d ∈ cs, d ≠ NUL := fun d hd => hw d (List.mem_cons_of_mem _ hd)
    have := ih hcs
    simp only [cstr] at this ⊢
    rw [List.cons_append, List.takeWhile_cons, this]
    simp [hc]

theorem getword_plain (w rest : List Char) (hne : w ≠ []) (hw : ∀ c ∈ w, plain c)
    (hlen : w.length ≤ 127) (hrest : OpEnd rest) :
    ∃ r, cur r = NUL ∧ getword (w ++ rest) true = (w ++ r, rest) := by
  have hw1 : ∀ c ∈ w, c ≠ NUL ∧ c ∉ whitesp := fun c hc => ⟨(hw c hc).1, (hw c hc).2.1⟩
  have hw2 : ∀ c ∈ w, c ≠ NUL ∧ c ∉ mathy := fun c hc => ⟨(hw c hc).1, (hw c hc).2.2⟩
  have hw3 : ∀ c ∈ w, c ≠ NUL := fun c hc => (hw c hc).1
  have hsp : strspn (w ++ rest) whitesp = 0 := by
    cases w with
    | nil => exact absurd rfl hne
    | cons c cs =>
      have hc := (hw c (List.mem_cons_self _ _)).2.1
      simp [strspn, List.takeWhile, hc]
  have htake : List.take (WORDMAX - 1) (w ++ rest) = w ++ List.take (127 - w.length) rest := by
    rw [List.take_append_eq_append_take, List.take_of_length_le (by simpa [WORDMAX] using hlen)]
    rfl
  have hcur : cur (cutAtDelim mathy (cutAtDelim whitesp (List.take (127 - w.length) rest)))
      = NUL := by
    rcases hrest with h | h
    · subst h
      simp [cutAtDelim, cur]
    · cases rest with
      | nil => simp [cutAtDelim, cur]
      | cons c cs =>
        have hc : c ∈ mathy := h
        cases hk : 127 - w.length with
        | zero => simp [cutAtDelim, cur]
        | succ k =>
          have hcn : c ≠ NUL := by
            rintro rfl
            revert hc
            decide
          have hcw : c ∉ whitesp := by
            intro hcw
            simp only [mathy, List.mem_cons, List.mem_singleton, List.not_mem_nil, or_false] at hc
            rcases hc with h | h | h | h | h | h | h | h | h | h | h | h | h | h | h <;>
              (subst h; revert hcw; decide)
          simp [cutAtDelim, hcn, hcw, hc, cur]
  have hcolon : cur rest ≠ ':' := by
    rcases hrest with h | h
    · subst h
      decide
    · intro h2
      rw [h2] at h
      revert h
      decide
  refine ⟨_, hcur, ?_⟩
  have hstrlen : strlen (w ++ cutAtDelim mathy (cutAtDelim whitesp
      (List.take (127 - w.length) rest))) = w.length := by
    rw [strlen, cstr_append_nul _ _ hw3 hcur]
  simp only [getword, hsp, List.drop_zero, htake, strtok_word _ _ _ hne hw1, if_true,
    strtok_word _ _ _ hne hw2, hstrlen, List.drop_left, hcolon, if_false]


theorem cur_append (w rest : List Char) (hne : w ≠ []) : cur (w ++ rest) = cur w := by
  cases w with
  | nil => exact absurd rfl hne
  | cons c cs => rfl

theorem strspn_white_zero (s : List Char) (h : cur s ∉ whitesp) : strspn s whitesp = 0 := by
  cases s with
  | nil => rfl
  | cons c cs =>
    have hc : c ∉ whitesp := h
    simp [strspn, List.takeWhile, hc]

theorem evalF_operand (fuel : Nat) (env : Env) (st : EvalSt) (w rest : List Char) (v : Int)
    (precedence : Nat) (hw : IsOperand env st w v) (hrest : OpEnd rest) :
    evalF (fuel + 1) env (w ++ rest) precedence st = evalLoop fuel env precedence v rest st := by
  obtain ⟨hne, ⟨hnul, hwh, hma⟩, hhash, htil, hget⟩ := hw
  have hcur := cur_append w rest hne
  have hsp : strspn (w ++ rest) whitesp = 0 := strspn_white_zero _ (by rw [hcur]; exact hwh)
  have h1 : cur w ≠ '(' := by rintro h; rw [h] at hma; revert hma; decide
  have h4 : cur w ≠ '!' := by rintro h; rw [h] at hma; revert hma; decide
  have h5 : cur w ≠ '<' := by rintro h; rw [h] at hma; revert hma; decide
  have h6 : cur w ≠ '>' := by rintro h; rw [h] at hma; revert hma; decide
  have h7 : cur w ≠ '+' := by rintro h; rw [h] at hma; revert hma; decide
  have h8 : cur w ≠ '-' := by rintro h; rw [h] at hma; revert hma; decide
  rw [evalF]
  simp only [hsp, List.drop_zero, hcur, h1, hhash, htil, h4, h5, h6, h7, h8, if_false, or_self,
    hget rest hrest]

theorem evalLoop_stop (fuel : Nat) (env : Env) (precedence : Nat) (ret : Int) (s : List Char)
    (st : EvalSt) (h : ¬ precedence < prec (getoperator s).1) :
    evalLoop (fuel + 1) env precedence ret s st = some (ret, s, st) := by
  rw [evalLoop]
  simp only [h, if_false]

theorem getoperator_nil : getoperator [] = (.NOOP, []) := by decide


theorem eval_of_evalF (k : Nat) (env : Env) (s : List Char) (p : Nat) (st : EvalSt)
    (r : Int × List Char × EvalSt)
    (h : ∀ fuel, evalF (fuel + k) env s p st = some r) (hk : k ≤ 2 * s.length + 2) :
    eval env s p st = some r := by
  have := h (2 * s.length + 2 - k)
  rwa [Nat.sub_add_cancel hk] at this

theorem isOperand_length {env : Env} {st : EvalSt} {w : List Char} {v : Int}
    (h : IsOperand env st w v) : 1 ≤ w.length := by
  obtain ⟨hne, _⟩ := h
  cases w with
  | nil => exact absurd rfl hne
  | cons c cs => simp

theorem opEnd_nil : OpEnd [] := Or.inl rfl

theorem opEnd_cons (c : Char) (r : List Char) (h : c ∈ mathy) : OpEnd (c :: r) := Or.inr h

/-- A single operand evaluates to its value at any precedence. -/
theorem evalF_operand_end (fuel : Nat) (env : Env) (st : EvalSt) (w : List Char) (v : Int)
    (precedence : Nat) (hw : IsOperand env st w v) :
    evalF (fuel + 2) env w precedence st = some (v, [], st) := by
  have h := evalF_operand (fuel + 1) env st w [] v precedence hw opEnd_nil
  rw [List.append_nil] at h
  rw [h, evalLoop_stop]
  rw [getoperator_nil]
  simp [prec, WHOLEEXP]

/-- Two operands joined by one operator. -/
theorem evalF_binary (fuel : Nat) (env : Env) (st : EvalSt) (a b o : List Char) (va vb : Int)
    (op : operators) (hdep : st.dependant = false)
    (ha : IsOperand env st a va) (hb : IsOperand env st b vb)
    (hend : OpEnd (o ++ b)) (hop : getoperator (o ++ b) = (op, b)) (hprec : 0 < prec op) :
    evalF (fuel + 4) env (a ++ (o ++ b)) WHOLEEXP st =
      (applyop op va vb st).map
        (fun r => (r.1, if r.2.errmsg = none then [] else o ++ b, r.2)) := by
  rw [evalF_operand _ _ _ _ _ _ _ ha hend, evalLoop]
  simp only [hop, WHOLEEXP, hprec, if_true, evalF_operand_end _ _ _ _ _ _ hb, hdep]
  cases happ : applyop op va vb st with
  | none => rfl
  | some r =>
    dsimp only [Option.map_some']
    by_cases he : r.2.errmsg = none
    · simp only [he, if_true]
      rw [evalLoop_stop]
      rw [getoperator_nil]
      simp [prec, WHOLEEXP]
    · simp only [he, if_false]
theorem digit_facts (c : Char) (h : c ∈ decdigits) :
    plain c ∧ c ≠ '#' ∧ c ≠ '~' ∧ c ≠ '$' ∧ c ≠ '%' ∧ c ≠ '\'' ∧ c ≠ '"' ∧
      ('0'.toNat ≤ c.toNat ∧ c.toNat ≤ '9'.toNat) := by
  simp only [decdigits, List.mem_cons, List.mem_singleton, List.not_mem_nil, or_false] at h
  unfold plain
  rcases h with h | h | h | h | h | h | h | h | h | h <;> (subst h; decide)

theorem isOperand_decimal (env : Env) (st : EvalSt) (d : List Char) (hne : d ≠ [])
    (hd : ∀ c ∈ d, c ∈ decdigits) (hlen : d.length ≤ 127) :
    IsOperand env st d (atoi d) := by
  have hcd : cur d ∈ decdigits := by
    cases d with
    | nil => exact absurd rfl hne
    | cons c cs => exact hd c (List.mem_cons_self _ _)
  obtain ⟨hpl, hhash, htil, hdol, hper, hq1, hq2, hrange⟩ := digit_facts _ hcd
  refine ⟨hne, hpl, hhash, htil, ?_⟩
  intro rest hrest
  obtain ⟨r, hr, hgw⟩ := getword_plain d rest hne (fun c hc => (digit_facts c (hd c hc)).1)
    hlen hrest
  have hcs : cstr (d ++ r) = d :=
    cstr_append_nul d r (fun c hc => (digit_facts c (hd c hc)).1.1) hr
  have hsp : strspn d decdigits = d.length := by
    rw [strspn, List.takeWhile_eq_self_iff.mpr]
    intro c hc
    simpa using hd c hc
  rw [getvalue, hgw]
  simp only [cur_append d r hne, hpl.1, hdol, hper, hq1, hq2, hrange, if_false, if_true,
    and_self, hcs, strlen, hsp]


theorem isOperand_symbol (env : Env) (st : EvalSt) (w : List Char) (p : label) (t : Table)
    (hne : w ≠ []) (hw : ∀ c ∈ w, plain c) (hlen : w.length ≤ 127)
    (h1 : cur w ≠ '#') (h2 : cur w ≠ '~') (h3 : cur w ≠ '$') (h4 : cur w ≠ '\'')
    (h5 : cur w ≠ '"') (h6 : ¬ ('0'.toNat ≤ (cur w).toNat ∧ (cur w).toNat ≤ '9'.toNat))
    (hfind : findlabel env.tbl env.scope env.pass w = some (some p, t))
    (hline : p.line = true) (htype : p.type = .LABEL ∨ p.type = .VALUE) :
    IsOperand env st w (wrap32 p.value) := by
  have hcw : plain (cur w) := by
    cases w with
    | nil => exact absurd rfl hne
    | cons c cs => exact hw c (List.mem_cons_self _ _)
  have h7 : cur w ≠ '%' := by
    rintro h
    have := hcw.2.2
    rw [h] at this
    revert this
    decide
  refine ⟨hne, hcw, h1, h2, ?_⟩
  intro rest hrest
  obtain ⟨r, hr, hgw⟩ := getword_plain w rest hne hw hlen hrest
  have hcs : cstr (w ++ r) = w := cstr_append_nul w r (fun c hc => (hw c hc).1) hr
  rw [getvalue, hgw]
  simp only [cur_append w r hne, hcw.1, h3, h7, h4, h5, h6, if_false, hcs, hfind, hline, htype,
    if_true, Bool.not_true, Bool.or_false]

theorem getoperator_div (r : List Char) : getoperator ('/' :: r) = (.DIV, r) := by
  simp [getoperator, strspn, List.takeWhile, whitesp, cur]

theorem getoperator_mod (r : List Char) : getoperator ('%' :: r) = (.MOD, r) := by
  simp [getoperator, strspn, List.takeWhile, whitesp, cur]

theorem getoperator_plus (r : List Char) : getoperator ('+' :: r) = (.PLUS, r) := by
  simp [getoperator, strspn, List.takeWhile, whitesp, cur]

theorem getoperator_mul (r : List Char) : getoperator ('*' :: r) = (.MUL, r) := by
  simp [getoperator, strspn, List.takeWhile, whitesp, cur]

theorem getoperator_or (r : List Char) (h : cur r ≠ '|') : getoperator ('|' :: r) = (.OR, r) := by
  simp [getoperator, strspn, List.takeWhile, whitesp, cur] at h ⊢
  exact h

theorem getoperator_shl (r : List Char) : getoperator ('<' :: '<' :: r) = (.LEFTSHIFT, r) := by
  simp [getoperator, strspn, List.takeWhile, whitesp, cur]

theorem wrap32_id (x : Int) (h1 : -2147483648 ≤ x) (h2 : x < 2147483648) : wrap32 x = x := by
  unfold wrap32
  omega

theorem tdiv_range (a b : Int) (hb : b ≠ 0) (h1 : -2147483648 ≤ a) (h2 : a < 2147483648)
    (hov : ¬ (a = -2147483648 ∧ b = -1)) :
    -2147483648 ≤ Int.tdiv a b ∧ Int.tdiv a b < 2147483648 := by
  have hq : (Int.tdiv a b).natAbs = a.natAbs / b.natAbs := Int.natAbs_tdiv a b
  have habs : (Int.tdiv a b).natAbs ≤ a.natAbs := by
    rw [hq]
    exact Nat.div_le_self _ _
  constructor
  · omega
  · by_contra hlt
    push_neg at hlt
    have ha : a = -2147483648 := by omega
    have hqa : a.natAbs / b.natAbs = 2147483648 := by omega
    have hna : a.natAbs = 2147483648 := by omega
    have hb1 : b.natAbs = 1 := by
      by_contra hne
      have hbpos : 0 < b.natAbs := Int.natAbs_pos.mpr hb
      have : a.natAbs / b.natAbs < a.natAbs := Nat.div_lt_self (by omega) (by omega)
      omega
    have hb2 : b = 1 := by omega
    subst hb2
    rw [Int.tdiv_one] at hlt
    omega

theorem tmod_range (a b : Int) (h1 : -2147483648 ≤ a) (h2 : a < 2147483648) :
    -2147483648 ≤ Int.tmod a b ∧ Int.tmod a b < 2147483648 := by
  have hle : (Int.tmod a b).natAbs ≤ a.natAbs := by
    cases a with
    | ofNat m =>
      cases b with
      | ofNat n => exact Nat.mod_le _ _
      | negSucc n => exact Nat.mod_le _ _
    | negSucc m =>
      cases b with
      | ofNat n =>
        show (-((m + 1 : Nat) % n : Nat) : Int).natAbs ≤ _
        rw [Int.natAbs_neg]
        exact Nat.mod_le _ _
      | negSucc n =>
        show (-((m + 1 : Nat) % (n + 1) : Nat) : Int).natAbs ≤ _
        rw [Int.natAbs_neg]
        exact Nat.mod_le _ _
  have hnn : 0 ≤ a → 0 ≤ Int.tmod a b := Int.tmod_nonneg b
  constructor
  · omega
  · by_contra hlt
    push_neg at hlt
    have : a < 0 := by omega
    have hneg : Int.tmod a b ≤ 0 := by
      cases a with
      | ofNat m => exact absurd this (not_lt.mpr (Int.ofNat_nonneg m))
      | negSucc m =>
        cases b with
        | ofNat n =>
          show (-((m + 1 : Nat) % n : Nat) : Int) ≤ 0
          omega
        | negSucc n =>
          show (-((m + 1 : Nat) % (n + 1) : Nat) : Int) ≤ 0
          omega
    omega

/-- C3: for operands `a`, `b` that resolve to `va`, `vb`: when `vb = 0`, `a/b` and
`a%b` set the error "Divide by zero." and return the left operand untouched (no
division is made); when `vb ≠ 0` and the division is not `INT_MIN / -1`, no
error is set and the result is the truncating quotient / remainder, exactly.
For `INT_MIN / -1` and `INT_MIN % -1` nothing guards the division, whose
quotient is not an `int`: `eval` has no result.  The `DIV` and `MOD` cases of
the operator switch behave this way for every left value. -/
theorem eval_div_mod (env : Env) (st : EvalSt) (a b : List Char) (va vb : Int)
    (herr : st.errmsg = none) (hdep : st.dependant = false)
    (ha : IsOperand env st a va) (hb : IsOperand env st b vb) :
    ErrMsg.text .DivZero = "Divide by zero." ∧
    (∀ ret : Int, applyop .DIV ret 0 st = some (ret, { st with errmsg := some .DivZero }) ∧
                  applyop .MOD ret 0 st = some (ret, { st with errmsg := some .DivZero })) ∧
    (vb = 0 →
      eval env (a ++ '/' :: b) WHOLEEXP st
        = some (va, '/' :: b, { st with errmsg := some .DivZero }) ∧
      eval env (a ++ '%' :: b) WHOLEEXP st
        = some (va, '%' :: b, { st with errmsg := some .DivZero })) ∧
    (vb ≠ 0 → ¬ (va = -2147483648 ∧ vb = -1) →
      eval env (a ++ '/' :: b) WHOLEEXP st = some (wrap32 (Int.tdiv va vb), [], st) ∧
      eval env (a ++ '%' :: b) WHOLEEXP st = some (wrap32 (Int.tmod va vb), [], st)) ∧
    (vb ≠ 0 → -2147483648 ≤ va → va < 2147483648 → ¬ (va = -2147483648 ∧ vb = -1) →
      wrap32 (Int.tdiv va vb) = Int.tdiv va vb ∧ wrap32 (Int.tmod va vb) = Int.tmod va vb) ∧
    (va = -2147483648 → vb = -1 →
      applyop .DIV va vb st = none ∧ applyop .MOD va vb st = none ∧
      eval env (a ++ '/' :: b) WHOLEEXP st = none ∧
      eval env (a ++ '%' :: b) WHOLEEXP st = none) := by
  have hla := isOperand_length ha
  have hlb := isOperand_length hb
  have hdiv : ∀ fuel, evalF (fuel + 4) env (a ++ '/' :: b) WHOLEEXP st = _ := fun fuel =>
    evalF_binary fuel env st a b ['/'] va vb .DIV hdep ha hb (opEnd_cons _ _ (by decide))
      (getoperator_div b) (by decide)
  have hmod : ∀ fuel, evalF (fuel + 4) env (a ++ '%' :: b) WHOLEEXP st = _ := fun fuel =>
    evalF_binary fuel env st a b ['%'] va vb .MOD hdep ha hb (opEnd_cons _ _ (by decide))
      (getoperator_mod b) (by decide)
  have hlen1 : 4 ≤ 2 * (a ++ '/' :: b).length + 2 := by simp; omega
  have hlen2 : 4 ≤ 2 * (a ++ '%' :: b).length + 2 := by simp; omega
  have hfuel1 : ∃ k, 2 * (a ++ '/' :: b).length + 2 = k + 4 :=
    ⟨2 * (a ++ '/' :: b).length + 2 - 4, by omega⟩
  have hfuel2 : ∃ k, 2 * (a ++ '%' :: b).length + 2 = k + 4 :=
    ⟨2 * (a ++ '%' :: b).length + 2 - 4, by omega⟩
  refine ⟨rfl, fun ret => ⟨by simp [applyop], by simp [applyop]⟩, ?_, ?_, ?_, ?_⟩
  · intro hz
    subst hz
    constructor
    · refine eval_of_evalF 4 _ _ _ _ _ (fun fuel => ?_) hlen1
      rw [hdiv fuel]
      simp [applyop]
    · refine eval_of_evalF 4 _ _ _ _ _ (fun fuel => ?_) hlen2
      rw [hmod fuel]
      simp [applyop]
  · intro hnz hov
    constructor
    · refine eval_of_evalF 4 _ _ _ _ _ (fun fuel => ?_) hlen1
      rw [hdiv fuel]
      simp [applyop, hnz, hov, herr]
    · refine eval_of_evalF 4 _ _ _ _ _ (fun fuel => ?_) hlen2
      rw [hmod fuel]
      simp [applyop, hnz, hov, herr]
  · intro hnz h1 h2 hov
    obtain ⟨q1, q2⟩ := tdiv_range va vb hnz h1 h2 hov
    obtain ⟨r1, r2⟩ := tmod_range va vb h1 h2
    exact ⟨wrap32_id _ q1 q2, wrap32_id _ r1 r2⟩
  · intro h1 h2
    subst h1
    subst h2
    have hd : applyop .DIV (-2147483648) (-1) st = none := by simp [applyop]
    have hm : applyop .MOD (-2147483648) (-1) st = none := by simp [applyop]
    refine ⟨hd, hm, ?_, ?_⟩
    · obtain ⟨k, hk⟩ := hfuel1
      unfold eval
      rw [hk, hdiv k, hd]
      rfl
    · obtain ⟨k, hk⟩ := hfuel2
      unfold eval
      rw [hk, hmod k, hm]
      rfl

/-- Three operands, the second operator binding tighter than the first. -/
theorem evalF_nest_right (fuel : Nat) (env : Env) (st : EvalSt) (a b c o1 o2 : List Char)
    (va vb vc x y : Int) (op1 op2 : operators)
    (herr : st.errmsg = none) (hdep : st.dependant = false)
    (ha : IsOperand env st a va) (hb : IsOperand env st b vb) (hc : IsOperand env st c vc)
    (hend1 : OpEnd (o1 ++ (b ++ (o2 ++ c)))) (hend2 : OpEnd (o2 ++ c))
    (hop1 : getoperator (o1 ++ (b ++ (o2 ++ c))) = (op1, b ++ (o2 ++ c)))
    (hop2 : getoperator (o2 ++ c) = (op2, c))
    (hprec1 : 0 < prec op1) (hprec2 : prec op1 < prec op2)
    (happ2 : applyop op2 vb vc st = some (x, st))
    (happ1 : applyop op1 va x st = some (y, st)) :
    evalF (fuel + 6) env (a ++ (o1 ++ (b ++ (o2 ++ c)))) WHOLEEXP st = some (y, [], st) := by
  have hnoop : ∀ p : Nat, ¬ p < prec (getoperator []).1 := by
    intro p
    rw [getoperator_nil]
    simp [prec, WHOLEEXP]
  have inner : evalF (fuel + 4) env (b ++ (o2 ++ c)) (prec op1) st = some (x, [], st) := by
    rw [evalF_operand _ _ _ _ _ _ _ hb hend2, evalLoop]
    simp only [hop2, hprec2, if_true, evalF_operand_end _ _ _ _ _ _ hc, hdep, happ2, herr]
    exact evalLoop_stop _ _ _ _ _ _ (hnoop _)
  rw [evalF_operand _ _ _ _ _ _ _ ha hend1, evalLoop]
  simp only [hop1, WHOLEEXP, hprec1, if_true, inner, hdep, happ1, herr]
  exact evalLoop_stop _ _ _ _ _ _ (hnoop _)

/-- Three operands, the second operator binding no tighter than the first. -/
theorem evalF_nest_left (fuel : Nat) (env : Env) (st : EvalSt) (a b c o1 o2 : List Char)
    (va vb vc x y : Int) (op1 op2 : operators)
    (herr : st.errmsg = none) (hdep : st.dependant = false)
    (ha : IsOperand env st a va) (hb : IsOperand env st b vb) (hc : IsOperand env st c vc)
    (hend1 : OpEnd (o1 ++ (b ++ (o2 ++ c)))) (hend2 : OpEnd (o2 ++ c))
    (hop1 : getoperator (o1 ++ (b ++ (o2 ++ c))) = (op1, b ++ (o2 ++ c)))
    (hop2 : getoperator (o2 ++ c) = (op2, c))
    (hprec1 : 0 < prec op1) (hprec2 : 0 < prec op2) (hprec : ¬ prec op1 < prec op2)
    (happ1 : applyop op1 va vb st = some (x, st))
    (happ2 : applyop op2 x vc st = some (y, st)) :
    evalF (fuel + 6) env (a ++ (o1 ++ (b ++ (o2 ++ c)))) WHOLEEXP st = some (y, [], st) := by
  have hnoop : ∀ p : Nat, ¬ p < prec (getoperator []).1 := by
    intro p
    rw [getoperator_nil]
    simp [prec, WHOLEEXP]
  have inner : evalF (fuel + 4) env (b ++ (o2 ++ c)) (prec op1) st
      = some (vb, o2 ++ c, st) := by
    rw [evalF_operand _ _ _ _ _ _ _ hb hend2]
    exact evalLoop_stop _ _ _ _ _ _ (by rw [hop2]; exact hprec)
  rw [evalF_operand _ _ _ _ _ _ _ ha hend1, evalLoop]
  simp only [hop1, WHOLEEXP, hprec1, if_true, inner, hdep, happ1, herr]
  rw [evalLoop]
  simp only [hop2, hprec2, if_true, evalF_operand_end _ _ _ _ _ _ hc, hdep, happ2, herr]
  exact evalLoop_stop _ _ _ _ _ _ (hnoop _)

theorem shl32_small (a n : Int) (h0 : 0 ≤ n) (h1 : n ≤ 31) :
    shl32 a n = wrap32 (a * 2 ^ n.toNat) := by
  have : toU32 n % 32 = n.toNat := by
    unfold toU32
    omega
  rw [shl32, this]

theorem isOperand_cur_ne {env : Env} {st : EvalSt} {w : List Char} {v : Int}
    (h : IsOperand env st w v) (c : Char) (hc : c ∈ mathy) (rest : List Char) :
    cur (w ++ rest) ≠ c := by
  obtain ⟨hne, ⟨_, _, hma⟩, _⟩ := h
  rw [cur_append w rest hne]
  intro heq
  rw [heq] at hma
  exact hma hc

/-- C1: for operands `a`, `b`, `c` that resolve to `va`, `vb`, `vc` (no error
pending, expression not dependant), `eval` at precedence `WHOLEEXP` returns
`va+(vb*vc)` for `a+b*c`, `(va*vb)+vc` for `a*b+c`, `(va<<vb)|vc` for `a<<b|c`
and `va|(vb<<vc)` for `a|b<<c` (32-bit `int` arithmetic; shift counts in 0..31),
and the precedence table orders the binary operators `||`, `&&`, `|`, `^`, `&`,
equality, comparison, shift, `+ -`, `* / %` from lowest to highest. -/
theorem eval_precedence (env : Env) (st : EvalSt) (a b c : List Char) (va vb vc : Int)
    (herr : st.errmsg = none) (hdep : st.dependant = false)
    (ha : IsOperand env st a va) (hb : IsOperand env st b vb) (hc : IsOperand env st c vc) :
    eval env (a ++ '+' :: (b ++ '*' :: c)) WHOLEEXP st
      = some (wrap32 (va + wrap32 (vb * vc)), [], st) ∧
    eval env (a ++ '*' :: (b ++ '+' :: c)) WHOLEEXP st
      = some (wrap32 (wrap32 (va * vb) + vc), [], st) ∧
    (0 ≤ vb → vb ≤ 31 →
      eval env (a ++ '<' :: '<' :: (b ++ '|' :: c)) WHOLEEXP st
        = some (or32 (wrap32 (va * 2 ^ vb.toNat)) vc, [], st)) ∧
    (0 ≤ vc → vc ≤ 31 →
      eval env (a ++ '|' :: (b ++ '<' :: '<' :: c)) WHOLEEXP st
        = some (or32 va (wrap32 (vb * 2 ^ vc.toNat)), [], st)) ∧
    (WHOLEEXP < prec .OROR ∧ prec .OROR < prec .ANDAND ∧ prec .ANDAND < prec .OR ∧
      prec .OR < prec .XOR ∧ prec .XOR < prec .AND ∧ prec .AND < prec .EQUAL ∧
      prec .EQUAL = prec .NOTEQUAL ∧ prec .EQUAL < prec .LESS ∧
      prec .LESS = prec .LESSEQ ∧ prec .LESS = prec .GREATER ∧ prec .LESS = prec .GREATEREQ ∧
      prec .LESS < prec .LEFTSHIFT ∧ prec .LEFTSHIFT = prec .RIGHTSHIFT ∧
      prec .LEFTSHIFT < prec .PLUS ∧ prec .PLUS = prec .MINUS ∧ prec .PLUS < prec .MUL ∧
      prec .MUL = prec .DIV ∧ prec .MUL = prec .MOD ∧ prec .MUL < UNARY) := by
  have hla := isOperand_length ha
  have hlb := isOperand_length hb
  have hlc := isOperand_length hc
  refine ⟨?_, ?_, ?_, ?_, by decide⟩
  · refine eval_of_evalF 6 _ _ _ _ _ (fun fuel => ?_) (by simp; omega)
    exact evalF_nest_right fuel env st a b c ['+'] ['*'] va vb vc _ _ .PLUS .MUL herr hdep
      ha hb hc (opEnd_cons _ _ (by decide)) (opEnd_cons _ _ (by decide))
      (getoperator_plus _) (getoperator_mul _) (by decide) (by decide) rfl rfl
  · refine eval_of_evalF 6 _ _ _ _ _ (fun fuel => ?_) (by simp; omega)
    exact evalF_nest_left fuel env st a b c ['*'] ['+'] va vb vc _ _ .MUL .PLUS herr hdep
      ha hb hc (opEnd_cons _ _ (by decide)) (opEnd_cons _ _ (by decide))
      (getoperator_mul _) (getoperator_plus _) (by decide) (by decide) (by decide) rfl rfl
  · intro h0 h1
    refine eval_of_evalF 6 _ _ _ _ _ (fun fuel => ?_) (by simp; omega)
    rw [← shl32_small va vb h0 h1]
    exact evalF_nest_left fuel env st a b c ['<', '<'] ['|'] va vb vc _ _ .LEFTSHIFT .OR
      herr hdep ha hb hc (opEnd_cons _ _ (by decide)) (opEnd_cons _ _ (by decide))
      (getoperator_shl _)
      (getoperator_or _ (by simpa using isOperand_cur_ne hc '|' (by decide) []))
      (by decide) (by decide) (by decide) rfl rfl
  · intro h0 h1
    refine eval_of_evalF 6 _ _ _ _ _ (fun fuel => ?_) (by simp; omega)
    rw [← shl32_small vb vc h0 h1]
    exact evalF_nest_right fuel env st a b c ['|'] ['<', '<'] va vb vc _ _ .OR .LEFTSHIFT
      herr hdep ha hb hc (opEnd_cons _ _ (by decide)) (opEnd_cons _ _ (by decide))
      (getoperator_or _ (isOperand_cur_ne hb '|' (by decide) _))
      (getoperator_shl _) (by decide) (by decide) rfl rfl

theorem toU32_lt (x : Int) : toU32 x < 4294967296 := by
  unfold toU32
  omega

theorem and32_255 (x : Int) : and32 x 255 = ((toU32 x % 256 : Nat) : Int) := by
  have h1 : toU32 255 = 255 := by decide
  have h2 : Nat.land (toU32 x) 255 = toU32 x % 256 :=
    Nat.and_pow_two_sub_one_eq_mod (toU32 x) 8
  rw [and32, h1, h2]
  apply wrap32_id
  · exact le_trans (by decide) (Int.ofNat_nonneg _)
  · have : toU32 x % 256 < 256 := Nat.mod_lt _ (by decide)
    show ((toU32 x % 256 : Nat) : Int) < 2147483648
    omega

theorem and32_255_eq_emod (x : Int) : and32 x 255 = x % 256 := by
  rw [and32_255]
  unfold toU32
  omega

theorem shr32_8 (x : Int) (h1 : -2147483648 ≤ x) (h2 : x < 2147483648) :
    shr32 x 8 = x / 256 := by
  have h8 : toU32 8 % 32 = 8 := by decide
  rw [shr32, h8, Int.shiftRight_eq_div_pow]
  apply wrap32_id <;> omega

theorem evalF_lowbyte (fuel : Nat) (env : Env) (st : EvalSt) (w : List Char) (v : Int)
    (hw : IsOperand env st w v) :
    evalF (fuel + 3) env ('<' :: w) WHOLEEXP st = some (and32 v 255, [], st) := by
  rw [evalF]
  have hsp : strspn ('<' :: w) whitesp = 0 := strspn_white_zero _ (by show _ ∉ whitesp; simp only [cur, List.headD_cons]; decide)
  simp only [hsp, List.drop_zero, cur, List.headD_cons, List.tail_cons,
    evalF_operand_end _ _ _ _ _ _ hw]
  simp only [show ¬ ('<' = '(') by decide, show ¬ ('<' = '#') by decide,
    show ¬ ('<' = '~') by decide, show ¬ ('<' = '!') by decide, if_false, if_true]
  exact evalLoop_stop _ _ _ _ _ _ (by rw [getoperator_nil]; simp [prec, WHOLEEXP])

theorem evalF_highbyte (fuel : Nat) (env : Env) (st : EvalSt) (w : List Char) (v : Int)
    (hw : IsOperand env st w v) :
    evalF (fuel + 3) env ('>' :: w) WHOLEEXP st = some (and32 (shr32 v 8) 255, [], st) := by
  rw [evalF]
  have hsp : strspn ('>' :: w) whitesp = 0 := strspn_white_zero _ (by show _ ∉ whitesp; simp only [cur, List.headD_cons]; decide)
  simp only [hsp, List.drop_zero, cur, List.headD_cons, List.tail_cons,
    evalF_operand_end _ _ _ _ _ _ hw]
  simp only [show ¬ ('>' = '(') by decide, show ¬ ('>' = '#') by decide,
    show ¬ ('>' = '~') by decide, show ¬ ('>' = '!') by decide, show ¬ ('>' = '<') by decide,
    if_false, if_true]
  exact evalLoop_stop _ _ _ _ _ _ (by rw [getoperator_nil]; simp [prec, WHOLEEXP])

/-- C5: for an operand `w` that resolves to `v`, `<w` evaluates to `v & 0xff` and
`>w` to `(v >> 8) & 0xff`; these are `v mod 256` and, for `v` a 32-bit `int`,
`(v div 256) mod 256`; both lie in 0..255 and, for `0 ≤ v ≤ 0xFFFF`,
`(>w)*256 + (<w) = v`. -/
theorem eval_low_high_byte (env : Env) (st : EvalSt) (w : List Char) (v : Int)
    (hw : IsOperand env st w v) :
    eval env ('<' :: w) WHOLEEXP st = some (and32 v 255, [], st) ∧
    eval env ('>' :: w) WHOLEEXP st = some (and32 (shr32 v 8) 255, [], st) ∧
    and32 v 255 = v % 256 ∧
    (-2147483648 ≤ v → v < 2147483648 → and32 (shr32 v 8) 255 = v / 256 % 256) ∧
    (0 ≤ and32 v 255 ∧ and32 v 255 ≤ 255) ∧
    (0 ≤ and32 (shr32 v 8) 255 ∧ and32 (shr32 v 8) 255 ≤ 255) ∧
    (0 ≤ v → v ≤ 65535 → and32 (shr32 v 8) 255 * 256 + and32 v 255 = v) := by
  have hl := isOperand_length hw
  refine ⟨?_, ?_, and32_255_eq_emod v, ?_, ?_, ?_, ?_⟩
  · exact eval_of_evalF 3 _ _ _ _ _ (fun fuel => evalF_lowbyte fuel env st w v hw)
      (by simp; omega)
  · exact eval_of_evalF 3 _ _ _ _ _ (fun fuel => evalF_highbyte fuel env st w v hw)
      (by simp; omega)
  · intro h1 h2
    rw [and32_255_eq_emod, shr32_8 v h1 h2]
  · rw [and32_255_eq_emod]
    omega
  · rw [and32_255_eq_emod]
    omega
  · intro h1 h2
    rw [and32_255_eq_emod, and32_255_eq_emod, shr32_8 v (by omega) (by omega)]
    omega

theorem evalF_mono (fuel k : Nat) (env : Env) (str : List Char) (precedence : Nat) (st : EvalSt)
    (r : Int × List Char × EvalSt) (h : evalF fuel env str precedence st = some r) :
    evalF (fuel + k) env str precedence st = some r := by
  induction k with
  | zero => exact h
  | succ k ih => exact (evalF_evalLoop_mono (fuel + k)).1 _ _ _ _ _ ih

theorem getword_sign_cur (c : Char) (rest : List Char) (hc : c = '+' ∨ c = '-') :
    cur (getword (c :: rest) true).1 = c := by
  have hsp : strspn (c :: rest) whitesp = 0 :=
    strspn_white_zero _ (by
      show _ ∉ whitesp
      simp only [cur, List.headD_cons]
      rcases hc with h | h <;> (subst h; decide))
  have hcm : List.elem c mathy = true := by
    rcases hc with h | h <;> (subst h; decide)
  have hcw : List.elem c whitesp = false := by
    rcases hc with h | h <;> (subst h; decide)
  have hcn : c ≠ NUL := by
    rcases hc with h | h <;> (subst h; decide)
  simp only [getword, hsp, List.drop_zero, WORDMAX, Nat.add_one_sub_one, if_true]
  simp only [show (127 : Nat) = 126 + 1 from rfl, List.take_succ_cons]
  simp only [strtok, List.takeWhile_cons, List.dropWhile_cons, hcw, cutAtDelim, hcn, hcm,
    if_false, if_true, Bool.false_eq_true, List.nil_append, List.cons_append, cur,
    List.headD_cons]

/-- The unary sign case with no error pending on entry: a leading `+` or `-`
whose word names no visible label and is more than the bare sign falls back to
the unary operator; `eval` returns the value of the following operand (negated
for `-`), and leaves `errmsg`, `dependant` and `needanotherpass` exactly as
evaluating the operand alone from the same state leaves them. -/
theorem eval_unary_sign (env : Env) (st st1 : EvalSt) (c : Char) (rest s1 : List Char)
    (precedence : Nat) (r : Int)
    (hc : c = '+' ∨ c = '-') (herr : st.errmsg = none)
    (hfind : (findlabel env.tbl env.scope env.pass
                (cstr (getword (c :: rest) true).1)).map Prod.fst = some none)
    (hlen : (getword (c :: rest) true).2.length ≠ rest.length)
    (hoperand : eval env rest UNARY st = some (r, s1, st1))
    (hprec : ¬ precedence < prec (getoperator s1).1) :
    eval env (c :: rest) precedence st
      = some (if c = '-' then wrap32 (-r) else r, s1, st1) := by
  obtain ⟨t, hfind⟩ : ∃ t, findlabel env.tbl env.scope env.pass
      (cstr (getword (c :: rest) true).1) = some (none, t) := by
    cases hf : findlabel env.tbl env.scope env.pass (cstr (getword (c :: rest) true).1) with
    | none =>
      rw [hf] at hfind
      cases hfind
    | some v =>
      obtain ⟨res, t⟩ := v
      rw [hf] at hfind
      simp only [Option.map_some', Option.some.injEq] at hfind
      exact ⟨t, by rw [hfind]⟩
  have hsp : strspn (c :: rest) whitesp = 0 :=
    strspn_white_zero _ (by
      show _ ∉ whitesp
      simp only [cur, List.headD_cons]
      rcases hc with h | h <;> (subst h; decide))
  have hcur := getword_sign_cur c rest hc
  have hgv : getvalue env (c :: rest) { st with dependant := false }
      = some (0, (getword (c :: rest) true).2,
          if env.lastchance then
            { errmsg := some .UnknownLabel, dependant := true, needanotherpass := true }
          else { errmsg := st.errmsg, dependant := true, needanotherpass := true }) := by
    rw [getvalue]
    have e1 : c ≠ NUL := by rcases hc with h | h <;> (subst h; decide)
    have e2 : c ≠ '$' := by rcases hc with h | h <;> (subst h; decide)
    have e3 : c ≠ '%' := by rcases hc with h | h <;> (subst h; decide)
    have e4 : c ≠ '\'' := by rcases hc with h | h <;> (subst h; decide)
    have e5 : c ≠ '"' := by rcases hc with h | h <;> (subst h; decide)
    have e6 : ¬ ('0'.toNat ≤ c.toNat ∧ c.toNat ≤ '9'.toNat) := by
      rcases hc with h | h <;> (subst h; decide)
    revert hcur hfind
    generalize getword (c :: rest) true = gw
    obtain ⟨gv, s2⟩ := gw
    intro hcur hfind
    simp only at hcur hfind
    simp only [hcur, e1, e2, e3, e4, e5, e6, if_false, hfind]
  revert hgv hlen
  generalize (getword (c :: rest) true).2 = s2
  intro hlen hgv
  have hop := evalF_mono _ 1 _ _ _ _ _ hoperand
  have hneg : ¬ (c = '(' ∨ c = '#' ∨ c = '~' ∨ c = '!' ∨ c = '<' ∨ c = '>') := by
    rcases hc with h | h <;> (subst h; decide)
  simp only [not_or] at hneg
  obtain ⟨n1, n2, n3, n4, n5, n6⟩ := hneg
  rw [eval]
  rw [show 2 * (c :: rest).length + 2 = (2 * rest.length + 2 + 1) + 1 by simp; omega, evalF]
  simp only [hsp, List.drop_zero, cur, List.headD_cons, List.tail_cons, n1, n2, n3, n4, n5, n6,
    if_false, hc, if_true, hgv]
  by_cases hl : env.lastchance = true
  · simp only [hl, if_true, clearUnknown, herr, hlen, or_false, Bool.true_eq_false] at hop ⊢
    have hst : (⟨none, st.dependant, st.needanotherpass⟩ : EvalSt) = st := by
      cases st
      simp_all
    rw [hst, hop]
    exact evalLoop_stop _ _ _ _ _ _ hprec
  · simp only [hl, if_false, clearUnknown, herr, hlen, or_false, Bool.true_eq_false,
      reduceCtorEq] at hop ⊢
    have hst : (⟨none, st.dependant, st.needanotherpass⟩ : EvalSt) = st := by
      cases st
      simp_all
    rw [hst, hop]
    exact evalLoop_stop _ _ _ _ _ _ hprec

/-! ## String comparison -/

theorem char_toNat_inj (a b : Char) (h : a.toNat = b.toNat) : a = b := by
  apply Char.ext
  apply UInt32.ext
  exact h

theorem strcmp_self (a : List Char) : strcmp a a = 0 := by
  induction a with
  | nil => rfl
  | cons c cs ih => simp [strcmp, ih]

theorem strcmp_eq_zero (a b : List Char) (h : strcmp a b = 0) : a = b := by
  induction a generalizing b with
  | nil =>
    cases b with
    | nil => rfl
    | cons d ds => simp [strcmp] at h
  | cons c cs ih =>
    cases b with
    | nil => simp [strcmp] at h
    | cons d ds =>
      rw [strcmp] at h
      by_cases h1 : c.toNat < d.toNat
      · simp [h1] at h
      · by_cases h2 : d.toNat < c.toNat
        · simp [h1, h2] at h
        · simp only [h1, h2, if_false] at h
          have hcd : c = d := char_toNat_inj _ _ (by omega)
          rw [hcd, ih ds h]

theorem strcmp_range (a b : List Char) : strcmp a b = -1 ∨ strcmp a b = 0 ∨ strcmp a b = 1 := by
  induction a generalizing b with
  | nil =>
    cases b with
    | nil => simp [strcmp]
    | cons d ds => simp [strcmp]
  | cons c cs ih =>
    cases b with
    | nil => simp [strcmp]
    | cons d ds =>
      rw [strcmp]
      split_ifs with h1 h2
      · simp
      · simp
      · exact ih ds

theorem strcmp_swap (a b : List Char) : strcmp b a = - strcmp a b := by
  induction a generalizing b with
  | nil =>
    cases b with
    | nil => simp [strcmp]
    | cons d ds => simp [strcmp]
  | cons c cs ih =>
    cases b with
    | nil => simp [strcmp]
    | cons d ds =>
      rw [strcmp, strcmp]
      split_ifs <;> first
        | exact ih ds
        | rfl
        | (exfalso; omega)

theorem strcmp_trans (a b c : List Char) (h1 : strcmp a b < 0) (h2 : strcmp b c < 0) :
    strcmp a c < 0 := by
  induction a generalizing b c with
  | nil =>
    cases c with
    | nil =>
      cases b with
      | nil => simp [strcmp] at h1
      | cons e es => simp [strcmp] at h2
    | cons d ds => simp [strcmp]
  | cons x xs ih =>
    cases b with
    | nil => simp [strcmp] at h1
    | cons y ys =>
      cases c with
      | nil => simp [strcmp] at h2
      | cons z zs =>
        rw [strcmp] at h1 h2 ⊢
        split_ifs at h1 h2 ⊢ <;> first
          | omega
          | exact ih _ _ h1 h2

/-! ## Binary search -/

theorem tdiv_two_nonneg (x : Int) (h : 0 ≤ x) : Int.tdiv x 2 = x / 2 :=
  Int.tdiv_eq_ediv h (by decide)

theorem findloop_spec (name : List Char) (ll : List (List label)) (lo hi : Int)
    (hsorted : ∀ i j, lo ≤ i → i < j → j ≤ hi → strcmp (nameAt ll i) (nameAt ll j) < 0) :
    ∀ (fuel : Nat) (head tail fi : Int), lo ≤ head → tail ≤ hi → head ≤ fi → fi ≤ tail →
      tail - head + 1 ≤ fuel →
      (∀ i, lo ≤ i → i < head → strcmp (nameAt ll i) name < 0) →
      (∀ i, tail < i → i ≤ hi → strcmp name (nameAt ll i) < 0) →
      ∃ cmp fi1, findloop name ll fuel head tail fi = some (cmp, fi1) ∧
        ((cmp = 0 ∧ lo ≤ fi1 ∧ fi1 ≤ hi ∧ strcmp name (nameAt ll fi1) = 0) ∨
         (cmp ≠ 0 ∧ lo ≤ (if cmp < 0 then fi1 + 1 else fi1) ∧
            (if cmp < 0 then fi1 + 1 else fi1) ≤ hi + 1 ∧
            (∀ i, lo ≤ i → i < (if cmp < 0 then fi1 + 1 else fi1) →
              strcmp (nameAt ll i) name < 0) ∧
            (∀ i, (if cmp < 0 then fi1 + 1 else fi1) ≤ i → i ≤ hi →
              strcmp name (nameAt ll i) < 0))) := by
  intro fuel
  induction fuel with
  | zero =>
    intro head tail fi h1 h2 h3 h4 h5
    omega
  | succ n ih =>
    intro head tail fi h1 h2 h3 h4 h5 hlow hhigh
    rw [findloop]
    simp only
    by_cases hneg : strcmp name (nameAt ll fi) < 0
    · simp only [hneg, if_true]
      have hhigh1 : ∀ i, fi - 1 < i → i ≤ hi → strcmp name (nameAt ll i) < 0 := by
        intro i hi1 hi2
        by_cases hie : i = fi
        · rw [hie]; exact hneg
        · exact strcmp_trans _ _ _ hneg (hsorted fi i (by omega) (by omega) hi2)
      by_cases hcont : fi - 1 - head ≥ 0
      · simp only [hcont, if_true]
        have hd : Int.tdiv (fi - 1 - head) 2 = (fi - 1 - head) / 2 := tdiv_two_nonneg _ hcont
        rw [hd]
        exact ih head (fi - 1) _ h1 (by omega) (by omega) (by omega) (by omega) hlow hhigh1
      · simp only [hcont, if_false]
        have hfh : fi - 1 - head = -1 := by omega
        have hd : Int.tdiv (fi - 1 - head) 2 = 0 := by rw [hfh]; decide
        refine ⟨_, _, rfl, Or.inr ⟨by omega, ?_⟩⟩
        simp only [hneg, if_true, hd]
        refine ⟨by omega, by omega, ?_, ?_⟩
        · intro i hi1 hi2
          exact hlow i hi1 (by omega)
        · intro i hi1 hi2
          exact hhigh1 i (by omega) hi2
    · simp only [hneg, if_false]
      by_cases hpos : strcmp name (nameAt ll fi) > 0
      · simp only [hpos, if_true]
        have hfl : strcmp (nameAt ll fi) name < 0 := by
          rw [strcmp_swap]
          omega
        have hlow1 : ∀ i, lo ≤ i → i < fi + 1 → strcmp (nameAt ll i) name < 0 := by
          intro i hi1 hi2
          by_cases hie : i = fi
          · rw [hie]; exact hfl
          · exact strcmp_trans _ _ _ (hsorted i fi hi1 (by omega) (by omega)) hfl
        by_cases hcont : tail - (fi + 1) ≥ 0
        · simp only [hcont, if_true]
          have hd : Int.tdiv (tail - (fi + 1)) 2 = (tail - (fi + 1)) / 2 :=
            tdiv_two_nonneg _ hcont
          rw [hd]
          exact ih (fi + 1) tail _ (by omega) h2 (by omega) (by omega) (by omega) hlow1 hhigh
        · simp only [hcont, if_false]
          have hfh : tail - (fi + 1) = -1 := by omega
          have hd : Int.tdiv (tail - (fi + 1)) 2 = 0 := by rw [hfh]; decide
          refine ⟨_, _, rfl, Or.inr ⟨by omega, ?_⟩⟩
          simp only [hneg, if_false, hd]
          refine ⟨by omega, by omega, ?_, ?_⟩
          · intro i hi1 hi2
            exact hlow1 i hi1 (by omega)
          · intro i hi1 hi2
            exact hhigh i (by omega) hi2
      · simp only [hpos, if_false]
        exact ⟨_, _, rfl, Or.inl ⟨by omega, by omega, by omega, by omega⟩⟩

/-- What `findlabel` leaves in `findcmp` and `findindex` on a sorted list, and
what it returns. -/
theorem findlabel_search (t : Table) (scope pass : Int) (name : List Char)
    (h : SortedList t) :
    ∃ cmp k, findlabel t scope pass name
        = some (if cmp ≠ 0 then none
                else if cur name = '+' then fwdwalk scope pass (slotAt t.labellist k) none
                else scopewalk scope (slotAt t.labellist k) none,
                { t with findcmp := cmp, findindex := k }) ∧
      ((cmp = 0 ∧ t.labelstart ≤ k ∧ k ≤ t.labelend ∧ nameAt t.labellist k = name) ∨
       (cmp ≠ 0 ∧ t.labelstart ≤ k ∧ k ≤ t.labelend + 1 ∧
          (∀ i, t.labelstart ≤ i → i < k → strcmp (nameAt t.labellist i) name < 0) ∧
          (∀ i, k ≤ i → i ≤ t.labelend → strcmp name (nameAt t.labellist i) < 0))) := by
  obtain ⟨h0, h1, h2, h3⟩ := h
  have hl : 0 ≤ t.labels := by omega
  have hd : Int.tdiv t.labels 2 = t.labels / 2 := tdiv_two_nonneg _ hl
  obtain ⟨cmp, fi1, hloop, hres⟩ := findloop_spec name t.labellist t.labelstart t.labelend h3
    (t.labels.toNat + 1) t.labelstart t.labelend (t.labelstart + Int.tdiv t.labels 2)
    (le_refl _) (le_refl _) (by omega) (by omega) (by push_cast; omega)
    (fun i hi1 hi2 => by omega) (fun i hi1 hi2 => by omega)
  rw [findlabel, hloop]
  rcases hres with ⟨hc, ha, hb, hz⟩ | ⟨hc, ha, hb, hlow, hhigh⟩
  · refine ⟨0, fi1, ?_, Or.inl ⟨rfl, ha, hb, (strcmp_eq_zero _ _ hz).symm⟩⟩
    simp only [hc, ne_eq, not_true_eq_false, if_false]
    split_ifs <;> rfl
  · refine ⟨cmp, if cmp < 0 then fi1 + 1 else fi1, ?_, Or.inr ⟨hc, ha, hb, hlow, hhigh⟩⟩
    simp only [ne_eq, hc, not_false_eq_true, if_true]

/-- C9: on a non-empty label list sorted by name, the binary search of
`findlabel` ends with `findcmp = 0` exactly when a slot of the list carries the
name, and then `findindex` is that slot; on a miss `findindex` is the insertion
position: every slot before it has a smaller name and every slot from it on a
larger one.  Nothing but `findcmp` and `findindex` is changed. -/
theorem findlabel_binary_search (t : Table) (scope pass : Int) (name : List Char)
    (h : SortedList t) :
    ∃ res t1, findlabel t scope pass name = some (res, t1) ∧
      t1 = { t with findcmp := t1.findcmp, findindex := t1.findindex } ∧
      (t1.findcmp = 0 ↔
        ∃ i, t.labelstart ≤ i ∧ i ≤ t.labelend ∧ nameAt t.labellist i = name) ∧
      (t1.findcmp = 0 →
        t.labelstart ≤ t1.findindex ∧ t1.findindex ≤ t.labelend ∧
          nameAt t.labellist t1.findindex = name) ∧
      (t1.findcmp ≠ 0 →
        res = none ∧ t.labelstart ≤ t1.findindex ∧ t1.findindex ≤ t.labelend + 1 ∧
          (∀ i, t.labelstart ≤ i → i < t1.findindex →
            strcmp (nameAt t.labellist i) name < 0) ∧
          (∀ i, t1.findindex ≤ i → i ≤ t.labelend →
            strcmp name (nameAt t.labellist i) < 0)) := by
  obtain ⟨cmp, k, hfind, hres⟩ := findlabel_search t scope pass name h
  refine ⟨_, _, hfind, rfl, ?_, ?_, ?_⟩
  · simp only
    constructor
    · intro hc
      rcases hres with ⟨_, ha, hb, hn⟩ | ⟨hne, _⟩
      · exact ⟨k, ha, hb, hn⟩
      · exact absurd hc hne
    · rintro ⟨i, hi1, hi2, hn⟩
      rcases hres with ⟨hc, _⟩ | ⟨hne, ha, hb, hlow, hhigh⟩
      · exact hc
      · exfalso
        by_cases hik : i < k
        · have := hlow i hi1 hik
          rw [hn, strcmp_self] at this
          omega
        · have := hhigh i (by omega) hi2
          rw [hn, strcmp_self] at this
          omega
  · simp only
    intro hc
    rcases hres with ⟨_, ha, hb, hn⟩ | ⟨hne, _⟩
    · exact ⟨ha, hb, hn⟩
    · exact absurd hc hne
  · simp only
    intro hne
    rcases hres with ⟨hc, _⟩ | ⟨_, ha, hb, hlow, hhigh⟩
    · exact absurd hc hne
    · exact ⟨by simp [hne], ha, hb, hlow, hhigh⟩

/-! ## Scope walk -/

theorem mem_entries (t : Table) (h0 : 0 ≤ t.labelstart)
    (hlen : t.labelend < (t.labellist.length : Int)) (p : label) :
    p ∈ entries t ↔ ∃ i : Int, t.labelstart ≤ i ∧ i ≤ t.labelend ∧ p ∈ slotAt t.labellist i := by
  unfold entries slotAt
  rw [List.mem_flatten]
  constructor
  · rintro ⟨l, hl, hp⟩
    rw [List.mem_iff_getElem] at hl
    obtain ⟨n, hn, hget⟩ := hl
    rw [List.length_take, List.length_drop] at hn
    rw [List.getElem_take, List.getElem_drop] at hget
    refine ⟨t.labelstart + n, by omega, by omega, ?_⟩
    have e : (t.labelstart + (n : Int)).toNat = t.labelstart.toNat + n := by omega
    rw [e, List.getD_eq_getElem?_getD, List.getElem?_eq_getElem (by omega)]
    simpa [hget] using hp
  · rintro ⟨i, hi1, hi2, hp⟩
    have hlt : i.toNat < t.labellist.length := by omega
    rw [List.getD_eq_getElem?_getD, List.getElem?_eq_getElem hlt] at hp
    refine ⟨t.labellist[i.toNat], ?_, by simpa using hp⟩
    rw [List.mem_iff_getElem]
    refine ⟨i.toNat - t.labelstart.toNat, ?_, ?_⟩
    · rw [List.length_take, List.length_drop]
      omega
    · rw [List.getElem_take, List.getElem_drop]
      congr 1
      omega

theorem scopewalk_hit (scope : Int) (chain : List label) (global : Option label)
    (h : ∃ p ∈ chain, p.scope = scope) :
    ∃ p ∈ chain, scopewalk scope chain global = some p ∧ p.scope = scope := by
  induction chain generalizing global with
  | nil =>
    obtain ⟨p, hp, _⟩ := h
    simp at hp
  | cons q rest ih =>
    rw [scopewalk]
    by_cases hq : q.scope = scope
    · exact ⟨q, List.mem_cons_self _ _, by simp [hq], hq⟩
    · simp only [hq, if_false]
      obtain ⟨p, hp, hps⟩ := h
      have hp1 : p ∈ rest := by
        rcases List.mem_cons.mp hp with h1 | h1
        · rw [h1] at hps; exact absurd hps hq
        · exact h1
      obtain ⟨p1, hp1m, hw, hs⟩ := ih _ ⟨p, hp1, hps⟩
      exact ⟨p1, List.mem_cons_of_mem _ hp1m, hw, hs⟩

theorem scopewalk_miss (scope : Int) (chain : List label) (global : Option label)
    (h : ∀ p ∈ chain, p.scope ≠ scope) :
    ((∃ p ∈ chain, p.scope = 0) →
      ∃ p ∈ chain, scopewalk scope chain global = some p ∧ p.scope = 0) ∧
    ((∀ p ∈ chain, p.scope ≠ 0) → scopewalk scope chain global = global) := by
  induction chain generalizing global with
  | nil =>
    constructor
    · rintro ⟨p, hp, _⟩
      simp at hp
    · intro _
      rfl
  | cons q rest ih =>
    have hq : q.scope ≠ scope := h q (List.mem_cons_self _ _)
    have hrest : ∀ p ∈ rest, p.scope ≠ scope := fun p hp => h p (List.mem_cons_of_mem _ hp)
    rw [scopewalk]
    simp only [hq, if_false]
    constructor
    · rintro ⟨p, hp, hp0⟩
      by_cases hr : ∃ p ∈ rest, p.scope = 0
      · obtain ⟨p1, hp1, hw, hs⟩ := (ih _ hrest).1 hr
        exact ⟨p1, List.mem_cons_of_mem _ hp1, hw, hs⟩
      · push_neg at hr
        have hq0 : q.scope = 0 := by
          rcases List.mem_cons.mp hp with h1 | h1
          · rw [← h1]; exact hp0
          · exact absurd hp0 (hr p h1)
        rw [(ih _ hrest).2 hr]
        exact ⟨q, List.mem_cons_self _ _, by simp [hq0], hq0⟩
    · intro hall
      have hq0 : q.scope ≠ 0 := hall q (List.mem_cons_self _ _)
      rw [(ih _ hrest).2 (fun p hp => hall p (List.mem_cons_of_mem _ hp))]
      simp [hq0]

theorem tableOK_mem_entries {t : Table} (h : TableOK t) (p : label) :
    p ∈ entries t ↔ ∃ i : Int, t.labelstart ≤ i ∧ i ≤ t.labelend ∧ p ∈ slotAt t.labellist i :=
  mem_entries t h.start_nonneg (by rw [h.length_eq]; exact h.end_lt_max) p

/-- In a well-formed table the entries named like slot `k` are the chain at `k`. -/
theorem entries_of_name {t : Table} (h : TableOK t) (k : Int) (hk1 : t.labelstart ≤ k)
    (hk2 : k ≤ t.labelend) (p : label) :
    (p ∈ entries t ∧ p.name = nameAt t.labellist k) ↔ p ∈ slotAt t.labellist k := by
  constructor
  · rintro ⟨hp, hn⟩
    obtain ⟨i, hi1, hi2, hpi⟩ := (tableOK_mem_entries h p).mp hp
    have hni : nameAt t.labellist i = nameAt t.labellist k := by
      rw [← h.chain_name i hi1 hi2 p hpi, hn]
    have hik : i = k := by
      by_contra hne
      rcases lt_or_gt_of_ne hne with hlt | hgt
      · have := h.sorted i k hi1 hlt hk2
        rw [hni, strcmp_self] at this
        omega
      · have := h.sorted k i hk1 hgt hi2
        rw [hni, strcmp_self] at this
        omega
    rw [← hik]
    exact hpi
  · intro hp
    exact ⟨(tableOK_mem_entries h p).mpr ⟨k, hk1, hk2, hp⟩, h.chain_name k hk1 hk2 p hp⟩

/-- C7: in a well-formed table, for a name that does not begin with `+`,
`findlabel` returns an entry of that name whose scope is the current scope if
the table has one; otherwise an entry of that name with scope 0 if the table
has one; otherwise nothing. -/
theorem findlabel_scope (t : Table) (scope pass : Int) (name : List Char)
    (h : TableOK t) (hplus : cur name ≠ '+') :
    ∃ res t1, findlabel t scope pass name = some (res, t1) ∧
      ((∃ p ∈ entries t, p.name = name ∧ p.scope = scope) →
        ∃ p, res = some p ∧ p ∈ entries t ∧ p.name = name ∧ p.scope = scope) ∧
      ((∀ p ∈ entries t, p.name = name → p.scope ≠ scope) →
        (∃ p ∈ entries t, p.name = name ∧ p.scope = 0) →
        ∃ p, res = some p ∧ p ∈ entries t ∧ p.name = name ∧ p.scope = 0) ∧
      ((∀ p ∈ entries t, p.name = name → p.scope ≠ scope ∧ p.scope ≠ 0) → res = none) := by
  obtain ⟨cmp, k, hfind, hres⟩ := findlabel_search t scope pass name h.toSortedList
  refine ⟨_, _, hfind, ?_⟩
  rcases hres with ⟨hc, hk1, hk2, hn⟩ | ⟨hne, hk1, hk2, hlow, hhigh⟩
  · have hchain : ∀ p, (p ∈ entries t ∧ p.name = name) ↔ p ∈ slotAt t.labellist k := by
      intro p
      rw [← hn]
      exact entries_of_name h k hk1 hk2 p
    simp only [hc, ne_eq, not_true_eq_false, if_false, hplus]
    refine ⟨?_, ?_, ?_⟩
    · rintro ⟨p, hp, hpn, hps⟩
      obtain ⟨q, hq, hw, hs⟩ := scopewalk_hit scope (slotAt t.labellist k) none
        ⟨p, (hchain p).mp ⟨hp, hpn⟩, hps⟩
      exact ⟨q, hw, ((hchain q).mpr hq).1, ((hchain q).mpr hq).2, hs⟩
    · intro hno
      rintro ⟨p, hp, hpn, hp0⟩
      have hmiss : ∀ q ∈ slotAt t.labellist k, q.scope ≠ scope := fun q hq =>
        hno q ((hchain q).mpr hq).1 ((hchain q).mpr hq).2
      obtain ⟨q, hq, hw, hs⟩ := (scopewalk_miss scope (slotAt t.labellist k) none hmiss).1
        ⟨p, (hchain p).mp ⟨hp, hpn⟩, hp0⟩
      exact ⟨q, hw, ((hchain q).mpr hq).1, ((hchain q).mpr hq).2, hs⟩
    · intro hno
      have hmiss : ∀ q ∈ slotAt t.labellist k, q.scope ≠ scope := fun q hq =>
        (hno q ((hchain q).mpr hq).1 ((hchain q).mpr hq).2).1
      have hmiss0 : ∀ q ∈ slotAt t.labellist k, q.scope ≠ 0 := fun q hq =>
        (hno q ((hchain q).mpr hq).1 ((hchain q).mpr hq).2).2
      exact (scopewalk_miss scope (slotAt t.labellist k) none hmiss).2 hmiss0
  · have hnone : ∀ p ∈ entries t, p.name ≠ name := by
      intro p hp hpn
      obtain ⟨i, hi1, hi2, hpi⟩ := (tableOK_mem_entries h p).mp hp
      have hni : nameAt t.labellist i = name := by
        rw [← h.chain_name i hi1 hi2 p hpi, hpn]
      by_cases hik : i < k
      · have := hlow i hi1 hik
        rw [hni, strcmp_self] at this
        omega
      · have := hhigh i (by omega) hi2
        rw [hni, strcmp_self] at this
        omega
    simp only [ne_eq, hne, not_false_eq_true, if_true]
    refine ⟨?_, ?_, ?_⟩
    · rintro ⟨p, hp, hpn, _⟩
      exact absurd hpn (hnone p hp)
    · intro _
      rintro ⟨p, hp, hpn, _⟩
      exact absurd hpn (hnone p hp)
    · intro _
      trivial

/-! ## Adding a label -/

theorem slotAt_set (ll : List (List label)) (n : Nat) (x : List label) (i : Int) (h0 : 0 ≤ i)
    (hn : n < ll.length) :
    slotAt (ll.set n x) i = if i = (n : Int) then x else slotAt ll i := by
  unfold slotAt
  rw [List.getD_eq_getElem?_getD, List.getD_eq_getElem?_getD, List.getElem?_set]
  by_cases hi : i = (n : Int)
  · have : n = i.toNat := by omega
    simp [hi, hn]
  · have : ¬ n = i.toNat := by omega
    simp [hi, this]

theorem shiftup_spec (endi : Int) (h0 : 0 ≤ endi) :
    ∀ (n : Nat) (start : Int) (ll : List (List label)), start + 1 < (ll.length : Int) →
      (n : Int) = start - endi + 1 →
      (shiftup endi n start ll).length = ll.length ∧
      ∀ i : Int, 0 ≤ i → slotAt (shiftup endi n start ll) i
        = if endi < i ∧ i ≤ start + 1 then slotAt ll (i - 1) else slotAt ll i := by
  intro n
  induction n with
  | zero =>
    intro start ll h1 h2
    refine ⟨rfl, fun i hi => ?_⟩
    have : ¬ (endi < i ∧ i ≤ start + 1) := by omega
    simp [shiftup, this]
  | succ n ih =>
    intro start ll h1 h2
    have hge : start ≥ endi := by omega
    rw [shiftup]
    simp only [hge, if_true]
    have hlen : (ll.set (start + 1).toNat (slotAt ll start)).length = ll.length :=
      List.length_set _ _ _
    obtain ⟨hl, hs⟩ := ih (start - 1) (ll.set (start + 1).toNat (slotAt ll start))
      (by rw [hlen]; omega) (by omega)
    refine ⟨by rw [hl, hlen], fun i hi => ?_⟩
    rw [hs i hi]
    have hnat : ((start + 1).toNat : Int) = start + 1 := by omega
    by_cases hc1 : endi < i ∧ i ≤ start - 1 + 1
    · have hc2 : endi < i ∧ i ≤ start + 1 := by omega
      simp only [hc1, hc2, and_self, if_true]
      rw [slotAt_set _ _ _ _ (by omega) (by omega)]
      have : ¬ (i - 1 = ((start + 1).toNat : Int)) := by omega
      simp only [this, if_false]
    · simp only [hc1, if_false]
      rw [slotAt_set _ _ _ _ hi (by omega)]
      by_cases hie : i = start + 1
      · have hc2 : endi < i ∧ i ≤ start + 1 := by omega
        simp only [hie, hnat, if_true]
        have : endi < start + 1 := by omega
        simp [this]
      · have hc2 : ¬ (endi < i ∧ i ≤ start + 1) := by omega
        have : ¬ (i = ((start + 1).toNat : Int)) := by omega
        simp only [this, hc2, if_false]

theorem shiftdown_spec (endi : Int) :
    ∀ (n : Nat) (start : Int) (ll : List (List label)), 1 ≤ start →
      endi < (ll.length : Int) → (n : Int) = endi - start + 1 →
      (shiftdown endi n start ll).length = ll.length ∧
      ∀ i : Int, 0 ≤ i → slotAt (shiftdown endi n start ll) i
        = if start - 1 ≤ i ∧ i < endi then slotAt ll (i + 1) else slotAt ll i := by
  intro n
  induction n with
  | zero =>
    intro start ll h0 h1 h2
    refine ⟨rfl, fun i hi => ?_⟩
    have : ¬ (start - 1 ≤ i ∧ i < endi) := by omega
    simp only [shiftdown, this, if_false]
  | succ n ih =>
    intro start ll h0 h1 h2
    have hge : start ≤ endi := by omega
    rw [shiftdown]
    simp only [hge, if_true]
    have hlen : (ll.set (start - 1).toNat (slotAt ll start)).length = ll.length :=
      List.length_set _ _ _
    obtain ⟨hl, hs⟩ := ih (start + 1) (ll.set (start - 1).toNat (slotAt ll start))
      (by omega) (by rw [hlen]; omega) (by omega)
    refine ⟨by rw [hl, hlen], fun i hi => ?_⟩
    rw [hs i hi]
    have hnat : ((start - 1).toNat : Int) = start - 1 := by omega
    by_cases hc1 : start + 1 - 1 ≤ i ∧ i < endi
    · have hc2 : start - 1 ≤ i ∧ i < endi := by omega
      simp only [hc1, hc2, and_self, if_true]
      rw [slotAt_set _ _ _ _ (by omega) (by omega)]
      have : ¬ (i + 1 = ((start - 1).toNat : Int)) := by omega
      simp only [this, if_false]
    · simp only [hc1, if_false]
      rw [slotAt_set _ _ _ _ hi (by omega)]
      by_cases hie : i = start - 1
      · simp only [hie, hnat, if_true]
        have : start - 1 < endi := by omega
        simp [this]
      · have hc2 : ¬ (start - 1 ≤ i ∧ i < endi) := by omega
        have : ¬ (i = ((start - 1).toNat : Int)) := by omega
        simp only [this, hc2, if_false]

theorem nameAt_eq_of_slotAt_eq (l1 l2 : List (List label)) (i j : Int)
    (h : slotAt l1 i = slotAt l2 j) : nameAt l1 i = nameAt l2 j := by
  unfold nameAt
  rw [h]

theorem growlist_spec (t : Table) (h : TableOK t) :
    (growlist t).maxlabels = 2 * t.maxlabels ∧
    (growlist t).labelstart = t.maxlabels - t.labels / 2 ∧
    (growlist t).labelend = t.maxlabels - t.labels / 2 + t.labels - 1 ∧
    (growlist t).labels = t.labels ∧
    (growlist t).findcmp = t.findcmp ∧
    (growlist t).findindex = t.findindex - t.labelstart + (t.maxlabels - t.labels / 2) ∧
    ((growlist t).labellist.length : Int) = 2 * t.maxlabels ∧
    (∀ j : Int, t.maxlabels - t.labels / 2 ≤ j → j ≤ t.maxlabels - t.labels / 2 + t.labels - 1 →
      slotAt (growlist t).labellist j
        = slotAt t.labellist (j - (t.maxlabels - t.labels / 2) + t.labelstart)) := by
  have h0 := h.start_nonneg
  have h1 := h.start_le_end
  have h2 := h.count
  have h3 := h.end_lt_max
  have h4 := h.length_eq
  have h5 := h.max_ge
  have hd1 : Int.tdiv (t.maxlabels * 2) 2 = t.maxlabels := by
    rw [tdiv_two_nonneg _ (by omega)]
    omega
  have hd2 : Int.tdiv t.labels 2 = t.labels / 2 := tdiv_two_nonneg _ (by omega)
  have hdrop : ((t.labellist.drop t.labelstart.toNat).take t.labels.toNat).length
      = t.labels.toNat := by
    rw [List.length_take, List.length_drop]
    omega
  refine ⟨by simp only [growlist]; omega, by simp only [growlist, hd1, hd2],
    by simp only [growlist, hd1, hd2], rfl, rfl, by simp only [growlist, hd1, hd2], ?_, ?_⟩
  · simp only [growlist, hd1, hd2, List.length_append, List.length_replicate, hdrop]
    push_cast
    omega
  · intro j hj1 hj2
    simp only [growlist, hd1, hd2]
    unfold slotAt
    have hjn : (t.maxlabels - t.labels / 2).toNat ≤ j.toNat := by omega
    rw [List.getD_eq_getElem?_getD, List.getD_eq_getElem?_getD, List.append_assoc,
      List.getElem?_append_right (by rw [List.length_replicate]; exact hjn),
      List.length_replicate,
      List.getElem?_append_left (by rw [hdrop]; omega),
      List.getElem?_take_of_lt (by omega), List.getElem?_drop]
    congr 2
    omega

/-- A table `t1` whose slots are those of the well-formed table `t` with one new
single-label slot at `kk`, the old slots keeping their order around it, is well
formed and has every entry of `t`. -/
theorem insert_ok (t t1 : Table) (word : List Char) (fresh : label) (kk k : Int)
    (σ : Int → Int) (hOK : TableOK t)
    (hlow : ∀ i, t.labelstart ≤ i → i < k → strcmp (nameAt t.labellist i) word < 0)
    (hhigh : ∀ i, k ≤ i → i ≤ t.labelend → strcmp word (nameAt t.labellist i) < 0)
    (b1 : 0 ≤ t1.labelstart) (b2 : t1.labelstart ≤ kk) (b3 : kk ≤ t1.labelend)
    (b4 : t1.labelend < t1.maxlabels) (b5 : (t1.labellist.length : Int) = t1.maxlabels)
    (b6 : 2 ≤ t1.maxlabels) (b7 : t1.labels = t1.labelend - t1.labelstart + 1)
    (hnew : slotAt t1.labellist kk = [fresh]) (hname : fresh.name = word)
    (hold : ∀ i, t1.labelstart ≤ i → i ≤ t1.labelend → i ≠ kk →
      slotAt t1.labellist i = slotAt t.labellist (σ i) ∧ t.labelstart ≤ σ i ∧
        σ i ≤ t.labelend ∧ (i < kk → σ i < k) ∧ (kk < i → k ≤ σ i))
    (hmono : ∀ i j, t1.labelstart ≤ i → i < j → j ≤ t1.labelend → i ≠ kk → j ≠ kk →
      σ i < σ j)
    (hsurj : ∀ m, t.labelstart ≤ m → m ≤ t.labelend →
      ∃ i, t1.labelstart ≤ i ∧ i ≤ t1.labelend ∧ i ≠ kk ∧ σ i = m) :
    TableOK t1 ∧ (∀ p ∈ entries t, p ∈ entries t1) ∧ fresh ∈ entries t1 := by
  have hmem1 : ∀ p, p ∈ entries t1 ↔ ∃ i : Int, t1.labelstart ≤ i ∧ i ≤ t1.labelend ∧
      p ∈ slotAt t1.labellist i := mem_entries t1 b1 (by rw [b5]; exact b4)
  have hnk : nameAt t1.labellist kk = word := by
    unfold nameAt
    rw [hnew]
    exact hname
  have hnold : ∀ i, t1.labelstart ≤ i → i ≤ t1.labelend → i ≠ kk →
      nameAt t1.labellist i = nameAt t.labellist (σ i) := fun i h1 h2 h3 =>
    nameAt_eq_of_slotAt_eq _ _ _ _ (hold i h1 h2 h3).1
  refine ⟨⟨⟨b1, le_trans b2 b3, b7, ?_⟩, b4, b5, b6, ?_, ?_⟩, ?_, ?_⟩
  · intro i j hi hij hj
    by_cases hik : i = kk
    · have hjk : j ≠ kk := by omega
      obtain ⟨_, _, hs2, _, hs4⟩ := hold j (by omega) hj hjk
      rw [hik, hnk, hnold j (by omega) hj hjk]
      exact hhigh _ (hs4 (by omega)) hs2
    · by_cases hjk : j = kk
      · obtain ⟨_, hs1, _, hs3, _⟩ := hold i hi (by omega) hik
        rw [hjk, hnk, hnold i hi (by omega) hik]
        exact hlow _ hs1 (hs3 (by omega))
      · obtain ⟨_, hs1, _, _, _⟩ := hold i hi (by omega) hik
        obtain ⟨_, _, hs2, _, _⟩ := hold j (by omega) hj hjk
        rw [hnold i hi (by omega) hik, hnold j (by omega) hj hjk]
        exact hOK.sorted _ _ hs1 (hmono i j hi hij hj hik hjk) hs2
  · intro i hi1 hi2
    by_cases hik : i = kk
    · rw [hik, hnew]
      simp
    · obtain ⟨hs, hs1, hs2, _, _⟩ := hold i hi1 hi2 hik
      rw [hs]
      exact hOK.chain_ne _ hs1 hs2
  · intro i hi1 hi2 p hp
    by_cases hik : i = kk
    · rw [hik] at hp ⊢
      rw [hnew] at hp
      rw [hnk, List.mem_singleton.mp hp, hname]
    · obtain ⟨hs, hs1, hs2, _, _⟩ := hold i hi1 hi2 hik
      rw [hs] at hp
      rw [hnold i hi1 hi2 hik]
      exact hOK.chain_name _ hs1 hs2 p hp
  · intro p hp
    obtain ⟨m, hm1, hm2, hpm⟩ := (tableOK_mem_entries hOK p).mp hp
    obtain ⟨i, hi1, hi2, hik, hσ⟩ := hsurj m hm1 hm2
    refine (hmem1 p).mpr ⟨i, hi1, hi2, ?_⟩
    rw [(hold i hi1 hi2 hik).1, hσ]
    exact hpm
  · refine (hmem1 fresh).mpr ⟨kk, b2, b3, ?_⟩
    rw [hnew]
    simp

theorem placelabel_ok (t : Table) (word : List Char) (fresh : label) (hOK : TableOK t)
    (hroom1 : 1 ≤ t.labelstart) (hroom2 : t.labelend < t.maxlabels - 1)
    (hk1 : t.labelstart ≤ t.findindex) (hk2 : t.findindex ≤ t.labelend + 1)
    (hlow : ∀ i, t.labelstart ≤ i → i < t.findindex →
      strcmp (nameAt t.labellist i) word < 0)
    (hhigh : ∀ i, t.findindex ≤ i → i ≤ t.labelend →
      strcmp word (nameAt t.labellist i) < 0)
    (hname : fresh.name = word) :
    TableOK (placelabel t fresh) ∧ (∀ p ∈ entries t, p ∈ entries (placelabel t fresh)) ∧
      fresh ∈ entries (placelabel t fresh) := by
  have h0 := hOK.start_nonneg
  have h1 := hOK.start_le_end
  have h2 := hOK.count
  have h3 := hOK.end_lt_max
  have h4 := hOK.length_eq
  have h5 := hOK.max_ge
  have hd2 : Int.tdiv t.labels 2 = t.labels / 2 := tdiv_two_nonneg _ (by omega)
  unfold placelabel
  by_cases hup : t.findindex > t.labelstart + Int.tdiv t.labels 2
  · rw [if_pos hup]
    rw [hd2] at hup
    obtain ⟨hl, hs⟩ := shiftup_spec t.findindex (by omega)
      (t.labelend - t.findindex + 1).toNat t.labelend t.labellist (by omega) (by omega)
    have hnat : (t.findindex.toNat : Int) = t.findindex := by omega
    refine insert_ok t _ word fresh t.findindex t.findindex
      (fun i => if i < t.findindex then i else i - 1) hOK hlow hhigh
      (by simpa using h0) (by simpa using hk1) (by simpa using hk2) (by simp only; omega)
      (by simp only [List.length_set, hl]; omega) (by simpa using h5) (by simp only; omega)
      ?_ hname ?_ ?_ ?_
    · show slotAt (List.set _ _ _) t.findindex = [fresh]
      rw [slotAt_set _ _ _ _ (by omega) (by rw [hl]; omega), if_pos hnat.symm]
    · intro i hi1 hi2 hik
      have hi1 : t.labelstart ≤ i := hi1
      have hi2 : i ≤ t.labelend + 1 := hi2
      show slotAt (List.set _ _ _) i = slotAt t.labellist (if i < t.findindex then i else i - 1)
        ∧ t.labelstart ≤ (if i < t.findindex then i else i - 1)
        ∧ (if i < t.findindex then i else i - 1) ≤ t.labelend
        ∧ (i < t.findindex → (if i < t.findindex then i else i - 1) < t.findindex)
        ∧ (t.findindex < i → t.findindex ≤ (if i < t.findindex then i else i - 1))
      have e1 : ¬ (i = (t.findindex.toNat : Int)) := by omega
      rw [slotAt_set _ _ _ _ (by omega) (by rw [hl]; omega), if_neg e1, hs i (by omega)]
      by_cases hlt : i < t.findindex
      · have e2 : ¬ (t.findindex < i ∧ i ≤ t.labelend + 1) := by omega
        rw [if_neg e2, if_pos hlt]
        exact ⟨rfl, by omega, by omega, fun _ => hlt, fun _ => by omega⟩
      · have e2 : t.findindex < i ∧ i ≤ t.labelend + 1 := by omega
        rw [if_pos e2, if_neg hlt]
        exact ⟨rfl, by omega, by omega, fun _ => by omega, fun _ => by omega⟩
    · intro i j hi hij hj hik hjk
      have hi : t.labelstart ≤ i := hi
      have hj : j ≤ t.labelend + 1 := hj
      show (if i < t.findindex then i else i - 1) < (if j < t.findindex then j else j - 1)
      split_ifs <;> omega
    · intro m hm1 hm2
      by_cases hlt : m < t.findindex
      · refine ⟨m, hm1, ?_, by omega, ?_⟩
        · show m ≤ t.labelend + 1
          omega
        · show (if m < t.findindex then m else m - 1) = m
          rw [if_pos hlt]
      · refine ⟨m + 1, ?_, ?_, by omega, ?_⟩
        · show t.labelstart ≤ m + 1
          omega
        · show m + 1 ≤ t.labelend + 1
          omega
        · show (if m + 1 < t.findindex then m + 1 else m + 1 - 1) = m
          rw [if_neg (by omega)]
          omega
  · rw [if_neg hup]
    rw [hd2] at hup
    obtain ⟨hl, hs⟩ := shiftdown_spec (t.findindex - 1)
      (t.findindex - t.labelstart).toNat t.labelstart t.labellist hroom1 (by omega) (by omega)
    have hnat : ((t.findindex - 1).toNat : Int) = t.findindex - 1 := by omega
    refine insert_ok t _ word fresh (t.findindex - 1) t.findindex
      (fun i => if i < t.findindex - 1 then i + 1 else i) hOK hlow hhigh
      (by simp only; omega) (by simp only; omega) (by simp only; omega) (by simp only; omega)
      (by simp only [List.length_set, hl]; omega) (by simpa using h5) (by simp only; omega)
      ?_ hname ?_ ?_ ?_
    · show slotAt (List.set _ _ _) (t.findindex - 1) = [fresh]
      rw [slotAt_set _ _ _ _ (by omega) (by rw [hl]; omega), if_pos hnat.symm]
    · intro i hi1 hi2 hik
      have hi1 : t.labelstart - 1 ≤ i := hi1
      have hi2 : i ≤ t.labelend := hi2
      show slotAt (List.set _ _ _) i
          = slotAt t.labellist (if i < t.findindex - 1 then i + 1 else i)
        ∧ t.labelstart ≤ (if i < t.findindex - 1 then i + 1 else i)
        ∧ (if i < t.findindex - 1 then i + 1 else i) ≤ t.labelend
        ∧ (i < t.findindex - 1 → (if i < t.findindex - 1 then i + 1 else i) < t.findindex)
        ∧ (t.findindex - 1 < i → t.findindex ≤ (if i < t.findindex - 1 then i + 1 else i))
      have e1 : ¬ (i = ((t.findindex - 1).toNat : Int)) := by omega
      rw [slotAt_set _ _ _ _ (by omega) (by rw [hl]; omega), if_neg e1, hs i (by omega)]
      by_cases hlt : i < t.findindex - 1
      · have e2 : t.labelstart - 1 ≤ i ∧ i < t.findindex - 1 := by omega
        rw [if_pos e2, if_pos hlt]
        exact ⟨rfl, by omega, by omega, fun _ => by omega, fun _ => by omega⟩
      · have e2 : ¬ (t.labelstart - 1 ≤ i ∧ i < t.findindex - 1) := by omega
        rw [if_neg e2, if_neg hlt]
        exact ⟨rfl, by omega, by omega, fun _ => by omega, fun _ => by omega⟩
    · intro i j hi hij hj hik hjk
      have hi : t.labelstart - 1 ≤ i := hi
      have hj : j ≤ t.labelend := hj
      show (if i < t.findindex - 1 then i + 1 else i)
        < (if j < t.findindex - 1 then j + 1 else j)
      split_ifs <;> omega
    · intro m hm1 hm2
      by_cases hlt : m < t.findindex
      · refine ⟨m - 1, ?_, ?_, by omega, ?_⟩
        · show t.labelstart - 1 ≤ m - 1
          omega
        · show m - 1 ≤ t.labelend
          omega
        · show (if m - 1 < t.findindex - 1 then m - 1 + 1 else m - 1) = m
          rw [if_pos (by omega)]
          omega
      · refine ⟨m, ?_, hm2, by omega, ?_⟩
        · show t.labelstart - 1 ≤ m
          omega
        · show (if m < t.findindex - 1 then m + 1 else m) = m
          rw [if_neg (by omega)]

theorem growlist_ok (t : Table) (h : TableOK t) :
    TableOK (growlist t) ∧ (∀ p ∈ entries t, p ∈ entries (growlist t)) ∧
      1 ≤ (growlist t).labelstart ∧ (growlist t).labelend < (growlist t).maxlabels - 1 ∧
      (∀ j : Int, (growlist t).labelstart ≤ j → j ≤ (growlist t).labelend →
        slotAt (growlist t).labellist j
          = slotAt t.labellist (j - (growlist t).labelstart + t.labelstart)) := by
  obtain ⟨g1, g2, g3, g4, g5, g6, g7, g8⟩ := growlist_spec t h
  have h0 := h.start_nonneg
  have h1 := h.start_le_end
  have h2 := h.count
  have h3 := h.end_lt_max
  have h4 := h.length_eq
  have h5 := h.max_ge
  have hslot : ∀ j : Int, (growlist t).labelstart ≤ j → j ≤ (growlist t).labelend →
      slotAt (growlist t).labellist j
        = slotAt t.labellist (j - (growlist t).labelstart + t.labelstart) := by
    intro j hj1 hj2
    rw [g2] at hj1 ⊢
    rw [g3] at hj2
    exact g8 j hj1 hj2
  have hname : ∀ j : Int, (growlist t).labelstart ≤ j → j ≤ (growlist t).labelend →
      nameAt (growlist t).labellist j
        = nameAt t.labellist (j - (growlist t).labelstart + t.labelstart) := fun j hj1 hj2 =>
    nameAt_eq_of_slotAt_eq _ _ _ _ (hslot j hj1 hj2)
  have hOK : TableOK (growlist t) := by
    refine ⟨⟨by omega, by omega, by omega, ?_⟩, by omega, by omega, by omega, ?_, ?_⟩
    · intro i j hi hij hj
      rw [hname i hi (by omega), hname j (by omega) hj]
      exact h.sorted _ _ (by omega) (by omega) (by omega)
    · intro i hi1 hi2
      rw [hslot i hi1 hi2]
      exact h.chain_ne _ (by omega) (by omega)
    · intro i hi1 hi2 p hp
      rw [hslot i hi1 hi2] at hp
      rw [hname i hi1 hi2]
      exact h.chain_name _ (by omega) (by omega) p hp
  refine ⟨hOK, ?_, by omega, by omega, hslot⟩
  intro p hp
  obtain ⟨m, hm1, hm2, hpm⟩ := (tableOK_mem_entries h p).mp hp
  refine (tableOK_mem_entries hOK p).mpr
    ⟨m - t.labelstart + (growlist t).labelstart, by omega, by omega, ?_⟩
  rw [hslot _ (by omega) (by omega)]
  have : m - t.labelstart + (growlist t).labelstart - (growlist t).labelstart + t.labelstart = m := by
    omega
  rw [this]
  exact hpm

/-- Adding a label with `findlabel` then `newlabel` keeps the table well formed
and keeps every entry; the new label is in the table under the name looked up. -/
theorem insertlabel_ok (t : Table) (scope pass : Int) (word : List Char) (fresh : label)
    (h : TableOK t) :
    ∃ t1, insertlabel t scope pass word fresh = some t1 ∧ TableOK t1 ∧
      (∀ p ∈ entries t, p ∈ entries t1) ∧ { fresh with name := word } ∈ entries t1 := by
  obtain ⟨cmp, k, hfind, hres⟩ := findlabel_search t scope pass word h.toSortedList
  rw [insertlabel, hfind]
  refine ⟨_, rfl, ?_⟩
  have hOK2 : TableOK { t with findcmp := cmp, findindex := k } :=
    ⟨⟨h.start_nonneg, h.start_le_end, h.count, h.sorted⟩, h.end_lt_max, h.length_eq, h.max_ge,
      h.chain_ne, h.chain_name⟩
  have hent : entries { t with findcmp := cmp, findindex := k } = entries t := rfl
  rcases hres with ⟨hc, hk1, hk2, hn⟩ | ⟨hne, hk1, hk2, hlow, hhigh⟩
  · unfold newlabel
    rw [if_pos (by exact hc)]
    have h0 := h.start_nonneg
    have h3 := h.end_lt_max
    have h4 := h.length_eq
    have hknat : (k.toNat : Int) = k := by omega
    have hp : ({ ({ fresh with name := word } : label) with
        name := nameAt t.labellist k } : label) = { fresh with name := word } := by
      rw [hn]
    have hslot : ∀ i : Int, 0 ≤ i →
        slotAt (t.labellist.set k.toNat ({ fresh with name := word } :: slotAt t.labellist k)) i
          = if i = k then { fresh with name := word } :: slotAt t.labellist k
            else slotAt t.labellist i := by
      intro i hi
      rw [slotAt_set _ _ _ _ hi (by omega), hknat]
    have hname : ∀ i : Int, 0 ≤ i →
        nameAt (t.labellist.set k.toNat ({ fresh with name := word } :: slotAt t.labellist k)) i
          = nameAt t.labellist i := by
      intro i hi
      unfold nameAt
      rw [hslot i hi]
      by_cases hik : i = k
      · rw [if_pos hik, hik]
        show word = _
        rw [← hn]
        rfl
      · rw [if_neg hik]
    show TableOK { t with labellist := _, findcmp := cmp, findindex := k } ∧ _
    simp only [hp]
    have hOK3 : TableOK { t with
        labellist := t.labellist.set k.toNat ({ fresh with name := word } :: slotAt t.labellist k),
        findcmp := cmp, findindex := k } := by
      refine ⟨⟨h.start_nonneg, h.start_le_end, h.count, ?_⟩, h.end_lt_max, ?_, h.max_ge, ?_, ?_⟩
      · intro i j hi hij hj
        have hi : t.labelstart ≤ i := hi
        have hj : j ≤ t.labelend := hj
        show strcmp (nameAt (List.set _ _ _) i) (nameAt (List.set _ _ _) j) < 0
        rw [hname i (by omega), hname j (by omega)]
        exact h.sorted i j hi hij hj
      · show ((List.set _ _ _).length : Int) = t.maxlabels
        rw [List.length_set]
        exact h4
      · intro i hi1 hi2
        have hi1 : t.labelstart ≤ i := hi1
        have hi2 : i ≤ t.labelend := hi2
        show slotAt (List.set _ _ _) i ≠ []
        rw [hslot i (by omega)]
        by_cases hik : i = k
        · rw [if_pos hik]
          simp
        · rw [if_neg hik]
          exact h.chain_ne i hi1 hi2
      · intro i hi1 hi2 p hpm
        have hi1 : t.labelstart ≤ i := hi1
        have hi2 : i ≤ t.labelend := hi2
        have hpm : p ∈ slotAt (List.set _ _ _) i := hpm
        show p.name = nameAt (List.set _ _ _) i
        rw [hname i (by omega)]
        rw [hslot i (by omega)] at hpm
        by_cases hik : i = k
        · rw [if_pos hik] at hpm
          rcases List.mem_cons.mp hpm with h1 | h1
          · rw [h1, hik, hn]
          · rw [hik]
            exact h.chain_name k hk1 hk2 p h1
        · rw [if_neg hik] at hpm
          exact h.chain_name i hi1 hi2 p hpm
    refine ⟨hOK3, ?_, ?_⟩
    · intro p hpe
      obtain ⟨m, hm1, hm2, hpm⟩ := (tableOK_mem_entries h p).mp hpe
      refine (tableOK_mem_entries hOK3 p).mpr ⟨m, hm1, hm2, ?_⟩
      show p ∈ slotAt (List.set _ _ _) m
      rw [hslot m (by omega)]
      by_cases hik : m = k
      · rw [if_pos hik]
        rw [hik] at hpm
        exact List.mem_cons_of_mem _ hpm
      · rw [if_neg hik]
        exact hpm
    · refine (tableOK_mem_entries hOK3 _).mpr ⟨k, hk1, hk2, ?_⟩
      show _ ∈ slotAt (List.set _ _ _) k
      rw [hslot k (by omega), if_pos rfl]
      exact List.mem_cons_self _ _
  · unfold newlabel
    rw [if_neg (by exact hne)]
    by_cases hroom : t.labelstart = 0 ∨ t.labelend ≥ t.maxlabels - 1
    · rw [if_pos (by exact hroom)]
      obtain ⟨gOK, gent, gr1, gr2, gslot⟩ := growlist_ok _ hOK2
      obtain ⟨g1, g2, g3, g4, g5, g6, g7, g8⟩ := growlist_spec _ hOK2
      have gname : ∀ j : Int,
          (growlist { t with findcmp := cmp, findindex := k }).labelstart ≤ j →
          j ≤ (growlist { t with findcmp := cmp, findindex := k }).labelend →
          nameAt (growlist { t with findcmp := cmp, findindex := k }).labellist j
            = nameAt t.labellist
                (j - (growlist { t with findcmp := cmp, findindex := k }).labelstart
                  + t.labelstart) := fun j hj1 hj2 =>
        nameAt_eq_of_slotAt_eq _ _ _ _ (gslot j hj1 hj2)
      have hc := h.count
      have g2' : (growlist { t with findcmp := cmp, findindex := k }).labelstart
          = t.maxlabels - t.labels / 2 := g2
      have g3' : (growlist { t with findcmp := cmp, findindex := k }).labelend
          = t.maxlabels - t.labels / 2 + t.labels - 1 := g3
      have g6' : (growlist { t with findcmp := cmp, findindex := k }).findindex
          = k - t.labelstart + (t.maxlabels - t.labels / 2) := g6
      obtain ⟨pOK, pent, pnew⟩ := placelabel_ok _ word { fresh with name := word } gOK gr1 gr2
        (by omega) (by omega)
        (fun i hi1 hi2 => by
          rw [gname i hi1 (by omega)]
          exact hlow _ (by omega) (by omega))
        (fun i hi1 hi2 => by
          rw [gname i (by omega) hi2]
          exact hhigh _ (by omega) (by omega))
        rfl
      exact ⟨pOK, fun p hp => pent p (gent p (by rw [hent]; exact hp)), pnew⟩
    · rw [if_neg (by exact hroom)]
      push_neg at hroom
      have h0 := h.start_nonneg
      obtain ⟨pOK, pent, pnew⟩ := placelabel_ok { t with findcmp := cmp, findindex := k } word
        { fresh with name := word } hOK2 (by show 1 ≤ t.labelstart; omega)
        (by show t.labelend < t.maxlabels - 1; omega) hk1 hk2 hlow hhigh rfl
      exact ⟨pOK, fun p hp => pent p (by rw [hent]; exact hp), pnew⟩

theorem initTable_ok : TableOK initTable := by
  have hs : ∀ i : Int, (64 : Int) ≤ i → i ≤ 64 → slotAt initTable.labellist i = [firstlabel] := by
    intro i h1 h2
    have : i = 64 := by omega
    subst this
    rfl
  have hlen : (initTable.labellist.length : Int) = initTable.maxlabels := by
    simp [initTable, INITLISTSIZE]
  refine ⟨⟨by decide, by decide, by decide, ?_⟩, by decide, hlen, by decide, ?_, ?_⟩
  · intro i j hi hij hj
    have hi : (64 : Int) ≤ i := hi
    have hj : j ≤ (64 : Int) := hj
    omega
  · intro i hi1 hi2
    rw [hs i hi1 hi2]
    simp
  · intro i hi1 hi2 p hp
    unfold nameAt
    rw [hs i hi1 hi2] at hp ⊢
    rw [List.mem_singleton.mp hp]

theorem addreserved_ok (line : Bool) (names : List String) :
    ∀ t, TableOK t → ∃ t1, addreserved line names t = some t1 ∧ TableOK t1 ∧
      ∀ p ∈ entries t, p ∈ entries t1 := by
  induction names with
  | nil =>
    intro t h
    exact ⟨t, rfl, h, fun p hp => hp⟩
  | cons n rest ih =>
    intro t h
    obtain ⟨t1, h1, hOK1, hent1, _⟩ := insertlabel_ok t 0 0 n.toList (reserved n line) h
    obtain ⟨t2, h2, hOK2, hent2⟩ := ih t1 hOK1
    refine ⟨t2, ?_, hOK2, fun p hp => hent2 p (hent1 p hp)⟩
    rw [addreserved, h1]
    exact h2

theorem initlabels_ok : ∃ t0, initlabels = some t0 ∧ TableOK t0 ∧ firstlabel ∈ entries t0 := by
  obtain ⟨t1, h1, hOK1, hent1⟩ := addreserved_ok true rsvdnames initTable initTable_ok
  obtain ⟨t2, h2, hOK2, hent2⟩ := addreserved_ok false directivenames t1 hOK1
  refine ⟨t2, ?_, hOK2, hent2 _ (hent1 _ ?_)⟩
  · unfold initlabels
    simp only [h1, h2]
  · have hs : slotAt initTable.labellist 64 = [firstlabel] := rfl
    have hb1 : initTable.labelstart ≤ 64 := by decide
    have hb2 : (64 : Int) ≤ initTable.labelend := by decide
    refine (tableOK_mem_entries initTable_ok _).mpr ⟨64, hb1, hb2, ?_⟩
    rw [hs]
    exact List.mem_singleton.mpr rfl

theorem insertall_ok (steps : List AddStep) :
    ∀ t, TableOK t → ∃ t1, insertall steps t = some t1 ∧ TableOK t1 ∧
      ∀ p ∈ entries t, p ∈ entries t1 := by
  induction steps with
  | nil =>
    intro t h
    exact ⟨t, rfl, h, fun p hp => hp⟩
  | cons s rest ih =>
    intro t h
    obtain ⟨t1, h1, hOK1, hent1, _⟩ := insertlabel_ok t s.scope s.pass s.word s.fresh h
    obtain ⟨t2, h2, hOK2, hent2⟩ := ih t1 hOK1
    refine ⟨t2, ?_, hOK2, fun p hp => hent2 p (hent1 p hp)⟩
    rw [insertall, h1]
    exact h2

theorem insertall_append (s1 s2 : List AddStep) :
    ∀ t t1, insertall s1 t = some t1 → insertall (s1 ++ s2) t = insertall s2 t1 := by
  induction s1 with
  | nil =>
    intro t t1 h
    cases h
    rfl
  | cons s rest ih =>
    intro t t1 h
    rw [insertall] at h
    rw [List.cons_append, insertall]
    cases hs : insertlabel t s.scope s.pass s.word s.fresh with
    | none => rw [hs] at h; cases h
    | some t2 =>
      rw [hs] at h
      exact ih t2 t1 h

/-- C8: starting from the table built by `initlabels`, after any sequence of
`findlabel(name)` followed by `newlabel()` the slots `labelstart..labelend` are
in strictly increasing `strcmp` order of name, `labels` is
`labelend - labelstart + 1`, and every entry that was in the list earlier in
the sequence is still in it. -/
theorem labellist_sorted (s1 s2 : List AddStep) :
    ∃ t0 t1 t2, initlabels = some t0 ∧ insertall s1 t0 = some t1 ∧
      insertall (s1 ++ s2) t0 = some t2 ∧
      (∀ i j, t2.labelstart ≤ i → i < j → j ≤ t2.labelend →
        strcmp (nameAt t2.labellist i) (nameAt t2.labellist j) < 0) ∧
      t2.labels = t2.labelend - t2.labelstart + 1 ∧
      TableOK t2 ∧
      (∀ p ∈ entries t0, p ∈ entries t1) ∧ (∀ p ∈ entries t1, p ∈ entries t2) := by
  obtain ⟨t0, h0, hOK0, _⟩ := initlabels_ok
  obtain ⟨t1, h1, hOK1, hent1⟩ := insertall_ok s1 t0 hOK0
  obtain ⟨t2, h2, hOK2, hent2⟩ := insertall_ok s2 t1 hOK1
  refine ⟨t0, t1, t2, h0, h1, ?_, hOK2.sorted, hOK2.count, hOK2, hent1, hent2⟩
  rw [insertall_append s1 s2 t0 t1 h1]
  exact h2

/-! ## Numeric literals -/

theorem wrap32_wrap32_mul_add (a j : Int) (k : Int) (hk : k = 16 ∨ k = 2 ∨ k = 10) :
    wrap32 (wrap32 a * k + j) = wrap32 (a * k + j) := by
  unfold wrap32
  rcases hk with h | h | h <;> (subst h; omega)

theorem toU32_wrap32 (x : Int) : toU32 (wrap32 x) = toU32 x := by
  unfold toU32 wrap32
  omega

theorem wrap32_ofNat_toU32 (x : Int) : wrap32 ((toU32 x : Nat) : Int) = wrap32 x := by
  unfold toU32 wrap32
  omega

theorem or32_shl4 (x j : Int) (h0 : 0 ≤ j) (h1 : j < 16) :
    or32 (shl32 x 4) j = wrap32 (x * 16 + j) := by
  have h4 : toU32 4 % 32 = 4 := by decide
  have hj : toU32 j = j.toNat := by unfold toU32; omega
  have hx : toU32 (x * 16) = 2 ^ 4 * (toU32 (x * 16) / 16) := by unfold toU32; omega
  have hlt : j.toNat < 2 ^ 4 := by omega
  have key := Nat.mul_add_lt_is_or hlt (toU32 (x * 16) / 16)
  rw [or32, shl32, h4, toU32_wrap32, hj]
  show wrap32 (Int.ofNat (toU32 (x * 2 ^ 4) ||| j.toNat)) = _
  have e : x * 2 ^ 4 = x * 16 := by norm_num
  rw [e, hx, ← key, Int.ofNat_eq_coe]
  unfold wrap32 toU32
  push_cast
  omega

theorem or32_shl1 (x j : Int) (h0 : 0 ≤ j) (h1 : j < 2) :
    or32 (shl32 x 1) j = wrap32 (x * 2 + j) := by
  have h4 : toU32 1 % 32 = 1 := by decide
  have hj : toU32 j = j.toNat := by unfold toU32; omega
  have hx : toU32 (x * 2) = 2 ^ 1 * (toU32 (x * 2) / 2) := by unfold toU32; omega
  have hlt : j.toNat < 2 ^ 1 := by omega
  have key := Nat.mul_add_lt_is_or hlt (toU32 (x * 2) / 2)
  rw [or32, shl32, h4, toU32_wrap32, hj]
  show wrap32 (Int.ofNat (toU32 (x * 2 ^ 1) ||| j.toNat)) = _
  have e : x * 2 ^ 1 = x * 2 := by norm_num
  rw [e, hx, ← key, Int.ofNat_eq_coe]
  unfold wrap32 toU32
  push_cast
  omega

theorem hexdigit_facts (c : Char) (h : c ∈ hexdigits) :
    (∀ st, hexify (charInt c) st = (hexdigit c, st)) ∧ 0 ≤ hexdigit c ∧ hexdigit c < 16 ∧
      plain c := by
  simp only [hexdigits, decdigits, List.cons_append, List.nil_append, List.mem_cons,
    List.mem_singleton, List.not_mem_nil, or_false] at h
  unfold plain
  rcases h with h | h | h | h | h | h | h | h | h | h | h | h | h | h | h | h | h | h | h | h
    | h | h <;> (subst h; exact ⟨fun st => rfl, by decide, by decide, by decide⟩)

theorem bindigit_facts (c : Char) (h : c ∈ bindigits) :
    (∀ ret st, binstep c ret st = (or32 (shl32 ret 1) ((c.toNat : Int) - 48), st)) ∧
      0 ≤ (c.toNat : Int) - 48 ∧ (c.toNat : Int) - 48 < 2 ∧ plain c ∧ c ∈ decdigits := by
  simp only [bindigits, List.mem_cons, List.mem_singleton, List.not_mem_nil, or_false] at h
  unfold plain
  rcases h with h | h <;>
    (subst h; exact ⟨fun ret st => rfl, by decide, by decide, by decide, by decide⟩)

theorem foldl_wrap32 (g : Char → Int) (k : Int) (hk : k = 16 ∨ k = 2 ∨ k = 10) (d : List Char) :
    ∀ a b : Int, wrap32 a = wrap32 b →
      wrap32 (d.foldl (fun acc c => acc * k + g c) a)
        = wrap32 (d.foldl (fun acc c => acc * k + g c) b) := by
  induction d with
  | nil =>
    intro a b h
    exact h
  | cons c cs ih =>
    intro a b h
    rw [List.foldl_cons, List.foldl_cons]
    apply ih
    rw [← wrap32_wrap32_mul_add a _ k hk, ← wrap32_wrap32_mul_add b _ k hk, h]

theorem wrap32_idem (x : Int) : wrap32 (wrap32 x) = wrap32 x := by
  unfold wrap32
  omega

theorem cur_append_of_ne (d r : List Char) (hne : d ≠ []) (hd : ∀ c ∈ d, c ≠ NUL) :
    cur (d ++ r) ≠ NUL := by
  cases d with
  | nil => exact absurd rfl hne
  | cons c cs => exact hd c (List.mem_cons_self _ _)

theorem hexi_spec (d r : List Char) (hne : d ≠ []) (hd : ∀ c ∈ d, c ∈ hexdigits)
    (hr : cur r = NUL) :
    ∀ (ret : Int) (chars : Nat) (st : EvalSt), hexi (d ++ r) ret chars st
      = (wrap32 (d.foldl (fun acc c => acc * 16 + hexdigit c) ret), chars + d.length, st) := by
  induction d with
  | nil => exact absurd rfl hne
  | cons c cs ih =>
    intro ret chars st
    obtain ⟨hx, h0, h1, _⟩ := hexdigit_facts c (hd c (List.mem_cons_self _ _))
    rw [List.cons_append, hexi]
    simp only [hx st, or32_shl4 ret _ h0 h1]
    by_cases hcs : cs = []
    · subst hcs
      simp only [List.nil_append, hr, if_true, List.foldl_cons, List.foldl_nil,
        List.length_singleton]
    · have hcsd : ∀ c ∈ cs, c ∈ hexdigits := fun c hc => hd c (List.mem_cons_of_mem _ hc)
      have hnn : cur (cs ++ r) ≠ NUL :=
        cur_append_of_ne cs r hcs (fun c hc => (hexdigit_facts c (hcsd c hc)).2.2.2.1)
      rw [if_neg hnn, ih hcs hcsd, List.foldl_cons, List.length_cons]
      rw [foldl_wrap32 hexdigit 16 (Or.inl rfl) cs _ (ret * 16 + hexdigit c) (wrap32_idem _)]
      congr 2
      omega

theorem bin_spec (d r : List Char) (hne : d ≠ []) (hd : ∀ c ∈ d, c ∈ bindigits)
    (hr : cur r = NUL) :
    ∀ (ret : Int) (chars : Nat) (st : EvalSt), bin (d ++ r) ret chars st
      = (wrap32 (d.foldl (fun acc c => acc * 2 + ((c.toNat : Int) - 48)) ret),
          chars + d.length, st) := by
  induction d with
  | nil => exact absurd rfl hne
  | cons c cs ih =>
    intro ret chars st
    obtain ⟨hx, h0, h1, _⟩ := bindigit_facts c (hd c (List.mem_cons_self _ _))
    rw [List.cons_append, bin]
    simp only [hx ret st, or32_shl1 ret _ h0 h1]
    by_cases hcs : cs = []
    · subst hcs
      simp only [List.nil_append, hr, if_true, List.foldl_cons, List.foldl_nil,
        List.length_singleton]
    · have hcsd : ∀ c ∈ cs, c ∈ bindigits := fun c hc => hd c (List.mem_cons_of_mem _ hc)
      have hnn : cur (cs ++ r) ≠ NUL :=
        cur_append_of_ne cs r hcs (fun c hc => (bindigit_facts c (hcsd c hc)).2.2.2.1.1)
      rw [if_neg hnn, ih hcs hcsd, List.foldl_cons, List.length_cons]
      rw [foldl_wrap32 (fun c => (c.toNat : Int) - 48) 2 (Or.inr (Or.inl rfl)) cs _
        (ret * 2 + ((c.toNat : Int) - 48)) (wrap32_idem _)]
      congr 2
      omega

theorem mathy_not_white (c : Char) (hc : c ∈ mathy) : c ∉ whitesp ∧ c ≠ NUL := by
  simp only [mathy, List.mem_cons, List.mem_singleton, List.not_mem_nil, or_false] at hc
  rcases hc with h | h | h | h | h | h | h | h | h | h | h | h | h | h | h <;>
    (subst h; decide)

theorem cur_cut_opEnd (n : Nat) (rest : List Char) (hrest : OpEnd rest) :
    cur (cutAtDelim mathy (cutAtDelim whitesp (List.take n rest))) = NUL := by
  rcases hrest with h | h
  · subst h
    simp [cutAtDelim, cur]
  · cases rest with
    | nil => simp [cutAtDelim, cur]
    | cons c cs =>
      have hc : c ∈ mathy := h
      obtain ⟨hcw, hcn⟩ := mathy_not_white c hc
      cases n with
      | zero => simp [cutAtDelim, cur]
      | succ k => simp [cutAtDelim, hcn, hcw, hc, cur]

theorem opEnd_not_colon (rest : List Char) (hrest : OpEnd rest) : cur rest ≠ ':' := by
  rcases hrest with h | h
  · subst h
    decide
  · intro h2
    rw [h2] at h
    revert h
    decide

/-- `getword` on a word that starts with one operator character. -/
theorem getword_lead (m : Char) (w rest : List Char) (hm : m ∈ mathy) (hne : w ≠ [])
    (hw : ∀ c ∈ w, plain c) (hlen : w.length ≤ 126) (hrest : OpEnd rest) :
    ∃ r, cur r = NUL ∧ getword (m :: (w ++ rest)) true = (m :: (w ++ r), rest) := by
  obtain ⟨hmw, hmn⟩ := mathy_not_white m hm
  have hw1 : ∀ c ∈ w, c ≠ NUL ∧ c ∉ whitesp := fun c hc => ⟨(hw c hc).1, (hw c hc).2.1⟩
  have hw2 : ∀ c ∈ w, c ≠ NUL ∧ c ∉ mathy := fun c hc => ⟨(hw c hc).1, (hw c hc).2.2⟩
  have hw3 : ∀ c ∈ m :: w, c ≠ NUL := by
    intro c hc
    rcases List.mem_cons.mp hc with h | h
    · rw [h]; exact hmn
    · exact (hw c h).1
  have hmw1 : ∀ c ∈ m :: w, c ≠ NUL ∧ c ∉ whitesp := by
    intro c hc
    rcases List.mem_cons.mp hc with h | h
    · rw [h]; exact ⟨hmn, hmw⟩
    · exact hw1 c h
  have hsp : strspn (m :: (w ++ rest)) whitesp = 0 := strspn_white_zero _ hmw
  have htake : List.take (WORDMAX - 1) (m :: (w ++ rest))
      = (m :: w) ++ List.take (126 - w.length) rest := by
    rw [← List.cons_append, List.take_append_eq_append_take,
      List.take_of_length_le (by simp [WORDMAX]; omega)]
    simp [WORDMAX]
  have hcur := cur_cut_opEnd (126 - w.length) rest hrest
  refine ⟨_, hcur, ?_⟩
  have hhead : cur w ∉ mathy := by
    cases w with
    | nil => exact absurd rfl hne
    | cons c cs => exact (hw c (List.mem_cons_self _ _)).2.2
  have hst2 : strtok ((m :: w) ++ cutAtDelim whitesp (List.take (126 - w.length) rest)) mathy
      = m :: (w ++ cutAtDelim mathy (cutAtDelim whitesp (List.take (126 - w.length) rest))) := by
    cases w with
    | nil => exact absurd rfl hne
    | cons c cs =>
      have hc : c ∉ mathy := hhead
      rw [strtok]
      simp only [List.cons_append, List.takeWhile_cons, List.dropWhile_cons, List.elem_eq_mem,
        hm, hc, decide_True, decide_False, if_true, Bool.false_eq_true, if_false]
      have := cutAtDelim_append mathy (c :: cs)
        (cutAtDelim whitesp (List.take (126 - (c :: cs).length) rest)) hw2
      rw [List.cons_append] at this
      rw [this]
      rfl
  have hstrlen : strlen (m :: (w ++ cutAtDelim mathy (cutAtDelim whitesp
      (List.take (126 - w.length) rest)))) = w.length + 1 := by
    rw [strlen, ← List.cons_append, cstr_append_nul _ _ hw3 hcur]
    rfl
  have hdrop : List.drop (w.length + 1) (m :: (w ++ rest)) = rest := by
    rw [List.drop_succ_cons, List.drop_left]
  simp only [getword, hsp, List.drop_zero, htake, strtok_word _ _ _ (List.cons_ne_nil _ _) hmw1,
    if_true, hst2, hstrlen, hdrop, opEnd_not_colon rest hrest, if_false]

theorem hexdigit_plain (d : List Char) (hd : ∀ c ∈ d, c ∈ hexdigits) : ∀ c ∈ d, plain c :=
  fun c hc => (hexdigit_facts c (hd c hc)).2.2.2

theorem getvalue_hex_dollar (env : Env) (st : EvalSt) (d rest : List Char) (hne : d ≠ [])
    (hd : ∀ c ∈ d, c ∈ hexdigits) (hlen : d.length ≤ 8) (hrest : OpEnd rest) :
    getvalue env ('$' :: (d ++ rest)) st = some (wrap32 (hexread d), rest, st) := by
  have hpl : ∀ c ∈ '$' :: d, plain c := by
    intro c hc
    rcases List.mem_cons.mp hc with h | h
    · rw [h]; unfold plain; decide
    · exact hexdigit_plain d hd c h
  obtain ⟨r, hr, hgw⟩ := getword_plain ('$' :: d) rest (List.cons_ne_nil _ _) hpl
    (by simp; omega) hrest
  rw [List.cons_append] at hgw
  have hnn : cur (d ++ r) ≠ NUL := cur_append_of_ne d r hne (fun c hc => (hexdigit_plain d hd c hc).1)
  rw [getvalue, hgw]
  simp only [List.cons_append, cur, List.headD_cons, List.tail_cons,
    show ¬ ('$' = NUL) by decide, if_false, if_true]
  have hnn' : ¬ ((d ++ r).headD NUL = NUL) := hnn
  rw [if_neg hnn', hexi_spec d r hne hd hr]
  have : ¬ (0 + d.length > 8) := by omega
  simp only [this, if_false]
  rfl

theorem takeWhile_append_stop (p : Char → Bool) (d : List Char) (x : Char) (hx : p x = false) :
    (List.takeWhile p (d ++ [x])).length ≤ d.length := by
  induction d with
  | nil => simp [List.takeWhile, hx]
  | cons c cs ih =>
    rw [List.cons_append, List.takeWhile_cons]
    split_ifs
    · simp only [List.length_cons]
      omega
    · simp

theorem set_append_mid (d r : List Char) (x y : Char) :
    (d ++ x :: r).set d.length y = d ++ y :: r := by
  induction d with
  | nil => rfl
  | cons c cs ih => simp [List.set, ih]

theorem getD_append_mid (d r : List Char) (x y : Char) : (d ++ x :: r).getD d.length y = x := by
  induction d with
  | nil => rfl
  | cons c cs ih => simpa using ih

/-- The number branch of `getvalue` on digits followed by a letter suffix. -/
theorem getvalue_suffix_buffer (env : Env) (st : EvalSt) (d rest : List Char) (x : Char)
    (hne : d ≠ []) (hd : ∀ c ∈ d, plain c) (hx : plain x) (hxd : x ∉ decdigits)
    (hcd : cur d ∈ decdigits) (hlen : d.length ≤ 100) (hrest : OpEnd rest) :
    ∃ r, cur r = NUL ∧ getvalue env (d ++ x :: rest) st
      = (if x = 'b' ∨ x = 'B' then
          some ((bin (d ++ NUL :: r) 0 0 st).1, rest,
            if (bin (d ++ NUL :: r) 0 0 st).2.1 > 32 then
              { (bin (d ++ NUL :: r) 0 0 st).2.2 with errmsg := some .OutOfRange }
            else (bin (d ++ NUL :: r) 0 0 st).2.2)
        else if x = 'h' ∨ x = 'H' then
          some ((hexi (d ++ NUL :: r) 0 0 st).1, rest,
            if (hexi (d ++ NUL :: r) 0 0 st).2.1 > 8 then
              { (hexi (d ++ NUL :: r) 0 0 st).2.2 with errmsg := some .OutOfRange }
            else (hexi (d ++ NUL :: r) 0 0 st).2.2)
        else some (0, rest, { st with errmsg := some .NotANumber })) := by
  have hpl : ∀ c ∈ d ++ [x], plain c := by
    intro c hc
    rcases List.mem_append.mp hc with h | h
    · exact hd c h
    · rw [List.mem_singleton.mp h]; exact hx
  obtain ⟨r, hr, hgw⟩ := getword_plain (d ++ [x]) rest (by simp) hpl (by simp; omega) hrest
  rw [List.append_assoc, List.singleton_append] at hgw
  refine ⟨r, hr, ?_⟩
  obtain ⟨hpc, _, _, hdol, hper, hq1, hq2, hrange⟩ := digit_facts _ hcd
  have hcurd : cur (d ++ x :: r) = cur d := cur_append d _ hne
  have hcs : cstr (d ++ x :: r) = d ++ [x] := by
    have := cstr_append_nul (d ++ [x]) r (fun c hc => (hpl c hc).1) hr
    rwa [List.append_assoc, List.singleton_append] at this
  have hsl : strlen (d ++ x :: r) = d.length + 1 := by
    rw [strlen, hcs]
    simp
  have hspn : ¬ (strspn (d ++ [x]) decdigits = d.length + 1) := by
    have := takeWhile_append_stop (fun c => decdigits.elem c) d x (by simpa using hxd)
    unfold strspn
    omega
  rw [getvalue, hgw, List.append_assoc, List.singleton_append]
  simp only [hcurd, hpc.1, hdol, hper, hq1, hq2, hrange, and_self, if_true, if_false, hcs, hsl,
    hspn, Nat.add_sub_cancel, getD_append_mid, set_append_mid]

theorem foldl_nonneg (g : Char → Int) (k : Int) (hk : 0 ≤ k) (d : List Char)
    (hg : ∀ c ∈ d, 0 ≤ g c) :
    ∀ a : Int, 0 ≤ a → 0 ≤ d.foldl (fun acc c => acc * k + g c) a := by
  induction d with
  | nil =>
    intro a ha
    exact ha
  | cons c cs ih =>
    intro a ha
    rw [List.foldl_cons]
    apply ih (fun c hc => hg c (List.mem_cons_of_mem _ hc))
    have := hg c (List.mem_cons_self _ _)
    positivity

theorem getvalue_hex_suffix (env : Env) (st : EvalSt) (d rest : List Char) (x : Char)
    (hx : x = 'h' ∨ x = 'H') (hne : d ≠ []) (hd : ∀ c ∈ d, c ∈ hexdigits)
    (hcd : cur d ∈ decdigits) (hlen : d.length ≤ 8) (hrest : OpEnd rest) :
    getvalue env (d ++ x :: rest) st = some (wrap32 (hexread d), rest, st) := by
  have hxp : plain x ∧ x ∉ decdigits ∧ ¬ (x = 'b' ∨ x = 'B') := by
    unfold plain
    rcases hx with h | h <;> (subst h; decide)
  obtain ⟨r, hr, hgv⟩ := getvalue_suffix_buffer env st d rest x hne (hexdigit_plain d hd)
    hxp.1 hxp.2.1 hcd (by omega) hrest
  rw [hgv, if_neg hxp.2.2, if_pos hx, hexi_spec d (NUL :: r) hne hd rfl]
  have : ¬ (0 + d.length > 8) := by omega
  simp only [this, if_false]
  rfl

theorem bindigit_plain (d : List Char) (hd : ∀ c ∈ d, c ∈ bindigits) : ∀ c ∈ d, plain c :=
  fun c hc => (bindigit_facts c (hd c hc)).2.2.2.1

theorem getvalue_bin_suffix (env : Env) (st : EvalSt) (d rest : List Char) (x : Char)
    (hx : x = 'b' ∨ x = 'B') (hne : d ≠ []) (hd : ∀ c ∈ d, c ∈ bindigits)
    (hlen : d.length ≤ 32) (hrest : OpEnd rest) :
    getvalue env (d ++ x :: rest) st = some (wrap32 (binread d), rest, st) := by
  have hxp : plain x ∧ x ∉ decdigits := by
    unfold plain
    rcases hx with h | h <;> (subst h; decide)
  have hcd : cur d ∈ decdigits := by
    cases d with
    | nil => exact absurd rfl hne
    | cons c cs => exact (bindigit_facts c (hd c (List.mem_cons_self _ _))).2.2.2.2
  obtain ⟨r, hr, hgv⟩ := getvalue_suffix_buffer env st d rest x hne (bindigit_plain d hd)
    hxp.1 hxp.2 hcd (by omega) hrest
  rw [hgv, if_pos hx, bin_spec d (NUL :: r) hne hd rfl]
  have : ¬ (0 + d.length > 32) := by omega
  simp only [this, if_false]
  rfl

theorem getvalue_bin_percent (env : Env) (st : EvalSt) (d rest : List Char) (hne : d ≠ [])
    (hd : ∀ c ∈ d, c ∈ bindigits) (hlen : d.length ≤ 32) (hrest : OpEnd rest) :
    getvalue env ('%' :: (d ++ rest)) st = some (wrap32 (binread d), rest, st) := by
  obtain ⟨r, hr, hgw⟩ := getword_lead '%' d rest (by decide) hne (bindigit_plain d hd)
    (by omega) hrest
  rw [getvalue, hgw]
  simp only [cur, List.headD_cons, List.tail_cons, show ¬ ('%' = NUL) by decide,
    show ¬ ('%' = '$') by decide, if_false, if_true]
  rw [bin_spec d r hne hd hr]
  have : ¬ (0 + d.length > 32) := by omega
  simp only [this, if_false]
  rfl

theorem decval_eq_decread (d : List Char) (hd : ∀ c ∈ d, c ∈ decdigits) :
    decval d = decread d := by
  unfold decval decread
  apply List.foldl_ext
  intro a c hc
  have : charInt c = (c.toNat : Int) := by
    have h := hd c hc
    simp only [decdigits, List.mem_cons, List.mem_singleton, List.not_mem_nil, or_false] at h
    rcases h with h | h | h | h | h | h | h | h | h | h <;> (subst h; decide)
  rw [this]

theorem getvalue_decimal (env : Env) (st : EvalSt) (d rest : List Char) (hne : d ≠ [])
    (hd : ∀ c ∈ d, c ∈ decdigits) (hlen : d.length ≤ 127) (hv : decread d < 2147483648)
    (hrest : OpEnd rest) :
    getvalue env (d ++ rest) st = some (decread d, rest, st) := by
  have h0 : 0 ≤ decread d := by
    unfold decread
    apply foldl_nonneg (fun c => (c.toNat : Int) - 48) 10 (by decide) d _ 0 (le_refl _)
    intro c hc
    have := (digit_facts c (hd c hc)).2.2.2.2.2.2.2.1
    have e : '0'.toNat = 48 := by decide
    rw [e] at this
    show 0 ≤ (c.toNat : Int) - 48
    omega
  rw [(isOperand_decimal env st d hne hd hlen).2.2.2.2 rest hrest, atoi,
    decval_eq_decread d hd]
  have : min (decread d) 9223372036854775807 = decread d := by omega
  rw [this, wrap32_id _ (by omega) hv]

theorem getvalue_char (env : Env) (st : EvalSt) (q c : Char) (rest : List Char)
    (hq : q = '\'' ∨ q = '"') (hc : plain c) (hbs : c ≠ '\\') (hascii : c.toNat < 128)
    (hrest : OpEnd rest) :
    getvalue env (q :: c :: q :: rest) st = some ((c.toNat : Int), rest, st) := by
  have hqp : plain q := by
    unfold plain
    rcases hq with h | h <;> (subst h; decide)
  have hpl : ∀ x ∈ [q, c, q], plain x := by
    intro x hx
    simp only [List.mem_cons, List.mem_singleton, List.not_mem_nil, or_false] at hx
    rcases hx with h | h | h <;> (rw [h]; assumption)
  obtain ⟨r, hr, hgw⟩ := getword_plain [q, c, q] rest (by simp) hpl (by simp) hrest
  have hgw' : getword (q :: c :: q :: rest) true = (q :: c :: q :: r, rest) := hgw
  have hci : charInt c = (c.toNat : Int) := by
    unfold charInt
    rw [if_pos hascii]
  rw [getvalue, hgw']
  rcases hq with h | h
  · subst h
    simp only [cur, List.headD_cons, List.tail_cons, charlit, hbs, hci,
      show ¬ ('\'' = NUL) by decide, show ¬ ('\'' = '$') by decide,
      show ¬ ('\'' = '%') by decide, if_false, if_true, ne_eq, not_true_eq_false]
  · subst h
    simp only [cur, List.headD_cons, List.tail_cons, charlit, hbs, hci,
      show ¬ ('"' = NUL) by decide, show ¬ ('"' = '$') by decide,
      show ¬ ('"' = '%') by decide, show ¬ ('"' = '\'') by decide, if_false, if_true, ne_eq,
      not_true_eq_false]

/-- C4 as amended: followed by the end of the text or an operator character, and
with no error set: `$d` and `dh`/`dH` (`d` non-empty, at most 8 hex digits, the
first one decimal for the suffix forms) return `d` read in base 16 as a 32-bit
`int`; `%d` and `db`/`dB` (`d` non-empty, at most 32 binary digits) return `d`
read in base 2 as a 32-bit `int`; a decimal string of at most 127 digits with
value below 2^31 returns that value; `'c'` and `"c"` return the code of `c` for a
7-bit `c` that is neither white space, nor an operator character, nor `\`. -/
theorem getvalue_literals (env : Env) (st : EvalSt) (rest : List Char) (hrest : OpEnd rest) :
    (∀ d : List Char, d ≠ [] → (∀ c ∈ d, c ∈ hexdigits) → d.length ≤ 8 →
      getvalue env ('$' :: (d ++ rest)) st = some (wrap32 (hexread d), rest, st) ∧
      (cur d ∈ decdigits →
        getvalue env (d ++ 'h' :: rest) st = some (wrap32 (hexread d), rest, st) ∧
        getvalue env (d ++ 'H' :: rest) st = some (wrap32 (hexread d), rest, st)) ∧
      (hexread d < 2147483648 → wrap32 (hexread d) = hexread d)) ∧
    (∀ d : List Char, d ≠ [] → (∀ c ∈ d, c ∈ bindigits) → d.length ≤ 32 →
      getvalue env ('%' :: (d ++ rest)) st = some (wrap32 (binread d), rest, st) ∧
      getvalue env (d ++ 'b' :: rest) st = some (wrap32 (binread d), rest, st) ∧
      getvalue env (d ++ 'B' :: rest) st = some (wrap32 (binread d), rest, st) ∧
      (binread d < 2147483648 → wrap32 (binread d) = binread d)) ∧
    (∀ d : List Char, d ≠ [] → (∀ c ∈ d, c ∈ decdigits) → d.length ≤ 127 →
      decread d < 2147483648 → getvalue env (d ++ rest) st = some (decread d, rest, st)) ∧
    (∀ c : Char, plain c → c ≠ '\\' → c.toNat < 128 →
      getvalue env ('\'' :: c :: '\'' :: rest) st = some ((c.toNat : Int), rest, st) ∧
      getvalue env ('"' :: c :: '"' :: rest) st = some ((c.toNat : Int), rest, st)) := by
  refine ⟨?_, ?_, ?_, ?_⟩
  · intro d hne hd hlen
    refine ⟨getvalue_hex_dollar env st d rest hne hd hlen hrest, fun hcd =>
      ⟨getvalue_hex_suffix env st d rest 'h' (Or.inl rfl) hne hd hcd hlen hrest,
       getvalue_hex_suffix env st d rest 'H' (Or.inr rfl) hne hd hcd hlen hrest⟩, fun hv => ?_⟩
    have h0 : 0 ≤ hexread d :=
      foldl_nonneg hexdigit 16 (by decide) d (fun c hc => (hexdigit_facts c (hd c hc)).2.1) 0
        (le_refl _)
    exact wrap32_id _ (by omega) hv
  · intro d hne hd hlen
    refine ⟨getvalue_bin_percent env st d rest hne hd hlen hrest,
      getvalue_bin_suffix env st d rest 'b' (Or.inl rfl) hne hd hlen hrest,
      getvalue_bin_suffix env st d rest 'B' (Or.inr rfl) hne hd hlen hrest, fun hv => ?_⟩
    have h0 : 0 ≤ binread d :=
      foldl_nonneg (fun c => (c.toNat : Int) - 48) 2 (by decide) d
        (fun c hc => (bindigit_facts c (hd c hc)).2.1) 0 (le_refl _)
    exact wrap32_id _ (by omega) hv
  · intro d hne hd hlen hv
    exact getvalue_decimal env st d rest hne hd hlen hv hrest
  · intro c hc hbs hascii
    exact ⟨getvalue_char env st '\'' c rest (Or.inl rfl) hc hbs hascii hrest,
      getvalue_char env st '"' c rest (Or.inr rfl) hc hbs hascii hrest⟩

/-- C4, witness: `$1F`, `1Fh`, `%101`, `101b`, `42` and `'a'` alone on the line. -/
theorem getvalue_literals_witness :
    OpEnd [] ∧
    getvalue sampleEnv "$1F".toList clearSt = some (31, [], clearSt) ∧
    getvalue sampleEnv "1Fh".toList clearSt = some (31, [], clearSt) ∧
    getvalue sampleEnv "%101".toList clearSt = some (5, [], clearSt) ∧
    getvalue sampleEnv "101b".toList clearSt = some (5, [], clearSt) ∧
    getvalue sampleEnv "42".toList clearSt = some (42, [], clearSt) ∧
    getvalue sampleEnv "'a'".toList clearSt = some (97, [], clearSt) := by
  have h := getvalue_literals sampleEnv clearSt [] opEnd_nil
  obtain ⟨hhex, hbin, hdec, hchr⟩ := h
  have h1 := hhex "1F".toList (by decide) (by decide) (by decide)
  have h2 := hbin "101".toList (by decide) (by decide) (by decide)
  have h3 := hdec "42".toList (by decide) (by decide) (by decide) (by decide)
  have h4 := hchr 'a' (by unfold plain; decide) (by decide) (by decide)
  refine ⟨opEnd_nil, ?_, ?_, ?_, ?_, ?_, ?_⟩
  · exact h1.1
  · exact (h1.2.1 (by decide)).1
  · exact h2.1
  · exact h2.2.1
  · exact h3
  · exact h4.1

/-- C4, counterexample: the 8-digit literal `$80000000` returns a negative number,
not `d` read in base 16, and the character literal `'+'` returns 0, not the code
43 of `+` (`getword` cuts the word at the operator character). -/
theorem getvalue_literals_counterexample :
    getvalue sampleEnv "$80000000".toList clearSt = some (-2147483648, [], clearSt) ∧
    hexread "80000000".toList = 2147483648 ∧
    getvalue sampleEnv "'+'".toList clearSt = some (0, ['+', '\''], clearSt) ∧
    ('+' : Char).toNat = 43 := by
  decide

/-! ## Scope ids -/

theorem scopestep_next (s : ScopeSt) (op : ScopeOp) (hop : op ≠ .passbegin)
    (h2 : 2 ≤ s.nextscope) (hlt : s.nextscope < 2147483647) :
    ((scopestep s op).2 = none ∧ (scopestep s op).1.nextscope = s.nextscope) ∨
    ((scopestep s op).2 = some s.nextscope ∧
      (scopestep s op).1.nextscope = s.nextscope + 1) := by
  have hw : wrap32 (s.nextscope + 1) = s.nextscope + 1 := wrap32_id _ (by omega) (by omega)
  cases op with
  | passbegin => exact absurd rfl hop
  | addlabel c loc =>
    by_cases hcond : c ≠ LOCALCHAR ∧ loc = false
    · have e : scopestep s (.addlabel c loc) = allocscope s := by
        unfold scopestep
        exact if_pos hcond
      rw [e]
      exact Or.inr ⟨rfl, hw⟩
    · have e : scopestep s (.addlabel c loc) = (s, none) := by
        unfold scopestep
        exact if_neg hcond
      rw [e]
      exact Or.inl ⟨rfl, rfl⟩
  | macrobegin => exact Or.inr ⟨rfl, hw⟩
  | macroend => exact Or.inl ⟨rfl, rfl⟩
  | reptbegin => exact Or.inl ⟨rfl, rfl⟩
  | reptiter => exact Or.inr ⟨rfl, hw⟩
  | reptend => exact Or.inl ⟨rfl, rfl⟩

theorem scoperun_bounds (ops : List ScopeOp) (hnp : ScopeOp.passbegin ∉ ops) :
    ∀ s : ScopeSt, 2 ≤ s.nextscope → s.nextscope + ops.length < 2147483648 →
      (scoperun ops s).Pairwise (fun a b => a < b) ∧
      ∀ id ∈ scoperun ops s, s.nextscope ≤ id ∧ id < s.nextscope + ops.length := by
  induction ops with
  | nil =>
    intro s _ _
    exact ⟨List.Pairwise.nil, fun id hid => by simp [scoperun] at hid⟩
  | cons op rest ih =>
    intro s h2 hlen
    have hop : op ≠ .passbegin := fun h => hnp (by rw [h]; exact List.mem_cons_self _ _)
    have hrest : ScopeOp.passbegin ∉ rest := fun h => hnp (List.mem_cons_of_mem _ h)
    have hl : ((op :: rest).length : Int) = rest.length + 1 := by simp
    rw [scoperun]
    rcases scopestep_next s op hop h2 (by omega) with ⟨hn, hs⟩ | ⟨hn, hs⟩
    · obtain ⟨ih1, ih2⟩ := ih hrest (scopestep s op).1 (by omega) (by omega)
      have e : scopestep s op = ((scopestep s op).1, none) := by rw [← hn]
      rw [e]
      refine ⟨ih1, fun id hid => ?_⟩
      have := ih2 id hid
      omega
    · obtain ⟨ih1, ih2⟩ := ih hrest (scopestep s op).1 (by omega) (by omega)
      have e : scopestep s op = ((scopestep s op).1, some s.nextscope) := by rw [← hn]
      rw [e]
      refine ⟨List.Pairwise.cons (fun id hid => ?_) ih1, fun id hid => ?_⟩
      · have := ih2 id hid
        omega
      · rcases List.mem_cons.mp hid with h | h
        · omega
        · have := ih2 id h
          omega

theorem scoperun_congr (ops : List ScopeOp) :
    ∀ s1 s2 : ScopeSt, s1.nextscope = s2.nextscope → scoperun ops s1 = scoperun ops s2 := by
  induction ops with
  | nil =>
    intro s1 s2 _
    rfl
  | cons op rest ih =>
    intro s1 s2 h
    have key : (scopestep s1 op).2 = (scopestep s2 op).2 ∧
        (scopestep s1 op).1.nextscope = (scopestep s2 op).1.nextscope := by
      cases op with
      | passbegin => exact ⟨rfl, rfl⟩
      | addlabel c loc =>
        by_cases hcond : c ≠ LOCALCHAR ∧ loc = false
        · have e1 : scopestep s1 (.addlabel c loc) = allocscope s1 := by
            unfold scopestep
            exact if_pos hcond
          have e2 : scopestep s2 (.addlabel c loc) = allocscope s2 := by
            unfold scopestep
            exact if_pos hcond
          rw [e1, e2]
          simp only [allocscope, h, and_self]
        · have e1 : scopestep s1 (.addlabel c loc) = (s1, none) := by
            unfold scopestep
            exact if_neg hcond
          have e2 : scopestep s2 (.addlabel c loc) = (s2, none) := by
            unfold scopestep
            exact if_neg hcond
          rw [e1, e2]
          exact ⟨rfl, h⟩
      | macrobegin => simp only [scopestep, allocscope, h, and_self]
      | macroend => exact ⟨rfl, h⟩
      | reptbegin => exact ⟨rfl, h⟩
      | reptiter => simp only [scopestep, allocscope, h, and_self]
      | reptend => exact ⟨rfl, h⟩
    rw [scoperun, scoperun]
    have e1 : scopestep s1 op = ((scopestep s1 op).1, (scopestep s1 op).2) := rfl
    have e2 : scopestep s2 op = ((scopestep s2 op).1, (scopestep s1 op).2) := by
      rw [key.1]
    rw [e1, e2]
    cases (scopestep s1 op).2 with
    | none => exact ih _ _ key.2
    | some id =>
      show id :: scoperun rest _ = id :: scoperun rest _
      rw [ih _ _ key.2]

/-- C10 as amended: within one pass (the writes that follow the start of a pass,
fewer than 2^31 - 2 of them) every scope id allocated from `nextscope` is greater
than every id allocated earlier in the pass, so no two are equal, and none is 0
(global) or 1 (the scope a pass starts in); the ids allocated do not depend on
the state the previous pass left, so each pass allocates the ids of the pass
before. -/
theorem scope_ids_fresh_in_pass (s : ScopeSt) (ops : List ScopeOp)
    (hnp : ScopeOp.passbegin ∉ ops) (hlen : ops.length < 2147483646) :
    (scoperun (.passbegin :: ops) s).Pairwise (fun a b => a < b) ∧
    (scoperun (.passbegin :: ops) s).Nodup ∧
    (∀ id ∈ scoperun (.passbegin :: ops) s, 2 ≤ id) ∧
    (∀ s1 : ScopeSt, scoperun (.passbegin :: ops) s1 = scoperun (.passbegin :: ops) s) := by
  have hrun : ∀ s1 : ScopeSt, scoperun (.passbegin :: ops) s1
      = scoperun ops { s1 with scope := 1, nextscope := 2 } := fun s1 => rfl
  obtain ⟨hp, hb⟩ := scoperun_bounds ops hnp { s with scope := 1, nextscope := 2 }
    (by show (2 : Int) ≤ 2; decide) (by show (2 : Int) + ops.length < 2147483648; omega)
  rw [hrun]
  refine ⟨hp, hp.imp (fun h => ne_of_lt h), fun id hid => (hb id hid).1, fun s1 => ?_⟩
  rw [hrun]
  exact scoperun_congr ops _ _ rfl

/-- C10, witness: a pass with a global label, a macro expansion holding a local
label, and a repeat of two iterations allocates 2, 3, 4, 5. -/
theorem scope_ids_fresh_in_pass_witness :
    scoperun [.passbegin, .addlabel 's' false, .macrobegin, .addlabel 'x' true, .macroend,
      .reptbegin, .reptiter, .reptiter, .reptend] ⟨0, 0, []⟩ = [2, 3, 4, 5] ∧
    (scoperun [.passbegin, .addlabel 's' false, .macrobegin, .addlabel 'x' true, .macroend,
      .reptbegin, .reptiter, .reptiter, .reptend] ⟨0, 0, []⟩).Nodup := by
  refine ⟨by decide, ?_⟩
  exact (scope_ids_fresh_in_pass ⟨0, 0, []⟩ [.addlabel 's' false, .macrobegin,
    .addlabel 'x' true, .macroend, .reptbegin, .reptiter, .reptiter, .reptend]
    (by decide) (by decide)).2.1

/-- C10, counterexample: in a run of two passes over a source with one global
label, the second pass allocates scope id 2 again. -/
theorem scope_ids_collide :
    scoperun [.passbegin, .addlabel 's' false, .passbegin, .addlabel 's' false] ⟨0, 0, []⟩
      = [2, 2] ∧
    ¬ (scoperun [.passbegin, .addlabel 's' false, .passbegin, .addlabel 's' false]
      ⟨0, 0, []⟩).Nodup := by
  decide

/-! ## Examples on the small assembly state -/

theorem sampleTable_ok : TableOK sampleTable := by
  obtain ⟨t1, h1, hOK, _⟩ := insertall_ok sampleSteps initTable initTable_ok
  have : sampleTable = t1 := by
    unfold sampleTable
    rw [h1]
    rfl
  rw [this]
  exact hOK

theorem isOperand_two : IsOperand sampleEnv clearSt ['2'] 2 :=
  isOperand_decimal sampleEnv clearSt ['2'] (by decide) (by decide) (by decide)

theorem isOperand_three : IsOperand sampleEnv clearSt ['3'] 3 :=
  isOperand_decimal sampleEnv clearSt ['3'] (by decide) (by decide) (by decide)

theorem isOperand_four : IsOperand sampleEnv clearSt ['4'] 4 :=
  isOperand_decimal sampleEnv clearSt ['4'] (by decide) (by decide) (by decide)

theorem isOperand_zero : IsOperand sampleEnv clearSt ['0'] 0 :=
  isOperand_decimal sampleEnv clearSt ['0'] (by decide) (by decide) (by decide)

theorem isOperand_seven : IsOperand sampleEnv clearSt ['7'] 7 :=
  isOperand_decimal sampleEnv clearSt ['7'] (by decide) (by decide) (by decide)

theorem isOperand_4660 : IsOperand sampleEnv clearSt ['4', '6', '6', '0'] 4660 :=
  isOperand_decimal sampleEnv clearSt ['4', '6', '6', '0'] (by decide) (by decide) (by decide)

/-- C1, witness: `2+3*4 = 14`, `2*3+4 = 10`, `2<<3|4 = 20`, `2|3<<4 = 50`. -/
theorem eval_precedence_witness :
    clearSt.errmsg = none ∧ clearSt.dependant = false ∧
    IsOperand sampleEnv clearSt ['2'] 2 ∧ IsOperand sampleEnv clearSt ['3'] 3 ∧
    IsOperand sampleEnv clearSt ['4'] 4 ∧
    eval sampleEnv "2+3*4".toList WHOLEEXP clearSt = some (14, [], clearSt) ∧
    eval sampleEnv "2*3+4".toList WHOLEEXP clearSt = some (10, [], clearSt) ∧
    eval sampleEnv "2<<3|4".toList WHOLEEXP clearSt = some (20, [], clearSt) ∧
    eval sampleEnv "2|3<<4".toList WHOLEEXP clearSt = some (50, [], clearSt) := by
  have h := eval_precedence sampleEnv clearSt ['2'] ['3'] ['4'] 2 3 4 rfl rfl
    isOperand_two isOperand_three isOperand_four
  exact ⟨rfl, rfl, isOperand_two, isOperand_three, isOperand_four, h.1, h.2.1,
    h.2.2.1 (by decide) (by decide), h.2.2.2.1 (by decide) (by decide)⟩

/-- C3, witness: `7/2 = 3` and `7%2 = 1` with no error; `7/0` and `7%0` set
"Divide by zero." and return 7; `$80000000` divided by `-1`, and its
remainder, whose operands are `INT_MIN` and -1, have no result, while
`$80000000` divided by `-2` has. -/
theorem eval_div_mod_witness :
    IsOperand sampleEnv clearSt ['7'] 7 ∧ IsOperand sampleEnv clearSt ['2'] 2 ∧
    IsOperand sampleEnv clearSt ['0'] 0 ∧
    eval sampleEnv "7/2".toList WHOLEEXP clearSt = some (3, [], clearSt) ∧
    eval sampleEnv "7%2".toList WHOLEEXP clearSt = some (1, [], clearSt) ∧
    eval sampleEnv "7/0".toList WHOLEEXP clearSt
      = some (7, "/0".toList, { clearSt with errmsg := some .DivZero }) ∧
    eval sampleEnv "7%0".toList WHOLEEXP clearSt
      = some (7, "%0".toList, { clearSt with errmsg := some .DivZero }) ∧
    eval sampleEnv "$80000000".toList WHOLEEXP clearSt = some (-2147483648, [], clearSt) ∧
    eval sampleEnv "-1".toList WHOLEEXP clearSt = some (-1, [], clearSt) ∧
    eval sampleEnv "$80000000/-2".toList WHOLEEXP clearSt = some (1073741824, [], clearSt) ∧
    eval sampleEnv "$80000000/-1".toList WHOLEEXP clearSt = none ∧
    eval sampleEnv "$80000000%-1".toList WHOLEEXP clearSt = none := by
  have h2 := eval_div_mod sampleEnv clearSt ['7'] ['2'] 7 2 rfl rfl isOperand_seven isOperand_two
  have h0 := eval_div_mod sampleEnv clearSt ['7'] ['0'] 7 0 rfl rfl isOperand_seven
    isOperand_zero
  exact ⟨isOperand_seven, isOperand_two, isOperand_zero,
    (h2.2.2.2.1 (by decide) (by decide)).1, (h2.2.2.2.1 (by decide) (by decide)).2,
    (h0.2.2.1 rfl).1, (h0.2.2.1 rfl).2, by decide, by decide, by decide, by decide, by decide⟩

/-- C5, witness: `<4660 = $34` and `>4660 = $12` (4660 is `$1234`). -/
theorem eval_low_high_byte_witness :
    IsOperand sampleEnv clearSt ['4', '6', '6', '0'] 4660 ∧
    eval sampleEnv "<4660".toList WHOLEEXP clearSt = some (52, [], clearSt) ∧
    eval sampleEnv ">4660".toList WHOLEEXP clearSt = some (18, [], clearSt) := by
  have h := eval_low_high_byte sampleEnv clearSt ['4', '6', '6', '0'] 4660 isOperand_4660
  exact ⟨isOperand_4660, h.1, h.2.1⟩

/-- Example of the unary sign case: `-5` (no label is named `-5`) evaluates to
minus the operand `5`, flags and `errmsg` untouched. -/
theorem eval_unary_sign_example :
    (findlabel sampleEnv.tbl sampleEnv.scope sampleEnv.pass
      (cstr (getword "-5".toList true).1)).map Prod.fst = some none ∧
    eval sampleEnv "5".toList UNARY clearSt = some (5, [], clearSt) ∧
    eval sampleEnv "-5".toList WHOLEEXP clearSt = some (-5, [], clearSt) := by
  have h := eval_unary_sign sampleEnv clearSt clearSt '-' ['5'] [] WHOLEEXP 5 (Or.inr rfl) rfl
    (by decide) (by decide) (by decide) (by decide)
  exact ⟨by decide, by decide, h⟩

/-- C7, witness: in scope 3 the name `@loop` resolves to the entry of scope 3, and
`start` to the global entry. -/
theorem findlabel_scope_witness :
    TableOK sampleTable ∧
    (findlabel sampleTable 3 1 "@loop".toList).map Prod.fst
      = some (some (mklabel "@loop" 32780 3)) ∧
    (findlabel sampleTable 3 1 "start".toList).map Prod.fst
      = some (some (mklabel "start" 32768 0)) ∧
    ∃ res t1, findlabel sampleTable 3 1 "@loop".toList = some (res, t1) ∧
      ((∃ p ∈ entries sampleTable, p.name = "@loop".toList ∧ p.scope = 3) →
        ∃ p, res = some p ∧ p ∈ entries sampleTable ∧ p.name = "@loop".toList ∧ p.scope = 3) := by
  obtain ⟨res, t1, h1, h2, _⟩ := findlabel_scope sampleTable 3 1 "@loop".toList sampleTable_ok
    (by decide)
  exact ⟨sampleTable_ok, by decide, by decide, res, t1, h1, h2⟩

/-- C9, witness: the search for `ORG` and for the absent `MID` in the small list. -/
theorem findlabel_binary_search_witness :
    SortedList sampleTable ∧
    (findlabel sampleTable 3 1 "ORG".toList).map (fun r => (r.2.findcmp, r.2.findindex))
      = some (0, 66) ∧
    (findlabel sampleTable 3 1 "MID".toList).map (fun r => (r.2.findcmp, r.2.findindex))
      = some (-1, 66) ∧
    ∃ res t1, findlabel sampleTable 3 1 "MID".toList = some (res, t1) ∧
      (t1.findcmp = 0 ↔ ∃ i, sampleTable.labelstart ≤ i ∧ i ≤ sampleTable.labelend ∧
        nameAt sampleTable.labellist i = "MID".toList) := by
  obtain ⟨res, t1, h1, _, h3, _⟩ := findlabel_binary_search sampleTable 3 1 "MID".toList
    sampleTable_ok.toSortedList
  exact ⟨sampleTable_ok.toSortedList, by decide, by decide, res, t1, h1, h3⟩

/-- C2, evaluated: with `x` not in the label list, `x`, `<x`, `-x`, `x+1` and
`1+~x` evaluate to 0, but `~x` evaluates to -1 and `!x` to 1; both flags are set
in every case. -/
theorem eval_unknown_symbol :
    (findlabel sampleEnv.tbl sampleEnv.scope sampleEnv.pass ['x']).map Prod.fst = some none ∧
    eval sampleEnv "~x".toList WHOLEEXP clearSt = some (-1, [], ⟨none, true, true⟩) ∧
    eval sampleEnv "!x".toList WHOLEEXP clearSt = some (1, [], ⟨none, true, true⟩) ∧
    eval sampleEnv "x".toList WHOLEEXP clearSt = some (0, [], ⟨none, true, true⟩) ∧
    eval sampleEnv "<x".toList WHOLEEXP clearSt = some (0, [], ⟨none, true, true⟩) ∧
    eval sampleEnv "-x".toList WHOLEEXP clearSt = some (0, [], ⟨none, true, true⟩) ∧
    eval sampleEnv "x+1".toList WHOLEEXP clearSt = some (0, [], ⟨none, true, true⟩) ∧
    eval sampleEnv "1+~x".toList WHOLEEXP clearSt = some (0, [], ⟨none, true, true⟩) := by
  refine ⟨by decide, by decide, by decide, by decide, by decide, by decide, by decide, ?_⟩
  decide

/-- C6, evaluated where an error is pending when the sign is met.  In
`LDA+-(1+2+y)` the reserved word `LDA` sets "Unknown label." before `eval` is
called on `-(1+2+y)`; the trial lookup of the word `-(1` clears that error, so
the operand is evaluated in full and both flags end set, whereas evaluating the
operand `(1+2+y)` alone from the entry state stops at the pending error with
both flags clear.  On the final pass the same clearing drops the "Unknown
label." error of `x` in `x+-5`, which `x+5` reports. -/
theorem eval_unary_sign_pending_error :
    eval sampleEnv "-(1+2+y)".toList PLUSMINUS ⟨some .UnknownLabel, false, false⟩
      = some (0, [], ⟨none, true, true⟩) ∧
    eval sampleEnv "(1+2+y)".toList UNARY ⟨some .UnknownLabel, false, false⟩
      = some (3, "+2+y)".toList, ⟨some .IncompleteExp, false, false⟩) ∧
    eval sampleEnv "LDA+-(1+2+y)".toList WHOLEEXP clearSt
      = some (0, [], ⟨none, true, true⟩) ∧
    eval { sampleEnv with lastchance := true } "x+-5".toList WHOLEEXP clearSt
      = some (0, [], ⟨none, true, true⟩) ∧
    eval { sampleEnv with lastchance := true } "x+5".toList WHOLEEXP clearSt
      = some (0, "+5".toList, ⟨some .UnknownLabel, true, true⟩) := by
  refine ⟨by decide, by decide, by decide, by decide, ?_⟩
  decide

theorem getD_set_eq (l : List Int) (i : Nat) (v d : Int) (h : i < l.length) :
    (l.set i v).getD i d = v := by
  simp [List.getD_eq_getElem?_getD, List.getElem?_set, h]

theorem getD_set_ne (l : List Int) (i j : Nat) (v d : Int) (h : i ≠ j) :
    (l.set i v).getD j d = l.getD j d := by
  simp [List.getD_eq_getElem?_getD, List.getElem?_set, h]

theorem iflevelup_inv (c : CondSt) (h : CondInv c) :
    (iflevelup c).iflevel < IFNESTS ∧ 1 ≤ (iflevelup c).iflevel ∧
    (iflevelup c).skipline = c.skipline ∧ (iflevelup c).ifdone = c.ifdone ∧
    ((iflevelup c).iflevel = c.iflevel ∨ (iflevelup c).iflevel = c.iflevel + 1) := by
  obtain ⟨h1, _, _, _⟩ := h
  unfold iflevelup
  by_cases hl : c.iflevel ≥ IFNESTS - 1
  · rw [if_pos hl]
    simp only [IFNESTS] at hl h1
    exact ⟨h1, by show 1 ≤ c.iflevel; omega, rfl, rfl, Or.inl rfl⟩
  · rw [if_neg hl]
    simp only [IFNESTS] at hl h1
    exact ⟨by show c.iflevel + 1 < 32; omega, by show 1 ≤ c.iflevel + 1; omega, rfl, rfl,
      Or.inr rfl⟩

/-- Writing a value to `skipline[iflevel]` that is 1 whenever the enclosing
level is skipped keeps the nesting invariant, for the current level or one
level deeper. -/
theorem condInv_write (c : CondSt) (h : CondInv c) (l : Nat) (sk : Int) (dn : List Int)
    (st : EvalSt) (hl1 : 1 ≤ l) (hl : l < IFNESTS) (hlc : l = c.iflevel ∨ l = c.iflevel + 1)
    (hsk : c.skipline.getD (l - 1) 0 = 1 → sk = 1) (hdn : dn.length = IFNESTS) :
    CondInv { iflevel := l, ifdone := dn, skipline := c.skipline.set l sk, st := st } := by
  obtain ⟨h1, h2, h3, h4⟩ := h
  refine ⟨hl, by simpa using h2, hdn, ?_⟩
  intro k hk1 hk2 hprev
  simp only at hk2 hprev ⊢
  by_cases hkl : k = l
  · subst hkl
    rw [getD_set_eq _ _ _ _ (by omega)]
    rw [getD_set_ne _ _ _ _ _ (by omega)] at hprev
    exact hsk hprev
  · rw [getD_set_ne _ _ _ _ _ (fun h => hkl h.symm)]
    rw [getD_set_ne _ _ _ _ _ (by omega)] at hprev
    exact h4 k hk1 (by omega) hprev

theorem b2i_or_prev (p : Prop) [Decidable p] (x : Int) (h : x = 1) :
    b2i (decide (p ∨ x ≠ 0)) = 1 := by
  subst h
  simp [b2i]

theorem setbranch_inv (c c2 : CondSt) (h : CondInv c) (hl1 : 1 ≤ c2.iflevel)
    (hl : c2.iflevel < IFNESTS) (hlc : c2.iflevel = c.iflevel ∨ c2.iflevel = c.iflevel + 1)
    (hs : c2.skipline = c.skipline) (hd : c2.ifdone = c.ifdone) (sk : Int)
    (hsk : c.skipline.getD (c2.iflevel - 1) 0 = 1 → sk = 1) : CondInv (setbranch c2 sk) := by
  have h3 := h.2.2.1
  have := condInv_write c h c2.iflevel sk
    (c2.ifdone.set c2.iflevel (b2i ((c2.skipline.set c2.iflevel sk).getD c2.iflevel 0 = 0)))
    c2.st hl1 hl hlc hsk (by rw [hd]; simpa using h3)
  unfold setbranch
  rw [hs] at this ⊢
  exact this

theorem setskipdone_inv (c c2 : CondSt) (h : CondInv c) (hl1 : 1 ≤ c2.iflevel)
    (hl : c2.iflevel < IFNESTS) (hlc : c2.iflevel = c.iflevel ∨ c2.iflevel = c.iflevel + 1)
    (hs : c2.skipline = c.skipline) (hd : c2.ifdone = c.ifdone) : CondInv (setskipdone c2) := by
  have h3 := h.2.2.1
  have := condInv_write c h c2.iflevel 1 (c2.ifdone.set c2.iflevel 1)
    c2.st hl1 hl hlc (fun _ => rfl) (by rw [hd]; simpa using h3)
  unfold setskipdone
  rw [hs]
  exact this

theorem condInv_errmsg (c : CondSt) (st : EvalSt) (h : CondInv c) :
    CondInv { c with st := st } := h

theorem if_inv (env : Env) (next : List Char) (c : CondSt) (r : List Char × CondSt)
    (h : CondInv c) (hr : _if env next c = some r) : CondInv r.2 := by
  obtain ⟨a1, a2, a3, a4, a5⟩ := iflevelup_inv c h
  unfold _if at hr
  cases he : eval env next WHOLEEXP { (iflevelup c).st with dependant := false } with
  | none => simp [he] at hr
  | some x =>
    obtain ⟨val, next1, st1⟩ := x
    simp only [he] at hr
    by_cases hu : st1.dependant = true ∨ st1.errmsg ≠ none
    · rw [if_pos hu] at hr
      cases hr
      exact setskipdone_inv c _ h a2 a1 (a5.symm.symm) a3 a4
    · rw [if_neg hu] at hr
      cases hr
      refine setbranch_inv c _ h a2 a1 a5 a3 a4 _ ?_
      intro hp
      exact b2i_or_prev _ _ (by rw [a3]; exact hp)

theorem ifdefcore_inv (neg : Bool) (env : Env) (next : List Char) (c : CondSt)
    (r : List Char × CondSt) (h : CondInv c) (hr : ifdefcore neg env next c = some r) :
    CondInv r.2 := by
  obtain ⟨a1, a2, a3, a4, a5⟩ := iflevelup_inv c h
  unfold ifdefcore at hr
  simp only at hr
  cases hf : findlabel env.tbl env.scope env.pass (cstr (getlabel next (iflevelup c).st).2.1) with
  | none => simp [hf] at hr
  | some x =>
    obtain ⟨p, t⟩ := x
    simp only [hf] at hr
    cases hr
    refine setbranch_inv c _ h a2 a1 a5 a3 a4 _ ?_
    intro hp
    exact b2i_or_prev _ _ (by rw [a3]; exact hp)

theorem elseif_inv (env : Env) (next : List Char) (c : CondSt) (r : List Char × CondSt)
    (h : CondInv c) (hr : elseif env next c = some r) : CondInv r.2 := by
  unfold elseif at hr
  by_cases h0 : c.iflevel ≠ 0
  · rw [if_pos h0] at hr
    cases he : eval env next WHOLEEXP { c.st with dependant := false } with
    | none => simp [he] at hr
    | some x =>
      obtain ⟨val, next1, st1⟩ := x
      simp only [he] at hr
      have hl1 : 1 ≤ c.iflevel := by omega
      by_cases hd : c.ifdone.getD c.iflevel 0 = 0
      · rw [if_pos hd] at hr
        by_cases hu : st1.dependant = true ∨ st1.errmsg ≠ none
        · rw [if_pos hu] at hr
          cases hr
          exact setskipdone_inv c _ h hl1 h.1 (Or.inl rfl) rfl rfl
        · rw [if_neg hu] at hr
          cases hr
          refine setbranch_inv c _ h hl1 h.1 (Or.inl rfl) rfl rfl _ ?_
          intro hp
          exact b2i_or_prev _ _ hp
      · rw [if_neg hd] at hr
        cases hr
        exact condInv_write c h c.iflevel 1 c.ifdone st1 hl1 h.1 (Or.inl rfl) (fun _ => rfl)
          h.2.2.1
  · rw [if_neg h0] at hr
    cases hr
    exact h

theorem else_inv (c : CondSt) (h : CondInv c) : CondInv (_else c) := by
  unfold _else
  by_cases h0 : c.iflevel ≠ 0
  · rw [if_pos h0]
    have hl1 : 1 ≤ c.iflevel := by omega
    refine condInv_write c h c.iflevel _ c.ifdone c.st hl1 h.1 (Or.inl rfl) ?_ h.2.2.1
    intro hp
    exact b2i_or_prev _ _ hp
  · rw [if_neg h0]
    exact h

theorem endif_inv (c : CondSt) (h : CondInv c) : CondInv (endif c) := by
  unfold endif
  by_cases h0 : c.iflevel ≠ 0
  · rw [if_pos h0]
    obtain ⟨h1, h2, h3, h4⟩ := h
    refine ⟨by show c.iflevel - 1 < IFNESTS; omega, h2, h3, ?_⟩
    intro k hk1 hk2 hp
    exact h4 k hk1 (by have : k ≤ c.iflevel - 1 := hk2; omega) hp
  · rw [if_neg h0]
    exact h

theorem condline_inv (op : CondOp) (c c1 : CondSt) (h : CondInv c)
    (hr : condline op c = some c1) : CondInv c1 := by
  have h0 : CondInv { c with st := { c.st with errmsg := none } } := h
  cases op with
  | IF env next =>
    simp only [condline, Option.map_eq_some'] at hr
    obtain ⟨r, hr1, hr2⟩ := hr
    exact hr2 ▸ if_inv env next _ r h0 hr1
  | IFDEF env next =>
    simp only [condline, Option.map_eq_some'] at hr
    obtain ⟨r, hr1, hr2⟩ := hr
    exact hr2 ▸ ifdefcore_inv false env next _ r h0 hr1
  | IFNDEF env next =>
    simp only [condline, Option.map_eq_some'] at hr
    obtain ⟨r, hr1, hr2⟩ := hr
    exact hr2 ▸ ifdefcore_inv true env next _ r h0 hr1
  | ELSEIF env next =>
    simp only [condline, Option.map_eq_some'] at hr
    obtain ⟨r, hr1, hr2⟩ := hr
    exact hr2 ▸ elseif_inv env next _ r h0 hr1
  | ELSE =>
    simp only [condline, Option.some.injEq] at hr
    exact hr ▸ else_inv _ h0
  | ENDIF =>
    simp only [condline, Option.some.injEq] at hr
    exact hr ▸ endif_inv _ h0

theorem condrun_inv (ops : List CondOp) (c c1 : CondSt) (h : CondInv c)
    (hr : condrun ops c = some c1) : CondInv c1 := by
  induction ops generalizing c with
  | nil =>
    simp only [condrun, Option.some.injEq] at hr
    exact hr ▸ h
  | cons op ops ih =>
    unfold condrun at hr
    cases hc : condline op c with
    | none => simp [hc] at hr
    | some c2 =>
      simp only [hc] at hr
      exact ih c2 (condline_inv op c c2 h hc) hr

theorem cond0_inv : CondInv cond0 := by
  refine ⟨by decide, by simp [cond0], by simp [cond0], ?_⟩
  intro k hk1 hk2
  have : cond0.iflevel = 0 := rfl
  omega

/-- C12: after any sequence of IF / IFDEF / IFNDEF / ELSEIF / ELSE / ENDIF lines
run from well-nested conditional globals (such as those the program starts with),
the level stays inside the arrays and, for every level `k` with
`1 ≤ k ≤ iflevel`, `skipline[k-1] = 1` implies `skipline[k] = 1`.  This holds
at the nesting limit too. -/
theorem skipline_nesting (ops : List CondOp) (c0 c : CondSt) (h0 : CondInv c0)
    (hr : condrun ops c0 = some c) :
    c.iflevel < IFNESTS ∧
    ∀ k, 1 ≤ k → k ≤ c.iflevel → c.skipline.getD (k - 1) 0 = 1 → c.skipline.getD k 0 = 1 := by
  have h := condrun_inv ops c0 c h0 hr
  exact ⟨h.1, h.2.2.2⟩

theorem skipline_nesting_witness :
    CondInv cond0 ∧
    (∃ c, condrun [CondOp.IF sampleEnv ['0'], CondOp.IF sampleEnv ['1'], CondOp.ELSE] cond0
        = some c ∧ c.iflevel = 2 ∧ c.skipline.take 3 = [0, 1, 1] ∧
      ∀ k, 1 ≤ k → k ≤ c.iflevel → c.skipline.getD (k - 1) 0 = 1 → c.skipline.getD k 0 = 1) := by
  refine ⟨cond0_inv, ?_⟩
  have h : condrun [CondOp.IF sampleEnv ['0'], CondOp.IF sampleEnv ['1'], CondOp.ELSE] cond0
      = some ((condrun [CondOp.IF sampleEnv ['0'], CondOp.IF sampleEnv ['1'], CondOp.ELSE]
          cond0).getD cond0) := by decide
  exact ⟨_, h, by decide, by decide, (skipline_nesting _ cond0 _ cond0_inv h).2⟩

theorem setbranch_frame (c2 : CondSt) (sk : Int) (l : Nat) (h : c2.iflevel ≠ l) :
    (setbranch c2 sk).skipline.getD l 0 = c2.skipline.getD l 0 ∧
    (setbranch c2 sk).ifdone.getD l 0 = c2.ifdone.getD l 0 := by
  unfold setbranch
  exact ⟨getD_set_ne _ _ _ _ _ h, getD_set_ne _ _ _ _ _ h⟩

theorem setbranch_shape (c2 : CondSt) (sk : Int) :
    (setbranch c2 sk).skipline.length = c2.skipline.length ∧
    (setbranch c2 sk).ifdone.length = c2.ifdone.length ∧
    (setbranch c2 sk).iflevel = c2.iflevel ∧ (setbranch c2 sk).st = c2.st := by
  unfold setbranch
  simp

theorem setskipdone_frame (c2 : CondSt) (l : Nat) (h : c2.iflevel ≠ l) :
    (setskipdone c2).skipline.getD l 0 = c2.skipline.getD l 0 ∧
    (setskipdone c2).ifdone.getD l 0 = c2.ifdone.getD l 0 := by
  unfold setskipdone
  exact ⟨getD_set_ne _ _ _ _ _ h, getD_set_ne _ _ _ _ _ h⟩

theorem setskipdone_shape (c2 : CondSt) :
    (setskipdone c2).skipline.length = c2.skipline.length ∧
    (setskipdone c2).ifdone.length = c2.ifdone.length ∧
    (setskipdone c2).iflevel = c2.iflevel ∧ (setskipdone c2).st = c2.st := by
  unfold setskipdone
  simp

theorem setskipdone_at (c2 : CondSt) (h1 : c2.iflevel < c2.skipline.length)
    (h2 : c2.iflevel < c2.ifdone.length) :
    (setskipdone c2).skipline.getD c2.iflevel 0 = 1 ∧
    (setskipdone c2).ifdone.getD c2.iflevel 0 = 1 := by
  unfold setskipdone
  exact ⟨getD_set_eq _ _ _ _ h1, getD_set_eq _ _ _ _ h2⟩

theorem setbranch_at (c2 : CondSt) (sk : Int) (h1 : c2.iflevel < c2.skipline.length)
    (h2 : c2.iflevel < c2.ifdone.length) :
    (setbranch c2 sk).skipline.getD c2.iflevel 0 = sk ∧
    (setbranch c2 sk).ifdone.getD c2.iflevel 0 = b2i (sk = 0) := by
  unfold setbranch
  refine ⟨getD_set_eq _ _ _ _ h1, ?_⟩
  show (c2.ifdone.set c2.iflevel _).getD c2.iflevel 0 = _
  rw [getD_set_eq _ _ _ _ h2, getD_set_eq _ _ _ _ h1]

theorem iflevelup_below (c : CondSt) (h : c.iflevel < IFNESTS - 1) :
    iflevelup c = { c with iflevel := c.iflevel + 1 } := by
  unfold iflevelup
  rw [if_neg (by omega)]

/-- A level that is open, skipped and marked done. -/
theorem if_frame (env : Env) (next : List Char) (c : CondSt) (r : List Char × CondSt)
    (l : Nat) (hl : l ≤ c.iflevel) (hlim : c.iflevel < IFNESTS - 1)
    (hr : _if env next c = some r) :
    r.2.skipline.getD l 0 = c.skipline.getD l 0 ∧ r.2.ifdone.getD l 0 = c.ifdone.getD l 0 ∧
    r.2.skipline.length = c.skipline.length ∧ r.2.ifdone.length = c.ifdone.length ∧
    r.2.iflevel = c.iflevel + 1 := by
  unfold _if at hr
  rw [iflevelup_below c hlim] at hr
  cases he : eval env next WHOLEEXP { c.st with dependant := false } with
  | none => simp [he] at hr
  | some x =>
    obtain ⟨val, next1, st1⟩ := x
    simp only [he] at hr
    by_cases hu : st1.dependant = true ∨ st1.errmsg ≠ none
    · rw [if_pos hu] at hr
      cases hr
      have a := setskipdone_frame { c with iflevel := c.iflevel + 1, st := st1 } l
        (by show c.iflevel + 1 ≠ l; omega)
      have b := setskipdone_shape { c with iflevel := c.iflevel + 1, st := st1 }
      exact ⟨a.1, a.2, b.1, b.2.1, b.2.2.1⟩
    · rw [if_neg hu] at hr
      cases hr
      have a := setbranch_frame { c with iflevel := c.iflevel + 1, st := st1 }
        (b2i (val = 0 ∨ c.skipline.getD (c.iflevel + 1 - 1) 0 ≠ 0)) l
        (by show c.iflevel + 1 ≠ l; omega)
      have b := setbranch_shape { c with iflevel := c.iflevel + 1, st := st1 }
        (b2i (val = 0 ∨ c.skipline.getD (c.iflevel + 1 - 1) 0 ≠ 0))
      exact ⟨a.1, a.2, b.1, b.2.1, b.2.2.1⟩

theorem ifdefcore_frame (neg : Bool) (env : Env) (next : List Char) (c : CondSt)
    (r : List Char × CondSt)
    (l : Nat) (hl : l ≤ c.iflevel) (hlim : c.iflevel < IFNESTS - 1)
    (hr : ifdefcore neg env next c = some r) :
    r.2.skipline.getD l 0 = c.skipline.getD l 0 ∧ r.2.ifdone.getD l 0 = c.ifdone.getD l 0 ∧
    r.2.skipline.length = c.skipline.length ∧ r.2.ifdone.length = c.ifdone.length ∧
    r.2.iflevel = c.iflevel + 1 := by
  unfold ifdefcore at hr
  rw [iflevelup_below c hlim] at hr
  simp only at hr
  cases hf : findlabel env.tbl env.scope env.pass (cstr (getlabel next c.st).2.1) with
  | none => simp [hf] at hr
  | some x =>
    obtain ⟨p, t⟩ := x
    simp only [hf] at hr
    cases hr
    exact ⟨(setbranch_frame _ _ l (by show c.iflevel + 1 ≠ l; omega)).1,
      (setbranch_frame _ _ l (by show c.iflevel + 1 ≠ l; omega)).2,
      (setbranch_shape _ _).1, (setbranch_shape _ _).2.1, (setbranch_shape _ _).2.2.1⟩

theorem elseif_follow (env : Env) (next : List Char) (c : CondSt) (r : List Char × CondSt)
    (l : Nat) (hl1 : 1 ≤ l) (hl : l ≤ c.iflevel)
    (hlen1 : c.skipline.length = IFNESTS) (hlen2 : c.ifdone.length = IFNESTS)
    (hlen3 : c.iflevel < IFNESTS)
    (hs : c.skipline.getD l 0 = 1) (hd : c.ifdone.getD l 0 = 1)
    (hr : elseif env next c = some r) :
    r.2.skipline.getD l 0 = 1 ∧ r.2.ifdone.getD l 0 = 1 ∧
    r.2.skipline.length = IFNESTS ∧ r.2.ifdone.length = IFNESTS ∧
    r.2.iflevel = c.iflevel := by
  unfold elseif at hr
  rw [if_pos (by omega)] at hr
  cases he : eval env next WHOLEEXP { c.st with dependant := false } with
  | none => simp [he] at hr
  | some x =>
    obtain ⟨val, next1, st1⟩ := x
    simp only [he] at hr
    by_cases hdn : c.ifdone.getD c.iflevel 0 = 0
    · have hne : c.iflevel ≠ l := by
        intro h
        rw [h, hd] at hdn
        exact absurd hdn (by decide)
      rw [if_pos hdn] at hr
      by_cases hu : st1.dependant = true ∨ st1.errmsg ≠ none
      · rw [if_pos hu] at hr
        cases hr
        have a := setskipdone_frame { c with st := st1 } l hne
        have b := setskipdone_shape { c with st := st1 }
        exact ⟨a.1.trans hs, a.2.trans hd, b.1.trans hlen1, b.2.1.trans hlen2, b.2.2.1⟩
      · rw [if_neg hu] at hr
        cases hr
        have a := setbranch_frame { c with st := st1 }
          (b2i (val = 0 ∨ c.skipline.getD (c.iflevel - 1) 0 ≠ 0)) l hne
        have b := setbranch_shape { c with st := st1 }
          (b2i (val = 0 ∨ c.skipline.getD (c.iflevel - 1) 0 ≠ 0))
        exact ⟨a.1.trans hs, a.2.trans hd, b.1.trans hlen1, b.2.1.trans hlen2, b.2.2.1⟩
    · rw [if_neg hdn] at hr
      cases hr
      refine ⟨?_, hd, by simpa using hlen1, hlen2, rfl⟩
      show (c.skipline.set c.iflevel 1).getD l 0 = 1
      by_cases he : c.iflevel = l
      · rw [he, getD_set_eq _ _ _ _ (by rw [hlen1]; omega)]
      · rw [getD_set_ne _ _ _ _ _ he]
        exact hs

theorem else_follow (c : CondSt)
    (l : Nat) (hl1 : 1 ≤ l) (hl : l ≤ c.iflevel)
    (hlen1 : c.skipline.length = IFNESTS) (hlen2 : c.ifdone.length = IFNESTS)
    (hlen3 : c.iflevel < IFNESTS)
    (hs : c.skipline.getD l 0 = 1) (hd : c.ifdone.getD l 0 = 1) :
    (_else c).skipline.getD l 0 = 1 ∧ (_else c).ifdone.getD l 0 = 1 ∧
    (_else c).skipline.length = IFNESTS ∧ (_else c).ifdone.length = IFNESTS ∧
    (_else c).iflevel = c.iflevel := by
  unfold _else
  rw [if_pos (by omega)]
  refine ⟨?_, hd, by simpa using hlen1, hlen2, rfl⟩
  show (c.skipline.set c.iflevel _).getD l 0 = 1
  by_cases he : c.iflevel = l
  · rw [he, getD_set_eq _ _ _ _ (by rw [hlen1]; omega), hd]
    simp [b2i]
  · rw [getD_set_ne _ _ _ _ _ he]
    exact hs

/-- One line keeps an open level that is skipped and marked done in that state. -/
theorem follow_step (l : Nat) (op : CondOp) (c c1 : CondSt) (hl1 : 1 ≤ l)
    (hlen : c.skipline.length = IFNESTS ∧ c.ifdone.length = IFNESTS ∧ c.iflevel < IFNESTS)
    (hs : c.skipline.getD l 0 = 1) (hd : c.ifdone.getD l 0 = 1)
    (hle : l ≤ c.iflevel)
    (hop : keepsOpen l op c)
    (hr : condline op c = some c1) :
    (c1.skipline.length = IFNESTS ∧ c1.ifdone.length = IFNESTS ∧ c1.iflevel < IFNESTS) ∧
    c1.skipline.getD l 0 = 1 ∧ c1.ifdone.getD l 0 = 1 ∧ l ≤ c1.iflevel := by
  obtain ⟨hlen1, hlen2, hlen3⟩ := hlen
  cases op with
  | IF env next =>
    simp only [condline, Option.map_eq_some'] at hr
    obtain ⟨r, hr1, hr2⟩ := hr
    have a := if_frame env next { c with st := { c.st with errmsg := none } } r l hle hop hr1
    subst hr2
    have hop1 : c.iflevel < 32 - 1 := hop
    simp only [IFNESTS] at hlen3 ⊢
    exact ⟨⟨a.2.2.1.trans hlen1, a.2.2.2.1.trans hlen2, by rw [a.2.2.2.2]; show c.iflevel + 1 < 32; omega⟩,
      a.1.trans hs, a.2.1.trans hd, by rw [a.2.2.2.2]; show l ≤ c.iflevel + 1; omega⟩
  | IFDEF env next =>
    simp only [condline, Option.map_eq_some'] at hr
    obtain ⟨r, hr1, hr2⟩ := hr
    have a := ifdefcore_frame false env next { c with st := { c.st with errmsg := none } } r l hle hop hr1
    subst hr2
    have hop1 : c.iflevel < 32 - 1 := hop
    simp only [IFNESTS] at hlen3 ⊢
    exact ⟨⟨a.2.2.1.trans hlen1, a.2.2.2.1.trans hlen2, by rw [a.2.2.2.2]; show c.iflevel + 1 < 32; omega⟩,
      a.1.trans hs, a.2.1.trans hd, by rw [a.2.2.2.2]; show l ≤ c.iflevel + 1; omega⟩
  | IFNDEF env next =>
    simp only [condline, Option.map_eq_some'] at hr
    obtain ⟨r, hr1, hr2⟩ := hr
    have a := ifdefcore_frame true env next { c with st := { c.st with errmsg := none } } r l hle hop hr1
    subst hr2
    have hop1 : c.iflevel < 32 - 1 := hop
    simp only [IFNESTS] at hlen3 ⊢
    exact ⟨⟨a.2.2.1.trans hlen1, a.2.2.2.1.trans hlen2, by rw [a.2.2.2.2]; show c.iflevel + 1 < 32; omega⟩,
      a.1.trans hs, a.2.1.trans hd, by rw [a.2.2.2.2]; show l ≤ c.iflevel + 1; omega⟩
  | ELSEIF env next =>
    simp only [condline, Option.map_eq_some'] at hr
    obtain ⟨r, hr1, hr2⟩ := hr
    have a := elseif_follow env next { c with st := { c.st with errmsg := none } } r l hl1 hle hlen1 hlen2 hlen3 hs hd hr1
    subst hr2
    exact ⟨⟨a.2.2.1, a.2.2.2.1, by rw [a.2.2.2.2]; exact hlen3⟩, a.1, a.2.1,
      by rw [a.2.2.2.2]; exact hle⟩
  | ELSE =>
    simp only [condline, Option.some.injEq] at hr
    have a := else_follow { c with st := { c.st with errmsg := none } } l hl1 hle hlen1 hlen2
      hlen3 hs hd
    subst hr
    exact ⟨⟨a.2.2.1, a.2.2.2.1, by rw [a.2.2.2.2]; exact hlen3⟩, a.1, a.2.1,
      by rw [a.2.2.2.2]; exact hle⟩
  | ENDIF =>
    simp only [condline, Option.some.injEq] at hr
    subst hr
    have hop1 : l < c.iflevel := hop
    unfold endif
    rw [if_pos (by show c.iflevel ≠ 0; omega)]
    exact ⟨⟨hlen1, hlen2, by show c.iflevel - 1 < IFNESTS; omega⟩, hs, hd,
      by show l ≤ c.iflevel - 1; omega⟩

/-- While the conditional at level `l` stays open, a level that is skipped and
marked done stays so. -/
theorem follow_run (l : Nat) (ops : List CondOp) (c c1 : CondSt) (hl1 : 1 ≤ l)
    (hlen : c.skipline.length = IFNESTS ∧ c.ifdone.length = IFNESTS ∧ c.iflevel < IFNESTS)
    (hs : c.skipline.getD l 0 = 1) (hd : c.ifdone.getD l 0 = 1)
    (ho : staysOpen l ops c) (hr : condrun ops c = some c1) :
    c1.skipline.getD l 0 = 1 ∧ c1.ifdone.getD l 0 = 1 := by
  induction ops generalizing c with
  | nil =>
    simp only [condrun, Option.some.injEq] at hr
    subst hr
    exact ⟨hs, hd⟩
  | cons op ops ih =>
    unfold condrun at hr
    cases hc : condline op c with
    | none => simp [hc] at hr
    | some c2 =>
      simp only [hc] at hr
      rw [staysOpen] at ho
      have a := follow_step l op c c2 hl1 hlen hs hd ho.1 ho.2.1 hc
      exact ih c2 a.1 a.2.1 a.2.2.1 (ho.2.2 c2 hc) hr

/-- C13: when the expression of an IF, or of an ELSEIF reached with no earlier
branch taken (`ifdone[iflevel] = 0`), is unresolved (`eval` leaves `dependant`
or `errmsg` set), the line sets `skipline[iflevel] = 1` and `ifdone[iflevel] = 1`;
and as long as that conditional stays open, whatever lines follow (ELSEIF and
ELSE of the same conditional with any condition, nested conditionals), its level
stays skipped and marked taken. -/
theorem unresolved_branch_skipped (env : Env) (next : List Char) (c : CondSt) (v : Int)
    (rest : List Char) (st1 : EvalSt) (hc : CondInv c)
    (hu : st1.dependant = true ∨ st1.errmsg ≠ none) :
    (eval env next WHOLEEXP
        { errmsg := if c.iflevel ≥ IFNESTS - 1 then some .IfNestLimit else none,
          dependant := false, needanotherpass := c.st.needanotherpass } = some (v, rest, st1) →
      ∃ c1, condline (.IF env next) c = some c1 ∧
        c1.iflevel = (if c.iflevel ≥ IFNESTS - 1 then c.iflevel else c.iflevel + 1) ∧
        c1.skipline.getD c1.iflevel 0 = 1 ∧ c1.ifdone.getD c1.iflevel 0 = 1 ∧
        ∀ ops c2, staysOpen c1.iflevel ops c1 → condrun ops c1 = some c2 →
          c2.skipline.getD c1.iflevel 0 = 1 ∧ c2.ifdone.getD c1.iflevel 0 = 1) ∧
    (c.iflevel ≠ 0 → c.ifdone.getD c.iflevel 0 = 0 →
      eval env next WHOLEEXP
        { errmsg := none, dependant := false, needanotherpass := c.st.needanotherpass }
        = some (v, rest, st1) →
      ∃ c1, condline (.ELSEIF env next) c = some c1 ∧ c1.iflevel = c.iflevel ∧
        c1.skipline.getD c1.iflevel 0 = 1 ∧ c1.ifdone.getD c1.iflevel 0 = 1 ∧
        ∀ ops c2, staysOpen c1.iflevel ops c1 → condrun ops c1 = some c2 →
          c2.skipline.getD c1.iflevel 0 = 1 ∧ c2.ifdone.getD c1.iflevel 0 = 1) := by
  obtain ⟨h1, h2, h3, h4⟩ := hc
  constructor
  · intro he
    have hup : (iflevelup { c with st := { c.st with errmsg := none } }) =
        { iflevel := if c.iflevel ≥ IFNESTS - 1 then c.iflevel else c.iflevel + 1,
          ifdone := c.ifdone, skipline := c.skipline,
          st := { errmsg := if c.iflevel ≥ IFNESTS - 1 then some .IfNestLimit else none,
                  dependant := c.st.dependant, needanotherpass := c.st.needanotherpass } } := by
      unfold iflevelup
      by_cases hl : c.iflevel ≥ IFNESTS - 1
      · simp only [hl, if_true]
      · simp only [hl, if_false]
    have hlev : (if c.iflevel ≥ IFNESTS - 1 then c.iflevel else c.iflevel + 1) < IFNESTS ∧
        1 ≤ (if c.iflevel ≥ IFNESTS - 1 then c.iflevel else c.iflevel + 1) := by
      simp only [IFNESTS] at h1 ⊢
      split_ifs <;> omega
    have hrun : condline (.IF env next) c = some (setskipdone
        { iflevel := if c.iflevel ≥ IFNESTS - 1 then c.iflevel else c.iflevel + 1,
          ifdone := c.ifdone, skipline := c.skipline, st := st1 }) := by
      simp only [condline, _if, hup, he, if_pos hu, Option.map_some']
    refine ⟨_, hrun, (setskipdone_shape _).2.2.1, ?_⟩
    have hat := setskipdone_at
        { iflevel := if c.iflevel ≥ IFNESTS - 1 then c.iflevel else c.iflevel + 1,
          ifdone := c.ifdone, skipline := c.skipline, st := st1 }
        (by rw [h2]; exact hlev.1) (by rw [h3]; exact hlev.1)
    have hsh := setskipdone_shape
        { iflevel := if c.iflevel ≥ IFNESTS - 1 then c.iflevel else c.iflevel + 1,
          ifdone := c.ifdone, skipline := c.skipline, st := st1 }
    rw [hsh.2.2.1]
    refine ⟨hat.1, hat.2, ?_⟩
    intro ops c2 ho hr
    exact follow_run _ ops _ c2 hlev.2
      ⟨hsh.1.trans h2, hsh.2.1.trans h3, by rw [hsh.2.2.1]; exact hlev.1⟩ hat.1 hat.2 ho hr
  · intro h0 hd he
    have hrun : condline (.ELSEIF env next) c = some (setskipdone
        { iflevel := c.iflevel, ifdone := c.ifdone, skipline := c.skipline, st := st1 }) := by
      simp only [condline, elseif, if_pos h0, he, if_pos hd, if_pos hu, Option.map_some',
        ne_eq, not_false_eq_true]
    refine ⟨_, hrun, (setskipdone_shape _).2.2.1, ?_⟩
    have hat := setskipdone_at
        { iflevel := c.iflevel, ifdone := c.ifdone, skipline := c.skipline, st := st1 }
        (by rw [h2]; exact h1) (by rw [h3]; exact h1)
    have hsh := setskipdone_shape
        { iflevel := c.iflevel, ifdone := c.ifdone, skipline := c.skipline, st := st1 }
    rw [hsh.2.2.1]
    refine ⟨hat.1, hat.2, ?_⟩
    intro ops c2 ho hr
    exact follow_run _ ops _ c2 (by show 1 ≤ c.iflevel; omega)
      ⟨hsh.1.trans h2, hsh.2.1.trans h3, by rw [hsh.2.2.1]; exact h1⟩ hat.1 hat.2 ho hr

/-- C13, witness: `IF x` with `x` not in the label list, met with no conditional
open; a following `ELSEIF 1` and `ELSE` are both skipped. -/
theorem unresolved_branch_skipped_witness :
    CondInv cond0 ∧
    eval sampleEnv ['x'] WHOLEEXP ⟨none, false, false⟩ = some (0, [], ⟨none, true, true⟩) ∧
    condflags [CondOp.IF sampleEnv ['x'], CondOp.ELSEIF sampleEnv ['1'], CondOp.ELSE] cond0
      = some [1, 1, 1] ∧
    ∃ c1, condline (.IF sampleEnv ['x']) cond0 = some c1 ∧ c1.iflevel = 1 ∧
      c1.skipline.getD c1.iflevel 0 = 1 ∧ c1.ifdone.getD c1.iflevel 0 = 1 ∧
      ∀ ops c2, staysOpen c1.iflevel ops c1 → condrun ops c1 = some c2 →
        c2.skipline.getD c1.iflevel 0 = 1 ∧ c2.ifdone.getD c1.iflevel 0 = 1 :=
  ⟨cond0_inv, by decide, by decide,
    (unresolved_branch_skipped sampleEnv ['x'] cond0 0 [] ⟨none, true, true⟩ cond0_inv
      (Or.inl rfl)).1 (by decide)⟩

theorem b2i_ne_zero (b : Bool) : (b2i b ≠ 0) ↔ b = true := by
  cases b <;> simp [b2i]

theorem b2i_eq_zero (b : Bool) : (b2i b = 0) ↔ b = false := by
  cases b <;> simp [b2i]

theorem if_resolved (env : Env) (next : List Char) (v : Int) (c : CondSt)
    (hc : CondInv c) (hlim : c.iflevel < IFNESTS - 1) (hsk : c.skipline.getD c.iflevel 0 = 0)
    (hres : Resolved env next v) :
    ∃ c1, condline (.IF env next) c = some c1 ∧
      c1.skipline.getD c1.iflevel 0 = b2i (decide (v = 0)) ∧
      BranchSt (c.iflevel + 1) (decide (v ≠ 0)) c1 := by
  obtain ⟨h1, h2, h3, h4⟩ := hc
  obtain ⟨rest, nap1, he⟩ := hres c.st.needanotherpass
  have hrun : condline (.IF env next) c = some (setbranch
      { iflevel := c.iflevel + 1, ifdone := c.ifdone, skipline := c.skipline,
        st := ⟨none, false, nap1⟩ } (b2i (decide (v = 0)))) := by
    have hn : ¬ ((false = true) ∨ (none : Option ErrMsg) ≠ none) := by simp
    have hup := iflevelup_below { c with st := { c.st with errmsg := none } } hlim
    simp only [condline, _if, hup, he]
    rw [if_neg hn]
    simp only [Nat.add_sub_cancel, hsk, ne_eq, not_true_eq_false, or_false, Option.map_some']
  have hat := setbranch_at
      { iflevel := c.iflevel + 1, ifdone := c.ifdone, skipline := c.skipline,
        st := ⟨none, false, nap1⟩ } (b2i (decide (v = 0)))
      (by rw [h2]; simp only [IFNESTS] at hlim ⊢; show c.iflevel + 1 < 32; omega)
      (by rw [h3]; simp only [IFNESTS] at hlim ⊢; show c.iflevel + 1 < 32; omega)
  have hsh := setbranch_shape
      { iflevel := c.iflevel + 1, ifdone := c.ifdone, skipline := c.skipline,
        st := ⟨none, false, nap1⟩ } (b2i (decide (v = 0)))
  have hfr := setbranch_frame
      { iflevel := c.iflevel + 1, ifdone := c.ifdone, skipline := c.skipline,
        st := ⟨none, false, nap1⟩ } (b2i (decide (v = 0))) c.iflevel
      (by show c.iflevel + 1 ≠ c.iflevel; omega)
  refine ⟨_, hrun, ?_, hsh.2.2.1, by omega, ?_, hsh.1.trans h2, hsh.2.1.trans h3, ?_, ?_⟩
  · rw [hsh.2.2.1]; exact hat.1
  · simp only [IFNESTS] at hlim ⊢; omega
  · rw [Nat.add_sub_cancel]; exact hfr.1.trans hsk
  · rw [hat.2]
    by_cases hv : v = 0 <;> simp [hv, b2i]

theorem elseif_resolved (env : Env) (next : List Char) (v : Int) (c : CondSt) (l : Nat)
    (taken : Bool) (hb : BranchSt l taken c) (hres : Resolved env next v) :
    ∃ c1, condline (.ELSEIF env next) c = some c1 ∧
      c1.skipline.getD c1.iflevel 0 = b2i (taken || decide (v = 0)) ∧
      BranchSt l (taken || decide (v ≠ 0)) c1 := by
  obtain ⟨b1, b2, b3, b4, b5, b6, b7⟩ := hb
  subst b1
  obtain ⟨rest, nap1, he⟩ := hres c.st.needanotherpass
  have h0 : c.iflevel ≠ 0 := by omega
  have hn : ¬ ((false = true) ∨ (none : Option ErrMsg) ≠ none) := by simp
  cases taken with
  | true =>
    have hd : ¬ (c.ifdone.getD c.iflevel 0 = 0) := by
      rw [b7]; decide
    have hrun : condline (.ELSEIF env next) c = some
        { iflevel := c.iflevel, ifdone := c.ifdone, skipline := c.skipline.set c.iflevel 1,
          st := ⟨none, false, nap1⟩ } := by
      simp only [condline, elseif, if_pos h0, he]
      rw [if_neg hd]
      rfl
    refine ⟨_, hrun, ?_, rfl, b2, b3, by simpa using b4, b5, ?_, ?_⟩
    · show (c.skipline.set c.iflevel 1).getD c.iflevel 0 = _
      rw [getD_set_eq _ _ _ _ (by rw [b4]; exact b3)]
      rfl
    · show (c.skipline.set c.iflevel 1).getD (c.iflevel - 1) 0 = 0
      rw [getD_set_ne _ _ _ _ _ (by omega)]
      exact b6
    · exact b7
  | false =>
    have hd : c.ifdone.getD c.iflevel 0 = 0 := by
      rw [b7]; rfl
    have hsk : b2i (decide (v = 0 ∨ c.skipline.getD (c.iflevel - 1) 0 ≠ 0))
        = b2i (decide (v = 0)) := by
      rw [b6]; simp
    have hrun : condline (.ELSEIF env next) c = some (setbranch
        { iflevel := c.iflevel, ifdone := c.ifdone, skipline := c.skipline,
          st := ⟨none, false, nap1⟩ } (b2i (decide (v = 0)))) := by
      simp only [condline, elseif, if_pos h0, he]
      rw [if_pos hd, if_neg hn, ← hsk]
      rfl
    have hat := setbranch_at
        { iflevel := c.iflevel, ifdone := c.ifdone, skipline := c.skipline,
          st := ⟨none, false, nap1⟩ } (b2i (decide (v = 0)))
        (by rw [b4]; exact b3) (by rw [b5]; exact b3)
    have hsh := setbranch_shape
        { iflevel := c.iflevel, ifdone := c.ifdone, skipline := c.skipline,
          st := ⟨none, false, nap1⟩ } (b2i (decide (v = 0)))
    have hfr := setbranch_frame
        { iflevel := c.iflevel, ifdone := c.ifdone, skipline := c.skipline,
          st := ⟨none, false, nap1⟩ } (b2i (decide (v = 0))) (c.iflevel - 1)
        (by show c.iflevel ≠ c.iflevel - 1; omega)
    refine ⟨_, hrun, ?_, hsh.2.2.1, b2, b3, hsh.1.trans b4, hsh.2.1.trans b5, ?_, ?_⟩
    · rw [hsh.2.2.1]
      simpa using hat.1
    · exact hfr.1.trans b6
    · refine hat.2.trans ?_
      by_cases hv : v = 0 <;> simp [hv, b2i]

theorem else_resolved (c : CondSt) (l : Nat) (taken : Bool) (hb : BranchSt l taken c) :
    ∃ c1, condline .ELSE c = some c1 ∧ c1.skipline.getD c1.iflevel 0 = b2i taken ∧
      BranchSt l taken c1 := by
  obtain ⟨b1, b2, b3, b4, b5, b6, b7⟩ := hb
  subst b1
  have h0 : c.iflevel ≠ 0 := by omega
  have hsk : b2i (decide (c.ifdone.getD c.iflevel 0 ≠ 0 ∨ c.skipline.getD (c.iflevel - 1) 0 ≠ 0))
      = b2i taken := by
    rw [b7, b6]
    cases taken <;> simp [b2i]
  have hrun : condline .ELSE c = some
      { iflevel := c.iflevel, ifdone := c.ifdone, skipline := c.skipline.set c.iflevel (b2i taken),
        st := { c.st with errmsg := none } } := by
    simp only [condline, _else, if_pos h0]
    rw [← hsk]
  refine ⟨_, hrun, ?_, rfl, b2, b3, by simpa using b4, b5, ?_, b7⟩
  · show (c.skipline.set c.iflevel (b2i taken)).getD c.iflevel 0 = _
    rw [getD_set_eq _ _ _ _ (by rw [b4]; exact b3)]
  · show (c.skipline.set c.iflevel (b2i taken)).getD (c.iflevel - 1) 0 = 0
    rw [getD_set_ne _ _ _ _ _ (by omega)]
    exact b6

theorem expectflags_length (vs : List Int) (taken : Bool) :
    (expectflags vs taken).length = vs.length := by
  induction vs generalizing taken with
  | nil => rfl
  | cons v vs ih => simp [expectflags, ih]

theorem expectflags_taken (vs : List Int) : ∀ i, (expectflags vs true).getD i 1 = 1 := by
  induction vs with
  | nil => intro i; simp [expectflags]
  | cons v vs ih =>
    intro i
    cases i with
    | zero => simp [expectflags, b2i]
    | succ i =>
      have := ih i
      simpa [expectflags] using this

theorem expectflags_taken_count (vs : List Int) : (expectflags vs true).count 0 = 0 := by
  induction vs with
  | nil => simp [expectflags]
  | cons v vs ih =>
    simp only [expectflags, Bool.true_or]
    rw [List.count_cons, ih]
    simp [b2i]

theorem expectflags_zero (vs : List Int) (i : Nat) (hi : i < vs.length) :
    (expectflags vs false).getD i 1 = 0 ↔ (vs.getD i 0 ≠ 0 ∧ ∀ j < i, vs.getD j 0 = 0) := by
  induction vs generalizing i with
  | nil => simp at hi
  | cons v vs ih =>
    cases i with
    | zero =>
      by_cases hv : v = 0 <;> simp [expectflags, hv, b2i]
    | succ i =>
      have hi1 : i < vs.length := by simpa using hi
      by_cases hv : v = 0
      · have := ih i hi1
        simp only [expectflags, hv, decide_True, Bool.false_or, ne_eq, not_true_eq_false,
          decide_False, List.getD_cons_succ]
        rw [this]
        constructor
        · rintro ⟨h1, h2⟩
          refine ⟨h1, ?_⟩
          intro j hj
          cases j with
          | zero => simp
          | succ j => simpa using h2 j (by omega)
        · rintro ⟨h1, h2⟩
          refine ⟨h1, ?_⟩
          intro j hj
          simpa using h2 (j + 1) (by omega)
      · have h1 := expectflags_taken vs i
        simp only [expectflags, hv, decide_False, Bool.false_or, ne_eq, not_false_eq_true,
          decide_True, List.getD_cons_succ]
        rw [h1]
        constructor
        · intro h; exact absurd h (by decide)
        · rintro ⟨_, h2⟩
          have := h2 0 (by omega)
          simp at this
          exact absurd this hv

theorem expectflags_count (vs : List Int) :
    (expectflags vs false).count 0 = if vs.any (fun v => decide (v ≠ 0)) then 1 else 0 := by
  induction vs with
  | nil => simp [expectflags]
  | cons v vs ih =>
    by_cases hv : v = 0
    · simp only [expectflags, hv, decide_True, Bool.false_or, ne_eq, not_true_eq_false,
        decide_False, List.any_cons]
      rw [List.count_cons, ih]
      simp [b2i]
    · simp only [expectflags, hv, decide_False, Bool.false_or, ne_eq, not_false_eq_true,
        decide_True, List.any_cons, Bool.true_or, if_true]
      rw [List.count_cons, expectflags_taken_count]
      simp [b2i]

/-- The ELSEIF lines of a conditional with resolved conditions, then its ELSE
and ENDIF. -/
theorem elseifs_run (l : Nat) (conds : List (Env × List Char × Int)) (c : CondSt)
    (taken : Bool) (hb : BranchSt l taken c)
    (hres : ∀ x ∈ conds, Resolved x.1 x.2.1 x.2.2) :
    condflags (conds.map (fun x => CondOp.ELSEIF x.1 x.2.1)) c
      = some (expectflags (conds.map (fun x => x.2.2)) taken) ∧
    condflags (conds.map (fun x => CondOp.ELSEIF x.1 x.2.1) ++ [.ELSE]) c
      = some (expectflags (conds.map (fun x => x.2.2)) taken
          ++ [b2i (taken || (conds.map (fun x => x.2.2)).any (fun v => decide (v ≠ 0)))]) ∧
    ∃ c1, condrun (conds.map (fun x => CondOp.ELSEIF x.1 x.2.1) ++ [.ELSE, .ENDIF]) c = some c1 ∧
      c1.iflevel = l - 1 := by
  induction conds generalizing c taken with
  | nil =>
    obtain ⟨c1, h1, h2, h3⟩ := else_resolved c l taken hb
    refine ⟨rfl, ?_, ?_⟩
    · simp only [List.map_nil, List.nil_append, condflags, h1, Option.map_some', expectflags,
        List.any_nil, Bool.or_false, h2]
    · refine ⟨endif { c1 with st := { c1.st with errmsg := none } }, ?_, ?_⟩
      · show condrun [.ELSE, .ENDIF] c = _
        rw [condrun, h1]
        rfl
      · unfold endif
        rw [if_pos (by show c1.iflevel ≠ 0; rw [h3.1]; have := h3.2.1; omega)]
        show c1.iflevel - 1 = l - 1
        rw [h3.1]
  | cons x conds ih =>
    obtain ⟨c1, h1, h2, h3⟩ := elseif_resolved x.1 x.2.1 x.2.2 c l taken hb
      (hres x (List.mem_cons_self _ _))
    obtain ⟨i1, i2, c2, i3, i4⟩ := ih c1 (taken || decide (x.2.2 ≠ 0)) h3
      (fun y hy => hres y (List.mem_cons_of_mem _ hy))
    refine ⟨?_, ?_, c2, ?_, i4⟩
    · show condflags (CondOp.ELSEIF x.1 x.2.1 :: conds.map (fun x => CondOp.ELSEIF x.1 x.2.1)) c
        = _
      rw [condflags, h1]
      simp only [i1, Option.map_some', h2, List.map_cons, expectflags]
    · show condflags (CondOp.ELSEIF x.1 x.2.1 ::
        (conds.map (fun x => CondOp.ELSEIF x.1 x.2.1) ++ [.ELSE])) c = _
      rw [condflags, h1]
      simp only [i2, Option.map_some', h2, List.map_cons, expectflags, List.any_cons,
        Bool.or_assoc, List.cons_append]
    · show condrun (CondOp.ELSEIF x.1 x.2.1 ::
        (conds.map (fun x => CondOp.ELSEIF x.1 x.2.1) ++ [.ELSE, .ENDIF])) c = _
      rw [condrun, h1]
      exact i3

/-- C14: for a conditional `IF c0 / ELSEIF c1 / ... / ELSEIF cn / ELSE / ENDIF`
met below the nesting limit while the enclosing level is not skipping, all of
whose conditions are resolved with values `vs`: the flag `skipline[iflevel]`
after the line of branch `i` is 0 exactly when `vs[i]` is the first non-zero
value, the flag after ELSE is 0 exactly when every value is zero, so exactly
one of these flags is 0; without the ELSE at most one is 0; and ENDIF returns
to the enclosing level. -/
theorem one_branch_assembled (first : Env × List Char × Int)
    (conds : List (Env × List Char × Int)) (c : CondSt) (hc : CondInv c)
    (hlim : c.iflevel < IFNESTS - 1) (hsk : c.skipline.getD c.iflevel 0 = 0)
    (hres : ∀ x ∈ first :: conds, Resolved x.1 x.2.1 x.2.2) :
    ∃ fs, condflags (condlines first conds ++ [.ELSE]) c = some fs ∧
      fs.length = conds.length + 2 ∧
      (∀ i, i < conds.length + 1 →
        (fs.getD i 1 = 0 ↔ (((first :: conds).map (fun x => x.2.2)).getD i 0 ≠ 0 ∧
          ∀ j < i, ((first :: conds).map (fun x => x.2.2)).getD j 0 = 0))) ∧
      (fs.getD (conds.length + 1) 1 = 0 ↔ ∀ x ∈ first :: conds, x.2.2 = 0) ∧
      fs.count 0 = 1 ∧
      condflags (condlines first conds) c = some (fs.take (conds.length + 1)) ∧
      (fs.take (conds.length + 1)).count 0 ≤ 1 ∧
      ∃ c1, condrun (condlines first conds ++ [.ELSE, .ENDIF]) c = some c1 ∧
        c1.iflevel = c.iflevel := by
  obtain ⟨c1, h1, h2, h3⟩ := if_resolved first.1 first.2.1 first.2.2 c hc hlim hsk
    (hres first (List.mem_cons_self _ _))
  obtain ⟨i1, i2, c2, i3, i4⟩ := elseifs_run (c.iflevel + 1) conds c1 _ h3
    (fun y hy => hres y (List.mem_cons_of_mem _ hy))
  have hlen : (expectflags ((first :: conds).map (fun x => x.2.2)) false).length
      = conds.length + 1 := by
    rw [expectflags_length]; simp
  have e1 : condflags (condlines first conds ++ [.ELSE]) c
      = some (expectflags ((first :: conds).map (fun x => x.2.2)) false
          ++ [b2i (((first :: conds).map (fun x => x.2.2)).any (fun v => decide (v ≠ 0)))]) := by
    show condflags (CondOp.IF first.1 first.2.1 ::
        (conds.map (fun x => CondOp.ELSEIF x.1 x.2.1) ++ [.ELSE])) c = _
    rw [condflags, h1]
    simp only [i2, Option.map_some', h2, List.map_cons, expectflags, List.any_cons,
      Bool.false_or, List.cons_append]
  have e2 : condflags (condlines first conds) c
      = some (expectflags ((first :: conds).map (fun x => x.2.2)) false) := by
    show condflags (CondOp.IF first.1 first.2.1 ::
        conds.map (fun x => CondOp.ELSEIF x.1 x.2.1)) c = _
    rw [condflags, h1]
    simp only [i1, Option.map_some', h2, List.map_cons, expectflags, Bool.false_or]
  have e3 : condrun (condlines first conds ++ [.ELSE, .ENDIF]) c = some c2 := by
    show condrun (CondOp.IF first.1 first.2.1 ::
        (conds.map (fun x => CondOp.ELSEIF x.1 x.2.1) ++ [.ELSE, .ENDIF])) c = _
    rw [condrun, h1]
    exact i3
  have hany : (((first :: conds).map (fun x => x.2.2)).any (fun v => decide (v ≠ 0))) = false ↔
      ∀ x ∈ first :: conds, x.2.2 = 0 := by
    rw [List.any_eq_false]
    constructor
    · intro h x hx
      have := h x.2.2 (List.mem_map_of_mem (fun x => x.2.2) hx)
      simpa using this
    · intro h v hv
      obtain ⟨x, hx, rfl⟩ := List.mem_map.mp hv
      simpa using h x hx
  refine ⟨_, e1, ?_, ?_, ?_, ?_, ?_, ?_, c2, e3, by rw [i4]; omega⟩
  · rw [List.length_append, hlen]; rfl
  · intro i hi
    rw [List.getD_append _ _ _ _ (by rw [hlen]; exact hi)]
    exact expectflags_zero _ i (by simpa using hi)
  · rw [List.getD_append_right _ _ _ _ (by rw [hlen]), hlen, Nat.sub_self]
    show b2i _ = 0 ↔ _
    rw [b2i_eq_zero, hany]
  · rw [List.count_append, expectflags_count]
    cases hb : ((first :: conds).map (fun x => x.2.2)).any (fun v => decide (v ≠ 0)) <;>
      simp [b2i]
  · rw [e2, ← hlen, List.take_left]
  · rw [← hlen, List.take_left, expectflags_count]
    split_ifs <;> omega

theorem resolved_zero : Resolved sampleEnv ['0'] 0 := by
  intro nap
  cases nap
  · exact ⟨[], false, by decide⟩
  · exact ⟨[], true, by decide⟩

theorem resolved_one : Resolved sampleEnv ['1'] 1 := by
  intro nap
  cases nap
  · exact ⟨[], false, by decide⟩
  · exact ⟨[], true, by decide⟩

/-- C14, witness: `IF 0 / ELSEIF 1 / ELSEIF 1 / ELSE / ENDIF` with no conditional
open assembles the first ELSEIF branch only. -/
theorem one_branch_assembled_witness :
    CondInv cond0 ∧
    condflags (condlines (sampleEnv, ['0'], 0) [(sampleEnv, ['1'], 1), (sampleEnv, ['1'], 1)]
      ++ [.ELSE]) cond0 = some [1, 0, 1, 1] ∧
    ∃ fs, condflags (condlines (sampleEnv, ['0'], 0)
        [(sampleEnv, ['1'], 1), (sampleEnv, ['1'], 1)] ++ [.ELSE]) cond0 = some fs ∧
      fs.count 0 = 1 := by
  have hres : ∀ x ∈ [(sampleEnv, ['0'], (0 : Int)), (sampleEnv, ['1'], 1), (sampleEnv, ['1'], 1)],
      Resolved x.1 x.2.1 x.2.2 := by
    intro x hx
    simp only [List.mem_cons, List.mem_singleton, List.not_mem_nil, or_false] at hx
    rcases hx with rfl | rfl | rfl
    · exact resolved_zero
    · exact resolved_one
    · exact resolved_one
  obtain ⟨fs, h1, _, _, _, h5, _⟩ := one_branch_assembled (sampleEnv, ['0'], 0)
    [(sampleEnv, ['1'], 1), (sampleEnv, ['1'], 1)] cond0 cond0_inv (by decide) (by decide) hres
  exact ⟨cond0_inv, by decide, fs, h1, h5⟩

theorem rsvdlist_names : rsvdlist.map Prod.fst = rsvdnames := by decide

theorem rungates_append (ds es : List GateDir) (g : Gates) :
    rungates (ds ++ es) g = rungates es (rungates ds g) := by
  induction ds generalizing g with
  | nil => rfl
  | cons d ds ih =>
    cases d with
    | UNSTABLE => exact ih (unstable g)
    | HUNSTABLE => exact ih (hunstable g)

/-- The counters count the directives, as long as they do not overflow. -/
theorem rungates_count (ds : List GateDir) (h : ds.length < 2147483648) :
    (rungates ds gates0).allowunstable = (ds.length : Int) ∧
    (rungates ds gates0).allowhunstable = ((ds.count .HUNSTABLE : Nat) : Int) := by
  induction ds using List.reverseRecOn with
  | nil => exact ⟨rfl, rfl⟩
  | append_singleton ds d ih =>
    have hl : (ds ++ [d]).length = ds.length + 1 := by simp
    rw [hl] at h
    obtain ⟨i1, i2⟩ := ih (by omega)
    have hc : ds.count GateDir.HUNSTABLE ≤ ds.length := List.count_le_length _ _
    rw [rungates_append]
    cases d with
    | UNSTABLE =>
      simp only [rungates, unstable, i1, i2, hl, List.count_append]
      refine ⟨?_, by simp⟩
      rw [wrap32_id _ (by omega) (by omega)]
      push_cast; rfl
    | HUNSTABLE =>
      simp only [rungates, hunstable, i1, i2, hl, List.count_append]
      refine ⟨?_, ?_⟩
      · rw [wrap32_id _ (by omega) (by omega)]
        push_cast; rfl
      · rw [wrap32_id _ (by omega) (by omega)]
        simp

theorem unstable_any (name : List Char) :
    (unstablelist.any (fun u => strcmp name u.toList = 0) = true) ↔
      name ∈ unstablelist.map String.toList := by
  simp only [List.any_eq_true, List.mem_map, decide_eq_true_eq]
  constructor
  · rintro ⟨u, hu, h⟩
    exact ⟨u, hu, (strcmp_eq_zero _ _ h).symm⟩
  · rintro ⟨u, hu, h⟩
    exact ⟨u, hu, by rw [← h]; exact strcmp_self _⟩

theorem opcode_done_not_fatal (o : Option Emit) (f : Fatal) :
    o.map OpResult.done ≠ some (.fatal f) := by
  cases o <;> simp

/-- C20: with the gate directives `ds` executed so far (fewer than 2^31 of them,
so that the counters do not overflow): assembling AHX, SHY, SHX or TAS ends in
`fatal_error` exactly when `ds` is empty; assembling XAA ends in `fatal_error`
exactly when `ds` holds no HUNSTABLE; and for any other name the gates never end
the program and the result does not depend on them. -/
theorem unstable_gate (ds : List GateDir) (hlen : ds.length < 2147483648) (line : List Nat)
    (env : Env) (next : List Char) (st : EvalSt) :
    (∀ name ∈ unstablelist,
      ((∃ f, opcode (rungates ds gates0) name.toList line env next st = some (.fatal f))
        ↔ ds = [])) ∧
    ((∃ f, opcode (rungates ds gates0) "XAA".toList line env next st = some (.fatal f))
      ↔ GateDir.HUNSTABLE ∉ ds) ∧
    (∀ name : List Char, name ∉ unstablelist.map String.toList → name ≠ "XAA".toList →
      ∀ g g1 : Gates, opcode g name line env next st = opcode g1 name line env next st ∧
        ∀ f, opcode g name line env next st ≠ some (.fatal f)) := by
  obtain ⟨c1, c2⟩ := rungates_count ds hlen
  refine ⟨?_, ?_, ?_⟩
  · intro name hname
    have hany : unstablelist.any (fun u => strcmp name.toList u.toList = 0) = true :=
      (unstable_any _).2 (List.mem_map_of_mem _ hname)
    have hx : strcmp name.toList "XAA".toList ≠ 0 := by
      intro h
      have := strcmp_eq_zero _ _ h
      simp only [unstablelist, List.mem_cons, List.mem_singleton, List.not_mem_nil,
        or_false] at hname
      rcases hname with rfl | rfl | rfl | rfl <;> exact absurd this (by decide)
    constructor
    · rintro ⟨f, hf⟩
      by_contra hne
      have h0 : (rungates ds gates0).allowunstable ≠ 0 := by
        rw [c1]
        have : ds.length ≠ 0 := fun h => hne (List.length_eq_zero.mp h)
        omega
      unfold opcode at hf
      rw [if_neg (fun h => h0 h.1), if_neg (fun h => hx h.2)] at hf
      exact opcode_done_not_fatal _ f hf
    · intro h
      subst h
      refine ⟨.UnstableUsed name.toList, ?_⟩
      unfold opcode
      rw [if_pos ⟨rfl, hany⟩]
  · have hany : ¬ (unstablelist.any (fun u => strcmp "XAA".toList u.toList = 0) = true) := by
      decide
    have hx : strcmp "XAA".toList "XAA".toList = 0 := strcmp_self _
    constructor
    · rintro ⟨f, hf⟩ hmem
      have h0 : (rungates ds gates0).allowhunstable ≠ 0 := by
        rw [c2]
        have := List.count_pos_iff.mpr hmem
        omega
      unfold opcode at hf
      rw [if_neg (fun h => hany h.2), if_neg (fun h => h0 h.1)] at hf
      exact opcode_done_not_fatal _ f hf
    · intro hmem
      refine ⟨.HUnstableUsed "XAA".toList, ?_⟩
      have h0 : (rungates ds gates0).allowhunstable = 0 := by
        rw [c2, List.count_eq_zero_of_not_mem hmem]
        rfl
      unfold opcode
      rw [if_neg (fun h => hany h.2), if_pos ⟨h0, hx⟩]
  · intro name h1 h2 g g1
    have hany : ∀ g : Gates, ¬ (g.allowunstable = 0 ∧
        unstablelist.any (fun u => strcmp name u.toList = 0) = true) :=
      fun g h => h1 ((unstable_any name).1 h.2)
    have hx : ∀ g : Gates, ¬ (g.allowhunstable = 0 ∧ strcmp name "XAA".toList = 0) :=
      fun g h => h2 (strcmp_eq_zero _ _ h.2)
    unfold opcode
    rw [if_neg (hany g), if_neg (hx g), if_neg (hany g1), if_neg (hx g1)]
    exact ⟨rfl, fun f => opcode_done_not_fatal _ f⟩

/-- C20, witness: after `UNSTABLE` alone, `AHX $1234,Y` is assembled and
`XAA #1` is not. -/
theorem unstable_gate_witness :
    opcode (rungates [.UNSTABLE] gates0) "AHX".toList [0x93, INDY, 0x9f, ABSY, 255] sampleEnv
      " $1234,Y".toList clearSt
      = some (.done ⟨[0x9f, 0x34, 0x12], [], 32787, clearSt⟩) ∧
    opcode (rungates [.UNSTABLE] gates0) "XAA".toList [0x8b, IMM, 255] sampleEnv
      " #1".toList clearSt = some (.fatal (.HUnstableUsed "XAA".toList)) ∧
    ((∃ f, opcode (rungates [.UNSTABLE] gates0) "XAA".toList [0x8b, IMM, 255] sampleEnv
      " #1".toList clearSt = some (.fatal f)) ↔ GateDir.HUNSTABLE ∉ [GateDir.UNSTABLE]) :=
  ⟨by decide, by decide,
    (unstable_gate [.UNSTABLE] (by decide) [0x8b, IMM, 255] sampleEnv " #1".toList clearSt).2.1⟩

theorem toupper_white (c : Char) (h : c ∈ whitesp) : toupper c = c := by
  simp only [whitesp, List.mem_cons, List.mem_singleton, List.not_mem_nil, or_false] at h
  rcases h with rfl | rfl | rfl | rfl | rfl <;> decide

theorem my_strupr_blank (s : List Char) (h : blank s) : my_strupr s = s := by
  induction s with
  | nil => rfl
  | cons c cs ih =>
    simp only [my_strupr, List.map_cons]
    rw [toupper_white c (h c (List.mem_cons_self _ _))]
    congr 1
    exact ih (fun d hd => h d (List.mem_cons_of_mem _ hd))

theorem strspn_blank (s : List Char) (h : blank s) : strspn s whitesp = s.length := by
  induction s with
  | nil => rfl
  | cons c cs ih =>
    have hc : c ∈ whitesp := h c (List.mem_cons_self _ _)
    have := ih (fun d hd => h d (List.mem_cons_of_mem _ hd))
    unfold strspn at this ⊢
    simp only [List.elem_eq_mem] at this ⊢
    simp [List.takeWhile, hc, this]

theorem drop_blank (s : List Char) (h : blank s) : s.drop (strspn s whitesp) = [] := by
  rw [strspn_blank s h]
  exact List.drop_length s

theorem matchtail_blank (type : Nat) (s : List Char) (ht : optail.getD type "" = "")
    (hs : blank s) : matchtail type s = some [] := by
  unfold matchtail
  rw [ht, my_strupr_blank s hs]
  simp only [String.toList, eattail, drop_blank s hs]
  simp [cur]

theorem eatchar_blank (s : List Char) (c : Char) (hc : c ≠ NUL) (hs : blank s) :
    eatchar s c = (false, []) := by
  unfold eatchar
  rw [if_pos hc]
  simp only [drop_blank s hs]
  rw [if_neg (by show cur [] ≠ c; exact fun h => hc h.symm)]

theorem matchtail_blank_none (type : Nat) (s : List Char) (c : Char) (cs : List Char)
    (ht : (optail.getD type "").toList = c :: cs) (hc : c ≠ NUL) (hs : blank s) :
    matchtail type s = none := by
  unfold matchtail
  rw [ht, my_strupr_blank s hs]
  simp only [eattail, eatchar_blank s c hc hs]
  simp

/-- A candidate that reads an operand (any mode but IMP and ACC) whose opening
character is found. -/
theorem opcodeLoop_operand (env : Env) (next : List Char) (old : Bool) (b type : Nat)
    (rest : List Nat) (val : Int) (fr : Bool) (st : EvalSt) (t : Int) (s : List Char)
    (st1 : EvalSt) (hb : b ≠ 255) (ht : type ≠ IMP ∧ type ≠ ACC)
    (hh : (eatchar next (ophead.getD type NUL)).1 = true)
    (he : eval env (eatchar next (ophead.getD type NUL)).2 WHOLEEXP ⟨none, false, old⟩
      = some (t, s, st1)) :
    opcodeLoop env next old (b :: type :: rest) val fr st =
      if (checkoperand env type t fr st1).skip = true ∨
          ((checkoperand env type t fr st1).st.errmsg ≠ none ∧
            (checkoperand env type t fr st1).st.dependant = false ∧
            (checkoperand env type t fr st1).forceRel = false) then
        opcodeLoop env next old rest (checkoperand env type t fr st1).val
          (checkoperand env type t fr st1).forceRel (checkoperand env type t fr st1).st
      else
        match matchtail type s with
        | none => opcodeLoop env next old rest (checkoperand env type t fr st1).val
            (checkoperand env type t fr st1).forceRel (checkoperand env type t fr st1).st
        | some s1 => some (emitop env next b type (checkoperand env type t fr st1).val s1
            (checkoperand env type t fr st1).st) := by
  rw [opcodeLoop, if_neg hb]
  simp only [if_pos ht]
  rw [if_neg (by rw [hh]; decide)]
  simp only [he]

/-- A candidate that reads an operand whose opening character is not found. -/
theorem opcodeLoop_nohead (env : Env) (next : List Char) (old : Bool) (b type : Nat)
    (rest : List Nat) (val : Int) (fr : Bool) (st : EvalSt)
    (hb : b ≠ 255) (ht : type ≠ IMP ∧ type ≠ ACC)
    (hh : (eatchar next (ophead.getD type NUL)).1 = false) :
    opcodeLoop env next old (b :: type :: rest) val fr st =
      opcodeLoop env next old rest val fr ⟨none, false, old⟩ := by
  rw [opcodeLoop, if_neg hb]
  simp only [if_pos ht]
  rw [if_pos hh]

/-- A candidate without operand (IMP or ACC). -/
theorem opcodeLoop_implied (env : Env) (next : List Char) (old : Bool) (b type : Nat)
    (rest : List Nat) (val : Int) (fr : Bool) (st : EvalSt)
    (hb : b ≠ 255) (ht : ¬ (type ≠ IMP ∧ type ≠ ACC)) :
    opcodeLoop env next old (b :: type :: rest) val fr st =
      match matchtail type next with
      | none => opcodeLoop env next old rest val fr ⟨none, false, old⟩
      | some s1 => some (emitop env next b type val s1 ⟨none, false, old⟩) := by
  rw [opcodeLoop, if_neg hb]
  simp only [if_neg ht]

theorem opcodeLoop_end (env : Env) (next : List Char) (old : Bool)
    (rest : List Nat) (val : Int) (fr : Bool) (st : EvalSt) :
    opcodeLoop env next old (255 :: rest) val fr st = some (opfail env next st) := by
  cases rest with
  | nil => rw [opcodeLoop]
           · intro a b c h; cases h
  | cons t rest => rw [opcodeLoop, if_pos rfl]

theorem output_one (e : Option ErrMsg) (x : Nat) (o : Int × List Nat) :
    output e [x] 1 o = (wrap32 (o.1 + 1), o.2 ++ [x]) := by
  unfold output
  cases e <;> rfl

theorem emitop_one (env : Env) (next : List Char) (b type : Nat) (val : Int) (s : List Char)
    (st : EvalSt) (h : opsize.getD type 0 = 1) :
    emitop env next b type val s st =
      { bytes := [b, (val % 256).toNat], next := next.drop (next.length - s.length),
        addr := wrap32 (wrap32 (env.addr + 1) + 1),
        st := if env.addr > 65535 then { st with errmsg := some .PCOutOfRange } else st } := by
  unfold emitop
  dsimp only
  rw [h, output_one]
  unfold output_le output
  cases (if env.addr > 65535 then { st with errmsg := some ErrMsg.PCOutOfRange }
    else st : EvalSt).errmsg <;> rfl

/-- A two-byte operand with no error pending: the opcode, the low byte and the
high byte. -/
theorem emitop_two (env : Env) (next : List Char) (b type : Nat) (val : Int) (s : List Char)
    (st : EvalSt) (h : opsize.getD type 0 = 2) (hpc : env.addr ≤ 65535)
    (herr : st.errmsg = none) :
    emitop env next b type val s st =
      { bytes := [b, (val % 256).toNat, (shr32 val 8 % 256).toNat],
        next := next.drop (next.length - s.length),
        addr := wrap32 (wrap32 (env.addr + 1) + 2),
        st := st } := by
  unfold emitop
  dsimp only
  rw [h, if_neg (by omega), herr]
  rfl

/-- A two-byte operand with an error pending (the PC is beyond `$FFFF`, or the
operand left an error): `output_buffer` returns after the low byte. -/
theorem emitop_two_pending (env : Env) (next : List Char) (b type : Nat) (val : Int)
    (s : List Char) (st : EvalSt) (h : opsize.getD type 0 = 2)
    (hp : env.addr > 65535 ∨ st.errmsg ≠ none) :
    (emitop env next b type val s st).bytes = [b, (val % 256).toNat] := by
  unfold emitop
  dsimp only
  rw [h, output_one]
  have hne : (if env.addr > 65535 then { st with errmsg := some ErrMsg.PCOutOfRange }
      else st : EvalSt).errmsg ≠ none := by
    by_cases hpc : env.addr > 65535
    · rw [if_pos hpc]
      simp
    · rw [if_neg hpc]
      rcases hp with hp | hp
      · exact absurd hp hpc
      · exact hp
  unfold output_le output
  rw [if_neg hne]
  rfl

/-- The relative-mode candidate of a branch: whenever the operand parses (the
text after the expression is blank, and the expression raised no error or is
unresolved) the candidate is emitted. -/
theorem opcodeLoop_rel (env : Env) (next : List Char) (old : Bool) (b : Nat)
    (val : Int) (st : EvalSt) (t : Int) (s : List Char) (st1 : EvalSt) (hb : b ≠ 255)
    (he : eval env next WHOLEEXP ⟨none, false, old⟩ = some (t, s, st1)) (hs : blank s)
    (hok : st1.errmsg = none ∨ st1.dependant = true) :
    opcodeLoop env next old [b, REL, 255] val false st =
      some { bytes := [b, ((checkoperand env REL t false st1).val % 256).toNat], next := [],
             addr := wrap32 (wrap32 (env.addr + 1) + 1),
             st := if env.addr > 65535 then
                 { (checkoperand env REL t false st1).st with errmsg := some .PCOutOfRange }
               else (checkoperand env REL t false st1).st } := by
  have hh : (eatchar next (ophead.getD REL NUL)).1 = true := rfl
  have h2 : (eatchar next (ophead.getD REL NUL)).2 = next := rfl
  rw [opcodeLoop_operand env next old b REL [255] val false st t s st1 hb (by decide) hh
    (by rw [h2]; exact he)]
  have hcond : ¬ ((checkoperand env REL t false st1).skip = true ∨
      ((checkoperand env REL t false st1).st.errmsg ≠ none ∧
        (checkoperand env REL t false st1).st.dependant = false ∧
        (checkoperand env REL t false st1).forceRel = false)) := by
    unfold checkoperand
    rw [if_pos rfl]
    by_cases hd : st1.dependant = false
    · have hn : st1.errmsg = none := by
        rcases hok with h | h
        · exact h
        · rw [hd] at h; cases h
      rw [if_pos hd]
      by_cases hr : wrap32 (t - wrap32 (env.addr + 2)) > 127 ∨
          wrap32 (t - wrap32 (env.addr + 2)) < -128
      · simp only [hr, if_true]
        cases hl : env.lastchance
        · simp [hn]
        · simp
      · simp only [hr, if_false]
        simp [hn]
    · rw [if_neg hd]
      simp [hd]
  rw [if_neg hcond, matchtail_blank REL s rfl hs]
  simp only
  rw [emitop_one env next b REL _ [] _ (by decide)]
  simp

/-- Every relative-mode entry of `rsvdlist` is a table of that one candidate,
and its mnemonic is not gated. -/
theorem rel_tables : ∀ e ∈ rsvdlist, ∀ p ∈ pairsOf e.2, p.2 = REL →
    e.2 = [p.1, REL, 255] ∧ p.1 ≠ 255 ∧ e.1.toList ∉ unstablelist.map String.toList ∧
      e.1.toList ≠ "XAA".toList := by
  decide

theorem opcode_ungated (g : Gates) (name : List Char) (line : List Nat) (env : Env)
    (next : List Char) (st : EvalSt) (h1 : name ∉ unstablelist.map String.toList)
    (h2 : name ≠ "XAA".toList) :
    opcode g name line env next st =
      (opcodeLoop env next st.needanotherpass line 0 false st).map .done := by
  unfold opcode
  rw [if_neg (fun h => h1 ((unstable_any name).1 h.2)),
    if_neg (fun h => h2 (strcmp_eq_zero _ _ h.2))]

/-- C17: for every branch mnemonic (an entry of `rsvdlist` with a relative-mode
pair `(b, REL)`), with the PC `p` in `0..$FFFF`, an operand text that evaluates
without error to a resolved target `t` with `-128 ≤ t - (p + 2) ≤ 127` and is
followed by blanks only: `opcode` emits `b` and then the one byte
`(t - (p + 2)) mod 256`, sets no error and leaves the PC at `p + 2`. -/
theorem branch_in_range (name : String) (tbl : List Nat) (b : Nat)
    (hm : (name, tbl) ∈ rsvdlist) (hb : (b, REL) ∈ pairsOf tbl) (g : Gates) (env : Env)
    (next : List Char) (st : EvalSt) (t : Int) (s : List Char) (st1 : EvalSt)
    (hp0 : 0 ≤ env.addr) (hp1 : env.addr ≤ 65535)
    (he : eval env next WHOLEEXP ⟨none, false, st.needanotherpass⟩ = some (t, s, st1))
    (herr : st1.errmsg = none) (hdep : st1.dependant = false) (hs : blank s)
    (hr1 : -128 ≤ t - (env.addr + 2)) (hr2 : t - (env.addr + 2) ≤ 127) :
    opcode g name.toList tbl env next st =
      some (.done { bytes := [b, ((t - (env.addr + 2)) % 256).toNat], next := [],
                    addr := env.addr + 2, st := st1 }) := by
  obtain ⟨h1, h2, h3, h4⟩ := rel_tables (name, tbl) hm (b, REL) hb rfl
  have h1 : tbl = [b, REL, 255] := h1
  have h2 : b ≠ 255 := h2
  rw [opcode_ungated g _ _ _ _ _ h3 h4, h1,
    opcodeLoop_rel env next _ b 0 st t s st1 h2 he hs (Or.inl herr)]
  have hw : wrap32 (t - wrap32 (env.addr + 2)) = t - (env.addr + 2) := by
    rw [wrap32_id (env.addr + 2) (by omega) (by omega)]
    exact wrap32_id _ (by omega) (by omega)
  have hc : checkoperand env REL t false st1 = ⟨t - (env.addr + 2), st1, false, false⟩ := by
    unfold checkoperand
    rw [if_pos rfl, if_pos hdep]
    simp only [hw]
    rw [if_neg (by omega)]
  have ha : wrap32 (wrap32 (env.addr + 1) + 1) = env.addr + 2 := by
    rw [wrap32_id (env.addr + 1) (by omega) (by omega)]
    rw [wrap32_id _ (by omega) (by omega)]
    ring
  rw [hc, ha, if_neg (by omega)]
  rfl

/-- C17, witness: `BEQ lbl` at `$8000` with `lbl = $8000`. -/
theorem branch_in_range_witness :
    eval (sampleEnv2 32768 false) " lbl".toList WHOLEEXP ⟨none, false, false⟩
      = some (32768, [], ⟨none, false, false⟩) ∧
    opcode gates0 "BEQ".toList [0xf0, REL, 255] (sampleEnv2 32768 false) " lbl".toList clearSt =
      some (.done { bytes := [0xf0, ((32768 - ((sampleEnv2 32768 false).addr + 2)) % 256).toNat],
                    next := [], addr := (sampleEnv2 32768 false).addr + 2,
                    st := ⟨none, false, false⟩ }) :=
  ⟨by decide,
   branch_in_range "BEQ" [0xf0, REL, 255] 0xf0 (by decide) (by decide) gates0
    (sampleEnv2 32768 false) " lbl".toList clearSt 32768 [] ⟨none, false, false⟩ (by decide)
    (by decide) (by decide) rfl rfl (by intro c hc; cases hc) (by decide) (by decide)⟩

/-- C17, the example evaluated: at `$8000` with `lbl = $8000`, `BEQ lbl` emits
F0 FE and leaves the PC at `$8002`, where `BEQ lbl+2` emits F0 FE again (the
target `$8002` is 2 bytes before the next instruction), not F0 00. -/
theorem branch_example_bytes :
    opcode gates0 "BEQ".toList [0xf0, REL, 255] (sampleEnv2 32768 false) " lbl".toList clearSt
      = some (.done ⟨[0xf0, 0xfe], [], 32770, clearSt⟩) ∧
    opcode gates0 "BEQ".toList [0xf0, REL, 255] (sampleEnv2 32770 false) " lbl+2".toList clearSt
      = some (.done ⟨[0xf0, 0xfe], [], 32772, clearSt⟩) ∧
    opcode gates0 "BEQ".toList [0xf0, REL, 255] (sampleEnv2 32770 false) " lbl+4".toList clearSt
      = some (.done ⟨[0xf0, 0x00], [], 32772, clearSt⟩) := by
  refine ⟨by decide, by decide, by decide⟩

/-- C18 (as amended): for every branch mnemonic whose operand parses (the
expression raises no error or is unresolved, and only blanks follow it),
`opcode` emits exactly 2 bytes, the first the branch opcode, and advances the PC
by 2, whatever the target.  When the target is resolved and the displacement is
outside `[-128, 127]`, `needanotherpass` is set, and on the last-chance pass the
error is "Branch out of range.", or "PC out of range." when the PC is above
`$FFFF`. -/
theorem branch_two_bytes (name : String) (tbl : List Nat) (b : Nat)
    (hm : (name, tbl) ∈ rsvdlist) (hb : (b, REL) ∈ pairsOf tbl) (g : Gates) (env : Env)
    (next : List Char) (st : EvalSt) (t : Int) (s : List Char) (st1 : EvalSt)
    (he : eval env next WHOLEEXP ⟨none, false, st.needanotherpass⟩ = some (t, s, st1))
    (hs : blank s) (hok : st1.errmsg = none ∨ st1.dependant = true) :
    ∃ e, opcode g name.toList tbl env next st = some (.done e) ∧
      e.bytes.length = 2 ∧ e.bytes.head? = some b ∧ e.next = [] ∧
      e.addr = wrap32 (wrap32 (env.addr + 1) + 1) ∧
      (st1.dependant = false →
        (wrap32 (t - wrap32 (env.addr + 2)) > 127 ∨ wrap32 (t - wrap32 (env.addr + 2)) < -128) →
        e.st.needanotherpass = true ∧
        (env.lastchance = true →
          e.st.errmsg = some (if env.addr > 65535 then .PCOutOfRange else .BranchOutOfRange))) := by
  obtain ⟨h1, h2, h3, h4⟩ := rel_tables (name, tbl) hm (b, REL) hb rfl
  have h1 : tbl = [b, REL, 255] := h1
  have h2 : b ≠ 255 := h2
  rw [opcode_ungated g _ _ _ _ _ h3 h4, h1,
    opcodeLoop_rel env next _ b 0 st t s st1 h2 he hs hok]
  refine ⟨_, rfl, rfl, rfl, rfl, rfl, ?_⟩
  intro hd hr
  have hc : (checkoperand env REL t false st1).st =
      if env.lastchance = true then
        { errmsg := some .BranchOutOfRange, dependant := st1.dependant, needanotherpass := true }
      else { st1 with needanotherpass := true } := by
    unfold checkoperand
    rw [if_pos rfl, if_pos hd]
    simp only [hr, if_true]
    cases env.lastchance <;> rfl
  simp only [hc]
  by_cases ha : env.addr > 65535
  · simp only [ha, if_true]
    cases env.lastchance <;> simp
  · simp only [ha, if_false]
    cases env.lastchance <;> simp

/-- C18, witness: on the last-chance pass `BEQ x` at `$8000` with `x = $1234`
emits 2 bytes and reports "Branch out of range.". -/
theorem branch_two_bytes_witness :
    opcode gates0 "BEQ".toList [0xf0, REL, 255] (sampleEnv2 32768 true) " x".toList clearSt
      = some (.done ⟨[0xf0, 0x32], [], 32770, ⟨some .BranchOutOfRange, false, true⟩⟩) ∧
    ∃ e, opcode gates0 "BEQ".toList [0xf0, REL, 255] (sampleEnv2 32768 true) " x".toList clearSt
        = some (.done e) ∧ e.bytes.length = 2 := by
  obtain ⟨e, h1, h2, _⟩ := branch_two_bytes "BEQ" [0xf0, REL, 255] 0xf0 (by decide) (by decide)
    gates0 (sampleEnv2 32768 true) " x".toList clearSt 4660 [] ⟨none, false, false⟩
    (by decide) (by intro c hc; cases hc) (Or.inl rfl)
  exact ⟨by decide, e, h1, h2⟩

/-- C18, counterexample to the message: on the last-chance pass at PC `$10000`
the out-of-range `BEQ lbl` still emits 2 bytes, but the error left is "PC out of
range.", not "Branch out of range.". -/
theorem branch_error_pc :
    opcode gates0 "BEQ".toList [0xf0, REL, 255] (sampleEnv2 65536 true) " lbl".toList clearSt
      = some (.done ⟨[0xf0, 0xfe], [], 65538, ⟨some .PCOutOfRange, false, true⟩⟩) := by
  decide

theorem emitop_bytes (env : Env) (next : List Char) (b type : Nat) (val : Int) (s : List Char)
    (st : EvalSt) :
    (emitop env next b type val s st).bytes =
      b :: (if (emitop env next b type val s st).st.errmsg = none
        then [(val % 256).toNat, (shr32 val 8 % 256).toNat].take (opsize.getD type 0).toNat
        else ([(val % 256).toNat, (shr32 val 8 % 256).toNat].take
          (opsize.getD type 0).toNat).take 1) ∧
    (emitop env next b type val s st).st.dependant = st.dependant := by
  unfold emitop
  dsimp only
  rw [output_one]
  refine ⟨rfl, ?_⟩
  by_cases h : env.addr > 65535
  · simp only [h, if_true]
  · simp only [h, if_false]

theorem checkoperand_dependant (env : Env) (type : Nat) (val : Int) (fr : Bool) (st : EvalSt) :
    (checkoperand env type val fr st).st.dependant = st.dependant ∧
    ((checkoperand env type val fr st).skip = false → st.dependant = true →
      type = IMM ∨ type = REL ∨ opsize.getD type 0 ≠ 1) := by
  unfold checkoperand
  by_cases h1 : type = REL
  · rw [if_pos h1]
    refine ⟨?_, fun _ _ => Or.inr (Or.inl h1)⟩
    by_cases hd : st.dependant = false
    · rw [if_pos hd]
      by_cases hr : wrap32 (val - wrap32 (env.addr + 2)) > 127 ∨
          wrap32 (val - wrap32 (env.addr + 2)) < -128
      · simp only [hr, if_true]
        cases env.lastchance <;> rfl
      · simp only [hr, if_false]
    · rw [if_neg hd]
  · rw [if_neg h1]
    by_cases h2 : opsize.getD type 0 = 1
    · rw [if_pos h2]
      by_cases h3 : st.dependant = false
      · rw [if_pos h3]
        refine ⟨by split_ifs <;> rfl, fun _ h => ?_⟩
        rw [h3] at h; cases h
      · rw [if_neg h3]
        refine ⟨rfl, fun h _ => ?_⟩
        simp only [decide_eq_false_iff_not, ne_eq, not_not] at h
        exact Or.inl h
    · rw [if_neg h2]
      refine ⟨by split_ifs <;> rfl, fun _ _ => Or.inr (Or.inr h2)⟩

/-- What the loop of `opcode` can produce: nothing, or the opcode byte of one
of the candidates before the first 255 followed by as many operand bytes as the
mode has; an operand that is unresolved (`dependant` set) is emitted in
immediate or relative mode or with a two-byte operand only, by a candidate
whose opening character was found. -/
theorem opcodeLoop_emits (env : Env) (next : List Char) (old : Bool) :
    ∀ (n : Nat) (tbl : List Nat), tbl.length ≤ n → ∀ (val : Int) (fr : Bool) (st : EvalSt)
      (e : Emit), opcodeLoop env next old tbl val fr st = some e →
      (e.bytes = [] ∧ e.next = next ∧ e.addr = env.addr) ∨
      ∃ p ∈ candidatesOf tbl, ∃ v : Int,
        e.bytes = p.1 :: (if e.st.errmsg = none
          then [(v % 256).toNat, (shr32 v 8 % 256).toNat].take (opsize.getD p.2 0).toNat
          else ([(v % 256).toNat, (shr32 v 8 % 256).toNat].take
            (opsize.getD p.2 0).toNat).take 1) ∧
        (e.st.dependant = true → (p.2 = IMM ∨ p.2 = REL ∨ opsize.getD p.2 0 ≠ 1) ∧
          (p.2 ≠ IMP ∧ p.2 ≠ ACC) ∧ (eatchar next (ophead.getD p.2 NUL)).1 = true) := by
  intro n
  induction n with
  | zero =>
    intro tbl hl val fr st e h
    have : tbl = [] := List.length_eq_zero.mp (by omega)
    subst this
    rw [opcodeLoop] at h
    · cases h; exact Or.inl ⟨rfl, rfl, rfl⟩
    · intro a b c hh; cases hh
  | succ n ih =>
    intro tbl hl val fr st e h
    match tbl, hl, h with
    | [], _, h =>
      rw [opcodeLoop] at h
      · cases h; exact Or.inl ⟨rfl, rfl, rfl⟩
      · intro a b c hh; cases hh
    | [x], _, h =>
      rw [opcodeLoop] at h
      · cases h; exact Or.inl ⟨rfl, rfl, rfl⟩
      · intro a b c hh; cases hh
    | b :: type :: rest, hl, h =>
      have hrest : rest.length ≤ n := by simp at hl; omega
      by_cases hb : b = 255
      · subst hb
        rw [opcodeLoop_end] at h
        cases h; exact Or.inl ⟨rfl, rfl, rfl⟩
      · have lift : ∀ (val1 : Int) (fr1 : Bool) (st2 : EvalSt),
            opcodeLoop env next old rest val1 fr1 st2 = some e →
            (e.bytes = [] ∧ e.next = next ∧ e.addr = env.addr) ∨
            ∃ p ∈ candidatesOf (b :: type :: rest), ∃ v : Int,
              e.bytes = p.1 :: (if e.st.errmsg = none
                then [(v % 256).toNat, (shr32 v 8 % 256).toNat].take (opsize.getD p.2 0).toNat
                else ([(v % 256).toNat, (shr32 v 8 % 256).toNat].take
                  (opsize.getD p.2 0).toNat).take 1) ∧
              (e.st.dependant = true → (p.2 = IMM ∨ p.2 = REL ∨ opsize.getD p.2 0 ≠ 1) ∧
                (p.2 ≠ IMP ∧ p.2 ≠ ACC) ∧ (eatchar next (ophead.getD p.2 NUL)).1 = true) := by
          intro val1 fr1 st2 h2
          rcases ih rest hrest val1 fr1 st2 e h2 with h3 | ⟨p, hp, v, h4⟩
          · exact Or.inl h3
          · refine Or.inr ⟨p, ?_, v, h4⟩
            rw [candidatesOf, if_neg hb]
            exact List.mem_cons_of_mem _ hp
        have here : (b, type) ∈ candidatesOf (b :: type :: rest) := by
          rw [candidatesOf, if_neg hb]
          exact List.mem_cons_self _ _
        by_cases ht : type ≠ IMP ∧ type ≠ ACC
        · by_cases hh : (eatchar next (ophead.getD type NUL)).1 = true
          · cases he : eval env (eatchar next (ophead.getD type NUL)).2 WHOLEEXP
                ⟨none, false, old⟩ with
            | none =>
              rw [opcodeLoop, if_neg hb] at h
              simp only [if_pos ht] at h
              rw [if_neg (by rw [hh]; decide)] at h
              simp only [he] at h
              cases h
            | some x =>
              obtain ⟨t, s, st1⟩ := x
              rw [opcodeLoop_operand env next old b type rest val fr st t s st1 hb ht hh he] at h
              by_cases hc : (checkoperand env type t fr st1).skip = true ∨
                  ((checkoperand env type t fr st1).st.errmsg ≠ none ∧
                    (checkoperand env type t fr st1).st.dependant = false ∧
                    (checkoperand env type t fr st1).forceRel = false)
              · rw [if_pos hc] at h
                exact lift _ _ _ h
              · rw [if_neg hc] at h
                cases hm : matchtail type s with
                | none =>
                  simp only [hm] at h
                  exact lift _ _ _ h
                | some s1 =>
                  simp only [hm, Option.some.injEq] at h
                  subst h
                  have eb := emitop_bytes env next b type (checkoperand env type t fr st1).val s1
                    (checkoperand env type t fr st1).st
                  have cd := checkoperand_dependant env type t fr st1
                  refine Or.inr ⟨(b, type), here, _, eb.1, ?_⟩
                  intro hd
                  rw [eb.2, cd.1] at hd
                  have hsk : (checkoperand env type t fr st1).skip = false := by
                    cases hs : (checkoperand env type t fr st1).skip
                    · rfl
                    · exact absurd (Or.inl hs) hc
                  exact ⟨cd.2 hsk hd, ht, hh⟩
          · have hh1 : (eatchar next (ophead.getD type NUL)).1 = false := by
              cases hx : (eatchar next (ophead.getD type NUL)).1
              · rfl
              · exact absurd hx hh
            rw [opcodeLoop_nohead env next old b type rest val fr st hb ht hh1] at h
            exact lift _ _ _ h
        · rw [opcodeLoop_implied env next old b type rest val fr st hb ht] at h
          cases hm : matchtail type next with
          | none =>
            simp only [hm] at h
            exact lift _ _ _ h
          | some s1 =>
            simp only [hm, Option.some.injEq] at h
            subst h
            have eb := emitop_bytes env next b type val s1 ⟨none, false, old⟩
            refine Or.inr ⟨(b, type), here, _, eb.1, ?_⟩
            intro hd
            rw [eb.2] at hd
            cases hd

/-- C19, the candidates that are not tried: the table of ISC lists `($FF, ABSX)`
and `($FB, ABSY)` before its terminator, but the loop of `opcode` stops at the
first opcode byte equal to 255, which is the `$FF` of ISC absolute,X.  So
`opcode` never emits `$FF` or `$FB` for ISC, whatever the operand text:
`ISC $1234,X` and `ISC $1234,Y` emit nothing and leave "Illegal instruction.",
while the same operands assemble for DCP, whose table has the same modes. -/
theorem isc_candidates_not_tried :
    ("ISC", [0xe7, ZP, 0xf7, ZPX, 0xe3, INDX, 0xf3, INDY, 0xef, ABS, 0xff, ABSX, 0xfb, ABSY,
      255]) ∈ rsvdlist ∧
    (0xff, ABSX) ∈ pairsOf [0xe7, ZP, 0xf7, ZPX, 0xe3, INDX, 0xf3, INDY, 0xef, ABS, 0xff, ABSX,
      0xfb, ABSY, 255] ∧
    (0xfb, ABSY) ∈ pairsOf [0xe7, ZP, 0xf7, ZPX, 0xe3, INDX, 0xf3, INDY, 0xef, ABS, 0xff, ABSX,
      0xfb, ABSY, 255] ∧
    (∀ (g : Gates) (env : Env) (next : List Char) (st : EvalSt) (e : Emit),
      opcode g "ISC".toList [0xe7, ZP, 0xf7, ZPX, 0xe3, INDX, 0xf3, INDY, 0xef, ABS, 0xff, ABSX,
        0xfb, ABSY, 255] env next st = some (.done e) →
      e.bytes.head? ≠ some 0xff ∧ e.bytes.head? ≠ some 0xfb) ∧
    opcode gates0 "ISC".toList [0xe7, ZP, 0xf7, ZPX, 0xe3, INDX, 0xf3, INDY, 0xef, ABS, 0xff,
        ABSX, 0xfb, ABSY, 255] sampleEnv " $1234,X".toList clearSt
      = some (.done ⟨[], " $1234,X".toList, 32784, ⟨some .Illegal, false, false⟩⟩) ∧
    opcode gates0 "ISC".toList [0xe7, ZP, 0xf7, ZPX, 0xe3, INDX, 0xf3, INDY, 0xef, ABS, 0xff,
        ABSX, 0xfb, ABSY, 255] sampleEnv " $1234,Y".toList clearSt
      = some (.done ⟨[], " $1234,Y".toList, 32784, ⟨some .Illegal, false, false⟩⟩) ∧
    opcode gates0 "DCP".toList [0xc7, ZP, 0xd7, ZPX, 0xc3, INDX, 0xd3, INDY, 0xcf, ABS, 0xdf,
        ABSX, 0xdb, ABSY, 255] sampleEnv " $1234,X".toList clearSt
      = some (.done ⟨[0xdf, 0x34, 0x12], [], 32787, clearSt⟩) := by
  refine ⟨by decide, by decide, by decide, ?_, by decide, by decide, by decide⟩
  intro g env next st e h
  rw [opcode_ungated g _ _ _ _ _ (by decide) (by decide)] at h
  cases ho : opcodeLoop env next st.needanotherpass [0xe7, ZP, 0xf7, ZPX, 0xe3, INDX, 0xf3,
      INDY, 0xef, ABS, 0xff, ABSX, 0xfb, ABSY, 255] 0 false st with
  | none => rw [ho] at h; cases h
  | some e1 =>
    rw [ho] at h
    simp only [Option.map_some', Option.some.injEq, OpResult.done.injEq] at h
    subst h
    rcases opcodeLoop_emits env next _ _ _ (le_refl _) 0 false st e1 ho with h1 | ⟨p, hp, v, h2, _⟩
    · rw [h1.1]; simp
    · have hc : p.1 ≠ 0xff ∧ p.1 ≠ 0xfb := by
        have : ∀ q ∈ candidatesOf [0xe7, ZP, 0xf7, ZPX, 0xe3, INDX, 0xf3, INDY, 0xef, ABS, 0xff,
            ABSX, 0xfb, ABSY, 255], q.1 ≠ 0xff ∧ q.1 ≠ 0xfb := by decide
        exact this p hp
      rw [h2]
      simp only [List.head?_cons, ne_eq, Option.some.injEq]
      exact hc

set_option maxRecDepth 100000 in
set_option maxHeartbeats 4000000 in
/-- Every pair of every table other than the two of ISC and the `(zp),Y` pair
of LAX is tried: with both gates open, the sample operand of its mode assembles
to its opcode byte and the operand bytes. -/
theorem candidates_tried : ∀ e ∈ rsvdlist, ∀ p ∈ pairsOf e.2,
    (e.1 = "ISC" ∧ (p = (0xff, ABSX) ∨ p = (0xfb, ABSY))) ∨ (e.1 = "LAX" ∧ p = (0xb3, INDY)) ∨
    emitted (opcode (hunstable gates0) e.1.toList e.2 sampleEnv (sampleOperand p.2).1.toList
      clearSt) = some (p.1 :: (sampleOperand p.2).2) := by
  decide

/-- The `(zp),Y` pair of LAX: the operand `($10),Y` is taken by the `zp,Y`
candidate, which stands earlier in the table and reads `($10)` as a
parenthesised expression; LDA, whose table has the `(zp),Y` pair before the
indexed ones, assembles the same operand in `(zp),Y` mode. -/
theorem lax_indy_shadowed :
    ("LAX", [0xa7, ZP, 0xb7, ZPY, 0xa3, INDX, 0xb3, INDY, 0xaf, ABS, 0xbf, ABSY, 255])
      ∈ rsvdlist ∧
    opcode gates0 "LAX".toList [0xa7, ZP, 0xb7, ZPY, 0xa3, INDX, 0xb3, INDY, 0xaf, ABS, 0xbf,
        ABSY, 255] sampleEnv " ($10),Y".toList clearSt
      = some (.done ⟨[0xb7, 0x10], [], 32786, clearSt⟩) ∧
    emitted (opcode gates0 "LDA".toList [0xa9, IMM, 0xa1, INDX, 0xb1, INDY, 0xb5, ZPX, 0xbd,
        ABSX, 0xb9, ABSY, 0xa5, ZP, 0xad, ABS, 255] sampleEnv " ($10),Y".toList clearSt)
      = some [0xb1, 0x10] := by
  refine ⟨by decide, by decide, by decide⟩

theorem checkoperand_plain (env : Env) (t : Nat) (v : Int) (st1 : EvalSt)
    (hrel : t ≠ REL) (hd : st1.dependant = false) :
    (checkoperand env t v false st1).forceRel = false ∧
    (checkoperand env t v false st1).val = v ∧
    ((checkoperand env t v false st1).st = st1 ∨
      ((checkoperand env t v false st1).st.errmsg ≠ none ∧
       (checkoperand env t v false st1).st.dependant = false)) ∧
    (opsize.getD t 0 = 1 → -128 ≤ v → v ≤ 255 →
      checkoperand env t v false st1 = ⟨v, st1, false, false⟩) ∧
    (opsize.getD t 0 = 1 → (v < -128 ∨ 255 < v) →
      (checkoperand env t v false st1).skip = true ∨
      ((checkoperand env t v false st1).st.errmsg ≠ none ∧
       (checkoperand env t v false st1).st.dependant = false ∧
       (checkoperand env t v false st1).forceRel = false)) ∧
    (opsize.getD t 0 ≠ 1 → 0 ≤ v → v ≤ 65535 →
      checkoperand env t v false st1 = ⟨v, st1, false, false⟩) := by
  unfold checkoperand
  rw [if_neg hrel]
  by_cases h1 : opsize.getD t 0 = 1
  · rw [if_pos h1, if_pos hd]
    by_cases hr : v > 255 ∨ v < -128
    · rw [if_pos hr]
      refine ⟨rfl, rfl, Or.inr ⟨by simp, hd⟩, ?_, ?_, fun h => absurd h1 h⟩
      · intro _ h2 h3; omega
      · intro _ _; exact Or.inr ⟨by simp, hd, rfl⟩
    · rw [if_neg hr]
      refine ⟨rfl, rfl, Or.inl rfl, fun _ _ _ => rfl, ?_, fun h => absurd h1 h⟩
      intro _ h; omega
  · rw [if_neg h1]
    by_cases hr : (v < 0 ∨ v > 65535) ∧ st1.dependant = false
    · rw [if_pos hr]
      refine ⟨rfl, rfl, Or.inr ⟨by simp, hd⟩, fun h => absurd h h1, fun h => absurd h h1, ?_⟩
      intro _ h2 h3; omega
    · rw [if_neg hr]
      exact ⟨rfl, rfl, Or.inl rfl, fun h => absurd h h1, fun h => absurd h h1, fun _ _ _ => rfl⟩

/-- A candidate that a plain operand cannot match is passed over. -/
theorem skip_candidate (env : Env) (next : List Char) (old : Bool) (b t : Nat)
    (rest : List Nat) (val : Int) (st : EvalSt) (v : Int) (st1 : EvalSt)
    (H : PlainOperand env old next v st1) (hb : b ≠ 255)
    (ht : t ∈ [ACC, IMM, IND, INDX, INDY, ZPX, ZPY, ABSX, ABSY] ∨
      (t = ZP ∧ (v < -128 ∨ 255 < v))) :
    ∃ val1 st2, opcodeLoop env next old (b :: t :: rest) val false st =
      opcodeLoop env next old rest val1 false st2 := by
  obtain ⟨⟨s, he, hs⟩, herr, hdep, hhash, hpar, hacc⟩ := H
  have operand : ∀ (hty : t ≠ IMP ∧ t ≠ ACC) (hrel : t ≠ REL) (hhead : ophead.getD t NUL = NUL),
      ((checkoperand env t v false st1).skip = true ∨
        ((checkoperand env t v false st1).st.errmsg ≠ none ∧
         (checkoperand env t v false st1).st.dependant = false ∧
         (checkoperand env t v false st1).forceRel = false)) ∨ matchtail t s = none →
      ∃ val1 st2, opcodeLoop env next old (b :: t :: rest) val false st =
        opcodeLoop env next old rest val1 false st2 := by
    intro hty hrel hhead hor
    have hh : (eatchar next (ophead.getD t NUL)).1 = true := by rw [hhead]; rfl
    have h2 : (eatchar next (ophead.getD t NUL)).2 = next := by rw [hhead]; rfl
    rw [opcodeLoop_operand env next old b t rest val false st v s st1 hb hty hh
      (by rw [h2]; exact he)]
    have hfr := (checkoperand_plain env t v st1 hrel hdep).1
    refine ⟨(checkoperand env t v false st1).val, (checkoperand env t v false st1).st, ?_⟩
    rw [hfr]
    by_cases hc : (checkoperand env t v false st1).skip = true ∨
        ((checkoperand env t v false st1).st.errmsg ≠ none ∧
         (checkoperand env t v false st1).st.dependant = false ∧ false = false)
    · rw [if_pos hc]
    · rw [if_neg hc]
      rcases hor with h | h
      · rw [hfr] at h; exact absurd h hc
      · rw [h]
  rcases ht with ht | ⟨hzp, hr⟩
  · simp only [List.mem_cons, List.mem_singleton, List.not_mem_nil, or_false] at ht
    rcases ht with rfl | rfl | rfl | rfl | rfl | rfl | rfl | rfl | rfl
    · refine ⟨val, ⟨none, false, old⟩, ?_⟩
      rw [opcodeLoop_implied env next old b ACC rest val false st hb (by decide), hacc]
    · exact ⟨val, ⟨none, false, old⟩,
        opcodeLoop_nohead env next old b IMM rest val false st hb (by decide) hhash⟩
    · exact ⟨val, ⟨none, false, old⟩,
        opcodeLoop_nohead env next old b IND rest val false st hb (by decide) hpar⟩
    · exact ⟨val, ⟨none, false, old⟩,
        opcodeLoop_nohead env next old b INDX rest val false st hb (by decide) hpar⟩
    · exact ⟨val, ⟨none, false, old⟩,
        opcodeLoop_nohead env next old b INDY rest val false st hb (by decide) hpar⟩
    · exact operand (by decide) (by decide) rfl
        (Or.inr (matchtail_blank_none ZPX s ',' ['X'] rfl (by decide) hs))
    · exact operand (by decide) (by decide) rfl
        (Or.inr (matchtail_blank_none ZPY s ',' ['Y'] rfl (by decide) hs))
    · exact operand (by decide) (by decide) rfl
        (Or.inr (matchtail_blank_none ABSX s ',' ['X'] rfl (by decide) hs))
    · exact operand (by decide) (by decide) rfl
        (Or.inr (matchtail_blank_none ABSY s ',' ['Y'] rfl (by decide) hs))
  · subst hzp
    exact operand (by decide) (by decide) rfl
      (Or.inl ((checkoperand_plain env ZP v st1 (by decide) hdep).2.2.2.2.1 (by decide) hr))

/-- The candidate of mode ZP or ABS that a plain operand in range matches. -/
theorem take_candidate (env : Env) (next : List Char) (old : Bool) (b t : Nat)
    (rest : List Nat) (val : Int) (st : EvalSt) (v : Int) (st1 : EvalSt)
    (H : PlainOperand env old next v st1) (hb : b ≠ 255)
    (ht : (t = ZP ∧ -128 ≤ v ∧ v ≤ 255) ∨ (t = ABS ∧ 0 ≤ v ∧ v ≤ 65535)) :
    opcodeLoop env next old (b :: t :: rest) val false st =
      some (emitop env next b t v [] st1) := by
  obtain ⟨⟨s, he, hs⟩, herr, hdep, hhash, hpar, hacc⟩ := H
  have hty : t ≠ IMP ∧ t ≠ ACC := by
    rcases ht with ⟨rfl, _⟩ | ⟨rfl, _⟩ <;> decide
  have hhead : ophead.getD t NUL = NUL := by
    rcases ht with ⟨rfl, _⟩ | ⟨rfl, _⟩ <;> rfl
  have htail : optail.getD t "" = "" := by
    rcases ht with ⟨rfl, _⟩ | ⟨rfl, _⟩ <;> rfl
  have hck : checkoperand env t v false st1 = ⟨v, st1, false, false⟩ := by
    rcases ht with ⟨rfl, h1, h2⟩ | ⟨rfl, h1, h2⟩
    · exact (checkoperand_plain env ZP v st1 (by decide) hdep).2.2.2.1 (by decide) h1 h2
    · exact (checkoperand_plain env ABS v st1 (by decide) hdep).2.2.2.2.2 (by decide) h1 h2
  have hh : (eatchar next (ophead.getD t NUL)).1 = true := by rw [hhead]; rfl
  have h2 : (eatchar next (ophead.getD t NUL)).2 = next := by rw [hhead]; rfl
  rw [opcodeLoop_operand env next old b t rest val false st v s st1 hb hty hh
    (by rw [h2]; exact he), hck]
  rw [if_neg (by simp [herr]), matchtail_blank t s htail hs]

/-- A plain operand selects the candidate that `selects` names. -/
theorem selects_correct (env : Env) (next : List Char) (old : Bool) (v : Int) (st1 : EvalSt)
    (H : PlainOperand env old next v st1) (target : Nat)
    (ht : (target = ZP ∧ -128 ≤ v ∧ v ≤ 255) ∨ (target = ABS ∧ 256 ≤ v ∧ v ≤ 65535)) :
    ∀ (n : Nat) (tbl : List Nat), tbl.length ≤ n → ∀ (b : Nat) (val : Int) (st : EvalSt),
      selects target tbl = some b →
      opcodeLoop env next old tbl val false st = some (emitop env next b target v [] st1) := by
  intro n
  induction n with
  | zero =>
    intro tbl hl b val st h
    have : tbl = [] := List.length_eq_zero.mp (by omega)
    subst this
    simp [selects] at h
  | succ n ih =>
    intro tbl hl b val st h
    match tbl, hl, h with
    | [], _, h => simp [selects] at h
    | [x], _, h => simp [selects] at h
    | c :: t :: rest, hl, h =>
      have hrest : rest.length ≤ n := by simp at hl; omega
      rw [selects] at h
      by_cases hc : c = 255
      · rw [if_pos hc] at h; cases h
      · rw [if_neg hc] at h
        by_cases htt : t = target
        · rw [if_pos htt] at h
          have hcb : c = b := Option.some.inj h
          subst hcb
          subst htt
          refine take_candidate env next old c t rest val st v st1 H hc ?_
          rcases ht with ⟨h1, h2, h3⟩ | ⟨h1, h2, h3⟩
          · exact Or.inl ⟨h1, h2, h3⟩
          · exact Or.inr ⟨h1, by omega, h3⟩
        · rw [if_neg htt] at h
          by_cases hs : t ∈ [ACC, IMM, IND, INDX, INDY, ZPX, ZPY, ABSX, ABSY] ∨
              (t = ZP ∧ target = ABS)
          · rw [if_pos hs] at h
            have hskip : t ∈ [ACC, IMM, IND, INDX, INDY, ZPX, ZPY, ABSX, ABSY] ∨
                (t = ZP ∧ (v < -128 ∨ 255 < v)) := by
              rcases hs with h1 | ⟨h1, h2⟩
              · exact Or.inl h1
              · rcases ht with ⟨h3, _⟩ | ⟨_, h4, _⟩
                · rw [h2] at h3; exact absurd h3 (by decide)
                · exact Or.inr ⟨h1, Or.inr (by omega)⟩
            obtain ⟨val1, st2, hk⟩ := skip_candidate env next old c t rest val st v st1 H hc hskip
            rw [hk]
            exact ih rest hrest b val1 st2 h
          · rw [if_neg hs] at h; cases h

theorem imm_tables : ∀ e ∈ rsvdlist, ∀ p ∈ pairsOf e.2, p.2 = IMM →
    e.2 = p.1 :: IMM :: e.2.drop 2 ∧ p.1 ≠ 255 ∧
      e.1.toList ∉ unstablelist.map String.toList := by
  decide

theorem zp_tables : ∀ e ∈ rsvdlist, ∀ p ∈ pairsOf e.2, p.2 = ZP →
    ABS ∈ (pairsOf e.2).map Prod.snd →
      selects ZP e.2 = some p.1 ∧ e.1.toList ∉ unstablelist.map String.toList ∧
        e.1.toList ≠ "XAA".toList := by
  decide

theorem abs_tables : ∀ e ∈ rsvdlist, ∀ p ∈ pairsOf e.2, p.2 = ABS →
    ZP ∈ (pairsOf e.2).map Prod.snd →
      selects ABS e.2 = some p.1 ∧ e.1.toList ∉ unstablelist.map String.toList ∧
        e.1.toList ≠ "XAA".toList := by
  decide

theorem opcode_open (g : Gates) (name : List Char) (line : List Nat) (env : Env)
    (next : List Char) (st : EvalSt) (h1 : name ∉ unstablelist.map String.toList)
    (h2 : name = "XAA".toList → g.allowhunstable ≠ 0) :
    opcode g name line env next st =
      (opcodeLoop env next st.needanotherpass line 0 false st).map .done := by
  unfold opcode
  rw [if_neg (fun h => h1 ((unstable_any name).1 h.2)),
    if_neg (fun h => h2 (strcmp_eq_zero _ _ h.2) h.1)]

theorem opcodeLoop_imm (env : Env) (next : List Char) (old : Bool) (b : Nat)
    (rest : List Nat) (val : Int) (st : EvalSt) (v : Int) (s0 s : List Char) (st1 : EvalSt)
    (hb : b ≠ 255) (hh : eatchar next '#' = (true, s0))
    (he : eval env s0 WHOLEEXP ⟨none, false, old⟩ = some (v, s, st1)) (hs : blank s)
    (herr : st1.errmsg = none) (hdep : st1.dependant = false) (h1 : -128 ≤ v) (h2 : v ≤ 255) :
    opcodeLoop env next old (b :: IMM :: rest) val false st =
      some (emitop env next b IMM v [] st1) := by
  have hh1 : (eatchar next (ophead.getD IMM NUL)).1 = true := by
    show (eatchar next '#').1 = true
    rw [hh]
  have hh2 : (eatchar next (ophead.getD IMM NUL)).2 = s0 := by
    show (eatchar next '#').2 = s0
    rw [hh]
  have hck := (checkoperand_plain env IMM v st1 (by decide) hdep).2.2.2.1 (by decide) h1 h2
  rw [opcodeLoop_operand env next old b IMM rest val false st v s st1 hb (by decide) hh1
    (by rw [hh2]; exact he), hck]
  rw [if_neg (by simp [herr]), matchtail_blank IMM s rfl hs]

theorem emitted_done (o : Option Emit) (e : Emit) (h : o = some e) :
    emitted (o.map OpResult.done) = some e.bytes := by
  subst h
  rfl

theorem emitop_bytes_one (env : Env) (next : List Char) (b type : Nat) (v : Int)
    (st : EvalSt) (h : opsize.getD type 0 = 1) :
    (emitop env next b type v [] st).bytes = [b, (and32 v 255).toNat] := by
  rw [emitop_one env next b type v [] st h, and32_255_eq_emod]

theorem emitop_bytes_two (env : Env) (next : List Char) (b type : Nat) (v : Int)
    (st : EvalSt) (h : opsize.getD type 0 = 2) (h1 : 0 ≤ v) (h2 : v ≤ 65535)
    (hpc : env.addr ≤ 65535) (herr : st.errmsg = none) :
    (emitop env next b type v [] st).bytes = [b, (v % 256).toNat, (v / 256).toNat] := by
  rw [emitop_two env next b type v [] st h hpc herr]
  have : shr32 v 8 % 256 = v / 256 := by
    rw [shr32_8 v (by omega) (by omega)]
    omega
  simp only [this]

/-- C15 (as amended): for every mnemonic of `rsvdlist` and every pair `(b, mode)`
written in its table.
Immediate: when the text is `#` and an expression that resolves without error
to `v` in `[-128, 255]`, blanks only after it, and the mnemonic is not XAA with
the HUNSTABLE gate closed, `opcode` emits `b` and then `v & 0xff`.
Zero page and absolute, for a table that has both: when the text is a plain
operand (a resolved expression not opening with `#` or `(` and not the register
name `A`), `opcode` emits the zero-page opcode and `v & 0xff` for `v` in
`[-128, 255]`, and, for `v` in `[256, $FFFF]`, the absolute opcode, the low
byte and the high byte of `v` when the PC is at most `$FFFF`, but the absolute
opcode and the low byte only when the PC is beyond `$FFFF` ("PC out of range."
is then pending and `output_buffer` returns after one byte). -/
theorem immediate_zeropage_absolute (name : String) (tbl : List Nat)
    (hm : (name, tbl) ∈ rsvdlist) (b : Nat) (g : Gates) (env : Env) (next : List Char)
    (st : EvalSt) (v : Int) (st1 : EvalSt) :
    ((b, IMM) ∈ pairsOf tbl → (name = "XAA" → g.allowhunstable ≠ 0) →
      ∀ s0 s, eatchar next '#' = (true, s0) →
        eval env s0 WHOLEEXP ⟨none, false, st.needanotherpass⟩ = some (v, s, st1) → blank s →
        st1.errmsg = none → st1.dependant = false → -128 ≤ v → v ≤ 255 →
        emitted (opcode g name.toList tbl env next st) = some [b, (and32 v 255).toNat]) ∧
    ((b, ZP) ∈ pairsOf tbl → ABS ∈ (pairsOf tbl).map Prod.snd →
      PlainOperand env st.needanotherpass next v st1 → -128 ≤ v → v ≤ 255 →
        emitted (opcode g name.toList tbl env next st) = some [b, (and32 v 255).toNat]) ∧
    ((b, ABS) ∈ pairsOf tbl → ZP ∈ (pairsOf tbl).map Prod.snd →
      PlainOperand env st.needanotherpass next v st1 → 256 ≤ v → v ≤ 65535 →
        (env.addr ≤ 65535 →
          emitted (opcode g name.toList tbl env next st)
            = some [b, (v % 256).toNat, (v / 256).toNat]) ∧
        (env.addr > 65535 →
          emitted (opcode g name.toList tbl env next st) = some [b, (v % 256).toNat])) := by
  refine ⟨?_, ?_, ?_⟩
  · intro hb hg s0 s hh he hs herr hdep h1 h2
    obtain ⟨t1, t2, t3⟩ := imm_tables (name, tbl) hm (b, IMM) hb rfl
    have t1 : tbl = b :: IMM :: tbl.drop 2 := t1
    have hopen := opcode_open g name.toList tbl env next st t3
      (fun h => hg (String.ext h))
    rw [hopen, t1]
    rw [emitted_done _ _ (opcodeLoop_imm env next _ b _ 0 st v s0 s st1 t2 hh he hs herr hdep
      h1 h2)]
    rw [emitop_bytes_one _ _ _ _ _ _ (by decide)]
  · intro hb habs H h1 h2
    obtain ⟨t1, t2, t3⟩ := zp_tables (name, tbl) hm (b, ZP) hb rfl habs
    rw [opcode_ungated g _ _ _ _ _ t2 t3]
    rw [emitted_done _ _ (selects_correct env next _ v st1 H ZP (Or.inl ⟨rfl, h1, h2⟩) _ tbl
      (le_refl _) b 0 st t1)]
    rw [emitop_bytes_one _ _ _ _ _ _ (by decide)]
  · intro hb hzp H h1 h2
    obtain ⟨t1, t2, t3⟩ := abs_tables (name, tbl) hm (b, ABS) hb rfl hzp
    rw [opcode_ungated g _ _ _ _ _ t2 t3]
    rw [emitted_done _ _ (selects_correct env next _ v st1 H ABS (Or.inr ⟨rfl, h1, h2⟩) _ tbl
      (le_refl _) b 0 st t1)]
    constructor
    · intro hpc
      rw [emitop_bytes_two _ _ _ _ _ _ (by decide) (by omega) h2 hpc H.2.1]
    · intro hpc
      rw [emitop_two_pending _ _ _ _ _ _ _ (by decide) (Or.inl hpc)]

/-- C15, witness: `LDA #$10`, `LDA $10` and `LDA $1234` at `$8010`. -/
theorem immediate_zeropage_absolute_witness :
    emitted (opcode gates0 "LDA".toList [0xa9, IMM, 0xa1, INDX, 0xb1, INDY, 0xb5, ZPX, 0xbd,
        ABSX, 0xb9, ABSY, 0xa5, ZP, 0xad, ABS, 255] sampleEnv " #$10".toList clearSt)
      = some [0xa9, 0x10] ∧
    emitted (opcode gates0 "LDA".toList [0xa9, IMM, 0xa1, INDX, 0xb1, INDY, 0xb5, ZPX, 0xbd,
        ABSX, 0xb9, ABSY, 0xa5, ZP, 0xad, ABS, 255] sampleEnv " $10".toList clearSt)
      = some [0xa5, 0x10] ∧
    emitted (opcode gates0 "LDA".toList [0xa9, IMM, 0xa1, INDX, 0xb1, INDY, 0xb5, ZPX, 0xbd,
        ABSX, 0xb9, ABSY, 0xa5, ZP, 0xad, ABS, 255] sampleEnv " $1234".toList clearSt)
      = some [0xad, (4660 % 256 : Int).toNat, (4660 / 256 : Int).toNat] := by
  have h := immediate_zeropage_absolute "LDA" [0xa9, IMM, 0xa1, INDX, 0xb1, INDY, 0xb5, ZPX,
    0xbd, ABSX, 0xb9, ABSY, 0xa5, ZP, 0xad, ABS, 255] (by decide) 0xad gates0 sampleEnv
    " $1234".toList clearSt 4660 clearSt
  refine ⟨by decide, by decide, ?_⟩
  exact (h.2.2 (by decide) (by decide)
    ⟨⟨[], by decide, by intro c hc; cases hc⟩, rfl, rfl, by decide, by decide, by decide⟩
    (by decide) (by decide)).1 (by decide)

/-- C15, counterexamples: with the HUNSTABLE gate closed `XAA #$10` ends the
program instead of emitting 8B 10; with a label `a = $10`, `ASL a` is read
as the accumulator form and emits 0A alone, not 06 10 (`ASL x` with
`x = $1234` emits 0E 34 12); and at PC `$10000` `LDA $1234` emits AD 34 only,
with "PC out of range." (an operand in parentheses without index, `LDA ($10)`,
does assemble in zero-page mode, A5 10). -/
theorem immediate_zeropage_exceptions :
    ("XAA", [0x8b, IMM, 255]) ∈ rsvdlist ∧
    opcode gates0 "XAA".toList [0x8b, IMM, 255] sampleEnv " #$10".toList clearSt
      = some (.fatal (.HUnstableUsed "XAA".toList)) ∧
    eval (sampleEnv2 32768 false) " a".toList WHOLEEXP clearSt = some (16, [], clearSt) ∧
    emitted (opcode gates0 "ASL".toList [0x0a, ACC, 0x16, ZPX, 0x1e, ABSX, 0x06, ZP, 0x0e, ABS,
        0x0a, IMP, 255] (sampleEnv2 32768 false) " a".toList clearSt) = some [0x0a] ∧
    emitted (opcode gates0 "ASL".toList [0x0a, ACC, 0x16, ZPX, 0x1e, ABSX, 0x06, ZP, 0x0e, ABS,
        0x0a, IMP, 255] (sampleEnv2 32768 false) " x".toList clearSt)
      = some [0x0e, 0x34, 0x12] ∧
    opcode gates0 "LDA".toList [0xa9, IMM, 0xa1, INDX, 0xb1, INDY, 0xb5, ZPX, 0xbd,
        ABSX, 0xb9, ABSY, 0xa5, ZP, 0xad, ABS, 255] (sampleEnv2 65536 false) " $1234".toList
        clearSt
      = some (.done ⟨[0xad, 0x34], [], 65539, ⟨some .PCOutOfRange, false, false⟩⟩) ∧
    emitted (opcode gates0 "LDA".toList [0xa9, IMM, 0xa1, INDX, 0xb1, INDY, 0xb5, ZPX, 0xbd,
        ABSX, 0xb9, ABSY, 0xa5, ZP, 0xad, ABS, 255] sampleEnv " ($10)".toList clearSt)
      = some [0xa5, 0x10] := by
  refine ⟨by decide, by decide, by decide, by decide, by decide, by decide, by decide⟩

theorem opcode_done (g : Gates) (name : List Char) (line : List Nat) (env : Env)
    (next : List Char) (st : EvalSt) (e : Emit)
    (h : opcode g name line env next st = some (.done e)) :
    opcodeLoop env next st.needanotherpass line 0 false st = some e := by
  unfold opcode at h
  split_ifs at h
  · cases h
  · cases h
  · cases ho : opcodeLoop env next st.needanotherpass line 0 false st with
    | none => rw [ho] at h; cases h
    | some e1 =>
      rw [ho] at h
      simp only [Option.map_some', Option.some.injEq, OpResult.done.injEq] at h
      rw [h]

theorem mode_facts : ∀ e ∈ rsvdlist, ∀ p ∈ candidatesOf e.2,
    (opsize.getD p.2 0 ≠ 1 → p.2 ≠ IMP ∧ p.2 ≠ ACC → opsize.getD p.2 0 = 2) ∧
    (p.2 = REL → candidatesOf e.2 = [p]) ∧ opsize.getD p.2 0 ≤ 2 ∧ 0 ≤ opsize.getD p.2 0 := by
  decide

theorem emit_length (b : Nat) (x y : Nat) (k : Int) (h0 : 0 ≤ k) (h2 : k ≤ 2) :
    ((b :: [x, y].take k.toNat).length : Int) = 1 + k ∧
      ((b :: ([x, y].take k.toNat).take 1).length : Int) ≤ 1 + k := by
  have : k = 0 ∨ k = 1 ∨ k = 2 := by omega
  rcases this with rfl | rfl | rfl <;> exact ⟨rfl, by simp⟩

/-- The part of the convergence rule that holds: for a text that does not open
with `#`, an instruction emitted without error while its operand is unresolved
is at least as long as what the same text assembles to in any other state. -/
theorem unresolved_widest (name : String) (tbl : List Nat) (hm : (name, tbl) ∈ rsvdlist)
    (gU gR : Gates) (envU envR : Env) (next : List Char) (stU stR : EvalSt) (eU eR : Emit)
    (hU : opcode gU name.toList tbl envU next stU = some (.done eU))
    (hR : opcode gR name.toList tbl envR next stR = some (.done eR))
    (hdep : eU.st.dependant = true) (hne : eU.bytes ≠ []) (hok : eU.st.errmsg = none)
    (hhash : (eatchar next '#').1 = false) :
    eR.bytes.length ≤ eU.bytes.length := by
  have lU := opcodeLoop_emits envU next _ _ tbl (le_refl _) 0 false stU eU
    (opcode_done _ _ _ _ _ _ _ hU)
  have lR := opcodeLoop_emits envR next _ _ tbl (le_refl _) 0 false stR eR
    (opcode_done _ _ _ _ _ _ _ hR)
  rcases lU with h | ⟨p, hp, v, hb, hd⟩
  · exact absurd h.1 hne
  · obtain ⟨hmode, hni, hhead⟩ := hd hdep
    obtain ⟨m1, m2, m3, m4⟩ := mode_facts (name, tbl) hm p hp
    have lenU : (eU.bytes.length : Int) = 1 + opsize.getD p.2 0 := by
      rw [hb, if_pos hok]; exact (emit_length _ _ _ _ m4 m3).1
    have lenR : (eR.bytes.length : Int) ≤ 3 ∧
        (candidatesOf tbl = [p] → (eR.bytes.length : Int) ≤ 1 + opsize.getD p.2 0) := by
      rcases lR with h | ⟨q, hq, w, hbq, _⟩
      · rw [h.1]
        exact ⟨by simp, fun _ => by simp only [List.length_nil, Nat.cast_zero]; omega⟩
      · obtain ⟨n1, n2, n3, n4⟩ := mode_facts (name, tbl) hm q hq
        have : (eR.bytes.length : Int) ≤ 1 + opsize.getD q.2 0 := by
          rw [hbq]
          by_cases hq0 : eR.st.errmsg = none
          · rw [if_pos hq0]; exact le_of_eq (emit_length _ _ _ _ n4 n3).1
          · rw [if_neg hq0]; exact (emit_length _ _ _ _ n4 n3).2
        refine ⟨by omega, fun hc => ?_⟩
        rw [hc] at hq
        simp only [List.mem_singleton] at hq
        rw [← hq]
        exact this
    rcases hmode with h | h | h
    · rw [h] at hhead
      have : (eatchar next '#').1 = true := hhead
      rw [hhash] at this
      cases this
    · have := lenR.2 (m2 h)
      omega
    · have := m1 h hni
      have := lenR.1
      omega

/-- C16, the immediate operand that grows: `LDA #x` with `x` not in the label
list is emitted in immediate mode, 2 bytes (A9 00); once `x` resolves to `$1234`
the immediate candidate is out of range and, because `eval` accepts a leading
`#`, the absolute candidate takes the same text: 3 bytes (AD 34 12).  The rest
of the claim holds: `JMP forward` emits 4C 00 80 with `forward = $8000` and
3 bytes too while `forward` is unknown; an unresolved branch is emitted in
relative mode, which has a 1-byte operand. -/
theorem unresolved_immediate_grows :
    (findlabel sampleEnv.tbl sampleEnv.scope sampleEnv.pass ['x']).map Prod.fst = some none ∧
    opcode gates0 "LDA".toList [0xa9, IMM, 0xa1, INDX, 0xb1, INDY, 0xb5, ZPX, 0xbd, ABSX, 0xb9,
        ABSY, 0xa5, ZP, 0xad, ABS, 255] sampleEnv " #x".toList clearSt
      = some (.done ⟨[0xa9, 0x00], [], 32786, ⟨none, true, true⟩⟩) ∧
    opcode gates0 "LDA".toList [0xa9, IMM, 0xa1, INDX, 0xb1, INDY, 0xb5, ZPX, 0xbd, ABSX, 0xb9,
        ABSY, 0xa5, ZP, 0xad, ABS, 255] (sampleEnv2 32784 false) " #x".toList clearSt
      = some (.done ⟨[0xad, 0x34, 0x12], [], 32787, clearSt⟩) ∧
    eval (sampleEnv2 32784 false) " #x".toList WHOLEEXP clearSt = some (4660, [], clearSt) ∧
    opcode gates0 "JMP".toList [0x6c, IND, 0x4c, ABS, 255] (sampleEnv2 32768 false)
        " forward".toList clearSt
      = some (.done ⟨[0x4c, 0x00, 0x80], [], 32771, clearSt⟩) ∧
    opcode gates0 "JMP".toList [0x6c, IND, 0x4c, ABS, 255] sampleEnv " forward".toList clearSt
      = some (.done ⟨[0x4c, 0x00, 0x00], [], 32787, ⟨none, true, true⟩⟩) ∧
    opcode gates0 "BEQ".toList [0xf0, REL, 255] sampleEnv " x".toList clearSt
      = some (.done ⟨[0xf0, 0x00], [], 32786, ⟨none, true, true⟩⟩) := by
  refine ⟨by decide, by decide, by decide, by decide, by decide, by decide, by decide⟩

/-- An application of `unresolved_widest`: `LDA x` with `x` unknown and with
`x = $1234`. -/
theorem unresolved_widest_example :
    ∀ eU eR,
      opcode gates0 "LDA".toList [0xa9, IMM, 0xa1, INDX, 0xb1, INDY, 0xb5, ZPX, 0xbd, ABSX,
        0xb9, ABSY, 0xa5, ZP, 0xad, ABS, 255] sampleEnv " x".toList clearSt
        = some (.done eU) →
      opcode gates0 "LDA".toList [0xa9, IMM, 0xa1, INDX, 0xb1, INDY, 0xb5, ZPX, 0xbd, ABSX,
        0xb9, ABSY, 0xa5, ZP, 0xad, ABS, 255] (sampleEnv2 32784 false) " x".toList clearSt
        = some (.done eR) →
      eU.st.dependant = true → eU.bytes ≠ [] → eU.st.errmsg = none →
      eR.bytes.length ≤ eU.bytes.length :=
  fun eU eR hU hR hd hne hok =>
    unresolved_widest "LDA" _ (by decide) gates0 gates0 sampleEnv (sampleEnv2 32784 false)
      " x".toList clearSt clearSt eU eR hU hR hd hne hok (by decide)

theorem tableOK_find (t : Table) (h : TableOK t) (c k : Int) :
    TableOK { t with findcmp := c, findindex := k } :=
  ⟨⟨h.start_nonneg, h.start_le_end, h.count, h.sorted⟩, h.end_lt_max, h.length_eq, h.max_ge,
    h.chain_ne, h.chain_name⟩

theorem getoperator_comma (r : List Char) : getoperator (',' :: r) = (.NOOP, ',' :: r) := by
  simp [getoperator, strspn, List.takeWhile, whitesp, cur]

theorem evalLoop_end (fuel : Nat) (env : Env) (ret : Int) (rest : List Char) (st : EvalSt)
    (h : rest = [] ∨ cur rest = ',') :
    evalLoop (fuel + 1) env WHOLEEXP ret rest st = some (ret, rest, st) := by
  apply evalLoop_stop
  rcases h with h | h
  · rw [h, getoperator_nil]
    simp [prec, WHOLEEXP]
  · cases rest with
    | nil => simp [cur, NUL] at h
    | cons c r =>
      have : c = ',' := h
      rw [this, getoperator_comma]
      simp [prec, WHOLEEXP]

/-- An operand word is a value for the data directives. -/
theorem dataValue_of_isOperand (env : Env) (st : EvalSt) (w : List Char) (v : Int)
    (h : ∀ addr, IsOperand { env with addr := addr } st w v) : DataValue env st w v := by
  refine ⟨(h 0).2.1.2.1, ?_⟩
  intro addr rest hrest
  have hend : OpEnd rest := by
    rcases hrest with h1 | h1
    · exact Or.inl h1
    · exact Or.inr (by rw [h1]; decide)
  apply eval_of_evalF 2
  · intro fuel
    rw [show fuel + 2 = (fuel + 1) + 1 from rfl,
      evalF_operand (fuel + 1) _ st w rest v WHOLEEXP (h addr) hend]
    exact evalLoop_end fuel _ v rest st hrest
  · omega

theorem dataValue_decimal (env : Env) (st : EvalSt) (d : List Char) (hne : d ≠ [])
    (hd : ∀ c ∈ d, c ∈ decdigits) (h : d.length ≤ 127) :
    DataValue env st d (atoi d) :=
  dataValue_of_isOperand env st d _ (fun _ => isOperand_decimal _ st d hne hd h)

theorem drop_lead (lead s : List Char) (hl : blank lead) (hs : cur s ∉ whitesp) :
    (lead ++ s).drop (strspn (lead ++ s) whitesp) = s := by
  induction lead with
  | nil =>
    rw [List.nil_append, strspn_white_zero s hs]
    rfl
  | cons c cs ih =>
    have hc : c ∈ whitesp := hl c (List.mem_cons_self _ _)
    have hcs : blank cs := fun d hd => hl d (List.mem_cons_of_mem _ hd)
    have h1 : strspn (c :: cs ++ s) whitesp = strspn (cs ++ s) whitesp + 1 := by
      unfold strspn
      rw [List.cons_append, List.takeWhile_cons_of_pos (by simpa using hc)]
      rfl
    rw [h1]
    exact ih hcs

theorem wrap32_add_wrap32 (a b : Int) : wrap32 (wrap32 a + b) = wrap32 (a + b) := by
  unfold wrap32
  omega

theorem output_le_one (e : Option ErrMsg) (v a : Int) (b : List Nat) :
    output_le e v 1 (a, b) = (wrap32 (a + 1), b ++ [(and32 v 255).toNat]) := by
  rw [and32_255_eq_emod]
  unfold output_le output
  cases e <;> rfl

theorem output_le_two (v a : Int) (b : List Nat) :
    output_le none v 2 (a, b)
      = (wrap32 (a + 2), b ++ [(and32 v 255).toNat, (and32 (shr32 v 8) 255).toNat]) := by
  rw [and32_255_eq_emod, and32_255_eq_emod]
  rfl

theorem cur_value_rest (w rest : List Char) (hrest : rest = [] ∨ cur rest = ',') (c : Char)
    (hw : cur w ≠ c) (h1 : c ≠ NUL) (h2 : c ≠ ',') : cur (w ++ rest) ≠ c := by
  cases w with
  | cons x xs => exact hw
  | nil =>
    rw [List.nil_append]
    rcases hrest with h | h
    · rw [h]
      exact fun h' => h1 h'.symm
    · rw [h]
      exact fun h' => h2 h'.symm

/-- One turn of the loop of `db` on a resolved expression in range. -/
theorem dbitem_value (env : Env) (e : Emit) (lead w rest : List Char) (v : Int)
    (hl : blank lead) (hv : DataValue env e.st w v) (hq1 : cur w ≠ '"') (hq2 : cur w ≠ '\'')
    (hr1 : -128 ≤ v) (hr2 : v ≤ 255) (hrest : rest = [] ∨ cur rest = ',')
    (herr : e.st.errmsg = none) :
    dbitem env { e with next := lead ++ (w ++ rest) }
      = some { bytes := e.bytes ++ [(and32 v 255).toNat], next := rest,
               addr := wrap32 (e.addr + 1), st := e.st } := by
  have hws : cur (w ++ rest) ∉ whitesp := by
    cases w with
    | cons x xs => exact hv.1
    | nil =>
      rw [List.nil_append]
      rcases hrest with h | h
      · rw [h]
        exact fun h' => absurd h' (by decide)
      · rw [h]
        decide
  have hd := drop_lead lead (w ++ rest) hl hws
  have hc1 := cur_value_rest w rest hrest '"' hq1 (by decide) (by decide)
  have hc2 := cur_value_rest w rest hrest '\'' hq2 (by decide) (by decide)
  have hq : ¬ (cur (w ++ rest) = '"' ∨ cur (w ++ rest) = '\'') := by
    rintro (h | h)
    · exact hc1 h
    · exact hc2 h
  have hev := hv.2 e.addr rest hrest
  unfold dbitem
  dsimp only
  rw [hd, if_neg hq, hev]
  dsimp only
  rw [if_pos herr, if_neg (by omega), output_le_one]

theorem dbscan_string (q : Char) (hq1 : q ≠ NUL) (hq2 : q ≠ '\\') (cs rest : List Char) (st : EvalSt)
    (herr : st.errmsg = none) (hcs : ∀ c ∈ cs, c ≠ q ∧ c ≠ '\\' ∧ c ≠ NUL) :
    ∀ fuel, cs.length + 1 ≤ fuel → dbscan q fuel (cs ++ q :: rest) st = some (rest, st) := by
  induction cs with
  | nil =>
    intro fuel hf
    obtain ⟨k, rfl⟩ : ∃ k, fuel = k + 1 := ⟨fuel - 1, by simp at hf; omega⟩
    rw [List.nil_append, dbscan]
    have hc : cur (q :: rest) = q := rfl
    simp only [hc, if_neg hq1, if_neg hq2, herr, ne_eq, not_true_eq_false, and_false, if_false]
    rfl
  | cons c cs ih =>
    intro fuel hf
    obtain ⟨k, rfl⟩ : ∃ k, fuel = k + 1 := ⟨fuel - 1, by simp at hf; omega⟩
    have hcc := hcs c (List.mem_cons_self _ _)
    rw [List.cons_append, dbscan]
    have hc : cur (c :: (cs ++ q :: rest)) = c := rfl
    simp only [hc, if_neg hcc.2.2, if_neg hcc.2.1, herr, ne_eq, hcc.1, not_false_eq_true,
      and_self, if_true]
    exact ih (fun d hd => hcs d (List.mem_cons_of_mem _ hd)) k (by simp at hf ⊢; omega)

theorem dbchars_cons (val2 : Int) (c : Char) (cs : List Char) (o : Int × List Nat)
    (hc : c ≠ '\\') :
    dbchars val2 (c :: cs) o
      = dbchars val2 cs (output_le none (wrap32 (byteOf c + val2)) 1 o) := by
  rw [dbchars.eq_def]
  simp only [if_neg hc]

theorem dbchars_plain (cs : List Char) (hcs : ∀ c ∈ cs, c ≠ '\\') :
    ∀ (a : Int) (b : List Nat), -2147483648 ≤ a → a < 2147483648 →
      dbchars 0 cs (a, b)
        = some (wrap32 (a + cs.length), b ++ cs.map (fun c => c.toNat % 256)) := by
  induction cs with
  | nil =>
    intro a b h1 h2
    simp only [dbchars, List.length_nil, Nat.cast_zero, add_zero, List.map_nil,
      List.append_nil, wrap32_id a h1 h2]
  | cons c cs ih =>
    intro a b h1 h2
    have hc := hcs c (List.mem_cons_self _ _)
    have hw : wrap32 (byteOf c + 0) = byteOf c := by
      unfold byteOf wrap32
      omega
    have hlo : ((byteOf c) % 256).toNat = c.toNat % 256 := by
      unfold byteOf
      omega
    have hout : output_le none (byteOf c) 1 (a, b)
        = (wrap32 (a + 1), b ++ [c.toNat % 256]) := by
      show (wrap32 (a + 1), b ++ [((byteOf c) % 256).toNat]) = _
      rw [hlo]
    rw [dbchars_cons 0 c cs _ hc, hw, hout,
      ih (fun d hd => hcs d (List.mem_cons_of_mem _ hd)) _ _ (by unfold wrap32; omega)
        (by unfold wrap32; omega), wrap32_add_wrap32]
    simp only [List.length_cons, Nat.cast_add, Nat.cast_one, List.map_cons, List.append_assoc,
      List.singleton_append]
    rw [show a + 1 + (cs.length : Int) = a + ((cs.length : Int) + 1) by ring]

/-- One turn of the loop of `db` on a quoted string. -/
theorem dbitem_string (env : Env) (e : Emit) (lead cs rest : List Char) (q : Char)
    (hl : blank lead) (hq : q = '"' ∨ q = '\'') (hcs : ∀ c ∈ cs, c ≠ q ∧ c ≠ '\\' ∧ c ≠ NUL)
    (hrest : rest = [] ∨ cur rest = ',') (herr : e.st.errmsg = none)
    (ha1 : -2147483648 ≤ e.addr) (ha2 : e.addr < 2147483648) :
    dbitem env { e with next := lead ++ q :: (cs ++ q :: rest) }
      = some { bytes := e.bytes ++ cs.map (fun c => c.toNat % 256), next := rest,
               addr := wrap32 (e.addr + cs.length), st := e.st } := by
  have hq1 : q ≠ NUL := by rcases hq with h | h <;> rw [h] <;> decide
  have hq2 : q ≠ '\\' := by rcases hq with h | h <;> rw [h] <;> decide
  have hws : cur (q :: (cs ++ q :: rest)) ∉ whitesp := by
    show q ∉ whitesp
    rcases hq with h | h <;> rw [h] <;> decide
  have hd := drop_lead lead (q :: (cs ++ q :: rest)) hl hws
  have hcq : cur (q :: (cs ++ q :: rest)) = '"' ∨ cur (q :: (cs ++ q :: rest)) = '\'' := hq
  have hscan := dbscan_string q hq1 hq2 cs rest e.st herr hcs
    ((q :: (cs ++ q :: rest)).length + 1) (by simp; omega)
  have hzero : DataValue env e.st ['0'] 0 :=
    dataValue_decimal env e.st ['0'] (by simp) (by decide) (by decide)
  have hev := hzero.2 e.addr rest hrest
  have hbody : (cs ++ q :: rest).take ((cs ++ q :: rest).length - rest.length - 1) = cs := by
    have : (cs ++ q :: rest).length - rest.length - 1 = cs.length := by
      simp only [List.length_append, List.length_cons]
      omega
    rw [this, List.take_left]
  unfold dbitem
  dsimp only
  rw [hd, if_pos hcq]
  have htail : (q :: (cs ++ q :: rest)).tail = cs ++ q :: rest := rfl
  have hcur : cur (q :: (cs ++ q :: rest)) = q := rfl
  rw [htail, hcur, hscan]
  dsimp only
  rw [if_neg (by rw [herr]; simp)]
  have hz : '0' :: rest = ['0'] ++ rest := rfl
  rw [hz, hev]
  dsimp only
  rw [if_neg (by rw [herr]; simp), hbody,
    dbchars_plain cs (fun c hc => (hcs c hc).2.1) e.addr e.bytes ha1 ha2]

theorem wrap32_range (x : Int) : -2147483648 ≤ wrap32 x ∧ wrap32 x < 2147483648 := by
  unfold wrap32
  omega

/-- One turn of the loop of `db` on an operand of the kind the specification
describes. -/
theorem dbitem_ok (env : Env) (e : Emit) (i : DbItem) (rest : List Char)
    (hi : i.ok env e.st) (hrest : rest = [] ∨ cur rest = ',') (herr : e.st.errmsg = none)
    (ha1 : -2147483648 ≤ e.addr) (ha2 : e.addr < 2147483648) :
    dbitem env { e with next := i.text ++ rest }
      = some { bytes := e.bytes ++ i.bytes, next := rest,
               addr := wrap32 (e.addr + i.bytes.length), st := e.st } := by
  cases i with
  | value lead w v =>
    obtain ⟨hl, hv, hq1, hq2, hr1, hr2⟩ := hi
    have := dbitem_value env e lead w rest v hl hv hq1 hq2 hr1 hr2 hrest herr
    rw [show (DbItem.value lead w v).text ++ rest = lead ++ (w ++ rest) from
      List.append_assoc _ _ _, this]
    rfl
  | string lead q cs =>
    obtain ⟨hl, hq, hcs⟩ := hi
    have := dbitem_string env e lead cs rest q hl hq hcs hrest herr ha1 ha2
    have ht : (DbItem.string lead q cs).text ++ rest = lead ++ q :: (cs ++ q :: rest) := by
      show (lead ++ q :: (cs ++ [q])) ++ rest = _
      simp
    rw [ht, this]
    show some _ = some _
    simp only [DbItem.bytes, List.length_map]

theorem eatchar_comma (s : List Char) : eatchar (',' :: s) ',' = (true, s) := by
  simp [eatchar, strspn, List.takeWhile, whitesp, cur, NUL]

theorem eatchar_nil (c : Char) (hc : c ≠ NUL) : eatchar [] c = (false, []) := by
  unfold eatchar
  rw [if_pos hc]
  have : (cur ([] : List Char)) ≠ c := fun h => hc h.symm
  simp only [strspn, List.takeWhile_nil, List.length_nil, List.drop_nil]
  rw [if_neg this]

theorem dbtext_length (items : List DbItem) (tail : List Char) :
    items.length + tail.length ≤ (dbtext items tail).length := by
  induction items with
  | nil => simp [dbtext]
  | cons i rest ih =>
    simp only [dbtext, List.length_append, List.length_cons]
    omega

/-- The loop of `db` over operands that are each followed by a comma. -/
theorem dbloop_items (env : Env) (st : EvalSt) (herr : st.errmsg = none)
    (items : List DbItem) (hok : ∀ i ∈ items, i.ok env st) :
    ∀ (bytes : List Nat) (addr : Int) (tail : List Char) (k : Nat),
      -2147483648 ≤ addr → addr < 2147483648 →
      dbloop env (k + items.length)
          { bytes := bytes, next := dbtext items tail, addr := addr, st := st }
        = dbloop env k { bytes := bytes ++ dbbytes items, next := tail,
                         addr := wrap32 (addr + (dbbytes items).length), st := st } := by
  induction items with
  | nil =>
    intro bytes addr tail k h1 h2
    simp only [dbtext, dbbytes, List.length_nil, Nat.cast_zero, add_zero, List.append_nil,
      wrap32_id addr h1 h2]
  | cons i rest ih =>
    intro bytes addr tail k h1 h2
    have hstep := dbitem_ok env { bytes := bytes, next := [], addr := addr, st := st } i
      (',' :: dbtext rest tail) (hok i (List.mem_cons_self _ _)) (Or.inr rfl) herr h1 h2
    have hlen : k + (i :: rest).length = (k + rest.length) + 1 := by simp; omega
    rw [hlen, dbloop]
    have hstep1 : dbitem env ⟨bytes, dbtext (i :: rest) tail, addr, st⟩
        = some ⟨bytes ++ i.bytes, ',' :: dbtext rest tail, wrap32 (addr + i.bytes.length), st⟩ :=
      hstep
    rw [hstep1]
    dsimp only
    have hm : morevalues ⟨bytes ++ i.bytes, ',' :: dbtext rest tail,
          wrap32 (addr + i.bytes.length), st⟩
        = (true, ⟨bytes ++ i.bytes, dbtext rest tail, wrap32 (addr + i.bytes.length), st⟩) := by
      unfold morevalues
      rw [if_pos herr, eatchar_comma]
    rw [hm]
    dsimp only
    rw [if_pos rfl, ih (fun j hj => hok j (List.mem_cons_of_mem _ hj)) _ _ tail k
      (wrap32_range _).1 (wrap32_range _).2, wrap32_add_wrap32]
    simp only [dbbytes, List.append_assoc, List.length_append, Nat.cast_add]
    rw [add_assoc]

/-- One turn of the loop of `db` on a resolved expression out of range. -/
theorem dbitem_range (env : Env) (e : Emit) (lead w rest : List Char) (v : Int)
    (hl : blank lead) (hv : DataValue env e.st w v) (hq1 : cur w ≠ '"') (hq2 : cur w ≠ '\'')
    (hr : v > 255 ∨ v < -128) (hrest : rest = [] ∨ cur rest = ',')
    (herr : e.st.errmsg = none) :
    dbitem env { e with next := lead ++ (w ++ rest) }
      = some { e with next := rest, st := { e.st with errmsg := some .OutOfRange } } := by
  have hws : cur (w ++ rest) ∉ whitesp := by
    cases w with
    | cons x xs => exact hv.1
    | nil =>
      rw [List.nil_append]
      rcases hrest with h | h
      · rw [h]
        exact fun h' => absurd h' (by decide)
      · rw [h]
        decide
  have hd := drop_lead lead (w ++ rest) hl hws
  have hc1 := cur_value_rest w rest hrest '"' hq1 (by decide) (by decide)
  have hc2 := cur_value_rest w rest hrest '\'' hq2 (by decide) (by decide)
  have hq : ¬ (cur (w ++ rest) = '"' ∨ cur (w ++ rest) = '\'') := by
    rintro (h | h)
    · exact hc1 h
    · exact hc2 h
  have hev := hv.2 e.addr rest hrest
  unfold dbitem
  dsimp only
  rw [hd, if_neg hq, hev]
  dsimp only
  rw [if_pos herr, if_pos hr]

theorem dbloop_last (env : Env) (e e1 : Emit) (k : Nat) (h : dbitem env e = some e1)
    (hm : (morevalues e1).1 = false) : dbloop env (k + 1) e = some (morevalues e1).2 := by
  rw [dbloop, h]
  dsimp only
  rw [if_neg (by rw [hm]; simp)]

/-- C21: `db` emits its operands in order, one byte each.  For a list of
operands separated by commas, each a resolved expression with a value in
[-128, 255] or a quoted string (without escapes), `db` returns with the bytes
`value & 0xff` for each expression and one byte per character for each string
appended in order, the PC advanced by their number and no error; and when such
operands are followed by a resolved expression outside [-128, 255], `db`
returns with the bytes of the operands before it only and the error
"Value out of range.". -/
theorem db_operands (env : Env) (e : Emit) (items : List DbItem) (last : DbItem)
    (hok : ∀ i ∈ items ++ [last], i.ok env e.st) (herr : e.st.errmsg = none)
    (ha1 : -2147483648 ≤ e.addr) (ha2 : e.addr < 2147483648) :
    db env { e with next := dbtext items last.text }
        = some { bytes := e.bytes ++ dbbytes (items ++ [last]), next := [],
                 addr := wrap32 (e.addr + (dbbytes (items ++ [last])).length), st := e.st } ∧
      ∀ lead w v tail, blank lead → DataValue env e.st w v → cur w ≠ '"' → cur w ≠ '\'' →
        (v > 255 ∨ v < -128) → (tail = [] ∨ cur tail = ',') →
        db env { e with next := dbtext items (lead ++ (w ++ tail)) }
          = some { bytes := e.bytes ++ dbbytes items, next := tail,
                   addr := wrap32 (e.addr + (dbbytes items).length),
                   st := { e.st with errmsg := some .OutOfRange } } := by
  have hitems : ∀ i ∈ items, i.ok env e.st := fun i hi => hok i (List.mem_append_left _ hi)
  have hlast : last.ok env e.st := hok last (by simp)
  have hbytes : ∀ l : List DbItem, dbbytes (l ++ [last]) = dbbytes l ++ last.bytes := by
    intro l
    induction l with
    | nil => simp [dbbytes]
    | cons i r ih => simp [dbbytes, ih]
  constructor
  · have hlen := dbtext_length items last.text
    obtain ⟨k, hk⟩ : ∃ k, (dbtext items last.text).length + 1 = (k + 1) + items.length :=
      ⟨(dbtext items last.text).length - items.length, by omega⟩
    unfold db
    dsimp only
    rw [hk, dbloop_items env e.st herr items hitems e.bytes e.addr last.text (k + 1) ha1 ha2]
    have hstep := dbitem_ok env ⟨e.bytes ++ dbbytes items, [],
      wrap32 (e.addr + (dbbytes items).length), e.st⟩ last [] hlast (Or.inl rfl) herr
      (wrap32_range _).1 (wrap32_range _).2
    rw [List.append_nil] at hstep
    rw [dbloop_last env _ _ k hstep (by
      unfold morevalues
      dsimp only
      rw [if_pos herr, eatchar_nil ',' (by decide)])]
    unfold morevalues
    dsimp only
    rw [if_pos herr, eatchar_nil ',' (by decide)]
    dsimp only
    rw [hbytes, wrap32_add_wrap32, List.length_append, Nat.cast_add, add_assoc,
      List.append_assoc]
  · intro lead w v tail hl hv hq1 hq2 hr htail
    have hlen := dbtext_length items (lead ++ (w ++ tail))
    obtain ⟨k, hk⟩ :
        ∃ k, (dbtext items (lead ++ (w ++ tail))).length + 1 = (k + 1) + items.length :=
      ⟨(dbtext items (lead ++ (w ++ tail))).length - items.length, by omega⟩
    unfold db
    dsimp only
    rw [hk, dbloop_items env e.st herr items hitems e.bytes e.addr _ (k + 1) ha1 ha2]
    have hstep := dbitem_range env ⟨e.bytes ++ dbbytes items, [],
      wrap32 (e.addr + (dbbytes items).length), e.st⟩ lead w tail v hl hv hq1 hq2 hr htail herr
    rw [dbloop_last env _ _ k hstep (by
      unfold morevalues
      dsimp only
      rw [if_neg (by simp)])]
    unfold morevalues
    dsimp only
    rw [if_neg (by simp)]

theorem dbitem_ok_decimal (env : Env) (st : EvalSt) (lead d : List Char) (hl : blank lead)
    (hne : d ≠ []) (hd : ∀ c ∈ d, c ∈ decdigits) (hlen : d.length ≤ 127)
    (h2 : atoi d ≤ 255) (h1 : -128 ≤ atoi d) : (DbItem.value lead d (atoi d)).ok env st := by
  have hc : cur d ∈ decdigits := by
    cases d with
    | nil => exact absurd rfl hne
    | cons c cs => exact hd c (List.mem_cons_self _ _)
  refine ⟨hl, dataValue_decimal env st d hne hd hlen, ?_, ?_, h1, h2⟩
  · intro h
    rw [h] at hc
    revert hc
    decide
  · intro h
    rw [h] at hc
    revert hc
    decide

theorem blank_nil : blank [] := fun _ h => absurd h (List.not_mem_nil _)

theorem blank_space : blank [' '] := by
  unfold blank
  decide

/-- The line `.db 1,2,"AB",3` at $8000 emits 01 02 41 42 03, and `.db 1,300,2`
emits 01 and stops at 300 with "Value out of range.". -/
theorem db_operands_witness :
    db sampleEnv ⟨[], " 1,2,\"AB\",3".toList, 32768, clearSt⟩
        = some ⟨[1, 2, 65, 66, 3], [], 32773, clearSt⟩ ∧
      db sampleEnv ⟨[], " 1,300,2".toList, 32768, clearSt⟩
        = some ⟨[1], ",2".toList, 32769, { clearSt with errmsg := some .OutOfRange }⟩ :=
  ⟨(db_operands sampleEnv ⟨[], [], 32768, clearSt⟩
      [.value [' '] ['1'] 1, .value [] ['2'] 2, .string [] '"' ['A', 'B']] (.value [] ['3'] 3)
      (fun i hi => by
        simp only [List.cons_append, List.nil_append, List.mem_cons, List.mem_singleton,
          List.not_mem_nil, or_false] at hi
        rcases hi with h | h | h | h
        · rw [h]
          exact dbitem_ok_decimal sampleEnv clearSt [' '] ['1'] blank_space (by decide)
            (by decide) (by decide) (by decide) (by decide)
        · rw [h]
          exact dbitem_ok_decimal sampleEnv clearSt [] ['2'] blank_nil (by decide)
            (by decide) (by decide) (by decide) (by decide)
        · rw [h]
          exact ⟨blank_nil, Or.inl rfl, by decide⟩
        · rw [h]
          exact dbitem_ok_decimal sampleEnv clearSt [] ['3'] blank_nil (by decide)
            (by decide) (by decide) (by decide) (by decide))
      rfl (by decide) (by decide)).1,
    (db_operands sampleEnv ⟨[], [], 32768, clearSt⟩ [.value [' '] ['1'] 1] (.value [] ['3'] 3)
      (fun i hi => by
        simp only [List.cons_append, List.nil_append, List.mem_cons, List.mem_singleton,
          List.not_mem_nil, or_false] at hi
        rcases hi with h | h
        · rw [h]
          exact dbitem_ok_decimal sampleEnv clearSt [' '] ['1'] blank_space (by decide)
            (by decide) (by decide) (by decide) (by decide)
        · rw [h]
          exact dbitem_ok_decimal sampleEnv clearSt [] ['3'] blank_nil (by decide)
            (by decide) (by decide) (by decide) (by decide))
      rfl (by decide) (by decide)).2 [] ['3', '0', '0'] 300 [',', '2'] blank_nil
      (dataValue_decimal sampleEnv clearSt ['3', '0', '0'] (by decide) (by decide) (by decide))
      (by decide) (by decide) (by decide) (Or.inr rfl)⟩

theorem fillloop_one (d : Int) (n : Nat) :
    ∀ (a : Int) (b : List Nat), -2147483648 ≤ a → a < 2147483648 →
      fillloop d 1 n (a, b) = (wrap32 (a + n), b ++ List.replicate n (and32 d 255).toNat) := by
  induction n with
  | zero =>
    intro a b h1 h2
    simp only [fillloop, Nat.cast_zero, add_zero, List.replicate_zero, List.append_nil,
      wrap32_id a h1 h2]
  | succ n ih =>
    intro a b h1 h2
    rw [fillloop, output_le_one, ih _ _ (wrap32_range _).1 (wrap32_range _).2,
      wrap32_add_wrap32, List.replicate_succ, List.append_assoc, List.singleton_append]
    rw [show a + 1 + (n : Int) = a + ((n + 1 : Nat) : Int) by push_cast; ring]

theorem fillloop_two (d : Int) (n : Nat) :
    ∀ (a : Int) (b : List Nat), -2147483648 ≤ a → a < 2147483648 →
      fillloop d 2 n (a, b)
        = (wrap32 (a + 2 * n),
           b ++ (List.replicate n [(and32 d 255).toNat, (and32 (shr32 d 8) 255).toNat]).flatten) := by
  induction n with
  | zero =>
    intro a b h1 h2
    simp only [fillloop, Nat.cast_zero, mul_zero, add_zero, List.replicate_zero,
      List.flatten_nil, List.append_nil, wrap32_id a h1 h2]
  | succ n ih =>
    intro a b h1 h2
    rw [fillloop, output_le_two, ih _ _ (wrap32_range _).1 (wrap32_range _).2,
      wrap32_add_wrap32, List.replicate_succ, List.flatten_cons, List.append_assoc]
    rw [show a + 2 + 2 * (n : Int) = a + 2 * ((n + 1 : Nat) : Int) by push_cast; ring]

/-- C22: for a resolved count `n` with 0 <= n <= 0x100000 and no fill operand,
the line `.dsb n` returns with exactly `n` bytes `defaultfiller & 0xff` written
and the PC advanced by `n` (for a default fill value in [-128, 255]); the
default fill value is 0 at the start of a pass; and a line `.fillvalue v` with a
resolved `v` sets it to `v`. -/
theorem dsb_fill (env : Env) (s : DataSt) (w rest : List Char) (n : Int) (nap : Bool)
    (hcount : eval { env with addr := s.addr } w WHOLEEXP ⟨none, false, s.st.needanotherpass⟩
      = some (n, rest, ⟨none, false, nap⟩))
    (hnofill : (eatchar rest ',').1 = false) (hn1 : 0 ≤ n) (hn2 : n ≤ 1048576)
    (hd1 : -128 ≤ s.defaultfiller) (hd2 : s.defaultfiller ≤ 255)
    (ha1 : -2147483648 ≤ s.addr) (ha2 : s.addr < 2147483648) :
    dataline env .DSB w s
        = some { s with bytes := s.bytes ++
                          List.replicate n.toNat (and32 s.defaultfiller 255).toNat
                        addr := wrap32 (s.addr + n)
                        st := ⟨none, false, nap⟩ } ∧
      passbegin.defaultfiller = 0 ∧
      ∀ (w2 rest2 : List Char) (v : Int) (nap2 : Bool),
        eval { env with addr := s.addr } w2 WHOLEEXP ⟨none, false, s.st.needanotherpass⟩
          = some (v, rest2, ⟨none, false, nap2⟩) →
        dataline env .FILLVALUE w2 s
          = some { s with defaultfiller := v, st := ⟨none, false, nap2⟩ } := by
  refine ⟨?_, rfl, ?_⟩
  · have hn : ((n.toNat : Nat) : Int) = n := Int.toNat_of_nonneg hn1
    unfold dataline dsb
    dsimp only
    rw [hcount]
    unfold filler fillvalue
    dsimp only
    rw [if_neg (by rw [hnofill]; simp)]
    dsimp only
    have hcnt : (if false = true ∨ n < 0 ∧ nap = true then 0 else n) = n :=
      if_neg (by simp; omega)
    have hrange : (s.defaultfiller > 255 ∨ s.defaultfiller < -128 ∨ n < 0 ∨ n > 1048576)
        = False := by
      apply eq_false
      rintro (h | h | h | h) <;> omega
    simp only [hcnt, hrange, and_false, ne_eq, not_true_eq_false, if_false,
      if_neg (not_lt.mpr hn1), fillloop_one _ _ _ _ ha1 ha2, hn, Option.map_some']
  · intro w2 rest2 v nap2 h
    unfold dataline fillval
    dsimp only
    rw [h]
    rfl

/-- After `.fillvalue $FF`, `.dsb 4` at $8000 writes FF FF FF FF; and the lines
`.org $8000 / .dsb 4 / .db 5` give 00 00 00 00 05 from the start of a pass, and
FF FF FF FF 05 when `.fillvalue $FF` comes first. -/
theorem dsb_fill_witness :
    dataline sampleEnv .DSB " 4".toList ⟨[], 32768, clearSt, 255⟩
        = some ⟨[255, 255, 255, 255], 32772, clearSt, 255⟩ ∧
      datalines sampleEnv [(.ORG, " $8000"), (.DSB, " 4"), (.DB, " 5")] passbegin
        = some ⟨[0, 0, 0, 0, 5], 32773, clearSt, 0⟩ ∧
      datalines sampleEnv [(.ORG, " $8000"), (.FILLVALUE, " $FF"), (.DSB, " 4"), (.DB, " 5")]
          passbegin
        = some ⟨[255, 255, 255, 255, 5], 32773, clearSt, 255⟩ :=
  ⟨(dsb_fill sampleEnv ⟨[], 32768, clearSt, 255⟩ " 4".toList [] 4 false (by decide) (by decide)
      (by decide) (by decide) (by decide) (by decide) (by decide) (by decide)).1,
    by decide, by decide⟩

theorem output_le_two_le (v a : Int) (b : List Nat) :
    output_le none v 2 (a, b) = (wrap32 (a + 2), b ++ lebytes v) := output_le_two v a b

/-- One turn of the loop of `dw` on a resolved expression in range. -/
theorem dwitem_value (env : Env) (e : Emit) (w rest : List Char) (v : Int)
    (hv : DataValue env e.st w v) (hr1 : -65536 ≤ v) (hr2 : v ≤ 65535)
    (hrest : rest = [] ∨ cur rest = ',') (herr : e.st.errmsg = none) :
    dwitem env { e with next := w ++ rest }
      = some { bytes := e.bytes ++ lebytes v, next := rest,
               addr := wrap32 (e.addr + 2), st := e.st } := by
  have hev := hv.2 e.addr rest hrest
  unfold dwitem
  dsimp only
  rw [hev]
  dsimp only
  rw [if_pos herr, if_neg (by omega), herr, output_le_two_le]

/-- The loop of `dw` over operands that are each followed by a comma. -/
theorem dwloop_items (env : Env) (st : EvalSt) (herr : st.errmsg = none)
    (items : List (List Char × Int))
    (hok : ∀ p ∈ items, DataValue env st p.1 p.2 ∧ -65536 ≤ p.2 ∧ p.2 ≤ 65535) :
    ∀ (bytes : List Nat) (addr : Int) (tail : List Char) (k : Nat),
      -2147483648 ≤ addr → addr < 2147483648 →
      dwloop env (k + items.length)
          { bytes := bytes, next := dwtext items tail, addr := addr, st := st }
        = dwloop env k { bytes := bytes ++ dwbytes items, next := tail,
                         addr := wrap32 (addr + (dwbytes items).length), st := st } := by
  induction items with
  | nil =>
    intro bytes addr tail k h1 h2
    simp only [dwtext, dwbytes, List.length_nil, Nat.cast_zero, add_zero, List.append_nil,
      wrap32_id addr h1 h2]
  | cons i rest ih =>
    intro bytes addr tail k h1 h2
    obtain ⟨hv, hr1, hr2⟩ := hok i (List.mem_cons_self _ _)
    have hstep := dwitem_value env { bytes := bytes, next := [], addr := addr, st := st } i.1
      (',' :: dwtext rest tail) i.2 hv hr1 hr2 (Or.inr rfl) herr
    have hlen : k + (i :: rest).length = (k + rest.length) + 1 := by simp; omega
    rw [hlen, dwloop]
    have hstep1 : dwitem env ⟨bytes, dwtext (i :: rest) tail, addr, st⟩
        = some ⟨bytes ++ lebytes i.2, ',' :: dwtext rest tail, wrap32 (addr + 2), st⟩ :=
      hstep
    rw [hstep1]
    dsimp only
    have hm : morevalues ⟨bytes ++ lebytes i.2, ',' :: dwtext rest tail, wrap32 (addr + 2), st⟩
        = (true, ⟨bytes ++ lebytes i.2, dwtext rest tail, wrap32 (addr + 2), st⟩) := by
      unfold morevalues
      rw [if_pos herr, eatchar_comma]
    rw [hm]
    dsimp only
    rw [if_pos rfl, ih (fun j hj => hok j (List.mem_cons_of_mem _ hj)) _ _ tail k
      (wrap32_range _).1 (wrap32_range _).2, wrap32_add_wrap32]
    simp only [dwbytes, lebytes, List.append_assoc, List.length_append, List.length_cons,
      List.length_nil, Nat.cast_add, Nat.cast_one, Nat.cast_zero]
    rw [show addr + 2 + ((dwbytes rest).length : Int)
      = addr + (0 + 1 + 1 + ((dwbytes rest).length : Int)) by ring]

theorem dwtext_length (items : List (List Char × Int)) (tail : List Char) :
    items.length + tail.length ≤ (dwtext items tail).length := by
  induction items with
  | nil => simp [dwtext]
  | cons i rest ih =>
    simp only [dwtext, List.length_append, List.length_cons]
    omega

theorem dwloop_last (env : Env) (e e1 : Emit) (k : Nat) (h : dwitem env e = some e1)
    (hm : (morevalues e1).1 = false) : dwloop env (k + 1) e = some (morevalues e1).2 := by
  rw [dwloop, h]
  dsimp only
  rw [if_neg (by rw [hm]; simp)]

/-- C23: multi-byte output is little-endian.  `dw` on resolved operands with
values in [-65536, 65535] returns with, for each operand in order, the byte
`v & 0xff` followed by `(v >> 8) & 0xff`; an instruction whose mode has a
two-byte operand is written as the opcode followed by the same pair when the PC
is at most $FFFF and no error is pending, and as the opcode followed by the low
byte alone otherwise (`output_buffer` returns after the first byte it stores
once an error is set); and `dsw` with a resolved count `n >= 0` and a value `v` in [-32768, 65535] (its operand,
or the default fill value) returns with that pair written `n` times. -/
theorem little_endian (env : Env) (e : Emit) (words : List (List Char × Int))
    (last : List Char × Int)
    (hok : ∀ p ∈ words ++ [last], DataValue env e.st p.1 p.2 ∧ -65536 ≤ p.2 ∧ p.2 ≤ 65535)
    (herr : e.st.errmsg = none) (ha1 : -2147483648 ≤ e.addr) (ha2 : e.addr < 2147483648) :
    dw env { e with next := dwtext words last.1 }
        = some { bytes := e.bytes ++ dwbytes (words ++ [last]), next := [],
                 addr := wrap32 (e.addr + (dwbytes (words ++ [last])).length), st := e.st } ∧
      (∀ (next s : List Char) (op type : Nat) (v : Int) (st : EvalSt),
        opsize.getD type 0 = 2 →
        (env.addr ≤ 65535 → st.errmsg = none →
          (emitop env next op type v s st).bytes = op :: lebytes v) ∧
        (env.addr > 65535 ∨ st.errmsg ≠ none →
          (emitop env next op type v s st).bytes = [op, (and32 v 255).toNat])) ∧
      ∀ (d n v : Int) (text rest rest2 : List Char) (nap nap2 : Bool),
        eval { env with addr := e.addr } text WHOLEEXP { e.st with dependant := false }
          = some (n, rest, ⟨none, false, nap⟩) →
        fillvalue { env with addr := e.addr } d rest ⟨none, false, nap⟩
          = some (v, rest2, ⟨none, false, nap2⟩) →
        0 ≤ n → -32768 ≤ v → v ≤ 65535 →
        dsw env d { e with next := text }
          = some { bytes := e.bytes ++ (List.replicate n.toNat (lebytes v)).flatten,
                   next := rest2, addr := wrap32 (e.addr + 2 * n),
                   st := ⟨none, false, nap2⟩ } := by
  have hitems : ∀ p ∈ words, DataValue env e.st p.1 p.2 ∧ -65536 ≤ p.2 ∧ p.2 ≤ 65535 :=
    fun i hi => hok i (List.mem_append_left _ hi)
  obtain ⟨hv, hr1, hr2⟩ := hok last (by simp)
  have hbytes : ∀ l : List (List Char × Int),
      dwbytes (l ++ [last]) = dwbytes l ++ lebytes last.2 := by
    intro l
    induction l with
    | nil => simp [dwbytes]
    | cons i r ih => simp [dwbytes, ih]
  refine ⟨?_, ?_, ?_⟩
  · have hlen := dwtext_length words last.1
    obtain ⟨k, hk⟩ : ∃ k, (dwtext words last.1).length + 1 = (k + 1) + words.length :=
      ⟨(dwtext words last.1).length - words.length, by omega⟩
    unfold dw
    dsimp only
    rw [hk, dwloop_items env e.st herr words hitems e.bytes e.addr last.1 (k + 1) ha1 ha2]
    have hstep := dwitem_value env ⟨e.bytes ++ dwbytes words, [],
      wrap32 (e.addr + (dwbytes words).length), e.st⟩ last.1 [] last.2 hv hr1 hr2 (Or.inl rfl)
      herr
    rw [List.append_nil] at hstep
    rw [dwloop_last env _ _ k hstep (by
      unfold morevalues
      dsimp only
      rw [if_pos herr, eatchar_nil ',' (by decide)])]
    unfold morevalues
    dsimp only
    rw [if_pos herr, eatchar_nil ',' (by decide)]
    dsimp only
    rw [hbytes, wrap32_add_wrap32, List.length_append, Nat.cast_add, add_assoc,
      List.append_assoc]
    rfl
  · intro next s op type v st h
    constructor
    · intro hpc herr0
      rw [emitop_two env next op type v s st h hpc herr0]
      show [op, (v % 256).toNat, (shr32 v 8 % 256).toNat] = op :: lebytes v
      unfold lebytes
      rw [and32_255_eq_emod, and32_255_eq_emod]
    · intro hp
      rw [emitop_two_pending env next op type v s st h hp, and32_255_eq_emod]
  · intro d n v text rest rest2 nap nap2 hcount hfill hn hv1 hv2
    have hnn : ((n.toNat : Nat) : Int) = n := Int.toNat_of_nonneg hn
    unfold dsw
    dsimp only
    rw [hcount]
    dsimp only
    have hcnt : (if false = true ∨ n < 0 ∧ nap = true then 0 else n) = n :=
      if_neg (by simp; omega)
    rw [hcnt, hfill]
    dsimp only
    have hrange : (v > 65535 ∨ v < -32768 ∨ n < 0) = False := by
      apply eq_false
      rintro (h | h | h) <;> omega
    simp only [hrange, and_false, ne_eq, not_true_eq_false, if_false,
      if_neg (not_lt.mpr hn), fillloop_two _ _ _ _ ha1 ha2, hnn]
    rfl

theorem dwvalue_decimal (env : Env) (st : EvalSt) (d : List Char) (hne : d ≠ [])
    (hd : ∀ c ∈ d, c ∈ decdigits) (hlen : d.length ≤ 127) (h1 : -65536 ≤ atoi d)
    (h2 : atoi d ≤ 65535) :
    DataValue env st (d, atoi d).1 (d, atoi d).2 ∧ -65536 ≤ (d, atoi d).2 ∧
      (d, atoi d).2 ≤ 65535 :=
  ⟨dataValue_decimal env st d hne hd hlen, h1, h2⟩

/-- The line `.dw 4660,65535` ($1234, $FFFF) at $8000 writes 34 12 FF FF, and
`.dsw 2,43981` ($ABCD) writes CD AB CD AB. -/
theorem little_endian_witness :
    dw sampleEnv ⟨[], "4660,65535".toList, 32768, clearSt⟩
        = some ⟨[52, 18, 255, 255], [], 32772, clearSt⟩ ∧
      dsw sampleEnv 0 ⟨[], "2,43981".toList, 32768, clearSt⟩
        = some ⟨[205, 171, 205, 171], [], 32772, clearSt⟩ :=
  have h := little_endian sampleEnv ⟨[], [], 32768, clearSt⟩ [(['4', '6', '6', '0'], 4660)]
    (['6', '5', '5', '3', '5'], 65535)
    (fun p hp => by
      simp only [List.cons_append, List.nil_append, List.mem_cons, List.mem_singleton,
        List.not_mem_nil, or_false] at hp
      rcases hp with h | h
      · rw [h]
        exact dwvalue_decimal sampleEnv clearSt ['4', '6', '6', '0'] (by decide) (by decide)
          (by decide) (by decide) (by decide)
      · rw [h]
        exact dwvalue_decimal sampleEnv clearSt ['6', '5', '5', '3', '5'] (by decide)
          (by decide) (by decide) (by decide) (by decide))
    rfl (by decide) (by decide)
  ⟨h.1, h.2.2 0 2 43981 "2,43981".toList ",43981".toList [] false false (by decide) (by decide)
    (by decide) (by decide) (by decide)⟩

/-- C26: a seek in enum mode is rejected and changes nothing else: when
`nooutput` is set, `output_seek(pos)` sets the error "Can't seek in enum mode."
and leaves every other global as it was, among them `filepos`, `filesize`,
`ips_outpos`, `addr`, the output buffer and the list of hunks. -/
theorem seek_enum_rejected (g : Out.Globals) (pos : Int) (h : g.nooutput = true) :
    Out.output_seek g pos = { g with errmsg := some .CantSeekEnum } ∧
      (Out.output_seek g pos).errmsg.map ErrMsg.text = some "Can't seek in enum mode." ∧
      (Out.output_seek g pos).filepos = g.filepos ∧
      (Out.output_seek g pos).filesize = g.filesize ∧
      (Out.output_seek g pos).ips_outpos = g.ips_outpos ∧
      (Out.output_seek g pos).addr = g.addr ∧
      (Out.output_seek g pos).outputbuff = g.outputbuff ∧
      (Out.output_seek g pos).hunks = g.hunks := by
  have h1 : Out.output_seek g pos = { g with errmsg := some .CantSeekEnum } := by
    unfold Out.output_seek
    simp only [h, if_true]
  rw [h1]
  exact ⟨rfl, rfl, rfl, rfl, rfl, rfl, rfl, rfl⟩

/-- In enum mode at file position 5, a seek to $20 only sets the error. -/
theorem seek_enum_rejected_witness :
    Out.output_seek { Out.sampleGlobals with nooutput := true, filepos := 5, filesize := 5,
                                             ips_outpos := 5, ftell := 5 } 32
      = { Out.sampleGlobals with nooutput := true, filepos := 5, filesize := 5, ips_outpos := 5,
                                 ftell := 5, errmsg := some .CantSeekEnum } :=
  (seek_enum_rejected { Out.sampleGlobals with nooutput := true, filepos := 5, filesize := 5,
                                               ips_outpos := 5, ftell := 5 } 32 rfl).1

theorem output_seek_open (g : Out.Globals) (pos : Int) (h : g.nooutput = false) :
    (Out.output_seek g pos).filepos = pos ∧ (Out.output_seek g pos).ips_outpos = pos ∧
      (Out.output_seek g pos).addr = g.addr := by
  unfold Out.output_seek
  rw [if_neg (by rw [h]; simp)]
  exact ⟨rfl, rfl, rfl⟩

/-- C25 (as the code has it): outside enum mode, for a resolved offset `v`,
`SKIPREL v` moves the file position to the previous position plus `v` and also
advances the PC by `v`, whereas `SEEKREL v` moves the file position in the same
way and leaves the PC as it was. -/
theorem skiprel_advances_pc (g : Out.Globals) (v : Int) (h : g.nooutput = false) :
    (Out.skiprel g v true).filepos = wrap32 (g.filepos + v) ∧
      (Out.skiprel g v true).addr = wrap32 (g.addr + v) ∧
      (Out.seekrel g v true).filepos = wrap32 (g.filepos + v) ∧
      (Out.seekrel g v true).addr = g.addr := by
  obtain ⟨h1, _, h3⟩ := output_seek_open g (wrap32 (g.filepos + v)) h
  refine ⟨?_, ?_, ?_, ?_⟩
  · show (Out.output_seek g (wrap32 (g.filepos + v))).filepos = _
    exact h1
  · show wrap32 ((Out.output_seek g (wrap32 (g.filepos + v))).addr + v) = _
    rw [h3]
  · show (Out.output_seek g (wrap32 (g.filepos + v))).filepos = _
    exact h1
  · show (Out.output_seek g (wrap32 (g.filepos + v))).addr = _
    exact h3

/-- At file position $10 and PC $8010, `SKIPREL 4` leaves the file position at
$14 and the PC at $8014; `SEEKREL 4` leaves the PC at $8010. -/
theorem skiprel_advances_pc_witness :
    (Out.skiprel { Out.sampleGlobals with filepos := 16, filesize := 32, ftell := 16,
                                          addr := 32784 } 4 true).filepos = 20 ∧
      (Out.skiprel { Out.sampleGlobals with filepos := 16, filesize := 32, ftell := 16,
                                            addr := 32784 } 4 true).addr = 32788 ∧
      (Out.seekrel { Out.sampleGlobals with filepos := 16, filesize := 32, ftell := 16,
                                            addr := 32784 } 4 true).filepos = 20 ∧
      (Out.seekrel { Out.sampleGlobals with filepos := 16, filesize := 32, ftell := 16,
                                            addr := 32784 } 4 true).addr = 32784 :=
  skiprel_advances_pc { Out.sampleGlobals with filepos := 16, filesize := 32, ftell := 16,
                                               addr := 32784 } 4 rfl

/-- C25, counterexample: after `SKIPREL 4` at PC $8010 the PC is $8014, not the
$8010 it was before the directive and still is after `SEEKREL 4`. -/
theorem skiprel_pc_counterexample :
    (Out.skiprel { Out.sampleGlobals with filepos := 16, filesize := 32, ftell := 16,
                                          addr := 32784 } 4 true).addr = 32788 ∧
      (Out.skiprel { Out.sampleGlobals with filepos := 16, filesize := 32, ftell := 16,
                                            addr := 32784 } 4 true).addr
        ≠ (Out.seekrel { Out.sampleGlobals with filepos := 16, filesize := 32, ftell := 16,
                                                addr := 32784 } 4 true).addr := by
  decide

theorem advance_spec (n : Nat) : ∀ g : Out.Globals, g.filepos + n < 2147483648 →
    -2147483648 ≤ g.filepos →
    Out.advance n g = { g with filepos := g.filepos + n
                               filesize := if g.filepos + n > g.filesize ∧ 0 < n
                                 then g.filepos + n else g.filesize } := by
  induction n with
  | zero =>
    intro g _ _
    simp [Out.advance]
  | succ n ih =>
    intro g h1 h2
    have hw : wrap32 (g.filepos + 1) = g.filepos + 1 := wrap32_id _ (by omega) (by push_cast at h1; omega)
    have step : Out.advance (n + 1) g
        = Out.advance n { g with filepos := wrap32 (g.filepos + 1)
                                 filesize := if wrap32 (g.filepos + 1) > g.filesize
                                   then wrap32 (g.filepos + 1) else g.filesize } := rfl
    rw [step, hw, ih _ (by show g.filepos + 1 + (n : Int) < _; push_cast at h1; omega)
      (by show -2147483648 ≤ g.filepos + 1; omega)]
    have e1 : g.filepos + 1 + (n : Int) = g.filepos + ((n + 1 : Nat) : Int) := by
      push_cast; ring
    simp only [e1]
    congr 1
    push_cast
    split_ifs <;> omega

theorem flush_output_frame (g : Out.Globals) (force : Bool) :
    (Out.flush_output g force).filepos = g.filepos ∧
      (Out.flush_output g force).filesize = g.filesize ∧
      (Out.flush_output g force).addr = g.addr ∧
      (Out.flush_output g force).errmsg = g.errmsg ∧
      (Out.flush_output g force).comparefiller = g.comparefiller ∧
      (Out.flush_output g force).defaultfiller = g.defaultfiller ∧
      (Out.flush_output g force).genips = g.genips := by
  unfold Out.flush_output Out.flush_output_ips
  by_cases h : g.outputbuff.length ≥ Out.BUFFSIZE ∨ force = true ∨
      (g.genips = true ∧ g.outputbuff.length ≥ 65535)
  · rw [if_pos h]
    by_cases h1 : g.genips = true <;> by_cases h2 : g.outputfile = true <;>
      simp [h1, h2]
  · rw [if_neg h]
    exact ⟨rfl, rfl, rfl, rfl, rfl, rfl, rfl⟩

theorem flush_output_idle (g : Out.Globals) (h : g.outputbuff.length < Out.BUFFSIZE) :
    Out.flush_output g false = g := by
  unfold Out.flush_output
  rw [if_neg]
  rintro (h1 | h1 | ⟨_, h1⟩)
  · omega
  · exact absurd h1 (by simp)
  · unfold Out.BUFFSIZE at h
    omega

theorem output_buffer_frame (p : List Nat) :
    ∀ (i : Nat) (g : Out.Globals),
      (Out.output_buffer p i g).filepos = g.filepos ∧
        (Out.output_buffer p i g).filesize = g.filesize ∧
        (Out.output_buffer p i g).addr = g.addr := by
  induction p with
  | nil => intro i g; exact ⟨rfl, rfl, rfl⟩
  | cons x rest ih =>
    intro i g
    rw [Out.output_buffer]
    split
    · exact ⟨rfl, rfl, rfl⟩
    · obtain ⟨f1, f2, f3, _⟩ :=
        flush_output_frame { g with outputbuff := g.outputbuff ++ [x] } false
      dsimp only
      split
      · exact ⟨f1, f2, f3⟩
      · obtain ⟨i1, i2, i3⟩ := ih (i + 1)
          (Out.flush_output { g with outputbuff := g.outputbuff ++ [x] } false)
        exact ⟨i1.trans f1, i2.trans f2, i3.trans f3⟩

/-- Without compare mode, without a pending error and with room in the buffer,
`output_buffer` appends the bytes to the buffer. -/
theorem output_buffer_plain (p : List Nat) :
    ∀ (i : Nat) (g : Out.Globals), g.comparefiller = false → g.errmsg = none →
      g.outputbuff.length + p.length < Out.BUFFSIZE →
      Out.output_buffer p i g = { g with outputbuff := g.outputbuff ++ p } := by
  induction p with
  | nil =>
    intro i g _ _ _
    simp [Out.output_buffer]
  | cons x rest ih =>
    intro i g hc he hl
    simp only [List.length_cons] at hl
    rw [Out.output_buffer, if_neg (by rw [hc]; simp),
      flush_output_idle _ (by simp only [List.length_append, List.length_singleton]; omega)]
    dsimp only
    rw [if_neg (by rw [he]; simp), ih (i + 1) { g with outputbuff := g.outputbuff ++ [x] } hc he
      (by simp only [List.length_append, List.length_singleton]; omega)]
    simp

theorem output_file_idle (g : Out.Globals) (h : g.nooutput = true ∨ g.oldpass = g.pass) :
    Out.output_file g = g := by
  unfold Out.output_file
  rcases h with h | h
  · rw [if_pos h]
  · by_cases hn : g.nooutput = true
    · rw [if_pos hn]
    · rw [if_neg hn, if_neg (by simp [h])]

/-- C24, counterexample: in compare mode, with the byte 07 committed at file
offset 0 and fill value 0, `output(p, 1, DATA)` with `p = 09` outside enum mode
advances the PC and the file position by 1 but appends nothing: the buffer and
the hunks are as before and the error "Compare failed" is set. -/
theorem output_compare_counterexample :
    Out.output Out.compareGlobals [9] 1
      = { Out.compareGlobals with addr := 32769, filepos := 1, filesize := 1,
                                  errmsg := some (.CompFailed 0 7) } := by
  decide

/-- The first byte of a write in compare mode: the byte looked up is the one
at `filepos`, the offset stored in the message is `filepos + outcount`. -/
theorem output_buffer_compare (g : Out.Globals) (x : Nat) (rest : List Nat)
    (hc : g.comparefiller = true) (h1 : Out.get_cmp_value g g.filepos ≠ g.defaultfiller)
    (h2 : Out.get_cmp_value g g.filepos ≥ 0) :
    Out.output_buffer (x :: rest) 0 g
      = { g with errmsg := some (.CompFailed (g.filepos + g.outputbuff.length)
                                  (Out.get_cmp_value g g.filepos)) } := by
  have h0 : g.filepos + ((0 : Nat) : Int) = g.filepos := by simp
  rw [Out.output_buffer, h0, if_pos ⟨hc, h1, h2⟩]

/-- C27: the offset in the "Compare failed" message is not the offset of the
mismatching byte.  After `01 02 03 07` is committed at offsets 0 to 3 and
`01 02 03` is written again (still in the buffer), the file position is 3; a
write of `09` in compare mode looks up offset 3, finds 07 there, which differs
from the fill value 0, and fails, but the message says
"Byte at 0x000006 was 0x7.": offset 6, where no byte is committed. -/
theorem compare_offset_divergence :
    Out.pendingGlobals.filepos = 3 ∧ Out.pendingGlobals.outputbuff = [1, 2, 3] ∧
      Out.get_cmp_value Out.pendingGlobals 3 = 7 ∧
      Out.get_cmp_value Out.pendingGlobals 6 = -1 ∧
      (Out.output { Out.pendingGlobals with comparefiller := true } [9] 1).errmsg
        = some (.CompFailed 6 7) ∧
      (ErrMsg.CompFailed 6 7).text = "Compare failed. Byte at 0x000006 was 0x7." := by
  decide

set_option maxRecDepth 100000

/-- C32: the example does not give the two hunks of the specification.  Each
seek past the end of the file pads the gap with fill bytes through `output`, so
the padding is still in the buffer when `output_seek` sets `ips_outpos` to the
seek target; the next flush records padding and data together in one hunk that
starts at the seek target.  For `.seekabs $10 / .db 1,1,1 / .seekabs $20 /
.db 2,2,2,2 / .seekabs $11 / .db 9` the hunks at the end of the pass are
(offset $10, 16 zeros then 01 01 01), (offset $20, 13 zeros then 02 02 02 02) and
(offset $11, 09); simplification leaves three hunks, (offset $10, length 1, byte
00), (offset $11, 09) and the second one, and not the hunks (offset $10,
01 09 01) and (offset $20, 02 02 02 02). -/
theorem patch_example_hunks :
    Out.patchhunks Out.passGlobals Out.patchExample
        = [Out.malloc_ips_hunk_regular 16 (List.replicate 16 0 ++ [1, 1, 1]) 19,
           Out.malloc_ips_hunk_regular 32 (List.replicate 13 0 ++ [2, 2, 2, 2]) 17,
           Out.malloc_ips_hunk_regular 17 [9] 1] ∧
      Out.simplify 4 (Out.patchhunks Out.passGlobals Out.patchExample)
        = some [{ Out.malloc_ips_hunk_regular 16 (List.replicate 16 0 ++ [1, 1, 1]) 19 with
                  length := 1 },
                Out.malloc_ips_hunk_regular 17 [9] 1,
                Out.malloc_ips_hunk_regular 32 (List.replicate 13 0 ++ [2, 2, 2, 2]) 17] ∧
      Out.simplify 4 (Out.patchhunks Out.passGlobals Out.patchExample)
        ≠ some [Out.malloc_ips_hunk_regular 16 [1, 9, 1] 3,
                Out.malloc_ips_hunk_regular 32 [2, 2, 2, 2] 4] ∧
      (List.foldl Out.patchline Out.passGlobals [.seekabs 16]).errmsg = some .CantSeek :=
  have h : Out.simplify 4 (Out.patchhunks Out.passGlobals Out.patchExample)
      = some [{ Out.malloc_ips_hunk_regular 16 (List.replicate 16 0 ++ [1, 1, 1]) 19 with
                length := 1 },
              Out.malloc_ips_hunk_regular 17 [9] 1,
              Out.malloc_ips_hunk_regular 32 (List.replicate 13 0 ++ [2, 2, 2, 2]) 17] := rfl
  ⟨rfl, h, by rw [h]; decide, rfl⟩

/-- C31: simplification does not preserve the patched image.  A hunk at offsets
0 to 5 with bytes 01 .. 06 followed by a hunk at offsets 2 and 3 with bytes
09 09 gives the image 01 02 09 09 05 06; simplification cuts the first hunk to
its part before the second one, and the bytes 05 06 at offsets 4 and 5 are gone.
A hunk at offsets 2 to 5 with bytes 01 02 03 04 followed by a hunk at offsets 0
to 2 with bytes 09 09 09 gives the image 09 09 09 02 03 04; simplification
shortens the first hunk from the left without moving its offset, and the image
becomes 09 09 02 03 04 with nothing at offset 5. -/
theorem simplify_changes_image :
    Out.simplify 4 [Out.malloc_ips_hunk_regular 0 [1, 2, 3, 4, 5, 6] 6,
                    Out.malloc_ips_hunk_regular 2 [9, 9] 2]
        = some [{ Out.malloc_ips_hunk_regular 0 [1, 2, 3, 4, 5, 6] 6 with length := 2 },
                Out.malloc_ips_hunk_regular 2 [9, 9] 2] ∧
      [0, 1, 2, 3, 4, 5].map (Out.image [Out.malloc_ips_hunk_regular 0 [1, 2, 3, 4, 5, 6] 6,
                                         Out.malloc_ips_hunk_regular 2 [9, 9] 2])
        = [some 1, some 2, some 9, some 9, some 5, some 6] ∧
      [0, 1, 2, 3, 4, 5].map
          (Out.image [{ Out.malloc_ips_hunk_regular 0 [1, 2, 3, 4, 5, 6] 6 with length := 2 },
                      Out.malloc_ips_hunk_regular 2 [9, 9] 2])
        = [some 1, some 2, some 9, some 9, none, none] ∧
      Out.simplify 4 [Out.malloc_ips_hunk_regular 2 [1, 2, 3, 4] 4,
                      Out.malloc_ips_hunk_regular 0 [9, 9, 9] 3]
        = some [{ Out.malloc_ips_hunk_regular 0 [9, 9, 9] 3 with length := 2 },
                { Out.malloc_ips_hunk_regular 2 [2, 3, 4, 4] 4 with length := 3 }] ∧
      [0, 1, 2, 3, 4, 5].map (Out.image [Out.malloc_ips_hunk_regular 2 [1, 2, 3, 4] 4,
                                         Out.malloc_ips_hunk_regular 0 [9, 9, 9] 3])
        = [some 9, some 9, some 9, some 2, some 3, some 4] ∧
      [0, 1, 2, 3, 4, 5].map
          (Out.image [{ Out.malloc_ips_hunk_regular 0 [9, 9, 9] 3 with length := 2 },
                      { Out.malloc_ips_hunk_regular 2 [2, 3, 4, 4] 4 with length := 3 }])
        = [some 9, some 9, some 2, some 3, some 4, none] := by
  decide

/-- Once `ips_changed` is set, a traversal leaves it set. -/
theorem simplify_changed (fuel : Nat) :
    ∀ (l l1 : List Out.ips_hunk) (c : Bool),
      Out.ips_simplify_hunk fuel l true = some (l1, c) → c = true := by
  induction fuel with
  | zero => intro l l1 c h; simp [Out.ips_simplify_hunk] at h
  | succ fuel ih =>
    intro l l1 c h
    cases l with
    | nil =>
      simp only [Out.ips_simplify_hunk, Option.some.injEq, Prod.mk.injEq] at h
      exact h.2.symm
    | cons a rest =>
      unfold Out.ips_simplify_hunk at h
      split at h
      · exact ih _ _ _ h
      · split at h
        · simp only [Option.some.injEq, Prod.mk.injEq] at h
          exact h.2.symm
        · rename_i n rest1
          split at h
          · simp only [Option.map_eq_some', Prod.mk.injEq] at h
            obtain ⟨r, hr, _, hc⟩ := h
            rw [← hc]
            exact ih _ r.1 r.2 hr
          · split at h
            · exact ih _ _ _ h
            · split at h
              · split at h
                · exact ih _ _ _ h
                · simp only [Option.map_eq_some', Prod.mk.injEq] at h
                  obtain ⟨r, hr, _, hc⟩ := h
                  rw [← hc]
                  exact ih _ r.1 r.2 hr
              · split at h
                · exact ih _ _ _ h
                · split at h
                  · simp only [Option.map_eq_some', Prod.mk.injEq] at h
                    obtain ⟨r, hr, _, hc⟩ := h
                    rw [← hc]
                    exact ih _ r.1 r.2 hr
                  · exact ih _ _ _ h

/-- A traversal that ends with `ips_changed` clear started with it clear, left
the list as it was, and the list is minimal. -/
theorem simplify_fixpoint (fuel : Nat) :
    ∀ (l l1 : List Out.ips_hunk) (ch : Bool),
      Out.ips_simplify_hunk fuel l ch = some (l1, false) →
      ch = false ∧ l1 = l ∧ Out.Simplified l := by
  induction fuel with
  | zero => intro l l1 c h; simp [Out.ips_simplify_hunk] at h
  | succ fuel ih =>
    intro l l1 ch h
    cases l with
    | nil =>
      simp only [Out.ips_simplify_hunk, Option.some.injEq, Prod.mk.injEq] at h
      exact ⟨h.2, h.1.symm, fun _ hh => absurd hh (List.not_mem_nil _), List.chain'_nil⟩
    | cons a rest =>
      unfold Out.ips_simplify_hunk at h
      split at h
      · exact absurd (simplify_changed _ _ _ _ h) (by simp)
      · rename_i hfirst
        have ha : a.suppress = 0 ∧ a.length ≠ 0 := by
          constructor
          · by_contra hc
            exact hfirst (Or.inl hc)
          · intro hc
            exact hfirst (Or.inr hc)
        split at h
        · simp only [Option.some.injEq, Prod.mk.injEq] at h
          refine ⟨h.2, h.1.symm, ?_, List.chain'_singleton _⟩
          intro x hx
          rw [List.mem_singleton] at hx
          rw [hx]
          exact ha
        · rename_i n rest1
          split at h
          · rename_i hsup
            simp only [Option.map_eq_some', Prod.mk.injEq] at h
            obtain ⟨r, hr, _, hc⟩ := h
            have hr' : Out.ips_simplify_hunk fuel (n :: rest1) ch = some (r.1, false) := by
              rw [hr, ← hc]
            obtain ⟨_, _, hs⟩ := ih _ _ _ hr'
            exact absurd (hs.1 n (List.mem_cons_self _ _)).1 hsup
          · split at h
            · exact absurd (simplify_changed _ _ _ _ h) (by simp)
            · split at h
              · rename_i hgt
                split at h
                · exact absurd (simplify_changed _ _ _ _ h) (by simp)
                · rename_i hov
                  simp only [Option.map_eq_some', Prod.mk.injEq] at h
                  obtain ⟨r, hr, hl, hc⟩ := h
                  have hr' : Out.ips_simplify_hunk fuel (n :: rest1) ch
                      = some (r.1, false) := by
                    rw [hr, ← hc]
                  obtain ⟨h1, h2, hs⟩ := ih _ _ _ hr'
                  refine ⟨h1, by rw [← hl, h2], ?_, ?_⟩
                  · intro x hx
                    rcases List.mem_cons.mp hx with hx | hx
                    · rw [hx]
                      exact ha
                    · exact hs.1 x hx
                  · exact List.Chain'.cons ⟨by omega, by omega⟩ hs.2
              · split at h
                · exact absurd (simplify_changed _ _ _ _ h) (by simp)
                · split at h
                  · simp only [Option.map_eq_some', Prod.mk.injEq] at h
                    obtain ⟨r, hr, _, hc⟩ := h
                    have := simplify_changed _ _ r.1 r.2 hr
                    rw [hc] at this
                    exact absurd this (by simp)
                  · exact ih _ _ _ h

/-- The loop of `ips_write` stops only on a minimal list, which a further
traversal leaves alone. -/
theorem simplify_stops (fuel : Nat) :
    ∀ (l l1 : List Out.ips_hunk), Out.simplify fuel l = some l1 →
      Out.Simplified l1 ∧
        Out.ips_simplify_hunk (2 * l1.length + 2) l1 false = some (l1, false) := by
  induction fuel with
  | zero => intro l l1 h; simp [Out.simplify] at h
  | succ fuel ih =>
    intro l l1 h
    unfold Out.simplify at h
    split at h
    · exact absurd h (by simp)
    · rename_i l2 changed heq
      by_cases hc : changed = true
      · rw [if_pos hc] at h
        exact ih _ _ h
      · rw [if_neg hc] at h
        have hl : l2 = l1 := Option.some.inj h
        have hf : changed = false := by simpa using hc
        rw [hf, hl] at heq
        obtain ⟨_, h2, hs⟩ := simplify_fixpoint _ _ _ _ heq
        subst h2
        exact ⟨hs, heq⟩

/-- C30: patch minimality.  When the simplification loop of `ips_write` stops,
which it does after a traversal that made no change, the list holds no
suppressed hunk and no hunk of length 0, and every two consecutive hunks `h`,
`n` satisfy `h.offset + h.length <= n.offset` and `h.offset < n.offset`;
a further traversal leaves this list as it is. -/
theorem patch_minimality (fuel : Nat) (l l1 : List Out.ips_hunk)
    (h : Out.simplify fuel l = some l1) :
    (∀ x ∈ l1, x.suppress = 0 ∧ x.length ≠ 0) ∧
      l1.Chain' (fun x n => x.offset + x.length ≤ n.offset ∧ x.offset < n.offset) ∧
      Out.ips_simplify_hunk (2 * l1.length + 2) l1 false = some (l1, false) :=
  ⟨(simplify_stops fuel l l1 h).1.1, (simplify_stops fuel l l1 h).1.2,
    (simplify_stops fuel l l1 h).2⟩

/-- The hunks (offset 32, 4 bytes), (offset 16, 3 bytes, suppressed), (offset
16, 3 bytes) and (offset 17, 1 byte): the loop stops with the hunks at offsets
16, 17 and 32, of lengths 1, 1 and 4. -/
theorem patch_minimality_witness :
    Out.simplify 4 [Out.malloc_ips_hunk_regular 32 [2, 2, 2, 2] 4,
                    { Out.malloc_ips_hunk_regular 16 [5, 5, 5] 3 with suppress := 1 },
                    Out.malloc_ips_hunk_regular 16 [1, 1, 1] 3,
                    Out.malloc_ips_hunk_regular 17 [9] 1]
        = some [{ Out.malloc_ips_hunk_regular 16 [1, 1, 1] 3 with length := 1 },
                Out.malloc_ips_hunk_regular 17 [9] 1,
                Out.malloc_ips_hunk_regular 32 [2, 2, 2, 2] 4] ∧
      ∀ x ∈ [{ Out.malloc_ips_hunk_regular 16 [1, 1, 1] 3 with length := 1 },
              Out.malloc_ips_hunk_regular 17 [9] 1,
              Out.malloc_ips_hunk_regular 32 [2, 2, 2, 2] 4],
        x.suppress = 0 ∧ x.length ≠ 0 :=
  ⟨rfl, (patch_minimality 4 [Out.malloc_ips_hunk_regular 32 [2, 2, 2, 2] 4,
      { Out.malloc_ips_hunk_regular 16 [5, 5, 5] 3 with suppress := 1 },
      Out.malloc_ips_hunk_regular 16 [1, 1, 1] 3,
      Out.malloc_ips_hunk_regular 17 [9] 1] _ rfl).1⟩

theorem cmploop_suppress (loc : Int) (l : List Out.ips_hunk) :
    ∀ v, Out.cmploop loc (l.map (fun h => { h with suppress := 1 })) v = Out.cmploop loc l v := by
  induction l with
  | nil => intro v; rfl
  | cons a rest ih =>
    intro v
    simp only [List.map_cons, Out.cmploop]
    split
    · cases a.contents <;> exact ih _
    · exact ih _

theorem simplify_suppressed (l : List Out.ips_hunk) (hl : ∀ h ∈ l, h.suppress ≠ 0) :
    ∀ (fuel : Nat) (ch : Bool), l.length + 1 ≤ fuel →
      Out.ips_simplify_hunk fuel l ch = some ([], if l = [] then ch else true) := by
  induction l with
  | nil =>
    intro fuel ch hf
    obtain ⟨k, rfl⟩ : ∃ k, fuel = k + 1 := ⟨fuel - 1, by omega⟩
    simp [Out.ips_simplify_hunk]
  | cons a rest ih =>
    intro fuel ch hf
    obtain ⟨k, rfl⟩ : ∃ k, fuel = k + 1 := ⟨fuel - 1, by omega⟩
    unfold Out.ips_simplify_hunk
    rw [if_pos (Or.inl (hl a (List.mem_cons_self _ _))),
      ih (fun h hh => hl h (List.mem_cons_of_mem _ hh)) k true
        (by simp only [List.length_cons] at hf; omega)]
    simp

theorem write_hunks_suppressed (l : List Out.ips_hunk) (hl : ∀ h ∈ l, h.suppress ≠ 0) :
    Out.write_hunks l = [] := by
  induction l with
  | nil => rfl
  | cons a rest ih =>
    rw [Out.write_hunks, if_pos (hl a (List.mem_cons_self _ _))]
    exact ih (fun h hh => hl h (List.mem_cons_of_mem _ hh))

/-- C28 (as the code has it): in patch mode `CLEARPATCH` first flushes the output
buffer, which appends the hunks of the bytes still in it, and then marks every
hunk of the list as suppressed without removing or altering any: the list is
the previous one followed by the hunks of the buffer, with the same offsets,
lengths and contents.  When the buffer is empty the list has the same hunks as
before and `ips_get_cmp_value` returns the same value as before at every
location.  None of the hunks is written by `ips_write`, whose simplification
removes them all. -/
theorem clearpatch_suppresses (g : Out.Globals) (hg : g.genips = true) :
    (Out.clearpatch g).hunks
        = (g.hunks ++ Out.chunks g.outputbuff g.ips_outpos).map
            (fun h => { h with suppress := 1 }) ∧
      (g.outputbuff = [] →
        (Out.clearpatch g).hunks = g.hunks.map (fun h => { h with suppress := 1 }) ∧
          ∀ loc, Out.ips_get_cmp_value (Out.clearpatch g).hunks loc
            = Out.ips_get_cmp_value g.hunks loc) ∧
      Out.write_hunks (Out.clearpatch g).hunks = [] ∧
      Out.simplify 2 (Out.clearpatch g).hunks = some [] := by
  have h1 : (Out.clearpatch g).hunks
      = (g.hunks ++ Out.chunks g.outputbuff g.ips_outpos).map
          (fun h => { h with suppress := 1 }) := by
    unfold Out.clearpatch Out.flush_output Out.flush_output_ips
    rw [if_pos hg]
    dsimp only
    rw [if_pos (Or.inr (Or.inl rfl)), if_pos hg]
    by_cases hf : g.outputfile = true
    · simp only [hf, if_true]
    · have hf0 : g.outputfile = false := by simpa using hf
      simp only [hf0, Bool.false_eq_true, if_false]
  have hsup : ∀ h ∈ (Out.clearpatch g).hunks, h.suppress ≠ 0 := by
    intro h hh
    rw [h1, List.mem_map] at hh
    obtain ⟨x, _, hx⟩ := hh
    rw [← hx]
    show (1 : Int) ≠ 0
    decide
  refine ⟨h1, ?_, write_hunks_suppressed _ hsup, ?_⟩
  · intro hb
    have hc : Out.chunks g.outputbuff g.ips_outpos = [] := by
      rw [hb]
      rfl
    rw [h1, hc, List.append_nil]
    exact ⟨rfl, fun loc => cmploop_suppress loc g.hunks (-1)⟩
  · unfold Out.simplify
    rw [simplify_suppressed _ hsup _ false (by omega)]
    dsimp only
    by_cases he : (Out.clearpatch g).hunks = []
    · rw [if_pos he, if_neg (by simp)]
    · rw [if_neg he, if_pos rfl]
      unfold Out.simplify
      rfl

/-- With the hunk (offset 0, byte 07) in the list and an empty buffer,
`CLEARPATCH` leaves that hunk, suppressed, and offset 0 still reads 07. -/
theorem clearpatch_suppresses_witness :
    (Out.clearpatch Out.compareGlobals).hunks
        = [{ Out.malloc_ips_hunk_regular 0 [7] 1 with suppress := 1 }] ∧
      Out.ips_get_cmp_value (Out.clearpatch Out.compareGlobals).hunks 0 = 7 :=
  ⟨((clearpatch_suppresses Out.compareGlobals rfl).2.1 rfl).1,
    (((clearpatch_suppresses Out.compareGlobals rfl).2.1 rfl).2 0).trans rfl⟩

/-- C28, counterexample: with the bytes `01 02 03` still in the output buffer
(file offsets 0 to 2, where 01 02 03 07 is committed), the list holds one hunk
before `CLEARPATCH` and two after it, and with `05` in the buffer of an empty
patch offset 0 reads -1 before and 05 after. -/
theorem clearpatch_flush_counterexample :
    Out.pendingGlobals.hunks.length = 1 ∧
      (Out.clearpatch Out.pendingGlobals).hunks.length = 2 ∧
      Out.ips_get_cmp_value (Out.output Out.sampleGlobals [5] 1).hunks 0 = -1 ∧
      Out.ips_get_cmp_value (Out.clearpatch (Out.output Out.sampleGlobals [5] 1)).hunks 0
        = 5 := by
  decide

theorem be3_value (o : Int) (h0 : 0 ≤ o) (h1 : o < 16777216) :
    ∃ a b c : Nat, Out.be3 o = [a, b, c] ∧ ((a * 65536 + b * 256 + c : Nat) : Int) = o ∧
      a < 256 ∧ b < 256 ∧ c < 256 := by
  refine ⟨_, _, _, rfl, ?_, Nat.mod_lt _ (by decide), Nat.mod_lt _ (by decide),
    Nat.mod_lt _ (by decide)⟩
  have h2 : o % 18446744073709551616 = o := Int.emod_eq_of_lt h0 (by omega)
  rw [h2]
  have h3 : ((o.toNat : Nat) : Int) = o := Int.toNat_of_nonneg h0
  have h4 : o.toNat < 16777216 := by omega
  rw [← h3]
  norm_cast
  omega

theorem be2_value (n : Int) (h0 : 0 ≤ n) (h1 : n ≤ 65535) :
    ∃ a b : Nat, Out.be2 n = [a, b] ∧ a * 256 + b = n.toNat := by
  refine ⟨_, _, rfl, ?_⟩
  have h2 : n % 18446744073709551616 = n := Int.emod_eq_of_lt h0 (by omega)
  rw [h2]
  have h4 : n.toNat ≤ 65535 := by omega
  omega

theorem decode_records_step (fuel : Nat) (h : Out.ips_hunk) (rest : List Nat)
    (he : Out.Encodable h) (hne : h.offset ≠ 4542278) :
    Out.decode_records (fuel + 1) (Out.write_hunks [h] ++ rest)
      = (Out.decode_records fuel rest).map (fun l => Out.record h :: l) := by
  obtain ⟨hs, ho0, ho1, hl0, hl1, _, hc⟩ := he
  obtain ⟨a, b, c, e3, ev, ha, hb, hcc⟩ := be3_value h.offset ho0 ho1
  obtain ⟨s1, s2, e2, es⟩ := be2_value h.length (by omega) hl1
  have hneof : [a, b, c] ≠ Out.EOF := by
    intro heq
    have h1 : a = 69 ∧ b = 79 ∧ c = 70 := by
      have : [a, b, c] = [69, 79, 70] := heq
      simpa using this
    obtain ⟨r1, r2, r3⟩ := h1
    subst r1 r2 r3
    exact hne ev.symm
  have hlen : ((h.length.toNat : Nat) : Int) = h.length := Int.toNat_of_nonneg (by omega)
  have hpos : 0 < h.length.toNat := by omega
  cases hcon : h.contents with
  | some p =>
    have hp := hc p hcon
    have hw : Out.write_hunks [h] ++ rest
        = a :: b :: c :: s1 :: s2 :: (p.take h.length.toNat ++ rest) := by
      simp only [Out.write_hunks, hs, ne_eq, not_true_eq_false, if_false, hcon,
        Out.write_ips_hunk_regular, e3, e2, List.append_nil, List.cons_append,
        List.nil_append, List.append_assoc]
    rw [hw, Out.decode_records, if_neg hneof]
    have hpt : p.take h.length.toNat = p := List.take_of_length_le (by omega)
    simp only [es, hpt]
    rw [if_neg (by omega), if_neg (by rw [List.length_append]; omega)]
    have hd : (p ++ rest).drop h.length.toNat = rest := List.drop_left' hp
    have ht : (p ++ rest).take h.length.toNat = p := List.take_left' hp
    rw [hd, ht]
    congr 1
    funext l
    simp only [Out.record, hcon, ev, hlen, hpt]
  | none =>
    have hw : Out.write_hunks [h] ++ rest
        = a :: b :: c :: 0 :: 0 :: (s1 :: s2 :: h.rle_content :: rest) := by
      simp only [Out.write_hunks, hs, ne_eq, not_true_eq_false, if_false, hcon,
        Out.write_ips_hunk_rle, e3, e2, List.append_nil, List.cons_append,
        List.nil_append, List.append_assoc]
    rw [hw, Out.decode_records, if_neg hneof]
    simp only [Nat.zero_mul, Nat.add_zero, if_true, es]
    congr 1
    funext l
    simp only [Out.record, hcon, ev, hlen]

theorem write_hunks_cons (h : Out.ips_hunk) (rest : List Out.ips_hunk) :
    Out.write_hunks (h :: rest) = Out.write_hunks [h] ++ Out.write_hunks rest := by
  simp only [Out.write_hunks]
  split
  · rfl
  · cases h.contents <;> simp

theorem decode_records_all (l : List Out.ips_hunk)
    (hl : ∀ h ∈ l, Out.Encodable h ∧ h.offset ≠ 4542278) :
    ∀ fuel, l.length + 1 ≤ fuel →
      Out.decode_records fuel (Out.write_hunks l ++ Out.EOF) = some (l.map Out.record) := by
  induction l with
  | nil =>
    intro fuel hf
    obtain ⟨k, rfl⟩ : ∃ k, fuel = k + 1 := ⟨fuel - 1, by omega⟩
    rfl
  | cons h rest ih =>
    intro fuel hf
    obtain ⟨k, rfl⟩ : ∃ k, fuel = k + 1 := ⟨fuel - 1, by omega⟩
    obtain ⟨he, hne⟩ := hl h (List.mem_cons_self _ _)
    rw [write_hunks_cons, List.append_assoc, decode_records_step k h _ he hne,
      ih (fun x hx => hl x (List.mem_cons_of_mem _ hx)) k
        (by simp only [List.length_cons] at hf; omega)]
    rfl

theorem write_hunks_length (l : List Out.ips_hunk) (hl : ∀ h ∈ l, h.suppress = 0) :
    l.length ≤ (Out.write_hunks l).length := by
  induction l with
  | nil => simp
  | cons h rest ih =>
    have := ih (fun x hx => hl x (List.mem_cons_of_mem _ hx))
    rw [write_hunks_cons, List.length_append]
    have h1 : 1 ≤ (Out.write_hunks [h]).length := by
      simp only [Out.write_hunks, hl h (List.mem_cons_self _ _), ne_eq, not_true_eq_false,
        if_false]
      cases h.contents <;>
        simp [Out.write_ips_hunk_regular, Out.write_ips_hunk_rle, Out.be3]
    simp only [List.length_cons]
    omega

/-- C33 (as the format allows): for a simplified list of hunks with offsets
below 2^24 other than $454F46 and lengths from 1 to $FFFF, `ips_write` writes
the five bytes `PATCH`, then for each hunk in list order its record (offset in
three bytes and length in two, most significant byte first, and the payload; or
for a run-length hunk offset, two zero bytes, length in two bytes and the
byte), then the three bytes `EOF`; and reading this stream gives back exactly
the (offset, length, bytes) records of the list. -/
theorem patch_stream_decodes (fuel : Nat) (l : List Out.ips_hunk)
    (hs : Out.simplify fuel l = some l)
    (hl : ∀ h ∈ l, Out.Encodable h ∧ h.offset ≠ 4542278) :
    Out.ips_write fuel l = some (Out.PATCH ++ Out.write_hunks l ++ Out.EOF) ∧
      (∀ h ∈ l, Out.write_hunks [h]
        = match h.contents with
          | some c => Out.be3 h.offset ++ Out.be2 h.length ++ c.take h.length.toNat
          | none => Out.be3 h.offset ++ [0, 0] ++ Out.be2 h.length ++ [h.rle_content]) ∧
      Out.decode (Out.PATCH ++ Out.write_hunks l ++ Out.EOF) = some (l.map Out.record) := by
  refine ⟨?_, ?_, ?_⟩
  · unfold Out.ips_write
    rw [hs]
    rfl
  · intro h hh
    have hsup := (hl h hh).1.1
    simp only [Out.write_hunks, hsup, ne_eq, not_true_eq_false, if_false]
    cases h.contents <;> simp [Out.write_ips_hunk_regular, Out.write_ips_hunk_rle]
  · have hlen := write_hunks_length l (fun h hh => (hl h hh).1.1)
    unfold Out.decode
    have h5 : (Out.PATCH ++ Out.write_hunks l ++ Out.EOF).take 5 = Out.PATCH := by
      rw [List.append_assoc]
      exact List.take_left' rfl
    have hd : (Out.PATCH ++ Out.write_hunks l ++ Out.EOF).drop 5
        = Out.write_hunks l ++ Out.EOF := by
      rw [List.append_assoc]
      exact List.drop_left' rfl
    rw [if_pos h5, hd]
    apply decode_records_all l hl
    simp only [List.length_append]
    have : Out.PATCH.length = 5 := rfl
    omega

/-- The hunks (offset $10, 01 09 01) and (offset $20, 40 times 02) are written
as `PATCH`, 00 00 10 00 03 01 09 01, 00 00 20 00 00 00 28 02, `EOF`. -/
theorem patch_stream_decodes_witness :
    Out.ips_write 2 [Out.malloc_ips_hunk_regular 16 [1, 9, 1] 3,
                     Out.malloc_ips_hunk_rle 32 2 40]
      = some [80, 65, 84, 67, 72, 0, 0, 16, 0, 3, 1, 9, 1, 0, 0, 32, 0, 0, 0, 40, 2,
              69, 79, 70] ∧
      Out.decode [80, 65, 84, 67, 72, 0, 0, 16, 0, 3, 1, 9, 1, 0, 0, 32, 0, 0, 0, 40, 2,
                  69, 79, 70]
        = some [⟨16, 3, [1, 9, 1]⟩, ⟨32, 40, List.replicate 40 2⟩] :=
  have h := patch_stream_decodes 2 [Out.malloc_ips_hunk_regular 16 [1, 9, 1] 3,
      Out.malloc_ips_hunk_rle 32 2 40] rfl
    (fun x hx => by
      simp only [List.mem_cons, List.mem_singleton, List.not_mem_nil, or_false] at hx
      rcases hx with hx | hx <;> rw [hx] <;>
        exact ⟨⟨rfl, by decide, by decide, by decide, by decide, by decide,
          fun c hc => by cases hc <;> rfl⟩, by decide⟩)
  ⟨h.1, h.2.2⟩

/-- C33, counterexample: a hunk at offset $454F46, whose three offset bytes are
the letters `EOF`, is written as 45 4F 46 00 01 01 and read back as the end of
the patch: the stream decodes to no record at all. -/
theorem patch_stream_eof_offset :
    Out.ips_write 2 [Out.malloc_ips_hunk_regular 4542278 [1] 1]
        = some [80, 65, 84, 67, 72, 69, 79, 70, 0, 1, 1, 69, 79, 70] ∧
      Out.decode [80, 65, 84, 67, 72, 69, 79, 70, 0, 1, 1, 69, 79, 70] = some [] ∧
      [Out.malloc_ips_hunk_regular 4542278 [1] 1].map Out.record = [⟨4542278, 1, [1]⟩] := by
  decide

theorem maxrun_disjoint (buf : List Nat) (a b c d : Nat) (h1 : Out.IsMaxRun buf a b)
    (h2 : Out.IsMaxRun buf c d) (hac : a ≤ c) (hcb : c < b) : a = c ∧ b = d := by
  obtain ⟨ab, bn, eq1, l1, r1⟩ := h1
  obtain ⟨cd, dn, eq2, l2, r2⟩ := h2
  have hac' : a = c := by
    by_contra hne
    have hlt : a < c := by omega
    rcases l2 with l2 | l2
    · omega
    · apply l2
      rw [eq1 (c - 1) (by omega) (by omega), eq1 c (by omega) hcb]
  subst hac'
  refine ⟨rfl, ?_⟩
  by_contra hne
  rcases Nat.lt_or_gt_of_ne hne with hlt | hgt
  · rcases r1 with r1 | r1
    · omega
    · exact r1 (eq2 b (by omega) hlt)
  · rcases r2 with r2 | r2
    · omega
    · exact r2 (eq1 d (by omega) hgt)

theorem drop_run (buf : List Nat) (cmp : Nat) :
    ∀ (k rs : Nat), rs + k ≤ buf.length →
      (∀ j, rs ≤ j → j < rs + k → buf.getD j 0 = cmp) →
      buf.drop rs = List.replicate k cmp ++ buf.drop (rs + k) := by
  intro k
  induction k with
  | zero => intro rs _ _; simp
  | succ k ih =>
    intro rs hle hall
    have hlt : rs < buf.length := by omega
    have h0 := hall rs (le_refl _) (by omega)
    rw [List.getD_eq_getElem _ _ hlt] at h0
    rw [List.drop_eq_getElem_cons hlt, h0, ih (rs + 1) (by omega)
      (fun j hj1 hj2 => hall j (by omega) (by omega))]
    rw [List.replicate_succ, List.cons_append, show rs + 1 + k = rs + (k + 1) by omega]

theorem take_drop_split (buf : List Nat) (hs rs : Nat) (h : hs ≤ rs) :
    (buf.drop hs).take (rs - hs) ++ buf.drop rs = buf.drop hs := by
  have : buf.drop rs = (buf.drop hs).drop (rs - hs) := by
    rw [List.drop_drop]
    congr 1
    omega
  rw [this, List.take_append_drop]

theorem hunkbytes_cons (h : Out.ips_hunk) (R : List Out.ips_hunk) :
    Out.hunkbytes (h :: R) = (Out.record h).bytes ++ Out.hunkbytes R := rfl

theorem record_regular (o : Int) (p : List Nat) (n : Nat) :
    (Out.record (Out.malloc_ips_hunk_regular o p n)).bytes = p.take n := by
  simp [Out.record, Out.malloc_ips_hunk_regular]

theorem record_rle (o : Int) (b n : Nat) :
    (Out.record (Out.malloc_ips_hunk_rle o b n)).bytes = List.replicate n b := by
  simp [Out.record, Out.malloc_ips_hunk_rle]

/-- The run that the loop has followed from `rle_start` to `i`, when the byte at
`i` differs or the buffer ends there, is a maximal run. -/
theorem loop_run_maximal (buf : List Nat) (i hs rs cmp : Nat)
    (hinv : Out.LoopInv buf i hs rs cmp)
    (hend : i = buf.length ∨ buf.getD i 0 ≠ cmp) :
    rs < i ∧ Out.IsMaxRun buf rs i ∧ buf.getD rs 0 = cmp := by
  obtain ⟨h1, h2, h3, _, h5, h6, h7, _⟩ := hinv
  have hlt : rs < i := by
    rcases h6 with h6 | ⟨h6a, h6b⟩
    · exact h6
    · rcases hend with he | he
      · omega
      · exact absurd h6b he
  have hrs : buf.getD rs 0 = cmp := h5 rs (le_refl _) hlt
  refine ⟨hlt, ⟨hlt, h3, ?_, ?_, ?_⟩, hrs⟩
  · intro j hj1 hj2
    rw [h5 j hj1 hj2, hrs]
  · rw [hrs]
    exact h7
  · rw [hrs]
    exact hend

/-- A maximal run that starts at or after `hunk_start` lies before
`rle_start`, is the run from `rle_start` to `i`, or starts at or after `i`. -/
theorem loop_run_cases (buf : List Nat) (i rs a b : Nat) (hrun : Out.IsMaxRun buf rs i)
    (hab : Out.IsMaxRun buf a b) : b ≤ rs ∨ (a = rs ∧ b = i) ∨ i ≤ a := by
  by_cases h1 : b ≤ rs
  · exact Or.inl h1
  · by_cases h2 : i ≤ a
    · exact Or.inr (Or.inr h2)
    · right
      left
      by_cases h3 : a ≤ rs
      · obtain ⟨e1, e2⟩ := maxrun_disjoint buf a b rs i hab hrun h3 (by omega)
        exact ⟨e1, e2⟩
      · obtain ⟨e1, e2⟩ := maxrun_disjoint buf rs i a b hrun hab (by omega) (by omega)
        exact ⟨e1.symm, e2.symm⟩

theorem loopGood_end (buf : List Nat) (o : Int) : Out.LoopGood buf o buf.length [] := by
  refine ⟨rfl, ?_, ?_, ?_⟩
  · rw [List.drop_length]
    rfl
  · intro h hh
    exact absurd hh (List.not_mem_nil _)
  · intro a b hab _ ha
    obtain ⟨h1, h2, _⟩ := hab
    omega

theorem loopGood_literal (buf : List Nat) (o : Int) (hs rs cmp : Nat)
    (hinv : Out.LoopInv buf buf.length hs rs cmp) (hshort : ¬ buf.length - rs ≥ 32) :
    Out.LoopGood buf o hs
      [Out.malloc_ips_hunk_regular (o + hs) (buf.drop hs) (buf.length - hs)] := by
  obtain ⟨hlt, hrun, _⟩ := loop_run_maximal buf buf.length hs rs cmp hinv (Or.inl rfl)
  obtain ⟨h1, h2, h3, _, h5, h6, h7, h8⟩ := hinv
  refine ⟨⟨rfl, ?_, ?_⟩, ?_, ?_, ?_⟩
  · show (0 : Int) < ((buf.length - hs : Nat) : Int)
    omega
  · show o + hs + ((buf.length - hs : Nat) : Int) = o + buf.length
    omega
  · rw [hunkbytes_cons, record_regular]
    show List.take _ _ ++ [] = _
    rw [List.append_nil, List.take_of_length_le]
    rw [List.length_drop]
  · intro h hh hc
    rw [List.mem_singleton] at hh
    rw [hh] at hc
    exact absurd hc (by simp [Out.malloc_ips_hunk_regular])
  · intro a b hab hlen ha
    exfalso
    rcases loop_run_cases buf buf.length rs a b hrun hab with hc | ⟨hc1, hc2⟩ | hc
    · have := h8 a b hab ha hc
      omega
    · omega
    · obtain ⟨q1, q2, _⟩ := hab
      omega

theorem loopGood_rle (buf : List Nat) (o : Int) (i hs rs cmp : Nat) (R : List Out.ips_hunk)
    (hinv : Out.LoopInv buf i hs rs cmp) (hend : i = buf.length ∨ buf.getD i 0 ≠ cmp)
    (hlong : i - rs ≥ 32) (hR : Out.LoopGood buf o i R) :
    Out.LoopGood buf o hs
      ((if rs > hs then [Out.malloc_ips_hunk_regular (o + hs) (buf.drop hs) (rs - hs)]
        else []) ++ Out.malloc_ips_hunk_rle (o + rs) cmp (i - rs) :: R) := by
  obtain ⟨hlt, hrun, hcmp⟩ := loop_run_maximal buf i hs rs cmp hinv hend
  obtain ⟨h1, h2, h3, _, h5, h6, h7, h8⟩ := hinv
  obtain ⟨r1, r2, r3, r4⟩ := hR
  have htail : Out.LoopGood buf o rs (Out.malloc_ips_hunk_rle (o + rs) cmp (i - rs) :: R) := by
    refine ⟨⟨rfl, ?_, ?_⟩, ?_, ?_, ?_⟩
    · show (0 : Int) < ((i - rs : Nat) : Int)
      omega
    · have : o + rs + ((i - rs : Nat) : Int) = o + i := by omega
      show Out.Tiles (o + rs + ((i - rs : Nat) : Int)) _ R
      rw [this]
      exact r1
    · rw [hunkbytes_cons, record_rle, r2]
      have := drop_run buf cmp (i - rs) rs (by omega)
        (fun j hj1 hj2 => h5 j hj1 (by omega))
      rw [this]
      congr 2
      omega
    · intro h hh hc
      rcases List.mem_cons.mp hh with hh | hh
      · exact ⟨rs, i, le_refl _, hrun, hlong, by rw [hh, hcmp]⟩
      · obtain ⟨a, b, ha, hab, hl, he⟩ := r3 h hh hc
        exact ⟨a, b, by omega, hab, hl, he⟩
    · intro a b hab hlen ha
      rcases loop_run_cases buf i rs a b hrun hab with hc | ⟨hc1, hc2⟩ | hc
      · obtain ⟨q1, _⟩ := hab
        omega
      · rw [hc1, hc2, hcmp]
        exact List.mem_cons_self _ _
      · exact List.mem_cons_of_mem _ (r4 a b hab hlen hc)
  by_cases hgt : rs > hs
  · rw [if_pos hgt, List.singleton_append]
    obtain ⟨t1, t2, t3, t4⟩ := htail
    refine ⟨⟨rfl, ?_, ?_⟩, ?_, ?_, ?_⟩
    · show (0 : Int) < ((rs - hs : Nat) : Int)
      omega
    · have : o + hs + ((rs - hs : Nat) : Int) = o + rs := by omega
      show Out.Tiles (o + hs + ((rs - hs : Nat) : Int)) _ _
      rw [this]
      exact t1
    · show Out.hunkbytes (_ :: _) = _
      rw [hunkbytes_cons, record_regular, t2]
      exact take_drop_split buf hs rs h1
    · intro h hh hc
      rcases List.mem_cons.mp hh with hh | hh
      · rw [hh] at hc
        exact absurd hc (by simp [Out.malloc_ips_hunk_regular])
      · obtain ⟨a, b, ha, hab, hl, he⟩ := t3 h hh hc
        exact ⟨a, b, by omega, hab, hl, he⟩
    · intro a b hab hlen ha
      apply List.mem_cons_of_mem
      rcases loop_run_cases buf i rs a b hrun hab with hc | ⟨hc1, hc2⟩ | hc
      · have := h8 a b hab ha hc
        omega
      · exact t4 a b hab hlen (by omega)
      · exact t4 a b hab hlen (by omega)
  · rw [if_neg hgt, List.nil_append]
    have : hs = rs := by omega
    rw [this]
    exact htail

theorem loopInv_same (buf : List Nat) (i hs rs cmp : Nat) (hinv : Out.LoopInv buf i hs rs cmp)
    (hi : i < buf.length) (heq : buf.getD i 0 = cmp) : Out.LoopInv buf (i + 1) hs rs cmp := by
  obtain ⟨h1, h2, h3, h4, h5, h6, h7, h8⟩ := hinv
  refine ⟨h1, by omega, by omega, h4, ?_, Or.inl (by omega), h7, h8⟩
  intro j hj1 hj2
  by_cases hji : j = i
  · rw [hji]
    exact heq
  · exact h5 j hj1 (by omega)

theorem loopInv_restart (buf : List Nat) (i hs rs cmp : Nat)
    (hinv : Out.LoopInv buf i hs rs cmp) (hi : i < buf.length) (hne : buf.getD i 0 ≠ cmp)
    (hb : buf.getD i 0 < 256) (hshort : ¬ i - rs ≥ 32) :
    Out.LoopInv buf (i + 1) hs i (buf.getD i 0) := by
  obtain ⟨hlt, hrun, hcmp⟩ := loop_run_maximal buf i hs rs cmp hinv (Or.inr hne)
  obtain ⟨h1, h2, h3, h4, h5, h6, h7, h8⟩ := hinv
  refine ⟨by omega, by omega, by omega, hb, ?_, Or.inl (by omega), ?_, ?_⟩
  · intro j hj1 hj2
    have : j = i := by omega
    rw [this]
  · right
    rw [h5 (i - 1) (by omega) (by omega)]
    exact fun h => hne h.symm
  · intro a b hab ha hbi
    rcases loop_run_cases buf i rs a b hrun hab with hc | ⟨hc1, hc2⟩ | hc
    · exact h8 a b hab ha hc
    · omega
    · obtain ⟨q1, _⟩ := hab
      omega

theorem loopInv_after_rle (buf : List Nat) (i hs rs cmp : Nat)
    (hinv : Out.LoopInv buf i hs rs cmp) (hi : i < buf.length) (hne : buf.getD i 0 ≠ cmp)
    (hb : buf.getD i 0 < 256) : Out.LoopInv buf (i + 1) i i (buf.getD i 0) := by
  obtain ⟨hlt, hrun, hcmp⟩ := loop_run_maximal buf i hs rs cmp hinv (Or.inr hne)
  obtain ⟨h1, h2, h3, h4, h5, h6, h7, h8⟩ := hinv
  refine ⟨le_refl _, by omega, by omega, hb, ?_, Or.inl (by omega), ?_, ?_⟩
  · intro j hj1 hj2
    have : j = i := by omega
    rw [this]
  · right
    rw [h5 (i - 1) (by omega) (by omega)]
    exact fun h => hne h.symm
  · intro a b hab ha hbi
    obtain ⟨q1, _⟩ := hab
    omega

theorem ipsloop_past (buf : List Nat) (o : Int) (fuel i hs rs cmp : Nat)
    (h : ¬ i ≤ buf.length) : Out.ipsloop buf o fuel i hs rs cmp = [] := by
  cases fuel with
  | zero => rfl
  | succ f =>
    unfold Out.ipsloop
    rw [if_neg h]

theorem ipsloop_good (buf : List Nat) (o : Int) (hb : ∀ x ∈ buf, x < 256) :
    ∀ (k fuel i hs rs cmp : Nat), i + k = buf.length → k + 2 ≤ fuel →
      Out.LoopInv buf i hs rs cmp →
      Out.LoopGood buf o hs (Out.ipsloop buf o fuel i hs rs cmp) := by
  intro k
  induction k with
  | zero =>
    intro fuel i hs rs cmp hik hf hinv
    obtain ⟨f, rfl⟩ : ∃ f, fuel = f + 1 := ⟨fuel - 1, by omega⟩
    have hi : i = buf.length := by omega
    subst hi
    unfold Out.ipsloop
    rw [if_pos (le_refl _)]
    simp only [if_true]
    rw [if_pos (by omega)]
    by_cases hlong : buf.length - rs ≥ Out.IPS_RLE_EXTRACT
    · rw [if_pos hlong, ipsloop_past buf o f _ _ _ _ (by omega)]
      exact loopGood_rle buf o buf.length hs rs cmp [] hinv (Or.inl rfl) hlong
        (loopGood_end buf o)
    · rw [if_neg hlong]
      exact loopGood_literal buf o hs rs cmp hinv hlong
  | succ k ih =>
    intro fuel i hs rs cmp hik hf hinv
    obtain ⟨f, rfl⟩ : ∃ f, fuel = f + 1 := ⟨fuel - 1, by omega⟩
    have hi : i < buf.length := by omega
    have hbi : buf.getD i 0 < 256 := by
      rw [List.getD_eq_getElem _ _ hi]
      exact hb _ (List.getElem_mem _)
    have hbyte : (((buf.getD i 0 : Nat) : Int) % 256).toNat = buf.getD i 0 := by omega
    unfold Out.ipsloop
    rw [if_pos (by omega)]
    simp only [if_neg (Nat.ne_of_lt hi)]
    by_cases hne : buf.getD i 0 = cmp
    · rw [if_neg (by rw [hne]; simp)]
      exact ih f (i + 1) hs rs cmp (by omega) (by omega) (loopInv_same buf i hs rs cmp hinv hi hne)
    · rw [if_pos (by intro h; exact hne (by exact_mod_cast h))]
      by_cases hlong : i - rs ≥ Out.IPS_RLE_EXTRACT
      · rw [if_pos hlong, hbyte]
        exact loopGood_rle buf o i hs rs cmp _ hinv (Or.inr hne) hlong
          (ih f (i + 1) i i _ (by omega) (by omega)
            (loopInv_after_rle buf i hs rs cmp hinv hi hne hbi))
      · rw [if_neg hlong, if_neg (by omega), hbyte]
        exact ih f (i + 1) hs i _ (by omega) (by omega)
          (loopInv_restart buf i hs rs cmp hinv hi hne hbi hlong)

theorem tiles_regular (o : Int) (buf : List Nat) (h : 0 < buf.length) :
    Out.Tiles o (o + buf.length) [Out.malloc_ips_hunk_regular o buf buf.length] :=
  ⟨rfl, by show (0 : Int) < (buf.length : Int); omega, rfl⟩

/-- C29: the hunks that `flush_output_ips` appends for a buffer of `n >= 1`
bytes at offset `o` have positive lengths, follow each other without gap from
`o` to `o + n`, and hold the bytes of the buffer in order; for `n > 3` every
maximal run of at least 32 equal bytes is one run-length hunk, and every
run-length hunk is such a run (so every other byte lies in a literal hunk). -/
theorem flush_chunks (g : Out.Globals) (hne : g.outputbuff ≠ [])
    (hb : ∀ x ∈ g.outputbuff, x < 256) :
    (Out.flush_output_ips g).hunks = g.hunks ++ Out.chunks g.outputbuff g.ips_outpos ∧
      Out.Tiles g.ips_outpos (g.ips_outpos + g.outputbuff.length)
        (Out.chunks g.outputbuff g.ips_outpos) ∧
      Out.hunkbytes (Out.chunks g.outputbuff g.ips_outpos) = g.outputbuff ∧
      (3 < g.outputbuff.length →
        (∀ a b, Out.IsMaxRun g.outputbuff a b → 32 ≤ b - a →
          Out.malloc_ips_hunk_rle (g.ips_outpos + a) (g.outputbuff.getD a 0) (b - a)
            ∈ Out.chunks g.outputbuff g.ips_outpos) ∧
        ∀ h ∈ Out.chunks g.outputbuff g.ips_outpos, h.contents = none →
          ∃ a b, Out.IsMaxRun g.outputbuff a b ∧ 32 ≤ b - a ∧
            h = Out.malloc_ips_hunk_rle (g.ips_outpos + a) (g.outputbuff.getD a 0) (b - a)) := by
  have hlen : 0 < g.outputbuff.length := List.length_pos.mpr hne
  have h0 : g.outputbuff.getD 0 0 < 256 := by
    rw [List.getD_eq_getElem _ _ hlen]
    exact hb _ (List.getElem_mem _)
  have hinv : Out.LoopInv g.outputbuff 0 0 0 (g.outputbuff.getD 0 0) :=
    ⟨le_refl _, le_refl _, Nat.zero_le _, h0, fun j _ hj => absurd hj (Nat.not_lt_zero _),
      Or.inr ⟨hlen, rfl⟩, Or.inl rfl, fun a b hab _ hb0 => by
        obtain ⟨q, _⟩ := hab
        omega⟩
  have hgood := ipsloop_good g.outputbuff g.ips_outpos hb g.outputbuff.length
    (g.outputbuff.length + 2) 0 0 0 (g.outputbuff.getD 0 0) (by omega) (by omega) hinv
  obtain ⟨g1, g2, g3, g4⟩ := hgood
  have hz : g.ips_outpos + ((0 : Nat) : Int) = g.ips_outpos := by simp
  rw [hz] at g1
  refine ⟨rfl, ?_, ?_, ?_⟩
  · unfold Out.chunks
    rw [if_neg (by omega)]
    by_cases h3 : g.outputbuff.length ≤ 3
    · rw [if_pos h3]
      exact tiles_regular _ _ hlen
    · rw [if_neg h3]
      exact g1
  · unfold Out.chunks
    rw [if_neg (by omega)]
    by_cases h3 : g.outputbuff.length ≤ 3
    · rw [if_pos h3, hunkbytes_cons, record_regular]
      show List.take _ _ ++ [] = _
      rw [List.append_nil, List.take_length]
    · rw [if_neg h3, g2]
      rfl
  · intro h3
    have hc : Out.chunks g.outputbuff g.ips_outpos
        = Out.ipsloop g.outputbuff g.ips_outpos (g.outputbuff.length + 2) 0 0 0
            (g.outputbuff.getD 0 0) := by
      unfold Out.chunks
      rw [if_neg (by omega), if_neg (by omega)]
    rw [hc]
    refine ⟨fun a b hab hl => g4 a b hab hl (Nat.zero_le _), ?_⟩
    intro h hh hcon
    obtain ⟨a, b, _, hab, hl, he⟩ := g3 h hh hcon
    exact ⟨a, b, hab, hl, he⟩

/-- A buffer of 40 bytes 07, then 01 02, then 32 bytes 00, then 05, flushed at
offset 100: a run of 40 at 100, the bytes 01 02 at 140, a run of 32 at 142 and
the byte 05 at 174. -/
theorem flush_chunks_witness :
    (Out.flush_output_ips
        { Out.sampleGlobals with
          outputbuff := List.replicate 40 7 ++ [1, 2] ++ List.replicate 32 0 ++ [5]
          ips_outpos := 100 }).hunks
      = [Out.malloc_ips_hunk_rle 100 7 40, Out.malloc_ips_hunk_regular 140 [1, 2] 2,
         Out.malloc_ips_hunk_rle 142 0 32, Out.malloc_ips_hunk_regular 174 [5] 1] :=
  (flush_chunks
    { Out.sampleGlobals with
      outputbuff := List.replicate 40 7 ++ [1, 2] ++ List.replicate 32 0 ++ [5]
      ips_outpos := 100 } (by decide) (by decide)).1.trans (by decide)

theorem onepass_fields (body : Driver → Driver)
    (hbody : ∀ d, (body d).pass = d.pass ∧ (body d).lastchance = d.lastchance) (d : Driver) :
    (onepass body d).pass = wrap32 (d.pass + 1) ∧
      ((wrap32 (d.pass + 1) = MAXPASSES ∨ d.p = d.lastlabel) →
        (onepass body d).lastchance = true) := by
  unfold onepass
  dsimp only
  constructor
  · rw [(hbody _).1]
    split <;> rfl
  · intro h
    rw [(hbody _).2, if_pos h]

theorem mainloop_bounded (body : Driver → Driver)
    (hbody : ∀ d, (body d).pass = d.pass ∧ (body d).lastchance = d.lastchance) :
    ∀ (fuel : Nat) (d : Driver), 0 < fuel → fuel ≤ 7 → d.pass = 7 - fuel →
      ∃ r n, mainloop body fuel d = some (r, n) ∧ 1 ≤ n ∧ n ≤ fuel ∧ r.pass = d.pass + n := by
  intro fuel
  induction fuel with
  | zero => intro d h; omega
  | succ k ih =>
    intro d _ hk7 hp
    obtain ⟨h1, h2⟩ := onepass_fields body hbody d
    have hw : wrap32 (d.pass + 1) = d.pass + 1 := wrap32_id _ (by omega) (by omega)
    rw [hw] at h1 h2
    unfold mainloop
    dsimp only
    by_cases hc : (onepass body d).error = false ∧ (onepass body d).lastchance = false ∧
        (onepass body d).needanotherpass = true
    · rw [if_pos hc]
      have hk : 0 < k := by
        by_contra hk0
        have : k = 0 := by omega
        subst this
        have := h2 (Or.inl (by unfold MAXPASSES; push_cast at hp; omega))
        rw [this] at hc
        exact absurd hc.2.1 (by simp)
      obtain ⟨r, n, hr, hn1, hn2, hrp⟩ := ih (onepass body d) hk (by omega)
        (by rw [h1]; push_cast at hp ⊢; omega)
      refine ⟨r, n + 1, ?_, by omega, by omega, ?_⟩
      · rw [hr]
        rfl
      · rw [hrp, h1]
        push_cast
        ring
    · rw [if_neg hc]
      exact ⟨_, 1, rfl, le_refl _, by omega, by rw [h1]; rfl⟩

/-- C34: the pass driver runs at most `MAXPASSES` = 7 passes, whatever the
assembly of the source does to `error`, `needanotherpass` and `lastlabel`: from
the globals with which `main` reaches its loop, the loop is left after `n`
passes with `1 <= n <= 7` and `pass = n`; a pass sets `lastchance` when the
pass counter reaches 7 or the last label is the one of the pass before; and a
further pass is run only while there is no error, the pass was not a
last-chance pass and `needanotherpass` is set. -/
theorem passes_bounded (body : Driver → Driver)
    (hbody : ∀ d, (body d).pass = d.pass ∧ (body d).lastchance = d.lastchance)
    (lastlabel : Option Nat) :
    (∃ r n, mainloop body 7 (driver0 lastlabel) = some (r, n) ∧ 1 ≤ n ∧ n ≤ 7 ∧
        r.pass = n) ∧
      (∀ d, (wrap32 (d.pass + 1) = MAXPASSES ∨ d.p = d.lastlabel) →
        (onepass body d).lastchance = true) ∧
      ∀ fuel d, ¬ ((onepass body d).error = false ∧ (onepass body d).lastchance = false ∧
          (onepass body d).needanotherpass = true) →
        mainloop body (fuel + 1) d = some (onepass body d, 1) := by
  refine ⟨?_, fun d => (onepass_fields body hbody d).2, ?_⟩
  · obtain ⟨r, n, hr, h1, h2, h3⟩ := mainloop_bounded body hbody 7 (driver0 lastlabel)
      (by decide) (by decide) rfl
    refine ⟨r, n, hr, h1, h2, ?_⟩
    rw [h3]
    show (0 : Int) + n = n
    omega
  · intro fuel d hc
    unfold mainloop
    dsimp only
    rw [if_neg hc]

/-- A source that asks for another pass every time and always defines a new
last label: the loop is left after at most 7 passes. -/
theorem passes_bounded_witness :
    ∃ r n, mainloop restless 7 (driver0 (some 1)) = some (r, n) ∧ 1 ≤ n ∧ n ≤ 7 ∧
      r.pass = n :=
  (passes_bounded restless (fun _ => ⟨rfl, rfl⟩) (some 1)).1

theorem passes_restless_example :
    (mainloop restless 7 (driver0 (some 1))).map (fun r => (r.1.pass, r.1.lastchance, r.2))
      = some (7, true, 7) := by
  decide

/-- A count that evaluates to 0 always reaches the division. -/
theorem align_zero (env : Env) (d : Int) (e : Emit) (next1 : List Char) (st1 : EvalSt)
    (h : eval { env with addr := e.addr } e.next WHOLEEXP { e.st with dependant := false }
      = some (0, next1, st1)) : align env d e = none := by
  unfold align
  rw [h]
  rfl

/-- C40: `ALIGN 0` divides by zero.  The handler computes
`(unsigned int)addr % count` for every count that is not negative, so for the
resolved count 0 it does not return; for a count from 1 on it pads to the next
multiple: `ALIGN 16` at $8005 writes 11 fill bytes and leaves the PC at $8010,
and at $8000 it writes nothing. -/
theorem align_zero_divides :
    align sampleEnv 0 ⟨[], " 0".toList, 32768, clearSt⟩ = none ∧
      align sampleEnv 0 ⟨[], " 16".toList, 32773, clearSt⟩
        = some ⟨List.replicate 11 0, [], 32784, clearSt⟩ ∧
      align sampleEnv 0 ⟨[], " 16".toList, 32768, clearSt⟩ = some ⟨[], [], 32768, clearSt⟩ := by
  decide

/-- C39: an `IF` at the nesting limit is not refused atomically.  After 31
nested `IF 1` lines the level is 31, `skipline[31]` is 0 and `ifdone[31]` is 1.
A further `IF 1` reports "Too many nested IFs." and leaves the level at 31, but
then goes on to its assignments and sets `skipline[31]` to 1, so the lines of the
enclosing conditional are skipped from there on; `IFNDEF start`, with `start`
defined, sets `skipline[31]` to 1 and `ifdone[31]` to 0. -/
theorem if_limit_overwrites :
    deepest.map (fun c => (c.iflevel, c.skipline.getD 31 0, c.ifdone.getD 31 0, c.st.errmsg))
        = some (31, 0, 1, none) ∧
      (deepest.bind (condline (.IF sampleEnv ['1']))).map
          (fun c => (c.iflevel, c.skipline.getD 31 0, c.ifdone.getD 31 0, c.st.errmsg))
        = some (31, 1, 1, some .IfNestLimit) ∧
      (deepest.bind (condline (.IFNDEF sampleEnv " start".toList))).map
          (fun c => (c.iflevel, c.skipline.getD 31 0, c.ifdone.getD 31 0, c.st.errmsg))
        = some (31, 1, 0, some .IfNestLimit) := by
  decide

/-- C37 (as the code has it): when `addlabel` meets, for the first time in the
current pass, an entry of kind label whose name does not begin with `-`: if the
stored value differs from the current PC it sets `needanotherpass`, stores the
PC as the new value, and on the last-chance pass sets "Can't determine
address."; if the stored value equals the PC it leaves `needanotherpass` as it
was, and sets that error only on a last-chance pass with a negative PC. -/
theorem moved_label (g : Asm) (c : Char) (q : label) (hfirst : q.pass ≠ g.pass)
    (hlabel : q.type = .LABEL) (hc : c ≠ '-') :
    (q.value ≠ g.addr →
        (oldlabel g c q).2.2 = true ∧ (oldlabel g c q).1.value = g.addr ∧
          (oldlabel g c q).1.pass = g.pass ∧
          (g.lastchance = true → (oldlabel g c q).2.1 = some .BadAddr) ∧
          (g.lastchance = false → (oldlabel g c q).2.1 = g.errmsg)) ∧
      (q.value = g.addr →
        (oldlabel g c q).2.2 = g.needanotherpass ∧ (oldlabel g c q).1.value = g.addr ∧
          (oldlabel g c q).2.1
            = if g.lastchance = true ∧ g.addr < 0 then some .BadAddr else g.errmsg) := by
  have hne : ¬ (q.pass = g.pass ∧ c ≠ '-') := fun h => hfirst h.1
  constructor
  · intro hv
    have hm : q.value ≠ g.addr ∧ c ≠ '-' := ⟨hv, hc⟩
    unfold oldlabel
    rw [if_neg hne]
    dsimp only
    rw [if_pos hlabel]
    refine ⟨by simp [hm], rfl, rfl, ?_, ?_⟩
    · intro hl
      by_cases ha : g.addr < 0
      · simp [hl, ha]
      · simp [hl, ha, hm]
    · intro hl
      simp [hl]
  · intro hv
    have hm : ¬ (q.value ≠ g.addr ∧ c ≠ '-') := fun h => h.1 hv
    unfold oldlabel
    rw [if_neg hne]
    dsimp only
    rw [if_pos hlabel]
    refine ⟨by simp [hm], rfl, ?_⟩
    simp [hv]

/-- The label `start`, stored at $8000 in pass 1, met at $8002 in pass 2:
another pass is needed and $8002 is stored. -/
theorem moved_label_witness :
    (oldlabel { sampleAsm with pass := 2, addr := 32770 } 's' (mklabel "start" 32768 0)).2.2
        = true ∧
      (oldlabel { sampleAsm with pass := 2, addr := 32770 } 's'
        (mklabel "start" 32768 0)).1.value = 32770 :=
  ⟨((moved_label { sampleAsm with pass := 2, addr := 32770 } 's' (mklabel "start" 32768 0)
      (by decide) rfl (by decide)).1 (by decide)).1,
    ((moved_label { sampleAsm with pass := 2, addr := 32770 } 's' (mklabel "start" 32768 0)
      (by decide) rfl (by decide)).1 (by decide)).2.1⟩

/-- The same through `addlabel` on the small label list. -/
theorem moved_label_example :
    (addlabel { sampleAsm with pass := 2, addr := 32770 } "start".toList false).map
        (fun g => (g.needanotherpass, g.errmsg))
      = some (true, none) ∧
    (addlabel { sampleAsm with pass := 2, addr := 32768 } "start".toList false).map
        (fun g => (g.needanotherpass, g.errmsg))
      = some (false, none) := by
  decide

/-- C37, counterexample: a label stored with the undefined PC (no `ORG` before
it) and met again at the same undefined PC on the last-chance pass: the stored
value equals the PC, `needanotherpass` stays clear, and yet "Can't determine
address." is set. -/
theorem unmoved_label_error :
    (mklabel "start" NOORIGIN 0).value
        = ({ sampleAsm with pass := 2, addr := NOORIGIN, lastchance := true } : Asm).addr ∧
      (oldlabel { sampleAsm with pass := 2, addr := NOORIGIN, lastchance := true } 's'
        (mklabel "start" NOORIGIN 0)).2 = (some .BadAddr, false) := by
  decide

theorem findequ_lt (equs : List Equate) (w : List Char) (i : Nat)
    (h : findequ equs w = some i) : i < equs.length := by
  unfold findequ at h
  simp only at h
  split_ifs at h with hlt
  cases h
  exact hlt

theorem findIdx_set_same {α : Type} (p : α → Bool) (a : α) :
    ∀ (l : List α) (i : Nat), (∀ e, l.get? i = some e → p a = p e) →
      (l.set i a).findIdx p = l.findIdx p := by
  intro l
  induction l with
  | nil => intro i _; rfl
  | cons x l ih =>
    intro i h
    cases i with
    | zero =>
      have hx : p a = p x := h x rfl
      simp only [List.set_cons_zero, List.findIdx_cons, hx]
    | succ i =>
      simp only [List.set_cons_succ, List.findIdx_cons]
      rw [ih i (fun e he => h e (by simpa using he))]

theorem setused_length (equs : List Equate) (i : Nat) (b : Bool) :
    (setused equs i b).length = equs.length := by
  unfold setused
  cases h : equs.get? i <;> simp

theorem findequ_setused (equs : List Equate) (i : Nat) (b : Bool) (w : List Char) :
    findequ (setused equs i b) w = findequ equs w := by
  unfold findequ
  rw [setused_length]
  have : (setused equs i b).findIdx (fun e => decide (e.name = w))
      = equs.findIdx (fun e => decide (e.name = w)) := by
    unfold setused
    cases h : equs.get? i with
    | none => rfl
    | some e =>
      apply findIdx_set_same
      intro e2 he2
      rw [h] at he2
      cases he2
      rfl
  simp only [this]

theorem get?_setused (equs : List Equate) (i j : Nat) (b : Bool) :
    (setused equs i b).get? j
      = if i = j then (equs.get? j).map (fun e => { e with used := b }) else equs.get? j := by
  unfold setused
  cases h : equs.get? i with
  | none =>
    split_ifs with hij
    · subst hij; rw [h]; rfl
    · rfl
  | some e =>
    simp only [List.get?_eq_getElem?, List.getElem?_set]
    split_ifs with hij hlt
    · subst hij
      simp only [List.get?_eq_getElem?] at h
      rw [h]; rfl
    · subst hij
      simp only [List.get?_eq_getElem?] at h
      rw [List.getElem?_eq_none (by omega)] at h
      cases h
    · rfl

theorem linetext_setused (equs : List Equate) (i j : Nat) (b : Bool) :
    linetext (setused equs i b) j = linetext equs j := by
  unfold linetext
  rw [get?_setused]
  split_ifs with hij
  · cases equs.get? j <;> rfl
  · rfl

theorem refers_setused (equs : List Equate) (i : Nat) (b : Bool) (text : List Char) (j : Nat) :
    refers (setused equs i b) text j = refers equs text j := by
  unfold refers
  simp only [findequ_setused]

theorem reaches_setused (equs : List Equate) (i : Nat) (b : Bool) :
    ∀ (path : List Nat) (text : List Char) (seen : List Nat),
      reaches (setused equs i b) text seen path = reaches equs text seen path := by
  intro path
  induction path with
  | nil => intro text seen; simp only [reaches, refers_setused]
  | cons k path ih =>
    intro text seen
    simp only [reaches, refers_setused, linetext_setused, ih]

theorem setused_restore (equs : List Equate) (i : Nat)
    (h : (equs.get? i).any (fun e => e.used) = false) :
    setused (setused equs i true) i false = equs := by
  apply List.ext_get?
  intro j
  rw [get?_setused, get?_setused]
  split_ifs with hij
  · subst hij
    cases he : equs.get? i with
    | none => rfl
    | some e =>
      rw [he] at h
      simp only [Option.any_some] at h
      cases e with
      | mk n l u =>
        simp only at h
        subst h
        rfl
  · rfl

theorem get?_setflag (ms : List Macro) (i j : Nat) (b : Bool) :
    (setflag ms i b).get? j
      = if i = j then (ms.get? j).map (fun m => { m with used := b }) else ms.get? j := by
  unfold setflag
  cases h : ms.get? i with
  | none =>
    split_ifs with hij
    · subst hij; rw [h]; rfl
    · rfl
  | some e =>
    simp only [List.get?_eq_getElem?, List.getElem?_set]
    split_ifs with hij hlt
    · subst hij
      simp only [List.get?_eq_getElem?] at h
      rw [h]; rfl
    · subst hij
      simp only [List.get?_eq_getElem?] at h
      rw [List.getElem?_eq_none (by omega)] at h
      cases h
    · rfl

theorem setflag_restore (ms : List Macro) (i : Nat) (m : Macro) (hm : ms.get? i = some m)
    (hu : m.used = false) : setflag (setflag ms i true) i false = ms := by
  apply List.ext_get?
  intro j
  rw [get?_setflag, get?_setflag]
  split_ifs with hij
  · subst hij
    rw [hm]
    cases m with
    | mk b u =>
      simp only at hu
      subst hu
      rfl
  · rfl

theorem wrap32_enter_leave (x : Int) (h1 : -2147483648 ≤ x) (h2 : x < 2147483648) :
    wrap32 (wrap32 (x + 1) - 1) = x := by
  unfold wrap32
  omega

theorem expand_frame (effect : Nat → MacroCtx → MacroCtx)
    (heff : ∀ k c, MacroCtx.insidemacro (effect k c) = c.insidemacro ∧
      MacroCtx.macros (effect k c) = c.macros) :
    ∀ fuel : Nat,
      (∀ l c d, -2147483648 ≤ c.insidemacro → c.insidemacro < 2147483648 →
        processline effect fuel l c = some d →
        d.insidemacro = c.insidemacro ∧ d.macros = c.macros) ∧
      (∀ ls c d, -2147483648 ≤ c.insidemacro → c.insidemacro < 2147483648 →
        processlines effect fuel ls c = some d →
        d.insidemacro = c.insidemacro ∧ d.macros = c.macros) ∧
      (∀ id c d, -2147483648 ≤ c.insidemacro → c.insidemacro < 2147483648 →
        expandmacro effect fuel id c = some d →
        d.insidemacro = c.insidemacro ∧ d.macros = c.macros ∧ d.scope = c.scope) ∧
      (∀ i body c d, -2147483648 ≤ c.insidemacro → c.insidemacro < 2147483648 →
        reptloop effect fuel i body c = some d →
        d.insidemacro = c.insidemacro ∧ d.macros = c.macros) ∧
      (∀ loops body c d, -2147483648 ≤ c.insidemacro → c.insidemacro < 2147483648 →
        expandrept effect fuel loops body c = some d →
        d.insidemacro = c.insidemacro ∧ d.macros = c.macros ∧ d.scope = c.scope) := by
  intro fuel
  induction fuel with
  | zero =>
    refine ⟨?_, ?_, ?_, ?_, ?_⟩
    · intro l c d _ _ h; simp [processline] at h
    · intro l c d _ _ h; simp [processlines] at h
    · intro l c d _ _ h; simp [ expandmacro] at h
    · intro i b c d _ _ h; simp [reptloop] at h
    · intro i b c d _ _ h; simp [expandrept] at h
  | succ fuel ih =>
    obtain ⟨ih1, ih2, ih3, ih4, ih5⟩ := ih
    refine ⟨?_, ?_, ?_, ?_, ?_⟩
    · intro l c d h1 h2 h
      cases l with
      | invoke id =>
        simp only [processline] at h
        obtain ⟨a, b, _⟩ := ih3 id { c with errmsg := none } d h1 h2 h
        exact ⟨a, b⟩
      | rept loops body =>
        simp only [processline] at h
        obtain ⟨a, b, _⟩ := ih5 loops body { c with errmsg := none } d h1 h2 h
        exact ⟨a, b⟩
      | other k =>
        simp only [processline, Option.some.injEq] at h
        subst h
        exact heff k _
    · intro ls c d h1 h2 h
      cases ls with
      | nil =>
        simp only [processlines, Option.some.injEq] at h
        subst h
        exact ⟨rfl, rfl⟩
      | cons l ls =>
        simp only [processlines] at h
        cases hl : processline effect fuel l c with
        | none => rw [hl] at h; cases h
        | some c1 =>
          rw [hl] at h
          dsimp only at h
          obtain ⟨a1, b1⟩ := ih1 l c c1 h1 h2 hl
          obtain ⟨a2, b2⟩ := ih2 ls c1 d (by rw [a1]; exact h1) (by rw [a1]; exact h2) h
          exact ⟨a2.trans a1, b2.trans b1⟩
    · intro id c d h1 h2 h
      simp only [ expandmacro] at h
      cases hm : c.macros.get? id with
      | none =>
        rw [hm] at h
        simp only [Option.some.injEq] at h
        subst h
        exact ⟨rfl, rfl, rfl⟩
      | some m =>
        rw [hm] at h
        dsimp only at h
        by_cases hu : m.used = true
        · rw [if_pos hu] at h
          simp only [Option.some.injEq] at h
          subst h
          exact ⟨rfl, rfl, rfl⟩
        · rw [if_neg hu] at h
          cases hb : processlines effect fuel m.body ( entermacro id c) with
          | none => rw [hb] at h; cases h
          | some c2 =>
            rw [hb] at h
            simp only [Option.map_some', Option.some.injEq] at h
            subst h
            have hr := wrap32_range (c.insidemacro + 1)
            obtain ⟨a, b⟩ := ih2 m.body _ c2 hr.1 hr.2 hb
            refine ⟨?_, ?_, rfl⟩
            · show wrap32 (c2.insidemacro - 1) = c.insidemacro
              rw [a]
              exact wrap32_enter_leave _ h1 h2
            · show setflag c2.macros id false = c.macros
              rw [b]
              exact setflag_restore _ _ m hm (by simpa using hu)
    · intro i body c d h1 h2 h
      cases i with
      | zero =>
        simp only [reptloop, Option.some.injEq] at h
        subst h
        exact ⟨rfl, rfl⟩
      | succ i =>
        simp only [reptloop] at h
        cases hb : processlines effect fuel body (newscope c) with
        | none => rw [hb] at h; cases h
        | some c1 =>
          rw [hb] at h
          dsimp only at h
          obtain ⟨a1, b1⟩ := ih2 body (newscope c) c1 h1 h2 hb
          have a1c : c1.insidemacro = c.insidemacro := a1
          have b1c : c1.macros = c.macros := b1
          obtain ⟨a2, b2⟩ := ih4 i body c1 d (by rw [a1c]; exact h1) (by rw [a1c]; exact h2) h
          exact ⟨a2.trans a1c, b2.trans b1c⟩
    · intro loops body c d h1 h2 h
      simp only [expandrept] at h
      cases hb : reptloop effect fuel loops body
          { c with insidemacro := wrap32 (c.insidemacro + 1) } with
      | none => rw [hb] at h; cases h
      | some c1 =>
        rw [hb] at h
        simp only [Option.map_some', Option.some.injEq] at h
        subst h
        have hr := wrap32_range (c.insidemacro + 1)
        obtain ⟨a, b⟩ := ih4 loops body _ c1 hr.1 hr.2 hb
        refine ⟨?_, b, rfl⟩
        show wrap32 (c1.insidemacro - 1) = c.insidemacro
        rw [a]
        exact wrap32_enter_leave _ h1 h2

theorem sampleEffect_frame (k : Nat) (c : MacroCtx) :
    MacroCtx.insidemacro (sampleEffect k c) = c.insidemacro ∧
      MacroCtx.macros (sampleEffect k c) = c.macros := by
  unfold sampleEffect
  split_ifs <;> exact ⟨rfl, rfl⟩

/-- C38: macro and repeat expansion restore the caller's context.  The other
body lines may do anything to the globals but write `insidemacro` or a macro
(only `expandmacro` and `expandrept` write these).  Then, whatever the body
holds (nested calls and blocks, lines in error), when `expandmacro` or
`expandrept` returns, `scope` and `insidemacro` are what they were before the
call and every macro is as it was, so that the flag `used` of a macro that was
expanded is 0 again.  A call of a macro whose flag is set returns at once with
"Recursive MACRO not allowed." and nothing else changed.  The body of an
expanded macro is processed from the globals `entermacro` makes, where `scope`
is the id taken from `nextscope`, `nextscope` is one more and the flag is set;
each round of a `REPT` block likewise starts in the scope taken from
`nextscope`. -/
theorem macro_restores (effect : Nat → MacroCtx → MacroCtx)
    (heff : ∀ k c, MacroCtx.insidemacro (effect k c) = c.insidemacro ∧
      MacroCtx.macros (effect k c) = c.macros)
    (c : MacroCtx) (hlo : -2147483648 ≤ c.insidemacro) (hhi : c.insidemacro < 2147483648) :
    (∀ fuel id d, expandmacro effect fuel id c = some d →
      d.scope = c.scope ∧ d.insidemacro = c.insidemacro ∧ d.macros = c.macros ∧
      ∀ m, c.macros.get? id = some m → m.used = false →
        (d.macros.get? id).map (fun x => x.used) = some false) ∧
    (∀ fuel loops body d, expandrept effect fuel loops body c = some d →
      d.scope = c.scope ∧ d.insidemacro = c.insidemacro ∧ d.macros = c.macros) ∧
    (∀ fuel id m, c.macros.get? id = some m → m.used = true →
      expandmacro effect (fuel + 1) id c = some { c with errmsg := some .RecurseMACRO }) ∧
    (∀ fuel id m, c.macros.get? id = some m → m.used = false →
      expandmacro effect (fuel + 1) id c
        = (processlines effect fuel m.body ( entermacro id c)).map ( leavemacro c.scope id) ∧
      MacroCtx.scope ( entermacro id c) = c.nextscope ∧
      MacroCtx.nextscope ( entermacro id c) = wrap32 (c.nextscope + 1) ∧
      ((MacroCtx.macros ( entermacro id c)).get? id).map (fun x => x.used) = some true) ∧
    (∀ fuel i body, reptloop effect (fuel + 1) (i + 1) body c
        = (processlines effect fuel body (newscope c)).bind (reptloop effect fuel i body) ∧
      MacroCtx.scope (newscope c) = c.nextscope ∧
      MacroCtx.nextscope (newscope c) = wrap32 (c.nextscope + 1)) := by
  refine ⟨?_, ?_, ?_, ?_, ?_⟩
  · intro fuel id d h
    obtain ⟨a, b, s⟩ := (expand_frame effect heff fuel).2.2.1 id c d hlo hhi h
    refine ⟨s, a, b, ?_⟩
    intro m hm hu
    rw [b, hm]
    simp only [Option.map_some', hu]
  · intro fuel loops body d h
    obtain ⟨a, b, s⟩ := (expand_frame effect heff fuel).2.2.2.2 loops body c d hlo hhi h
    exact ⟨s, a, b⟩
  · intro fuel id m hm hu
    simp only [ expandmacro, hm, hu, if_true]
  · intro fuel id m hm hu
    refine ⟨?_, rfl, rfl, ?_⟩
    · simp only [ expandmacro, hm, hu, Bool.false_eq_true, if_false]
    · show ((setflag c.macros id true).get? id).map (fun x => x.used) = some true
      rw [get?_setflag, if_pos rfl, hm]
      rfl
  · intro fuel i body
    refine ⟨?_, rfl, rfl⟩
    simp only [reptloop]
    cases processlines effect fuel body (newscope c) <;> rfl

/-- C38 at the two macros of `sampleMacros`, called from scope 1 with
`insidemacro` 0: macro 0 calls macro 1, whose `REPT 2` block calls both again;
the expansion returns with scope 1, `insidemacro` 0 and both flags clear, five
scope ids later, and a call of macro 0 from inside its own body is rejected. -/
theorem macro_restores_witness :
    ( expandmacro sampleEffect 20 0 sampleCtx).map MacroCtx.view
      = some (1, 7, 0, [false, false], none) ∧
    (expandrept sampleEffect 30 3 [.other 1, .invoke 1] sampleCtx).map MacroCtx.view
      = some (1, 26, 0, [false, false], none) ∧
    ( expandmacro sampleEffect 1 0 ( entermacro 0 sampleCtx)).map MacroCtx.view
      = some (2, 3, 1, [true, false], some .RecurseMACRO) ∧
    (∀ fuel id d, expandmacro sampleEffect fuel id sampleCtx = some d →
      d.scope = 1 ∧ d.insidemacro = 0 ∧ d.macros = sampleMacros) := by
  refine ⟨?_, ?_, ?_, ?_⟩
  · simp [ expandmacro, processlines, processline, expandrept, reptloop, sampleCtx,
      sampleMacros, sampleEffect, entermacro, leavemacro, newscope, setflag, MacroCtx.view]
    decide
  · simp [ expandmacro, processlines, processline, expandrept, reptloop, sampleCtx,
      sampleMacros, sampleEffect, entermacro, leavemacro, newscope, setflag, MacroCtx.view]
    decide
  · simp [ expandmacro, processlines, processline, expandrept, reptloop, sampleCtx,
      sampleMacros, sampleEffect, entermacro, leavemacro, newscope, setflag, MacroCtx.view]
    decide
  intro fuel id d h
  obtain ⟨a, b, c, _⟩ := (macro_restores sampleEffect sampleEffect_frame sampleCtx
    (by decide) (by decide)).1 fuel id d h
  exact ⟨a, b, c⟩

theorem prepend_done (x : Option Expanded) (t text : List Char) (st : Expand)
    (h : x.map (Expanded.prepend t) = some (.done text st)) :
    ∃ text0, x = some (.done text0 st) ∧ text = t ++ text0 := by
  cases x with
  | none => cases h
  | some r =>
    cases r with
    | overrun => cases h
    | done text0 st0 =>
      simp only [Option.map_some', Expanded.prepend, Option.some.injEq,
        Expanded.done.injEq] at h
      obtain ⟨h1, h2⟩ := h
      subst h2
      exact ⟨text0, rfl, h1.symm⟩

theorem expandloop_frame : ∀ (fuel : Nat) (src : List Char) (skip : Bool) (pos : Nat)
    (st : Expand) (text : List Char) (st' : Expand),
    expandloop fuel src skip pos st = some (.done text st') →
    st'.equs = st.equs ∧
    (st.errmsg = some .RecurseEQU → st'.errmsg = some .RecurseEQU) ∧
    (∀ (fuel2 : Nat) (w : List Char) (i : Nat), w ∈ symbolsloop fuel2 src skip →
      findequ st.equs w = some i →
      ((st.equs.get? i).any (fun e => e.used) = true ∨
        ∀ (f p : Nat) (err : Option ErrMsg) (t1 : List Char) (s1 : Expand),
          expandloop f (linetext st.equs i) false p ⟨setused st.equs i true, err⟩
            = some (.done t1 s1) →
          s1.errmsg = some .RecurseEQU) →
      st'.errmsg = some .RecurseEQU) := by
  intro fuel
  induction fuel with
  | zero => intro src skip pos st text st' h; simp [expandloop] at h
  | succ fuel ih =>
    intro src skip pos st text st' h
    unfold expandloop at h
    dsimp only at h
    by_cases hnum : cur src = '$' ∨ isdigit (cur src) = true
    · rw [if_pos hnum] at h
      by_cases hov : pos + (cur src :: src.tail.takeWhile numchar).length > LINEMAX
      · rw [if_pos hov] at h; cases h
      · rw [if_neg hov] at h
        obtain ⟨t0, h1, _⟩ := prepend_done _ _ _ _ h
        obtain ⟨a, b, c⟩ := ih _ _ _ _ _ _ h1
        refine ⟨a, b, ?_⟩
        intro fuel2 w i hw hf hq
        cases fuel2 with
        | zero => simp [symbolsloop] at hw
        | succ fuel2 =>
          unfold symbolsloop at hw
          dsimp only at hw
          rw [if_pos hnum] at hw
          exact c fuel2 w i hw hf hq
    · rw [if_neg hnum] at h
      by_cases hquo : cur src = '"' ∨ cur src = '\''
      · rw [if_pos hquo] at h
        cases hend : (quoted (cur src) src.tail).2.2 with
        | pastend => rw [hend] at h; cases h
        | ended =>
          rw [hend] at h
          dsimp only at h
          by_cases hov : pos + ((quoted (cur src) src.tail).1.length + 2) > LINEMAX
          · rw [if_pos hov] at h; cases h
          · rw [if_neg hov] at h
            simp only [Option.some.injEq, Expanded.done.injEq] at h
            obtain ⟨_, h2⟩ := h
            subst h2
            refine ⟨rfl, fun e => e, ?_⟩
            intro fuel2 w i hw hf hq
            cases fuel2 with
            | zero => simp [symbolsloop] at hw
            | succ fuel2 =>
              unfold symbolsloop at hw
              dsimp only at hw
              rw [if_neg hnum, if_pos hquo, hend, if_neg (by decide)] at hw
              cases hw
        | closed =>
          rw [hend] at h
          dsimp only at h
          by_cases hov : pos + ((quoted (cur src) src.tail).1.length + 1) > LINEMAX
          · rw [if_pos hov] at h; cases h
          · rw [if_neg hov] at h
            obtain ⟨t0, h1, _⟩ := prepend_done _ _ _ _ h
            obtain ⟨a, b, c⟩ := ih _ _ _ _ _ _ h1
            refine ⟨a, b, ?_⟩
            intro fuel2 w i hw hf hq
            cases fuel2 with
            | zero => simp [symbolsloop] at hw
            | succ fuel2 =>
              unfold symbolsloop at hw
              dsimp only at hw
              rw [if_neg hnum, if_pos hquo, hend, if_pos rfl] at hw
              exact c fuel2 w i hw hf hq
      · rw [if_neg hquo] at h
        by_cases hsym : symstart (cur src) = true
        · rw [if_pos hsym] at h
          set word := cur src :: src.tail.takeWhile symchar with hword
          set rest := src.tail.dropWhile symchar with hrest
          set name := (if cur src = '.' then word.tail else word) with hname
          set isdef : Bool := decide (my_strupr name = "IFDEF".toList ∨
            my_strupr name = "IFNDEF".toList) with hisdef
          have hsyms : ∀ fuel2, symbolsloop (fuel2 + 1) src skip
              = if skip = true ∨ isdef = true then symbolsloop fuel2 rest (skip || isdef)
                else word :: symbolsloop fuel2 rest (skip || isdef) := by
            intro fuel2
            rw [symbolsloop]
            dsimp only
            rw [if_neg hnum, if_neg hquo, if_pos hsym]
          by_cases hupp : skip = false ∧ name.length ≥ WORDMAX
          · rw [if_pos hupp] at h; cases h
          rw [if_neg hupp] at h
          by_cases hs : skip = true ∨ isdef = true
          · rw [if_pos hs] at h
            dsimp only at h
            by_cases hov : pos + (word.length + 1) > LINEMAX
            · rw [if_pos hov] at h; cases h
            rw [if_neg hov] at h
            obtain ⟨t0, h1, _⟩ := prepend_done _ _ _ _ h
            obtain ⟨a, b, c⟩ := ih _ _ _ _ _ _ h1
            refine ⟨a, b, ?_⟩
            intro fuel2 w i hw hf hq
            cases fuel2 with
            | zero => simp [symbolsloop] at hw
            | succ fuel2 =>
              rw [hsyms, if_pos hs] at hw
              exact c fuel2 w i hw hf hq
          · rw [if_neg hs] at h
            cases hfe : findequ st.equs word with
            | none =>
              rw [hfe] at h
              dsimp only at h
              by_cases hov : pos + (word.length + 1) > LINEMAX
              · rw [if_pos hov] at h; cases h
              rw [if_neg hov] at h
              obtain ⟨t0, h1, _⟩ := prepend_done _ _ _ _ h
              obtain ⟨a, b, c⟩ := ih _ _ _ _ _ _ h1
              refine ⟨a, b, ?_⟩
              intro fuel2 w i hw hf hq
              cases fuel2 with
              | zero => simp [symbolsloop] at hw
              | succ fuel2 =>
                rw [hsyms, if_neg hs] at hw
                rcases List.mem_cons.1 hw with hw0 | hw1
                · rw [hw0, hfe] at hf; cases hf
                · exact c fuel2 w i hw1 hf hq
            | some i0 =>
              rw [hfe] at h
              dsimp only at h
              by_cases hu : (st.equs.get? i0).any (fun e => e.used) = true
              · rw [if_pos hu] at h
                by_cases hov : pos + (word.length + 1) > LINEMAX
                · rw [if_pos hov] at h; cases h
                rw [if_neg hov] at h
                obtain ⟨t0, h1, _⟩ := prepend_done _ _ _ _ h
                obtain ⟨a, b, _⟩ := ih _ _ _ _ _ _ h1
                exact ⟨a, fun _ => b rfl, fun _ _ _ _ _ _ => b rfl⟩
              · rw [if_neg hu] at h
                have hu2 : (st.equs.get? i0).any (fun e => e.used) = false := by
                  simpa using hu
                cases hrec : expandloop fuel ((st.equs.get? i0).elim [] fun e => e.line) false
                    pos { equs := setused st.equs i0 true, errmsg := st.errmsg } with
                | none => rw [hrec] at h; cases h
                | some r1 =>
                  cases r1 with
                  | overrun => rw [hrec] at h; cases h
                  | done text1 st1 =>
                    rw [hrec] at h
                    dsimp only at h
                    obtain ⟨a1, b1, _⟩ := ih _ _ _ _ _ _ hrec
                    dsimp only at a1 b1
                    rw [a1, setused_restore _ _ hu2] at h
                    obtain ⟨t0, h1, _⟩ := prepend_done _ _ _ _ h
                    obtain ⟨a, b, c⟩ := ih _ _ _ _ _ _ h1
                    dsimp only at a b c
                    refine ⟨a, fun e => b (b1 e), ?_⟩
                    intro fuel2 w i hw hf hq
                    cases fuel2 with
                    | zero => simp [symbolsloop] at hw
                    | succ fuel2 =>
                      rw [hsyms, if_neg hs] at hw
                      rcases List.mem_cons.1 hw with hw0 | hw1
                      · rw [hw0, hfe] at hf
                        cases hf
                        rcases hq with hq | hq
                        · exact absurd hq hu
                        · exact b (hq fuel pos st.errmsg text1 st1 hrec)
                      · exact c fuel2 w i hw1 hf hq
        · rw [if_neg hsym] at h
          by_cases hend : cur src = ';' ∨ cur src = NUL
          · rw [if_pos hend] at h
            by_cases hov : pos + 1 > LINEMAX
            · rw [if_pos hov] at h; cases h
            rw [if_neg hov] at h
            simp only [Option.some.injEq, Expanded.done.injEq] at h
            obtain ⟨_, h2⟩ := h
            subst h2
            refine ⟨rfl, fun e => e, ?_⟩
            intro fuel2 w i hw hf hq
            cases fuel2 with
            | zero => simp [symbolsloop] at hw
            | succ fuel2 =>
              unfold symbolsloop at hw
              dsimp only at hw
              rw [if_neg hnum, if_neg hquo, if_neg hsym, if_pos hend] at hw
              cases hw
          · rw [if_neg hend] at h
            by_cases hov : pos + 1 > LINEMAX
            · rw [if_pos hov] at h; cases h
            rw [if_neg hov] at h
            obtain ⟨t0, h1, _⟩ := prepend_done _ _ _ _ h
            obtain ⟨a, b, c⟩ := ih _ _ _ _ _ _ h1
            refine ⟨a, b, ?_⟩
            intro fuel2 w i hw hf hq
            cases fuel2 with
            | zero => simp [symbolsloop] at hw
            | succ fuel2 =>
              unfold symbolsloop at hw
              dsimp only at hw
              rw [if_neg hnum, if_neg hquo, if_neg hsym, if_neg hend] at hw
              exact c fuel2 w i hw hf hq

theorem cur_length (src : List Char) (h : cur src ≠ NUL) : src.tail.length + 1 = src.length := by
  cases src with
  | nil => exact absurd rfl h
  | cons c l => rfl

theorem quoted_length (q : Char) : ∀ (n : Nat) (l : List Char), l.length ≤ n →
    (quoted q l).2.1.length ≤ l.length := by
  intro n
  induction n with
  | zero =>
    intro l hl
    cases l with
    | nil => simp [quoted]
    | cons c l => simp at hl
  | succ n ih =>
    intro l hl
    match l, hl with
    | [], _ => simp [quoted]
    | [c2], _ =>
      unfold quoted
      split_ifs <;> simp
    | c2 :: d :: rest, hl =>
      unfold quoted
      have h1 := ih rest (by simp at hl ⊢; omega)
      have h2 := ih (d :: rest) (by simp at hl ⊢; omega)
      split_ifs <;> simp at h1 h2 ⊢ <;> omega

theorem mem_setused (equs : List Equate) (i : Nat) (b : Bool) (e : Equate)
    (h : e ∈ setused equs i b) : ∃ e0 ∈ equs, e.line = e0.line := by
  obtain ⟨j, hj⟩ := List.mem_iff_get?.1 h
  rw [get?_setused] at hj
  split_ifs at hj with hij
  · cases he : equs.get? j with
    | none => rw [he] at hj; cases hj
    | some e0 =>
      rw [he] at hj
      simp only [Option.map_some', Option.some.injEq] at hj
      subst hj
      exact ⟨e0, List.mem_iff_get?.2 ⟨j, he⟩, rfl⟩
  · exact ⟨e, List.mem_iff_get?.2 ⟨j, hj⟩, rfl⟩

theorem countP_set_used : ∀ (l : List Equate) (i : Nat) (e : Equate), l.get? i = some e →
    e.used = false →
    (l.set i { e with used := true }).countP (fun e => !e.used) + 1
      = l.countP (fun e => !e.used) := by
  intro l
  induction l with
  | nil => intro i e h; cases h
  | cons x l ih =>
    intro i e h hu
    cases i with
    | zero =>
      simp only [List.get?_cons_zero, Option.some.injEq] at h
      subst h
      simp [List.countP_cons, hu]
    | succ i =>
      simp only [List.get?_cons_succ] at h
      have := ih i e h hu
      simp only [List.set_cons_succ, List.countP_cons]
      omega

theorem countP_setused (equs : List Equate) (i : Nat) (hi : i < equs.length)
    (hu : (equs.get? i).any (fun e => e.used) = false) :
    (setused equs i true).countP (fun e => !e.used) + 1 = equs.countP (fun e => !e.used) := by
  unfold setused
  cases he : equs.get? i with
  | none => exact absurd (List.get?_eq_none.1 he) (by omega)
  | some e =>
    rw [he] at hu
    exact countP_set_used equs i e he (by simpa using hu)

theorem dropWhile_length (p : Char → Bool) (l : List Char) :
    (l.dropWhile p).length ≤ l.length :=
  (List.dropWhile_sublist p).length_le

theorem map_prepend_some (x : Option Expanded) (t : List Char) (h : ∃ r, x = some r) :
    ∃ r, x.map (Expanded.prepend t) = some r := by
  obtain ⟨r, hr⟩ := h
  exact ⟨_, by rw [hr]; rfl⟩

theorem expandloop_total (M : Nat) : ∀ (fuel : Nat) (src : List Char) (skip : Bool)
    (pos : Nat) (st : Expand), (∀ e ∈ st.equs, e.line.length ≤ M) →
    st.equs.countP (fun e => !e.used) * (M + 1) + src.length + 1 ≤ fuel →
    ∃ r, expandloop fuel src skip pos st = some r := by
  intro fuel
  induction fuel with
  | zero => intro src skip pos st _ h; omega
  | succ fuel ih =>
    intro src skip pos st hM hfuel
    unfold expandloop
    dsimp only
    have hnul : isdigit NUL = false ∧ symstart NUL = false ∧ NUL ≠ '$' ∧ NUL ≠ '"'
        ∧ NUL ≠ '\'' := by decide
    by_cases hnum : cur src = '$' ∨ isdigit (cur src) = true
    · rw [if_pos hnum]
      have hc : cur src ≠ NUL := by
        intro h0
        rw [h0] at hnum
        rcases hnum with h | h
        · exact hnul.2.2.1 h
        · rw [hnul.1] at h; cases h
      have hl := cur_length src hc
      have hd := dropWhile_length numchar src.tail
      split_ifs
      · exact ⟨_, rfl⟩
      · exact map_prepend_some _ _ (ih _ skip _ st hM (by omega))
    · rw [if_neg hnum]
      by_cases hquo : cur src = '"' ∨ cur src = '\''
      · rw [if_pos hquo]
        have hc : cur src ≠ NUL := by
          intro h0
          rw [h0] at hquo
          rcases hquo with h | h
          · exact hnul.2.2.2.1 h
          · exact hnul.2.2.2.2 h
        have hl := cur_length src hc
        have hd := quoted_length (cur src) _ src.tail (le_refl _)
        cases hend : (quoted (cur src) src.tail).2.2 with
        | pastend => exact ⟨_, rfl⟩
        | ended =>
          dsimp only
          split_ifs
          · exact ⟨_, rfl⟩
          · exact ⟨_, rfl⟩
        | closed =>
          dsimp only
          split_ifs
          · exact ⟨_, rfl⟩
          · exact map_prepend_some _ _ (ih _ skip _ st hM (by omega))
      · rw [if_neg hquo]
        by_cases hsym : symstart (cur src) = true
        · rw [if_pos hsym]
          have hc : cur src ≠ NUL := by
            intro h0
            rw [h0, hnul.2.1] at hsym
            cases hsym
          have hl := cur_length src hc
          have hd := dropWhile_length symchar src.tail
          set word := cur src :: src.tail.takeWhile symchar with hword
          set rest := src.tail.dropWhile symchar with hrest
          set name := (if cur src = '.' then word.tail else word) with hname
          set isdef : Bool := decide (my_strupr name = "IFDEF".toList ∨
            my_strupr name = "IFNDEF".toList) with hisdef
          have hrestok : ∀ (p : Nat) (err : Option ErrMsg) (t : List Char), ∃ r,
              (expandloop fuel rest (skip || isdef) p { equs := st.equs, errmsg := err }).map
                (Expanded.prepend t) = some r :=
            fun p err t => map_prepend_some _ _
              (ih rest (skip || isdef) p _ hM (by dsimp only; omega))
          by_cases hupp : skip = false ∧ name.length ≥ WORDMAX
          · rw [if_pos hupp]; exact ⟨_, rfl⟩
          rw [if_neg hupp]
          by_cases hs : skip = true ∨ isdef = true
          · rw [if_pos hs]
            dsimp only
            split_ifs
            · exact ⟨_, rfl⟩
            · exact hrestok _ st.errmsg _
          · rw [if_neg hs]
            cases hfe : findequ st.equs word with
            | none =>
              dsimp only
              split_ifs
              · exact ⟨_, rfl⟩
              · exact hrestok _ st.errmsg _
            | some i0 =>
              dsimp only
              by_cases hu : (st.equs.get? i0).any (fun e => e.used) = true
              · rw [if_pos hu]
                split_ifs
                · exact ⟨_, rfl⟩
                · exact hrestok _ (some ErrMsg.RecurseEQU) _
              · rw [if_neg hu]
                have hu2 : (st.equs.get? i0).any (fun e => e.used) = false := by
                  simpa using hu
                have hi0 := findequ_lt _ _ _ hfe
                have hcount := countP_setused st.equs i0 hi0 hu2
                have hline : ((st.equs.get? i0).elim [] fun e => e.line).length ≤ M := by
                  cases he : st.equs.get? i0 with
                  | none => simp
                  | some e => exact hM e (List.mem_iff_get?.2 ⟨i0, he⟩)
                have hM2 : ∀ e ∈ setused st.equs i0 true, e.line.length ≤ M := by
                  intro e he
                  obtain ⟨e0, he0, hl0⟩ := mem_setused _ _ _ _ he
                  rw [hl0]
                  exact hM e0 he0
                have hmul : st.equs.countP (fun e => !e.used) * (M + 1)
                    = (setused st.equs i0 true).countP (fun e => !e.used) * (M + 1)
                      + (M + 1) := by
                  rw [← hcount]; ring
                obtain ⟨r1, hrec⟩ := ih ((st.equs.get? i0).elim [] fun e => e.line) false pos
                  { equs := setused st.equs i0 true, errmsg := st.errmsg } hM2
                  (by dsimp only; omega)
                rw [hrec]
                cases r1 with
                | overrun => exact ⟨_, rfl⟩
                | done text1 st1 =>
                  dsimp only
                  obtain ⟨a1, _, _⟩ := expandloop_frame _ _ _ _ _ _ _ hrec
                  dsimp only at a1
                  rw [a1, setused_restore _ _ hu2]
                  exact hrestok _ st1.errmsg _
        · rw [if_neg hsym]
          by_cases hend : cur src = ';' ∨ cur src = NUL
          · rw [if_pos hend]
            split_ifs
            · exact ⟨_, rfl⟩
            · exact ⟨_, rfl⟩
          · rw [if_neg hend]
            have hc : cur src ≠ NUL := fun h0 => hend (Or.inr h0)
            have hl := cur_length src hc
            split_ifs
            · exact ⟨_, rfl⟩
            · exact map_prepend_some _ _ (ih src.tail skip _ st hM (by omega))

theorem refers_spec (equs : List Equate) (text : List Char) (i : Nat)
    (h : refers equs text i = true) :
    ∃ w ∈ symbolsloop (text.length + 1) text false, findequ equs w = some i := by
  unfold refers symbols at h
  obtain ⟨w, hw, hf⟩ := List.any_eq_true.1 h
  exact ⟨w, hw, of_decide_eq_true hf⟩

theorem reaches_error : ∀ (path : List Nat) (text : List Char) (seen : List Nat)
    (fuel pos : Nat) (st : Expand) (t1 : List Char) (s1 : Expand),
    (∀ j ∈ seen, (st.equs.get? j).any (fun e => e.used) = true) →
    reaches st.equs text seen path = true →
    expandloop fuel text false pos st = some (.done t1 s1) →
    s1.errmsg = some .RecurseEQU := by
  intro path
  induction path with
  | nil =>
    intro text seen fuel pos st t1 s1 hseen hreach h
    simp only [reaches] at hreach
    obtain ⟨j, hj, hrj⟩ := List.any_eq_true.1 hreach
    obtain ⟨w, hw, hf⟩ := refers_spec _ _ _ hrj
    exact (expandloop_frame _ _ _ _ _ _ _ h).2.2 _ w j hw hf (Or.inl (hseen j hj))
  | cons i path ih =>
    intro text seen fuel pos st t1 s1 hseen hreach h
    simp only [reaches, Bool.and_eq_true] at hreach
    obtain ⟨hri, hrest⟩ := hreach
    obtain ⟨w, hw, hf⟩ := refers_spec _ _ _ hri
    refine (expandloop_frame _ _ _ _ _ _ _ h).2.2 _ w i hw hf (Or.inr ?_)
    intro f p err t2 s2 hr1
    refine ih (linetext st.equs i) (i :: seen) f p _ t2 s2 ?_ ?_ hr1
    · intro j hj
      dsimp only
      rw [get?_setused]
      split_ifs with hij
      · subst hij
        have hi := findequ_lt _ _ _ hf
        cases he : st.equs.get? i with
        | none => exact absurd (List.get?_eq_none.1 he) (by omega)
        | some e => rfl
      · rcases List.mem_cons.1 hj with hji | hjs
        · exact absurd hji.symm hij
        · exact hseen j hjs
    · dsimp only
      rw [reaches_setused]
      exact hrest

theorem foldr_max_init (l : List Nat) (a : Nat) : a ≤ l.foldr max a := by
  induction l with
  | nil => exact le_refl _
  | cons x l ih => exact le_trans ih (le_max_right _ _)

theorem foldr_max_mem (l : List Nat) (a x : Nat) (h : x ∈ l) : x ≤ l.foldr max a := by
  induction l with
  | nil => cases h
  | cons y l ih =>
    rcases List.mem_cons.1 h with h | h
    · subst h; exact le_max_left _ _
    · exact le_trans (ih h) (le_max_right _ _)

theorem expandline_total (src : List Char) (st : Expand) :
    ∃ r, expandline src st = some r := by
  unfold expandline expandfuel
  set M := (st.equs.map (fun e => e.line.length)).foldr max src.length with hMdef
  apply expandloop_total M
  · intro e he
    exact foldr_max_mem _ _ _ (List.mem_map.2 ⟨e, he, rfl⟩)
  · have h1 : src.length ≤ M := foldr_max_init _ _
    have h2 : st.equs.countP (fun e => !e.used) ≤ st.equs.length := List.countP_le_length _
    have h3 : st.equs.countP (fun e => !e.used) * (M + 1) ≤ st.equs.length * (M + 1) :=
      Nat.mul_le_mul_right _ h2
    have h4 : (st.equs.length + 1) * (M + 1) = st.equs.length * (M + 1) + (M + 1) := by ring
    omega

/-- C36: the recursion of `expandline` is bounded and detected, but its buffers
are not guarded.  For every list of equates of the current pass and every
source line the expansion comes to an end (the fuel `expandfuel` is enough):
either `expandline` returns, and then the equates are as they were, so that
flags `used` that were all 0 are all 0 again, and `errmsg` is "Recursive EQU
not allowed." whenever the expansion ran through equates `path`, each named in
the text of the one before, back to one of them; or it has left a buffer, where
the C code has no defined behaviour.  That happens: the equate `FOO equ "\`
makes the quote loop read on after the end of the equate's text; a symbol of
128 characters is copied into `upp[WORDMAX]`; and an equate of 1100 characters
named twice in a line is written past `line[LINEMAX]`. -/
theorem recursive_equates (equs : List Equate) (src : List Char) (err : Option ErrMsg) :
    (∃ r, expandline src ⟨equs, err⟩ = some r ∧
      ∀ text st, r = .done text st →
        st.equs = equs ∧
        ((∀ e ∈ equs, e.used = false) → ∀ e ∈ st.equs, e.used = false) ∧
        (∀ path, reaches equs src [] path = true → st.errmsg = some .RecurseEQU)) ∧
    expandline " db FOO".toList ⟨(equ "FOO".toList " \"\\".toList []).1, none⟩
      = some .overrun ∧
    expandline (List.replicate 128 'A') ⟨[], none⟩ = some .overrun ∧
    expandline (List.replicate 127 'A') ⟨[], none⟩
      = some (.done (List.replicate 127 'A') ⟨[], none⟩) ∧
    expandline " BIG BIG".toList ⟨(equ "BIG".toList (List.replicate 1100 '1') []).1, none⟩
      = some .overrun := by
  refine ⟨?_, by decide, by decide, by decide, by decide⟩
  obtain ⟨r, hr⟩ := expandline_total src ⟨equs, err⟩
  refine ⟨r, hr, ?_⟩
  intro text st hd
  subst hd
  have hframe := expandloop_frame _ _ _ _ _ _ _ hr
  refine ⟨hframe.1, ?_, ?_⟩
  · intro h e he
    rw [hframe.1] at he
    exact h e he
  · intro path hp
    exact reaches_error path src [] _ _ ⟨equs, err⟩ text st (fun j hj => by cases hj) hp hr

/-- C36 at `ONE equ 1`, `PING equ PONG+ONE`, `PONG equ PING+1` and the line
`LDA #PING*3`: the expansion goes through `PING` and `PONG` back to `PING`; it
returns the text `LDA #PING+1+1*3` with the error set and every flag clear. -/
theorem recursive_equates_witness :
    reaches ringEquates "LDA #PING*3".toList [] [1, 0] = true ∧
    (∀ e ∈ ringEquates, e.used = false) ∧
    expandline "LDA #PING*3".toList ⟨ringEquates, none⟩
      = some (.done "LDA #PING+1+1*3".toList ⟨ringEquates, some .RecurseEQU⟩) ∧
    ∃ r, expandline "LDA #PING*3".toList ⟨ringEquates, none⟩ = some r ∧
      ∀ text st, r = .done text st →
        (∀ e ∈ st.equs, e.used = false) ∧ st.errmsg = some .RecurseEQU := by
  refine ⟨by decide, by decide, by decide, ?_⟩
  obtain ⟨r, h1, h2⟩ := (recursive_equates ringEquates "LDA #PING*3".toList none).1
  refine ⟨r, h1, fun text st hd => ?_⟩
  obtain ⟨_, h3, h4⟩ := h2 text st hd
  exact ⟨h3 (by decide), h4 [1, 0] (by decide)⟩

theorem instruction_immediate (env : Env) (equs : List Equate) (src line : List Char)
    (st : Expand) (s0 : List Char) (v : Int) (st1 : EvalSt)
    (hx : expandline src ⟨equs, none⟩ = some (.done line st)) (hst : st.errmsg = none)
    (hr : getreserved line = (some ("LDA", [0xa9, IMM, 0xa1, INDX, 0xb1, INDY, 0xb5, ZPX,
      0xbd, ABSX, 0xb9, ABSY, 0xa5, ZP, 0xad, ABS, 255]), s0))
    (hh : eatchar s0 '#' = (true, (eatchar s0 '#').2))
    (he : eval env (eatchar s0 '#').2 WHOLEEXP ⟨none, false, false⟩ = some (v, [], st1))
    (herr : st1.errmsg = none) (hdep : st1.dependant = false) (h1 : -128 ≤ v) (h2 : v ≤ 255) :
    instruction env equs src = some [0xa9, (and32 v 255).toNat] := by
  unfold instruction
  rw [hx]
  dsimp only
  rw [if_neg (by rw [hst]; simp), hr]
  dsimp only
  rw [opcode_open gates0 _ _ env s0 clearSt (by decide) (by decide)]
  show emitted (Option.map OpResult.done (opcodeLoop env s0 false
    (0xa9 :: IMM :: [0xa1, INDX, 0xb1, INDY, 0xb5, ZPX, 0xbd, ABSX, 0xb9, ABSY, 0xa5, ZP,
      0xad, ABS, 255]) 0 false clearSt)) = _
  rw [emitted_done _ _ (opcodeLoop_imm env s0 false 0xa9 _ 0 clearSt v _ [] st1 (by decide) hh
    he (by intro c hc; cases hc) herr hdep h1 h2)]
  rw [emitop_bytes_one _ _ _ _ _ _ (by decide)]

/-- C35 (amended): after `FOO equ 1+2` the line `LDA #FOO*3` is expanded to
`LDA #1+2*3` and assembles the bytes A9 07: the equate contributes its text,
whose operators then bind with those around it (`LDA #3*FOO` gives A9 05); it
contributes the value of its expression when the text is in parentheses, as
after `FOO equ (1+2)`, where the bytes are A9 09. -/
theorem equate_substitutes_text (env : Env) :
    fooEquates = [⟨"FOO".toList, "1+2".toList, false⟩] ∧
    expandline "LDA #FOO*3".toList ⟨fooEquates, none⟩
      = some (.done "LDA #1+2*3".toList ⟨fooEquates, none⟩) ∧
    instruction env fooEquates "LDA #FOO*3".toList = some [0xA9, 7] ∧
    instruction env fooEquates "LDA #3*FOO".toList = some [0xA9, 5] ∧
    instruction env (equ "FOO".toList " (1+2)".toList []).1 "LDA #FOO*3".toList
      = some [0xA9, 9] := by
  refine ⟨by decide, by decide, ?_, ?_, ?_⟩
  · exact instruction_immediate env _ _ "LDA #1+2*3".toList ⟨fooEquates, none⟩
      " #1+2*3".toList 7 clearSt
      (by decide) rfl (by decide) (by decide) rfl rfl rfl (by decide) (by decide)
  · exact instruction_immediate env _ _ "LDA #3*1+2".toList ⟨fooEquates, none⟩
      " #3*1+2".toList 5 clearSt
      (by decide) rfl (by decide) (by decide) rfl rfl rfl (by decide) (by decide)
  · exact instruction_immediate env _ _ "LDA #(1+2)*3".toList
      ⟨(equ "FOO".toList " (1+2)".toList []).1, none⟩ " #(1+2)*3".toList 9 clearSt
      (by decide) rfl (by decide) (by decide) rfl rfl rfl (by decide) (by decide)

/-- C35 as stated fails: after `FOO equ 1+2` the line `LDA #FOO*3` does not
assemble the bytes A9 09. -/
theorem equate_value_counterexample :
    instruction sampleEnv fooEquates "LDA #FOO*3".toList ≠ some [0xA9, 9] := by
  decide

/-- C23 as stated fails at an instruction that is in error: at PC `$10000`
`JMP $1234` writes 4C 34, the opcode and the low byte only, and leaves "PC out
of range." (at `$8000` it writes 4C 34 12); on the last pass `JMP nowhere`,
with `nowhere` not in the label list, writes 4C 00 and leaves "Unknown
label.". -/
theorem little_endian_pending_counterexample :
    opcode gates0 "JMP".toList [0x6c, IND, 0x4c, ABS, 255] (sampleEnv2 65536 false)
        " $1234".toList clearSt
      = some (.done ⟨[0x4c, 0x34], [], 65539, ⟨some .PCOutOfRange, false, false⟩⟩) ∧
    opcode gates0 "JMP".toList [0x6c, IND, 0x4c, ABS, 255] (sampleEnv2 32768 false)
        " $1234".toList clearSt
      = some (.done ⟨[0x4c, 0x34, 0x12], [], 32771, clearSt⟩) ∧
    opcode gates0 "JMP".toList [0x6c, IND, 0x4c, ABS, 255] (sampleEnv2 32768 true)
        " nowhere".toList clearSt
      = some (.done ⟨[0x4c, 0x00], [], 32771, ⟨some .UnknownLabel, true, true⟩⟩) := by
  refine ⟨by decide, by decide, by decide⟩

theorem rejects_buff (g : Out.Globals) (b : List Nat) (e : Option ErrMsg) (a : Int) (i : Nat) :
    Out.rejects { g with outputbuff := b, errmsg := e, addr := a } i = Out.rejects g i := rfl

theorem rejects_off (g : Out.Globals) (i : Nat) (h : g.comparefiller = false) :
    Out.rejects g i = false := by
  unfold Out.rejects
  rw [h]
  simp

theorem output_buffer_step (g : Out.Globals) (x : Nat) (rest : List Nat) (i : Nat)
    (hroom : g.outputbuff.length + 1 < Out.BUFFSIZE) :
    Out.output_buffer (x :: rest) i g =
      if Out.rejects g i = true then
        { g with errmsg := some (.CompFailed (g.filepos + g.outputbuff.length)
                                  (Out.get_cmp_value g (g.filepos + i))) }
      else if g.errmsg ≠ none then { g with outputbuff := g.outputbuff ++ [x] }
      else Out.output_buffer rest (i + 1) { g with outputbuff := g.outputbuff ++ [x] } := by
  rw [Out.output_buffer]
  by_cases hr : g.comparefiller = true ∧ Out.get_cmp_value g (g.filepos + i) ≠ g.defaultfiller ∧
      Out.get_cmp_value g (g.filepos + i) ≥ 0
  · have hrj : Out.rejects g i = true := by
      unfold Out.rejects
      exact decide_eq_true hr
    rw [hrj, if_pos hr, if_pos (show true = true from rfl)]
  · have hrj : Out.rejects g i = false := by
      unfold Out.rejects
      exact decide_eq_false hr
    rw [hrj, if_neg hr, if_neg (show ¬ (false = true) by simp)]
    rw [flush_output_idle _ (by simp only [List.length_append, List.length_singleton]; omega)]

/-- What `output_buffer` stores while the buffer has room.  The bytes are
stored in order; the loop stops, storing nothing more, at the first byte that
compare mode rejects, and after the byte it has stored when an error is
pending. -/
theorem output_buffer_spec (p : List Nat) :
    ∀ (i : Nat) (g : Out.Globals), g.outputbuff.length + p.length < Out.BUFFSIZE →
      (g.errmsg = none → (∀ j, j < p.length → Out.rejects g (i + j) = false) →
        Out.output_buffer p i g = { g with outputbuff := g.outputbuff ++ p }) ∧
      (∀ k, k < p.length → (g.errmsg = none ∨ k = 0) →
        (∀ j, j < k → Out.rejects g (i + j) = false) → Out.rejects g (i + k) = true →
        Out.output_buffer p i g =
          { g with outputbuff := g.outputbuff ++ p.take k
                   errmsg := some (.CompFailed (g.filepos + ((g.outputbuff.length + k : Nat) : Int))
                     (Out.get_cmp_value g (g.filepos + ((i + k : Nat) : Int)))) }) ∧
      (g.errmsg ≠ none → 0 < p.length → Out.rejects g i = false →
        Out.output_buffer p i g = { g with outputbuff := g.outputbuff ++ p.take 1 }) := by
  induction p with
  | nil =>
    intro i g _
    refine ⟨fun _ _ => ?_, fun k hk => ?_, fun _ h => ?_⟩
    · simp [Out.output_buffer]
    · simp at hk
    · simp at h
  | cons x rest ih =>
    intro i g hroom
    simp only [List.length_cons] at hroom
    have hstep := output_buffer_step g x rest i (by omega)
    have hih := ih (i + 1) { g with outputbuff := g.outputbuff ++ [x] }
      (by simp only [List.length_append, List.length_singleton]; omega)
    refine ⟨?_, ?_, ?_⟩
    · intro herr hacc
      have h0 := hacc 0 (by simp)
      rw [Nat.add_zero] at h0
      rw [hstep, if_neg (by rw [h0]; simp), if_neg (by rw [herr]; simp)]
      rw [hih.1 herr (fun j hj => by
        have := hacc (j + 1) (by simp only [List.length_cons]; omega)
        rw [show i + 1 + j = i + (j + 1) by omega]
        exact this)]
      simp
    · intro k hk herr hacc hrej
      cases k with
      | zero =>
        rw [Nat.add_zero] at hrej
        rw [hstep, if_pos hrej]
        simp
      | succ k =>
        have herr0 : g.errmsg = none := by
          rcases herr with h | h
          · exact h
          · omega
        have h0 := hacc 0 (by omega)
        rw [Nat.add_zero] at h0
        rw [hstep, if_neg (by rw [h0]; simp), if_neg (by rw [herr0]; simp)]
        rw [hih.2.1 k (by simp only [List.length_cons] at hk; omega) (Or.inl herr0)
          (fun j hj => by
            have := hacc (j + 1) (by omega)
            rw [show i + 1 + j = i + (j + 1) by omega]
            exact this)
          (by
            rw [show i + 1 + k = i + (k + 1) by omega]
            exact hrej)]
        simp only [List.length_append, List.length_singleton, List.take_succ_cons,
          List.append_assoc, List.singleton_append]
        rw [show g.outputbuff.length + 1 + k = g.outputbuff.length + (k + 1) by omega,
          show i + 1 + k = i + (k + 1) by omega]
        rfl
    · intro herr _ hacc
      rw [hstep, if_neg (by rw [hacc]; simp), if_pos herr]
      simp

/-- C24 (as the code has it): for `output(p, n, tag)` with `n >= 0`.  In enum
mode the PC advances by `n` and nothing else changes.  Outside enum mode, with
the output of this pass opened and the output file open or patch mode on, the
PC and the file position both advance by `n`, whatever is stored; and while the
buffer has room for the `n` bytes, `output_buffer` stores them in order and
stops at the first byte that compare mode rejects and, when an error is
pending, after the first byte it has stored: with no error pending and no byte
rejected (as when compare mode is off) the `n` bytes are appended to the output
buffer; with byte `k` the first one rejected, and no error pending unless
`k = 0`, the `k` bytes before it are appended and "Compare failed" is set with
the offset `filepos + outcount`; with an error pending and the first byte not
rejected, the first byte alone is appended.  `filesize` follows the file
position in every case. -/
theorem output_advances (g : Out.Globals) (p : List Nat) (n : Int) (hn : 0 ≤ n)
    (hf1 : -2147483648 ≤ g.filepos) (hf2 : g.filepos + n < 2147483648) :
    (g.nooutput = true → Out.output g p n = { g with addr := wrap32 (g.addr + n) }) ∧
      (g.nooutput = false → g.oldpass = g.pass →
        (g.outputfile = true ∨ g.genips = true) →
        (Out.output g p n).addr = wrap32 (g.addr + n) ∧
          (Out.output g p n).filepos = g.filepos + n ∧
          (g.outputbuff.length + n.toNat < Out.BUFFSIZE →
            (g.errmsg = none →
              (∀ j, j < (p.take n.toNat).length → Out.rejects g j = false) →
              Out.output g p n =
                { g with addr := wrap32 (g.addr + n)
                         filepos := g.filepos + n
                         filesize := if g.filepos + n > g.filesize ∧ 0 < n.toNat
                           then g.filepos + n else g.filesize
                         outputbuff := g.outputbuff ++ p.take n.toNat }) ∧
            (g.comparefiller = false → ∀ j, Out.rejects g j = false) ∧
            (∀ k, k < (p.take n.toNat).length → (g.errmsg = none ∨ k = 0) →
              (∀ j, j < k → Out.rejects g j = false) → Out.rejects g k = true →
              Out.output g p n =
                { g with addr := wrap32 (g.addr + n)
                         filepos := g.filepos + n
                         filesize := if g.filepos + n > g.filesize ∧ 0 < n.toNat
                           then g.filepos + n else g.filesize
                         outputbuff := g.outputbuff ++ (p.take n.toNat).take k
                         errmsg := some (.CompFailed
                           (g.filepos + ((g.outputbuff.length + k : Nat) : Int))
                           (Out.get_cmp_value g (g.filepos + ((k : Nat) : Int)))) }) ∧
            (g.errmsg ≠ none → 0 < (p.take n.toNat).length → Out.rejects g 0 = false →
              Out.output g p n =
                { g with addr := wrap32 (g.addr + n)
                         filepos := g.filepos + n
                         filesize := if g.filepos + n > g.filesize ∧ 0 < n.toNat
                           then g.filepos + n else g.filesize
                         outputbuff := g.outputbuff ++ (p.take n.toNat).take 1 }))) := by
  have hnn : ((n.toNat : Nat) : Int) = n := Int.toNat_of_nonneg hn
  constructor
  · intro h
    unfold Out.output
    rw [output_file_idle g (Or.inl h)]
    dsimp only
    rw [if_pos h]
  · intro h hp hs
    have hsink : ¬ (g.outputfile = false ∧ g.genips = false) := by
      rintro ⟨h1, h2⟩
      rcases hs with h3 | h3
      · rw [h1] at h3
        exact absurd h3 (by simp)
      · rw [h2] at h3
        exact absurd h3 (by simp)
    have hout : Out.output g p n
        = Out.advance n.toNat
            (Out.output_buffer (p.take n.toNat) 0 { g with addr := wrap32 (g.addr + n) }) := by
      unfold Out.output
      rw [output_file_idle g (Or.inr hp)]
      dsimp only
      rw [if_neg (by rw [h]; simp), if_neg hsink]
    obtain ⟨b1, b2, b3⟩ := output_buffer_frame (p.take n.toNat) 0
      { g with addr := wrap32 (g.addr + n) }
    have hadv := advance_spec n.toNat
      (Out.output_buffer (p.take n.toNat) 0 { g with addr := wrap32 (g.addr + n) })
      (by rw [b1, hnn]; exact hf2) (by rw [b1]; exact hf1)
    refine ⟨?_, ?_, ?_⟩
    · rw [hout, hadv]
      exact b3
    · rw [hout, hadv]
      show (Out.output_buffer _ 0 _).filepos + (n.toNat : Int) = _
      rw [b1, hnn]
    · intro hl
      have hlen : (p.take n.toNat).length ≤ n.toNat := List.length_take_le _ _
      obtain ⟨sA, sB, sC⟩ := output_buffer_spec (p.take n.toNat) 0
        { g with addr := wrap32 (g.addr + n) } (by show g.outputbuff.length + _ < _; omega)
      refine ⟨?_, fun hc j => rejects_off g j hc, ?_, ?_⟩
      · intro he hacc
        have hb := sA he (fun j hj => by rw [Nat.zero_add]; exact hacc j hj)
        rw [hout, hb, advance_spec _ _ (by show g.filepos + _ < _; rw [hnn]; exact hf2)
          (by exact hf1)]
        simp only [hnn]
      · intro k hk he hacc hrej
        have hb := sB k hk he (fun j hj => by rw [Nat.zero_add]; exact hacc j hj)
          (by rw [Nat.zero_add]; exact hrej)
        rw [hout, hb, advance_spec _ _ (by show g.filepos + _ < _; rw [hnn]; exact hf2)
          (by exact hf1)]
        simp only [hnn, Nat.zero_add]
        rfl
      · intro he hpos hacc
        have hb := sC he hpos hacc
        rw [hout, hb, advance_spec _ _ (by show g.filepos + _ < _; rw [hnn]; exact hf2)
          (by exact hf1)]
        simp only [hnn]

/-- C24, instances: in enum mode `output` of two bytes only moves the PC; in
patch mode with compare mode off the two bytes `01 02` are appended; in compare
mode with the byte 07 committed at file offset 1, `output` of `08 09` appends
`08`, stops at the second byte with "Compare failed" and still advances the PC
and the file position by 2; with "Divide by zero." pending, `output` of `01 02`
appends `01` alone. -/
theorem output_advances_witness :
    Out.output { Out.sampleGlobals with nooutput := true } [1, 2] 2
        = { Out.sampleGlobals with nooutput := true, addr := 32770 } ∧
      Out.output Out.sampleGlobals [1, 2] 2
        = { Out.sampleGlobals with addr := 32770, filepos := 2, filesize := 2,
                                   outputbuff := [1, 2] } ∧
      Out.output { Out.sampleGlobals with comparefiller := true,
                                          hunks := [Out.malloc_ips_hunk_regular 1 [7] 1] }
          [8, 9] 2
        = { Out.sampleGlobals with comparefiller := true,
                                   hunks := [Out.malloc_ips_hunk_regular 1 [7] 1],
                                   addr := 32770, filepos := 2, filesize := 2,
                                   outputbuff := [8], errmsg := some (.CompFailed 1 7) } ∧
      Out.output { Out.sampleGlobals with errmsg := some .DivZero } [1, 2] 2
        = { Out.sampleGlobals with errmsg := some .DivZero, addr := 32770, filepos := 2,
                                   filesize := 2, outputbuff := [1] } :=
  ⟨(output_advances { Out.sampleGlobals with nooutput := true } [1, 2] 2 (by decide)
      (by decide) (by decide)).1 rfl,
    (((output_advances Out.sampleGlobals [1, 2] 2 (by decide) (by decide) (by decide)).2 rfl rfl
      (Or.inl rfl)).2.2 (by decide)).1 rfl (by decide),
    (((output_advances { Out.sampleGlobals with comparefiller := true,
                                                hunks := [Out.malloc_ips_hunk_regular 1 [7] 1] }
        [8, 9] 2 (by decide) (by decide) (by decide)).2 rfl rfl
      (Or.inl rfl)).2.2 (by decide)).2.2.1 1 (by decide) (Or.inl rfl) (by decide) (by decide),
    (((output_advances { Out.sampleGlobals with errmsg := some .DivZero } [1, 2] 2 (by decide)
        (by decide) (by decide)).2 rfl rfl
      (Or.inl rfl)).2.2 (by decide)).2.2.2 (by decide) (by decide) (by decide)⟩

end Asm6f
